import Mathlib

/-!
# Discrete-event simulation core: clock, event queue, dispatch loop, stimulus loader, log

A shallow embedding of `util/sim_time.{hpp,cc}`, `desim/sim_base_event.hpp`,
`desim/sim_exec.{hpp,cc}`, `desim/stim_loader.{hpp,cc}`, `util/log_mgr.{hpp,cc}` and of
`stim_text_event_loader.cc`, `log_text_event.{hpp,cc}` and `sim_text_event.cc` in
`examples/text_event`, followed by the properties proved about it.

* `SimTick` is `uint64_t`: tick counts are natural numbers, and the one place
  where the code adds tick counts (`ticks_ += ...`) is reduced `% 2 ^ 64`.
* `UserTime` is `long double`.  `sim_time.hpp` chooses it "to ensure that the
  mantissa can hold all of the precision in a SimTimeTick", that is the x87
  extended format with a 64-bit significand.  A finite value is the rational it
  denotes, and every arithmetic operation rounds its exact result to 64
  significant bits, to nearest, ties to even (`rnd 64`).  NaN, the infinities
  and the exponent range are not represented.
* `floor` is called unqualified on a `long double`.  Depending on the C++
  library this is `floor(long double)` or `floor(double)`, the latter after a
  conversion of the argument to `double` (53 significant bits).  `FloorKind`
  says which one; every function that reaches `floor` takes it as a parameter.
* `UtilFatalErrorAndDie` and `exit` are the outcome `Abort.fatal`; a conversion
  whose result the language leaves undefined is `Abort.undefined`.
* The stimulus file is the list of its records, with the stream flags the loader
  tests (`StimFile`); a record is its time and a number for its text.  The loader
  is `StimLoader` with the two overrides of `StimTextEventLoader`
  (`ReadStimRecord`, `PostEvent`).  `look_ahead`, a function-local `static` of
  `LoadQueue`, is a field of the loader state.  A `LoadQueue` pass hands back the
  events it gives to `ScheduleEvent` (the loader never reads the executive), and
  keeps a record of the records it has read and posted (`LoadPass`).
* The log stream is the list of the lines written to it, with the flags the log
  manager tests and the number of lines the device still takes (`LogStream`).
* In the text-event example the state outside the executive is the loader and the
  log manager (`TextWorld`), or the failure that has ended the process; the virtual
  `Dispatch()` is `textDispatch`, which tells the two event classes apart by the tag.
-/

namespace DESim

/-! ## `long double` arithmetic -/

/-- Nearest integer to `x`, a tie going to the even neighbour. -/
def roundEven (x : ℚ) : ℤ :=
  if x - ⌊x⌋ < 1 / 2 then ⌊x⌋
  else if 1 / 2 < x - ⌊x⌋ then ⌊x⌋ + 1
  else if ⌊x⌋ % 2 = 0 then ⌊x⌋ else ⌊x⌋ + 1

/-- Exponent of the unit in the last place of `q` for a significand of `p` bits:
with `2 ^ e ≤ |q| < 2 ^ (e + 1)` it is `e - (p - 1)`. -/
def ulpExp (p : ℕ) (q : ℚ) : ℤ := Int.log 2 |q| - ((p : ℤ) - 1)

/-- Rounding of the exact value `q` to a binary floating-point number with a
significand of `p` bits (round to nearest, ties to even). -/
def rnd (p : ℕ) (q : ℚ) : ℚ := (roundEven (q / 2 ^ ulpExp p q) : ℚ) * 2 ^ ulpExp p q

/-- The type `SimTime::UserTime` (`long double`): the finite values, as rationals. -/
abbrev UserTime := ℚ

/-- The product `a * b` of two `long double`s. -/
def ldMul (a b : UserTime) : UserTime := rnd 64 (a * b)

/-- The sum `a + b` of two `long double`s. -/
def ldAdd (a b : UserTime) : UserTime := rnd 64 (a + b)

/-- The quotient `a / b` of two `long double`s. -/
def ldDiv (a b : UserTime) : UserTime := rnd 64 (a / b)

/-- The conversion `static_cast<SimTime::UserTime>(n)` of a tick count. -/
def ofTick (n : ℕ) : UserTime := rnd 64 (n : ℚ)

/-- Which `floor` the unqualified call in `RealTicks2Ticks` resolves to. -/
inductive FloorKind
  | longDouble
  | double
deriving DecidableEq

/-- The value `floor` receives: the `long double` itself, or its conversion to
`double`. -/
def floorArg : FloorKind → UserTime → ℚ
  | FloorKind.longDouble, x => x
  | FloorKind.double, x => rnd 53 x

/-- How an operation can fail to produce a value. -/
inductive Abort
  | fatal
  | undefined
deriving DecidableEq

/-- The conversion `static_cast<SimTime::SimTick>(v)` of an integral floating
value: defined when `v` is a `uint64_t` value. -/
def castSimTick (v : ℤ) : Except Abort ℕ :=
  if 0 ≤ v ∧ v < 2 ^ 64 then Except.ok v.toNat else Except.error Abort.undefined

/-! ## `sim_time.cc` -/

/-- The constant `kTicksPerUserTimeUnit = 100.0L`. -/
def kTicksPerUserTimeUnit : UserTime := 100

/-- The constant `kMaxTicks = std::numeric_limits<SimTick>::max()`. -/
def kMaxTicks : ℕ := 2 ^ 64 - 1

/-- The constant `kMaxRealNumTicks = static_cast<UserTime>(kMaxTicks)`. -/
def kMaxRealNumTicks : UserTime := ofTick kMaxTicks

/-- The constant `kMaxUserTimeUnits = kMaxRealNumTicks / kTicksPerUserTimeUnit`. -/
def kMaxUserTimeUnits : UserTime := ldDiv kMaxRealNumTicks kTicksPerUserTimeUnit

/-- The class `SimTime`: its one data member `ticks_`. -/
structure SimTime where
  ticks : ℕ
deriving DecidableEq

namespace SimTime

/-- The function `SimTime::EarlierThan`. -/
def EarlierThan (t test : SimTime) : Bool := decide (t.ticks < test.ticks)

/-- The function `SimTime::AsEarlyAs`. -/
def AsEarlyAs (t test : SimTime) : Bool := decide (t.ticks ≤ test.ticks)

/-- The function `SimTime::SameAs`. -/
def SameAs (t test : SimTime) : Bool := decide (t.ticks = test.ticks)

/-- The function `SimTime::RealTicks2Ticks`. -/
def RealTicks2Ticks (fk : FloorKind) (real_ticks : UserTime) : Except Abort ℕ :=
  if ¬ (ldAdd real_ticks (1 / 2) > kMaxRealNumTicks) then
    castSimTick ⌊floorArg fk (ldAdd real_ticks (1 / 2))⌋
  else if real_ticks < 0 then
    Except.ok 0
  else
    Except.ok kMaxTicks

/-- The function `SimTime::SetTime(const UserTime&)`; the value is the object afterwards. -/
def SetTime (fk : FloorKind) (_t : SimTime) (to_time : UserTime) : Except Abort SimTime :=
  if 0 ≤ to_time ∧ ¬ (to_time > kMaxUserTimeUnits) then
    (RealTicks2Ticks fk (ldMul to_time kTicksPerUserTimeUnit)).map SimTime.mk
  else if to_time < 0 then
    Except.ok ⟨0⟩
  else
    Except.error Abort.fatal

/-- The constructor `SimTime::SimTime(const UserTime)`. -/
def ofUserTime (fk : FloorKind) (to_time : UserTime) : Except Abort SimTime :=
  SetTime fk ⟨0⟩ to_time

/-- The function `SimTime::SetTime(const SimTime&)` (`CopyFrom`). -/
def SetTimeFrom (_t to_time : SimTime) : SimTime := ⟨to_time.ticks⟩

/-- The function `SimTime::GetUserTime`. -/
def GetUserTime (t : SimTime) : UserTime := ldDiv (ofTick t.ticks) kTicksPerUserTimeUnit

/-- The function `SimTime::GetMaxUserTime`. -/
def GetMaxUserTime : UserTime := kMaxUserTimeUnits

/-- The function `SimTime::AddTime(const SimTime&)`; the value is the object afterwards. -/
def AddTime (t addend : SimTime) : Except Abort SimTime :=
  if ¬ (ldAdd (ofTick t.ticks) (ofTick addend.ticks) > kMaxRealNumTicks) then
    Except.ok ⟨(t.ticks + addend.ticks) % 2 ^ 64⟩
  else
    Except.error Abort.fatal

/-- The function `SimTime::AddTime(const UserTime&)`; the value is the object afterwards. -/
def AddTimeUser (fk : FloorKind) (t : SimTime) (addend : UserTime) : Except Abort SimTime :=
  if ¬ (ldAdd (ofTick t.ticks) (ldMul addend kTicksPerUserTimeUnit) > kMaxRealNumTicks) then
    (RealTicks2Ticks fk (ldMul addend kTicksPerUserTimeUnit)).map
      (fun n => ⟨(t.ticks + n) % 2 ^ 64⟩)
  else
    Except.error Abort.fatal

end SimTime

/-! ## `sim_base_event.hpp` -/

/-- The class `SimBaseEvent`: the scheduled time `event_time_`, and `tag`, which
stands for the identity of the concrete event object (its payload and its
`Dispatch` override are looked up from it). -/
structure SimBaseEvent where
  event_time : SimTime
  tag : ℕ
deriving DecidableEq

namespace SimBaseEvent

/-- The function `SimBaseEvent::EarlierThan(const SimTime&)`. -/
def EarlierThan (e : SimBaseEvent) (test : SimTime) : Bool := e.event_time.EarlierThan test

/-- The function `SimBaseEvent::AsEarlyAs(const SimTime&)`. -/
def AsEarlyAs (e : SimBaseEvent) (test : SimTime) : Bool := e.event_time.AsEarlyAs test

/-- The function `SimBaseEvent::SameTimeAs(const SimTime&)`. -/
def SameTimeAs (e : SimBaseEvent) (test : SimTime) : Bool := e.event_time.SameAs test

/-- The function `SimBaseEvent::EarlierThan(const SimBaseEvent&)`. -/
def EarlierThanEvent (e test : SimBaseEvent) : Bool := e.event_time.EarlierThan test.event_time

/-- The function `SimBaseEvent::AsEarlyAs(const SimBaseEvent&)`. -/
def AsEarlyAsEvent (e test : SimBaseEvent) : Bool := e.event_time.AsEarlyAs test.event_time

/-- The function `SimBaseEvent::SameTimeAs(const SimBaseEvent&)`. -/
def SameTimeAsEvent (e test : SimBaseEvent) : Bool := e.event_time.SameAs test.event_time

end SimBaseEvent

/-! ## `sim_exec.{hpp,cc}` -/

/-- The data members of `SimExec` that the scheduler reads and writes. -/
structure SimExec where
  curr_time : SimTime
  run_until_time : SimTime
  event_queue : List SimBaseEvent
deriving DecidableEq

/-- The enumeration `SimExec::EventInsert`. -/
inductive EventInsert
  | kInsertFromNow
  | kInsertFarFuture
deriving DecidableEq

/-- What `Dispatch()` of the concrete events does, as far as the executive can
tell: from the state `σ` of everything outside the executive (stimulus loader,
log, ...), the current simulation time and the event being dispatched, the new
outside state and the events handed to `ScheduleEvent`, in call order. -/
abbrev DispatchAction (σ : Type) := σ → SimTime → SimBaseEvent → σ × List SimBaseEvent

/-- The dispatch behaviour of events that schedule nothing. -/
def noSchedule : DispatchAction Unit := fun _ _ _ => ((), [])

namespace SimExec

/-- The private constructor `SimExec()`: both times `0.0`, the queue empty. -/
def fresh : SimExec := ⟨⟨0⟩, ⟨0⟩, []⟩

/-- The scan and insertion of `EnqueueEventFromEarliest`: step over the queued
events that are `AsEarlyAs` the new one, then insert before the iterator, or
`push_back` at the end of the list. -/
def insertFromEarliest (new_event : SimBaseEvent) : List SimBaseEvent → List SimBaseEvent
  | [] => [new_event]
  | x :: rest =>
    if x.AsEarlyAsEvent new_event then x :: insertFromEarliest new_event rest
    else new_event :: x :: rest

/-- The function `SimExec::EnqueueEventFromEarliest`. -/
def EnqueueEventFromEarliest (s : SimExec) (new_event : SimBaseEvent) : SimExec :=
  if new_event.EarlierThan s.curr_time then s
  else { s with event_queue := insertFromEarliest new_event s.event_queue }

/-- The function `SimExec::EnqueueEventFromLatest` ("TBD, not yet implemented"). -/
def EnqueueEventFromLatest (s : SimExec) (new_event : SimBaseEvent) : SimExec :=
  EnqueueEventFromEarliest s new_event

/-- The function `SimExec::ScheduleEvent(SimBaseEvent*)`. -/
def ScheduleEvent (s : SimExec) (new_event : SimBaseEvent) : SimExec :=
  EnqueueEventFromEarliest s new_event

/-- The function `SimExec::ScheduleEvent(SimBaseEvent*, const EventInsert)`. -/
def ScheduleEventFrom (s : SimExec) (new_event : SimBaseEvent) (insert_from : EventInsert) :
    SimExec :=
  if insert_from = EventInsert.kInsertFromNow then EnqueueEventFromEarliest s new_event
  else EnqueueEventFromLatest s new_event

/-- A sequence of `ScheduleEvent` calls, in order. -/
def scheduleAll (s : SimExec) (events : List SimBaseEvent) : SimExec :=
  events.foldl ScheduleEvent s

end SimExec

/-- Where control is inside `SimExec::Run`: at the test of the outer `while`, at
the test of the inner `while`, or past the loops. -/
inductive RunPoint
  | outerTest
  | innerTest
  | finished
deriving DecidableEq

/-- The state of an execution of `SimExec::Run`.  `head_event` is `none` exactly
when the local `have_events` is false (the pointer is only read when it is
true).  `dispatched` records each `Dispatch()` call with the value of
`curr_time_` at the call. -/
structure RunState (σ : Type) where
  exec : SimExec
  outside : σ
  head_event : Option SimBaseEvent
  point : RunPoint
  dispatched : List (SimBaseEvent × SimTime)

namespace SimExec

/-- Lines 117 to 128 of `Run`: the locals are set up, and the first queued event,
if there is one, sets `curr_time_`. -/
def runEnter {σ : Type} (s : SimExec) (out : σ) : RunState σ :=
  match s.event_queue with
  | [] => ⟨s, out, none, RunPoint.outerTest, []⟩
  | head :: _ =>
    ⟨{ s with curr_time := s.curr_time.SetTimeFrom head.event_time }, out, some head,
      RunPoint.outerTest, []⟩

/-- One evaluation of a loop test of `Run` together with what follows it:
* at the outer test, enter the inner loop or leave the loops;
* at the inner test, either run the body once (`Dispatch()`, whose
  `ScheduleEvent` calls act on the queue, then `pop_front`, then the new
  `head_event` / `have_events`), or leave the inner loop, setting `curr_time_`
  from `head_event` when there still are events. -/
def runStep {σ : Type} (act : DispatchAction σ) (m : RunState σ) : RunState σ :=
  match m.point with
  | RunPoint.finished => m
  | RunPoint.outerTest =>
    match m.head_event with
    | none => { m with point := RunPoint.finished }
    | some _ =>
      if m.exec.curr_time.AsEarlyAs m.exec.run_until_time then
        { m with point := RunPoint.innerTest }
      else { m with point := RunPoint.finished }
  | RunPoint.innerTest =>
    match m.head_event with
    | none => { m with point := RunPoint.outerTest }
    | some head =>
      if head.SameTimeAs m.exec.curr_time then
        let after := scheduleAll m.exec (act m.outside m.exec.curr_time head).2
        let queue := after.event_queue.tail
        { exec := { after with event_queue := queue }
          outside := (act m.outside m.exec.curr_time head).1
          head_event := queue.head?
          point := RunPoint.innerTest
          dispatched := m.dispatched ++ [(head, m.exec.curr_time)] }
      else
        { m with
          exec := { m.exec with curr_time := m.exec.curr_time.SetTimeFrom head.event_time }
          point := RunPoint.outerTest }

/-- The state after `n` steps of `Run`. -/
def runSteps {σ : Type} (act : DispatchAction σ) (n : ℕ) (m : RunState σ) : RunState σ :=
  (runStep act)^[n] m

/-- The instant `Run` reports (lines 165 to 167): a `SimTime` constructed from
the user time of `curr_time_` or of `run_until_time_`. -/
def returnTime (fk : FloorKind) (s : SimExec) : Except Abort SimTime :=
  SimTime.ofUserTime fk
    (if s.curr_time.AsEarlyAs s.run_until_time then s.curr_time.GetUserTime
     else s.run_until_time.GetUserTime)

/-- What an execution of `Run` leaves behind: the executive, the outside state,
the `Dispatch()` calls in order, and the returned instant. -/
structure RunResult (σ : Type) where
  exec : SimExec
  outside : σ
  dispatched : List (SimBaseEvent × SimTime)
  return_time : Except Abort SimTime

/-- The function `SimExec::Run`, given `fuel` loop steps: `none` when the loops have not
ended within `fuel` steps. -/
def Run {σ : Type} (fk : FloorKind) (act : DispatchAction σ) (fuel : ℕ) (s : SimExec)
    (out : σ) : Option (RunResult σ) :=
  let m := runSteps act fuel (runEnter s out)
  if m.point = RunPoint.finished then
    some ⟨m.exec, m.outside, m.dispatched, returnTime fk m.exec⟩
  else none

end SimExec

/-- The queue is sorted ascending by scheduled time. -/
def QueueSorted (q : List SimBaseEvent) : Prop :=
  q.Pairwise (fun a b => a.event_time.ticks ≤ b.event_time.ticks)

instance : DecidablePred QueueSorted := fun q => by
  unfold QueueSorted; infer_instance

/-- The events of `q` scheduled no later than `t`, in their order in `q`. -/
def upTo (t : SimTime) (q : List SimBaseEvent) : List SimBaseEvent :=
  q.filter (fun x => decide (x.event_time.ticks ≤ t.ticks))

/-- The events of `q` scheduled later than `t`, in their order in `q`. -/
def laterThan (t : SimTime) (q : List SimBaseEvent) : List SimBaseEvent :=
  q.filter (fun x => decide (t.ticks < x.event_time.ticks))

/-- The events of `q` scheduled exactly at `t`, in their order in `q`. -/
def atTime (t : SimTime) (q : List SimBaseEvent) : List SimBaseEvent :=
  q.filter (fun x => decide (x.event_time.ticks = t.ticks))

/-- The time `curr_time_` holds when the inner loop of `Run` is left with the
events `rest` still queued: the inner loop's own time `c`, or the time of the
next event. -/
def nextTime (c : SimTime) : List SimBaseEvent → SimTime
  | [] => c
  | x :: _ => x.event_time

/-- The value of `curr_time_` after the loops of `Run`, for a sorted queue `q`
whose events schedule nothing: the time of the first event beyond the horizon
`H`, else the time of the last event, else (empty queue) the value `c` it had. -/
def finalTime (c H : SimTime) (q : List SimBaseEvent) : SimTime :=
  match (laterThan H q).head? with
  | some x => x.event_time
  | none =>
    match q.getLast? with
    | some l => l.event_time
    | none => c

/-- Each event paired with its own scheduled time. -/
def atOwnTime (q : List SimBaseEvent) : List (SimBaseEvent × SimTime) :=
  q.map (fun e => (e, e.event_time))

/-- A dispatch behaviour in which the event with tag 0 schedules one new event
(tag 1) at the current simulation time, and no other event schedules anything. -/
def spawnAtNow : DispatchAction Unit :=
  fun _ now ev => ((), if ev.tag = 0 then [⟨now, 1⟩] else [])

/-! ## `stim_loader.{hpp,cc}` and `stim_text_event_loader.{hpp,cc}` -/

/-- The constant `kReadPeriod = 1.0E3`. -/
def kReadPeriod : UserTime := 1000

/-- One record of a stimulus file: the time field and the payload field (a number
stands for the text). -/
structure StimRecord where
  time : UserTime
  payload : ℕ
deriving DecidableEq

/-- The stream `stim_file_`, as far as the loader can observe it: whether a file is
open, whether the get pointer stands before a header line (text that is not a record),
the records from the get pointer on, whether the last record ends the file (no white
space follows it, so that extracting it meets the end of the file), and the state
flags `eofbit` and `failbit`. -/
structure StimFile where
  is_open : Bool
  header : Bool
  remaining : List StimRecord
  ends_with_record : Bool
  eofbit : Bool
  failbit : Bool
deriving DecidableEq

namespace StimFile

/-- The function `good()`: no state flag is set. -/
def good (f : StimFile) : Bool := !f.eofbit && !f.failbit

/-- The stream right after `open(path)` succeeded on a file with the given content. -/
def opened (header : Bool) (records : List StimRecord) (ends_with_record : Bool) : StimFile :=
  ⟨true, header, records, ends_with_record, false, false⟩

end StimFile

/-- The data members of `StimLoader` and of `StimTextEventLoader`, and `look_ahead`,
the function-local `static bool` of `LoadQueue`, which lives on between the calls. -/
structure StimLoader where
  read_until : UserTime
  stim_file : StimFile
  stim_event_time : UserTime
  ready : Bool
  stim_payload : ℕ
  look_ahead : Bool
deriving DecidableEq

/-- The tag of the `LoadStimTimerEvent` objects. -/
def timerTag : ℕ := 0

/-- The tag of a `SimTextEvent` whose text is the payload `p`. -/
def textTag (p : ℕ) : ℕ := p + 1

/-- The event `new SimTextEvent(time, payload)` built from a record; the time is
converted by the constructor `SimTime(const UserTime)`. -/
def StimRecord.event (fk : FloorKind) (r : StimRecord) : Except Abort SimBaseEvent :=
  (SimTime.ofUserTime fk r.time).map (fun t => ⟨t, textTag r.payload⟩)

/-- The state of an execution of `LoadQueue`: the loader, the local `success`, and
three records of what has happened: the records read by `ReadStimRecord`, the cached
record at each `PostEvent` call, and the events handed to `ScheduleEvent`, in order. -/
structure LoadPass where
  loader : StimLoader
  success : Bool
  read : List StimRecord
  posted : List StimRecord
  scheduled : List SimBaseEvent
deriving DecidableEq

namespace StimLoader

/-- The constructor `StimLoader()`, with the payload empty and `look_ahead` in its
initial state; no file is open. -/
def fresh : StimLoader := ⟨0, ⟨false, false, [], false, false, false⟩, 0, false, 0, false⟩

/-- The function `StimLoader::ResetStimData`. -/
def ResetStimData (L : StimLoader) : StimLoader := { L with stim_event_time := 0 }

/-- The record held in the cache `stim_event_time_`, `stim_payload_`. -/
def cached (L : StimLoader) : StimRecord := ⟨L.stim_event_time, L.stim_payload⟩

/-- The function `StimTextEventLoader::ReadStimRecord`:
`return stim_file_ >> stim_event_time_ >> separator >> stim_payload_;`.
An extraction from a stream that is not `good()` sets `failbit` and stores nothing;
header text does not parse as a number, which stores zero and sets `failbit`; at the
end of the file the extraction sets `eofbit` and `failbit` and stores nothing. -/
def ReadStimRecord (L : StimLoader) : Bool × StimLoader :=
  if !L.stim_file.is_open || !L.stim_file.good then
    (false, { L with stim_file := { L.stim_file with failbit := true } })
  else if L.stim_file.header then
    (false, { L with stim_event_time := 0, stim_file := { L.stim_file with failbit := true } })
  else
    match L.stim_file.remaining with
    | [] => (false, { L with stim_file := { L.stim_file with eofbit := true, failbit := true } })
    | r :: rest =>
      (true, { L with
        stim_event_time := r.time
        stim_payload := r.payload
        stim_file := { L.stim_file with
          remaining := rest
          eofbit := rest.isEmpty && L.stim_file.ends_with_record } })

/-- The function `StimLoader::StimFileOK`. -/
def StimFileOK (L : StimLoader) : Bool :=
  L.stim_file.is_open && !L.stim_file.eofbit && L.stim_file.good

/-- The function `StimLoader::OpenStimFile`; `file` is the stream as
`stim_file_.open(stimulus_path)` leaves it.  The value is the returned flag and the
loader afterwards. -/
def OpenStimFile (L : StimLoader) (file : StimFile) : Bool × StimLoader :=
  let L0 := { L with ready := false, stim_file := file }
  if file.is_open && file.good then
    let first := ReadStimRecord L0
    if !first.1 || first.2.stim_file.failbit then
      -- `clear()`, then `getline` takes the header line, then `tellg()`
      let skipped : StimFile :=
        { first.2.stim_file with header := false, eofbit := false, failbit := false }
      let second := ReadStimRecord { first.2 with stim_file := skipped }
      if !second.1 || second.2.stim_file.failbit then
        (false, second.2)
      else
        -- `seekg(file_position)`
        (true, { second.2 with
          stim_file := skipped
          ready := true
          read_until := ldAdd second.2.stim_event_time kReadPeriod })
    else
      -- `seekg(0)`
      (true, { first.2 with
        stim_file := file
        ready := true
        read_until := ldAdd first.2.stim_event_time kReadPeriod })
  else (false, L0)

/-- The function `StimTextEventLoader::PostEvent`: the event it hands to
`ScheduleEvent`. -/
def PostEvent (fk : FloorKind) (L : StimLoader) : Except Abort SimBaseEvent :=
  L.cached.event fk

end StimLoader

/-- The constructor `StimTextEventLoader(stimulus_path)`: fatal when `OpenStimFile`
fails. -/
def StimTextEventLoader (file : StimFile) : Except Abort StimLoader :=
  if (StimLoader.fresh.ResetStimData.OpenStimFile file).1 then
    Except.ok (StimLoader.fresh.ResetStimData.OpenStimFile file).2
  else Except.error Abort.fatal

namespace LoadPass

/-- A call of `PostEvent()` inside `LoadQueue`. -/
def post (fk : FloorKind) (p : LoadPass) : Except Abort LoadPass :=
  (p.loader.PostEvent fk).map (fun e =>
    { p with posted := p.posted ++ [p.loader.cached], scheduled := p.scheduled ++ [e] })

end LoadPass

namespace StimLoader

/-- The `while` loop of `LoadQueue`, run for `fuel` evaluations of its test at most. -/
def readLoop (fk : FloorKind) : ℕ → LoadPass → Except Abort LoadPass
  | 0, p => Except.ok p
  | fuel + 1, p =>
    if p.loader.stim_event_time < p.loader.read_until then
      if p.loader.ReadStimRecord.1 then
        let p1 : LoadPass :=
          { p with
            loader := p.loader.ReadStimRecord.2
            success := true
            read := p.read ++ [p.loader.ReadStimRecord.2.cached] }
        if p1.loader.stim_event_time < p1.loader.read_until then
          (p1.post fk).bind (readLoop fk fuel)
        else
          readLoop fk fuel { p1 with loader := { p1.loader with look_ahead := true } }
      else Except.ok { p with loader := p.loader.ReadStimRecord.2 }
    else Except.ok p

/-- The function `StimLoader::LoadQueue`; the returned flag is `success` of the
value.  Each turn of the loop takes a record from the stream, so one evaluation of
the test more than there are records ends it. -/
def LoadQueue (fk : FloorKind) (L : StimLoader) : Except Abort LoadPass :=
  if !L.ready then Except.error Abort.fatal
  else
    let p0 : LoadPass :=
      ⟨{ L with read_until := ldAdd L.stim_event_time kReadPeriod }, false, [], [], []⟩
    (if p0.loader.look_ahead then
        (p0.post fk).map (fun p => { p with loader := { p.loader with look_ahead := false } })
      else Except.ok p0).bind fun p1 =>
    (if p1.loader.stim_file.is_open then
        readLoop fk (p1.loader.stim_file.remaining.length + 1) p1
      else Except.ok p1).bind fun p2 =>
    if p2.success || p2.loader.StimFileOK then
      let L3 : StimLoader :=
        { p2.loader with
          read_until :=
            if p2.success then ldAdd p2.loader.stim_event_time kReadPeriod
            else ldAdd p2.loader.read_until kReadPeriod }
      (SimTime.ofUserTime fk L3.stim_event_time).map (fun t =>
        { p2 with loader := L3, scheduled := p2.scheduled ++ [⟨t, timerTag⟩] })
    else Except.ok p2

/-- The function `StimLoader::StartLoadingOrDie`. -/
def StartLoadingOrDie (fk : FloorKind) (L : StimLoader) : Except Abort LoadPass :=
  (L.LoadQueue fk).bind (fun p => if p.success then Except.ok p else Except.error Abort.fatal)

end StimLoader

/-- The function `SimExec::Init`; `stim_loader` is `none` for `nullptr`.  The value is
the executive and the loader afterwards (the configuration and log managers are only
stored). -/
def SimExec.Init (fk : FloorKind) (s : SimExec) (run_until_tm : SimTime)
    (stim_loader : Option StimLoader) : Except Abort (SimExec × StimLoader) :=
  match stim_loader with
  | some L =>
    (L.StartLoadingOrDie fk).map (fun p =>
      (SimExec.scheduleAll
        { s with run_until_time := s.run_until_time.SetTimeFrom run_until_tm } p.scheduled,
       p.loader))
  | none => Except.error Abort.fatal

/-- Whether a pass has handed a `LoadStimTimerEvent` to `ScheduleEvent`. -/
def LoadPass.timerScheduled (p : LoadPass) : Bool :=
  p.scheduled.any (fun e => decide (e.tag = timerTag))

/-- The first `LoadQueue` pass, and one more pass (`LoadStimTimerEvent::Dispatch`) for
each continuation timer a pass schedules, until a pass schedules none: the passes in
order, `none` when `fuel` passes were not enough. -/
def loadPasses (fk : FloorKind) : ℕ → StimLoader → Option (Except Abort (List LoadPass))
  | 0, _ => none
  | fuel + 1, L =>
    match L.LoadQueue fk with
    | Except.error a => some (Except.error a)
    | Except.ok p =>
      if p.timerScheduled then
        match loadPasses fk fuel p.loader with
        | none => none
        | some (Except.error a) => some (Except.error a)
        | some (Except.ok ps) => some (Except.ok (p :: ps))
      else some (Except.ok [p])

/-- The records that successive `ReadStimRecord` calls deliver from the stream:
those from the get pointer on, and none when the stream is closed, not `good()`, or
stands before a header line. -/
def StimFile.readable (f : StimFile) : List StimRecord :=
  if f.is_open && f.good && !f.header then f.remaining else []

/-- The records the loop of `LoadQueue` takes from the records `avail` when the
window ends at `ru` and the cached time is `c`: it goes on reading as long as the
time it has seen last is below `ru`. -/
def passReads (ru : UserTime) : UserTime → List StimRecord → List StimRecord
  | _, [] => []
  | c, r :: rest => if c < ru then r :: passReads ru r.time rest else []

/-- The value `LoadQueue` gives `read_until_` on entry: the cached time plus the
read period. -/
def StimLoader.windowEnd (L : StimLoader) : UserTime := ldAdd L.stim_event_time kReadPeriod

/-- The records a `LoadQueue` pass that starts in the state `L` takes from the stream. -/
def StimLoader.passRecords (L : StimLoader) : List StimRecord :=
  passReads L.windowEnd L.stim_event_time L.stim_file.readable

/-- The records a loader still has to post: the buffered look-ahead record, if there is
one, and the records the stream will deliver. -/
def StimLoader.pending (L : StimLoader) : List StimRecord :=
  (if L.look_ahead then [L.cached] else []) ++ L.stim_file.readable

/-- A loader state from which the passes go through: `OpenStimFile` has succeeded, and
the cached time and the times of the records to come are at least `-2 ^ 64` and
convert to a `SimTime`. -/
def StimLoader.Sound (fk : FloorKind) (L : StimLoader) : Prop :=
  L.ready = true ∧ L.stim_file.header = false
    ∧ (-(2 : ℚ) ^ 64 ≤ L.stim_event_time
        ∧ ∃ t, SimTime.ofUserTime fk L.stim_event_time = Except.ok t)
    ∧ ∀ r ∈ L.stim_file.readable,
        -(2 : ℚ) ^ 64 ≤ r.time ∧ ∃ t, SimTime.ofUserTime fk r.time = Except.ok t

/-- The example stream: records at the times 5, 50, 999, 1000 and 1500 (the payloads
are numbered 1 to 5). -/
def paceStream : List StimRecord := [⟨5, 1⟩, ⟨50, 2⟩, ⟨999, 3⟩, ⟨1000, 4⟩, ⟨1500, 5⟩]

/-- A file that holds the example stream, without a header line and with a line end
after the last record. -/
def paceFile : StimFile := StimFile.opened false paceStream false

/-- The loader `StimTextEventLoader` constructs from `paceFile`. -/
def paceLoader : StimLoader := ⟨1005, paceFile, 5, true, 1, false⟩

/-- A file whose only record has the time `2 ^ 58`, above `GetMaxUserTime()`. -/
def lateFile : StimFile := StimFile.opened false [⟨2 ^ 58, 1⟩] false

/-- The loader `StimTextEventLoader` constructs from `lateFile`. -/
def lateLoader : StimLoader := ⟨2 ^ 58 + 1000, lateFile, 2 ^ 58, true, 1, false⟩

/-- The events handed to `ScheduleEvent` by the `Dispatch()` calls of the first `n` loop
steps of `Run` from the state `m`, in call order. -/
def SimExec.handedOver {σ : Type} (act : DispatchAction σ) : ℕ → RunState σ → List SimBaseEvent
  | 0, _ => []
  | n + 1, m =>
    (match m.point, m.head_event with
      | RunPoint.innerTest, some head =>
        if head.SameTimeAs m.exec.curr_time then (act m.outside m.exec.curr_time head).2 else []
      | _, _ => [])
    ++ SimExec.handedOver act n (SimExec.runStep act m)

/-- One thing a client or a dispatched event can do to the executive: call
`ScheduleEvent`, have `Init` set the horizon `run_until_time_`, or let `Run` (entered
with any dispatch behaviour and any outside state) execute any number of its loop
steps.  The `ScheduleEvent` calls made inside a `Dispatch()` are `schedule` steps
taken from the state `Run` has reached. -/
inductive ExecStep : SimExec → SimExec → Prop
  | schedule (s : SimExec) (e : SimBaseEvent) : ExecStep s (s.ScheduleEvent e)
  | horizon (s : SimExec) (run_until_tm : SimTime) :
      ExecStep s { s with run_until_time := run_until_tm }
  | run {σ : Type} (act : DispatchAction σ) (s : SimExec) (out : σ) (n : ℕ) :
      ExecStep s (SimExec.runSteps act n (SimExec.runEnter s out)).exec

/-- The executive states that can be reached from a freshly constructed executive. -/
def Reachable (s : SimExec) : Prop := Relation.ReflTransGen ExecStep SimExec.fresh s

/-- The queue is sorted and holds no event earlier than `curr_time_`. -/
def QueueInOrder (s : SimExec) : Prop :=
  QueueSorted s.event_queue ∧ ∀ e ∈ s.event_queue, s.curr_time.ticks ≤ e.event_time.ticks

/-! ## `log_mgr.{hpp,cc}` and `log_text_event.{hpp,cc}` -/

/-- A line of the log file: the column headings, or a record.  The time of a record is
the value `GetUserTime()` hands to the stream (its formatting as text is not
modelled); texts are numbered as the payloads of the stimulus records are. -/
inductive LogLine
  | header
  | record (time : UserTime) (text : ℕ)
deriving DecidableEq

/-- The stream `*log_stream_`, as far as the log manager can observe it: whether a file
is open, whether the stream is `good()`, the lines written so far, and how many more
lines the device takes before a write fails. -/
structure LogStream where
  is_open : Bool
  good : Bool
  lines : List LogLine
  room : ℕ
deriving DecidableEq

namespace LogStream

/-- The test `log_stream_->is_open() && log_stream_->good()`. -/
def usable (s : LogStream) : Bool := s.is_open && s.good

/-- The insertion of one line into a usable stream: the line is written, or the write
fails and the stream is no longer `good()`. -/
def put (s : LogStream) (line : LogLine) : LogStream :=
  if s.room = 0 then { s with good := false }
  else { s with lines := s.lines ++ [line], room := s.room - 1 }

end LogStream

/-- The data members of `LogMgr` (`data_ready_`, `log_stream_`) and of `LogTextEvent`
(`event_text_`, `event_time_`, and the two flags `data_staged_[kEventTextStaged]` and
`data_staged_[kEventTimeStaged]`).  The text `0` is the empty string. -/
structure LogTextEvent where
  data_ready : Bool
  log_stream : LogStream
  event_text : ℕ
  event_time : SimTime
  text_staged : Bool
  time_staged : Bool
deriving DecidableEq

/-- How a call into the log manager ends the process: the kind of failure, and the log
stream as the process leaves it. -/
abbrev LogDeath : Type := Abort × LogStream

namespace LogTextEvent

/-- The function `LogTextEvent::ClearStagedFlags`. -/
def ClearStagedFlags (L : LogTextEvent) : LogTextEvent :=
  { L with text_staged := false, time_staged := false, data_ready := false }

/-- The function `LogTextEvent::Reset`; `event_time_.SetTime(0.0)` is the `UserTime`
overload of `SetTime`. -/
def Reset (fk : FloorKind) (L : LogTextEvent) : Except Abort LogTextEvent :=
  (L.ClearStagedFlags.event_time.SetTime fk 0).map
    (fun t => { L.ClearStagedFlags with event_time := t, event_text := 0 })

/-- A failure inside the log manager ends the process with the stream as it is. -/
def dieWith {α : Type} (stream : LogStream) (r : Except Abort α) : Except LogDeath α :=
  r.mapError (fun a => (a, stream))

/-- The constructor `LogTextEvent(log_path)`; `stream` is the stream as
`new std::ofstream(log_path)` leaves it.  The base class constructor is fatal when the
stream is not usable; the members `Reset` does not set start out arbitrary. -/
def create (fk : FloorKind) (stream : LogStream) : Except LogDeath LogTextEvent :=
  if stream.usable then dieWith stream (Reset fk ⟨false, stream, 0, ⟨0⟩, false, false⟩)
  else Except.error (Abort.fatal, stream)

/-- The function `LogTextEvent::StageEventTime`. -/
def StageEventTime (L : LogTextEvent) (event_time : SimTime) : LogTextEvent :=
  { L with event_time := L.event_time.SetTimeFrom event_time, time_staged := true }

/-- The function `LogTextEvent::StageEventText`. -/
def StageEventText (L : LogTextEvent) (event_text : ℕ) : LogTextEvent :=
  { L with event_text := event_text, text_staged := true }

/-- The function `LogTextEvent::VerifyStagedReady`: the returned flag and the object
afterwards.  The flags are inspected in the order of the enumeration. -/
def VerifyStagedReady (L : LogTextEvent) : Bool × LogTextEvent :=
  let all_staged := if !L.text_staged then false else if !L.time_staged then false else true
  (all_staged, { L with data_ready := all_staged })

/-- The function `LogTextEvent::WriteHeaderOrDie`. -/
def WriteHeaderOrDie (L : LogTextEvent) : Except LogDeath LogTextEvent :=
  if L.log_stream.usable then
    if (L.log_stream.put LogLine.header).good then
      Except.ok { L with log_stream := L.log_stream.put LogLine.header }
    else Except.error (Abort.fatal, L.log_stream.put LogLine.header)
  else Except.error (Abort.fatal, L.log_stream)

/-- The function `LogTextEvent::WriteARecordOrDie`. -/
def WriteARecordOrDie (fk : FloorKind) (L : LogTextEvent) : Except LogDeath LogTextEvent :=
  if L.VerifyStagedReady.1 then
    let L1 := L.VerifyStagedReady.2
    if L1.log_stream.usable then
      let written := L1.log_stream.put (LogLine.record L1.event_time.GetUserTime L1.event_text)
      if written.good then dieWith written (Reset fk { L1 with log_stream := written })
      else Except.error (Abort.fatal, written)
    else Except.error (Abort.fatal, L1.log_stream)
  else Except.error (Abort.fatal, L.VerifyStagedReady.2.log_stream)

end LogTextEvent

/-- A call a client can make on a `LogTextEvent`: the public member functions, the
inherited `set_data_ready`, and closing the stream that `log_stream()` gives access
to. -/
inductive LogOp
  | stageTime (event_time : SimTime)
  | stageText (event_text : ℕ)
  | reset
  | verify
  | writeRecord
  | writeHeader
  | setDataReady (ready_flag : Bool)
  | closeStream
deriving DecidableEq

namespace LogTextEvent

/-- The effect of one call. -/
def apply (fk : FloorKind) (L : LogTextEvent) : LogOp → Except LogDeath LogTextEvent
  | LogOp.stageTime t => Except.ok (L.StageEventTime t)
  | LogOp.stageText x => Except.ok (L.StageEventText x)
  | LogOp.reset => dieWith L.log_stream (L.Reset fk)
  | LogOp.verify => Except.ok L.VerifyStagedReady.2
  | LogOp.writeRecord => L.WriteARecordOrDie fk
  | LogOp.writeHeader => L.WriteHeaderOrDie
  | LogOp.setDataReady b => Except.ok { L with data_ready := b }
  | LogOp.closeStream => Except.ok { L with log_stream := { L.log_stream with is_open := false } }

/-- The effect of a sequence of calls, in order; the process ends at the first call
that is fatal. -/
def applyAll (fk : FloorKind) : List LogOp → LogTextEvent → Except LogDeath LogTextEvent
  | [], L => Except.ok L
  | op :: ops, L => (L.apply fk op).bind (applyAll fk ops)

end LogTextEvent

namespace LogOp

/-- Whether the call is a `StageEventTime`. -/
def isStageTime : LogOp → Bool
  | stageTime _ => true
  | _ => false

/-- Whether the call is a `StageEventText`. -/
def isStageText : LogOp → Bool
  | stageText _ => true
  | _ => false

/-- Whether the call is a `Reset` or a `WriteARecordOrDie`. -/
def startsOver : LogOp → Bool
  | reset => true
  | writeRecord => true
  | _ => false

end LogOp

/-- The calls made since the last `Reset` or the last `WriteARecordOrDie` (in a sequence
of calls that all return, every `WriteARecordOrDie` has succeeded), or since
construction when there is none. -/
def callsSinceReset (ops : List LogOp) : List LogOp :=
  ops.foldl (fun since op => if op.startsOver then [] else since ++ [op]) []

/-- Whether `StageEventTime` and `StageEventText` have both been called since
construction, the last `Reset`, or the last successful `WriteARecordOrDie`. -/
def bothStagedSince (ops : List LogOp) : Bool :=
  (callsSinceReset ops).any LogOp.isStageTime && (callsSinceReset ops).any LogOp.isStageText

/-! ## `sim_text_event.cc` and the dispatch of the stimulus timer -/

/-- The objects outside the executive in the text-event example: the stimulus loader
and the log manager that `Init` stores in the executive. -/
structure TextWorld where
  stim_loader : StimLoader
  log_manager : LogTextEvent
deriving DecidableEq

/-- The function `SimTextEvent::Dispatch` of the event with the time `event_time` and
the text `event_text`, acting on the log manager. -/
def SimTextEvent.Dispatch (fk : FloorKind) (event_time : SimTime) (event_text : ℕ)
    (log_mgr : LogTextEvent) : Except LogDeath LogTextEvent :=
  ((log_mgr.StageEventTime event_time).StageEventText event_text).WriteARecordOrDie fk

/-- The function `LoadStimTimerEvent::Dispatch`, acting on the loader; the flag
`LoadQueue` returns is not used. -/
def LoadStimTimerEvent.Dispatch (fk : FloorKind) (stim_loader : StimLoader) :
    Except Abort LoadPass :=
  stim_loader.LoadQueue fk

/-- The virtual call `head_event->Dispatch()` in the text-event example: a
`LoadStimTimerEvent` (tag `timerTag`) or a `SimTextEvent` (tag `textTag` of its text).
The value is the world afterwards and the events handed to `ScheduleEvent`. -/
def textStep (fk : FloorKind) (w : TextWorld) (ev : SimBaseEvent) :
    Except Abort (TextWorld × List SimBaseEvent) :=
  if ev.tag = timerTag then
    (LoadStimTimerEvent.Dispatch fk w.stim_loader).map
      (fun p => ({ w with stim_loader := p.loader }, p.scheduled))
  else
    ((SimTextEvent.Dispatch fk ev.event_time (ev.tag - 1) w.log_manager).mapError Prod.fst).map
      (fun l => ({ w with log_manager := l }, []))

/-- The dispatch behaviour of the text-event example.  The outside state is the world,
or the failure that has ended the process; after a failure nothing happens any more. -/
def textDispatch (fk : FloorKind) : DispatchAction (Except Abort TextWorld) :=
  fun out _ ev =>
    ((out.bind (fun w => textStep fk w ev)).map Prod.fst,
      ((out.bind (fun w => textStep fk w ev)).map Prod.snd).toOption.getD [])

/-- Whether the event is a `LoadStimTimerEvent`. -/
def isTimer (e : SimBaseEvent) : Bool := decide (e.tag = timerTag)

/-- A loader whose stream is in time order: `OpenStimFile` has succeeded, the records
the stream will deliver have non-decreasing times, and none of them is earlier than the
record in the cache. -/
def StimLoader.Ordered (L : StimLoader) : Prop :=
  L.ready = true ∧ L.stim_file.header = false
    ∧ L.stim_file.readable.Pairwise (fun a b => a.time ≤ b.time)
    ∧ ∀ r ∈ L.stim_file.readable, L.stim_event_time ≤ r.time

/-- The queue `q` holds at most one stimulus timer, and a timer it holds is scheduled at
the instant of the record in the cache of `L`. -/
def TimerPending (fk : FloorKind) (q : List SimBaseEvent) (L : StimLoader) : Prop :=
  (∀ e ∈ q, e.tag = timerTag → SimTime.ofUserTime fk L.stim_event_time = Except.ok e.event_time)
    ∧ (q.filter isTimer).length ≤ 1

/-- The state of an execution of `Run` in the text-event example is in order: when the
process is alive, the loader is in time order and the queue holds at most one stimulus
timer, scheduled at the instant of the record in the loader's cache; and `head_event`
is the front of the queue. -/
def RunInOrder (fk : FloorKind) (m : RunState (Except Abort TextWorld)) : Prop :=
  m.head_event = m.exec.event_queue.head?
    ∧ ∀ w, m.outside = Except.ok w →
        w.stim_loader.Ordered ∧ TimerPending fk m.exec.event_queue w.stim_loader

/-! ## Properties of the clock -/

theorem roundEven_intCast (k : ℤ) : roundEven (k : ℚ) = k := by
  simp [roundEven]

theorem roundEven_abs_sub_le (x : ℚ) : |(roundEven x : ℚ) - x| ≤ 1 / 2 := by
  have h1 := Int.floor_le x
  have h2 := Int.lt_floor_add_one x
  unfold roundEven
  split_ifs with ha hb hc
  · rw [abs_le]; constructor <;> linarith
  · rw [abs_le]; push_cast; constructor <;> linarith
  · rw [abs_le]; constructor <;> linarith
  · rw [abs_le]; push_cast; constructor <;> linarith

theorem roundEven_eq_of_near (x : ℚ) (k : ℤ) (h : |x - k| < 1 / 2) : roundEven x = k := by
  rw [abs_lt] at h
  obtain ⟨h1, h2⟩ := h
  by_cases hk : (k : ℚ) ≤ x
  · have hf : ⌊x⌋ = k := by
      rw [Int.floor_eq_iff]; constructor <;> linarith
    have : x - ⌊x⌋ < 1 / 2 := by rw [hf]; linarith
    unfold roundEven
    rw [if_pos this, hf]
  · have hf : ⌊x⌋ = k - 1 := by
      rw [Int.floor_eq_iff]; push_cast; constructor <;> linarith
    have h3 : ¬ x - ⌊x⌋ < 1 / 2 := by rw [hf]; push_cast; linarith
    have h4 : 1 / 2 < x - ⌊x⌋ := by rw [hf]; push_cast; linarith
    unfold roundEven
    rw [if_neg h3, if_pos h4, hf]
    ring

theorem roundEven_ge_floor (x : ℚ) : ⌊x⌋ ≤ roundEven x := by
  unfold roundEven
  split_ifs <;> omega

theorem log_eq_of_binade (q : ℚ) (e : ℤ) (h1 : (2 : ℚ) ^ e ≤ |q|) (h2 : |q| < (2 : ℚ) ^ (e + 1)) :
    Int.log 2 |q| = e := by
  have hpos : 0 < |q| := lt_of_lt_of_le (by positivity) h1
  have ha : e ≤ Int.log 2 |q| := (Int.zpow_le_iff_le_log (by norm_num) hpos).1 (by exact_mod_cast h1)
  have hb : Int.log 2 |q| < e + 1 := (Int.lt_zpow_iff_log_lt (by norm_num) hpos).1 (by exact_mod_cast h2)
  omega

/-- The rounding of a value of a known binade. -/
theorem rnd_of_binade (p : ℕ) (q : ℚ) (e : ℤ) (h1 : (2 : ℚ) ^ e ≤ |q|)
    (h2 : |q| < (2 : ℚ) ^ (e + 1)) :
    rnd p q = (roundEven (q / 2 ^ (e - ((p : ℤ) - 1))) : ℚ) * 2 ^ (e - ((p : ℤ) - 1)) := by
  unfold rnd ulpExp
  rw [log_eq_of_binade q e h1 h2]

theorem rnd_zero (p : ℕ) : rnd p 0 = 0 := by
  simp [rnd, roundEven]

/-- The rounding error is at most half a unit in the last place: a relative error
of `2 ^ (-p)`. -/
theorem rnd_abs_sub_le (p : ℕ) (q : ℚ) : |rnd p q - q| ≤ |q| / 2 ^ p := by
  by_cases hq : q = 0
  · subst hq; simp [rnd_zero]
  have hpos : 0 < |q| := abs_pos.2 hq
  have hlog : (2 : ℚ) ^ Int.log 2 |q| ≤ |q| := by
    have := Int.zpow_log_le_self (b := 2) (r := |q|) (by norm_num) hpos
    exact_mod_cast this
  have hu : (0 : ℚ) < 2 ^ ulpExp p q := by positivity
  have hre := roundEven_abs_sub_le (q / 2 ^ ulpExp p q)
  have heq : rnd p q - q = ((roundEven (q / 2 ^ ulpExp p q) : ℚ) - q / 2 ^ ulpExp p q)
      * 2 ^ ulpExp p q := by
    unfold rnd
    field_simp
  rw [heq, abs_mul, abs_of_pos hu]
  have hulp : (2 : ℚ) ^ ulpExp p q = 2 ^ Int.log 2 |q| * 2 / 2 ^ p := by
    unfold ulpExp
    rw [zpow_sub₀ (by norm_num), zpow_sub₀ (by norm_num)]
    simp
    field_simp
  calc |(roundEven (q / 2 ^ ulpExp p q) : ℚ) - q / 2 ^ ulpExp p q| * 2 ^ ulpExp p q
      ≤ 1 / 2 * 2 ^ ulpExp p q := by gcongr
    _ = 2 ^ Int.log 2 |q| / 2 ^ p := by rw [hulp]; ring
    _ ≤ |q| / 2 ^ p := by gcongr

theorem rnd_eq_self_of_int (p : ℕ) (q : ℚ) (k : ℤ) (h : q = (k : ℚ) * 2 ^ ulpExp p q) :
    rnd p q = q := by
  have hu : (2 : ℚ) ^ ulpExp p q ≠ 0 := by positivity
  have hk : q / 2 ^ ulpExp p q = (k : ℚ) := by
    rw [div_eq_iff hu]; exact h
  unfold rnd
  rw [hk, roundEven_intCast, ← h]

/-- A `uint64_t` value converts to `long double` exactly. -/
theorem rnd_natCast (n : ℕ) (hn : n < 2 ^ 64) : rnd 64 (n : ℚ) = n := by
  rcases Nat.eq_zero_or_pos n with rfl | hpos
  · simpa using rnd_zero 64
  have hlog : Nat.log 2 n < 64 := Nat.log_lt_of_lt_pow (by omega) hn
  have hu : ulpExp 64 (n : ℚ) = -((63 - Nat.log 2 n : ℕ) : ℤ) := by
    unfold ulpExp
    rw [abs_of_nonneg (by positivity), Int.log_natCast]
    push_cast
    omega
  apply rnd_eq_self_of_int 64 _ ((n * 2 ^ (63 - Nat.log 2 n) : ℕ) : ℤ)
  rw [hu, zpow_neg, zpow_natCast]
  push_cast
  field_simp

theorem ofTick_eq (n : ℕ) (hn : n < 2 ^ 64) : ofTick n = n := rnd_natCast n hn

theorem kMaxRealNumTicks_eq : kMaxRealNumTicks = 2 ^ 64 - 1 := by
  unfold kMaxRealNumTicks kMaxTicks
  rw [ofTick_eq _ (by norm_num)]
  norm_num

/-- A sum of tick counts that does not fit in 64 bits rounds to `2 ^ 64` or more. -/
theorem rnd_ge_of_overflow (q : ℚ) (h1 : (2 : ℚ) ^ 64 ≤ q) (h2 : q < 2 ^ 65) :
    (2 : ℚ) ^ 64 ≤ rnd 64 q := by
  have hq : |q| = q := abs_of_nonneg (le_trans (by positivity) h1)
  rw [rnd_of_binade 64 q 64 (by rw [hq]; exact_mod_cast h1) (by rw [hq]; exact_mod_cast h2)]
  have hfl : (2 : ℤ) ^ 63 ≤ ⌊q / 2 ^ ((64 : ℤ) - (((64 : ℕ) : ℤ) - 1))⌋ := by
    rw [Int.le_floor]
    norm_num
    rw [le_div_iff₀ (by norm_num)]
    linarith
  have hre := le_trans hfl (roundEven_ge_floor _)
  have hre' : ((2 : ℤ) ^ 63 : ℚ) ≤ (roundEven (q / 2 ^ ((64 : ℤ) - (((64 : ℕ) : ℤ) - 1))) : ℚ) := by
    exact_mod_cast hre
  calc (2 : ℚ) ^ 64 = ((2 : ℤ) ^ 63 : ℚ) * 2 ^ ((64 : ℤ) - (((64 : ℕ) : ℤ) - 1)) := by norm_num
    _ ≤ _ := by gcongr

theorem kMaxUserTimeUnits_eq : kMaxUserTimeUnits = 11805916207174113034 / 64 := by
  unfold kMaxUserTimeUnits ldDiv kTicksPerUserTimeUnit
  rw [kMaxRealNumTicks_eq]
  rw [rnd_of_binade 64 _ 57 (by norm_num [abs_of_nonneg]) (by norm_num [abs_of_nonneg])]
  rw [roundEven_eq_of_near _ 11805916207174113034 (by norm_num [abs_lt])]
  norm_num


/-- C8: for every user time `t` (and whichever `floor` is linked), setting or
constructing a `SimTime` from `t` is fatal when `t > GetMaxUserTime()`, and
yields the zero instant, without failing, when `t < 0`. -/
theorem SetTime_fatal_above_max_and_zero_below (fk : FloorKind) (s : SimTime) (t : UserTime) :
    (SimTime.GetMaxUserTime < t →
        s.SetTime fk t = Except.error Abort.fatal
          ∧ SimTime.ofUserTime fk t = Except.error Abort.fatal)
      ∧ (t < 0 →
        s.SetTime fk t = Except.ok ⟨0⟩ ∧ SimTime.ofUserTime fk t = Except.ok ⟨0⟩) := by
  have hmax : (0 : ℚ) ≤ kMaxUserTimeUnits := by rw [kMaxUserTimeUnits_eq]; norm_num
  constructor
  · intro ht
    have ht' : kMaxUserTimeUnits < t := ht
    have hneg : ¬ t < 0 := not_lt.2 (le_trans hmax (le_of_lt ht'))
    simp [SimTime.SetTime, SimTime.ofUserTime, ht', hneg]
  · intro ht
    have hnn : ¬ 0 ≤ t := not_le.2 ht
    simp [SimTime.SetTime, SimTime.ofUserTime, ht, hnn]

/-- The statement of C8 at twice the maximum user time and at `-200`. -/
theorem SetTime_fatal_above_max_and_zero_below_witness :
    (SimTime.GetMaxUserTime < 2 * SimTime.GetMaxUserTime
        ∧ SimTime.ofUserTime FloorKind.double (2 * SimTime.GetMaxUserTime)
            = Except.error Abort.fatal)
      ∧ ((-200 : UserTime) < 0
        ∧ SimTime.SetTime FloorKind.double ⟨15000⟩ (-200) = Except.ok ⟨0⟩) :=
  have hlt : SimTime.GetMaxUserTime < 2 * SimTime.GetMaxUserTime := by
    unfold SimTime.GetMaxUserTime
    rw [kMaxUserTimeUnits_eq]
    norm_num
  have hneg : (-200 : UserTime) < 0 := by norm_num
  ⟨⟨hlt, ((SetTime_fatal_above_max_and_zero_below FloorKind.double ⟨0⟩
      (2 * SimTime.GetMaxUserTime)).1 hlt).2⟩,
    ⟨hneg, ((SetTime_fatal_above_max_and_zero_below FloorKind.double ⟨15000⟩ (-200)).2 hneg).1⟩⟩

/-- C10: for instants `a` and `b` (64-bit tick counts), `a.AddTime(b)` sets the
tick count of `a` to exactly `ticks(a) + ticks(b)` when that sum is at most
`2 ^ 64 - 1`, and is fatal when the sum exceeds `2 ^ 64 - 1`; it never stores a
wrapped-around sum.  The addend is a read-only argument. -/
theorem AddTime_exact_or_fatal (a b : SimTime) (ha : a.ticks < 2 ^ 64) (hb : b.ticks < 2 ^ 64) :
    (a.ticks + b.ticks ≤ 2 ^ 64 - 1 → a.AddTime b = Except.ok ⟨a.ticks + b.ticks⟩)
      ∧ (2 ^ 64 - 1 < a.ticks + b.ticks → a.AddTime b = Except.error Abort.fatal) := by
  have hsum : ldAdd (ofTick a.ticks) (ofTick b.ticks) = rnd 64 ((a.ticks + b.ticks : ℕ) : ℚ) := by
    unfold ldAdd
    rw [ofTick_eq _ ha, ofTick_eq _ hb]
    push_cast
    rfl
  constructor
  · intro h
    have hlt : a.ticks + b.ticks < 2 ^ 64 := by omega
    have hle : ((a.ticks + b.ticks : ℕ) : ℚ) ≤ 2 ^ 64 - 1 := by
      have : ((a.ticks + b.ticks : ℕ) : ℚ) + 1 ≤ 2 ^ 64 := by exact_mod_cast hlt
      linarith
    have hnot : ¬ ldAdd (ofTick a.ticks) (ofTick b.ticks) > kMaxRealNumTicks := by
      rw [hsum, rnd_natCast _ hlt, kMaxRealNumTicks_eq]
      exact not_lt.2 hle
    unfold SimTime.AddTime
    rw [if_pos hnot, Nat.mod_eq_of_lt hlt]
  · intro h
    have hge : (2 : ℚ) ^ 64 ≤ ((a.ticks + b.ticks : ℕ) : ℚ) := by
      have : 2 ^ 64 ≤ a.ticks + b.ticks := by omega
      exact_mod_cast this
    have hlt : ((a.ticks + b.ticks : ℕ) : ℚ) < 2 ^ 65 := by
      have : a.ticks + b.ticks < 2 ^ 65 := by omega
      exact_mod_cast this
    have hover : ldAdd (ofTick a.ticks) (ofTick b.ticks) > kMaxRealNumTicks := by
      rw [hsum, kMaxRealNumTicks_eq]
      have := rnd_ge_of_overflow _ hge hlt
      linarith
    unfold SimTime.AddTime
    rw [if_neg (not_not.2 hover)]

/-- The statement of C10 at `100.0 + 150.0` (ticks 10000 and 15000) and at the
maximum instant added to itself. -/
theorem AddTime_exact_or_fatal_witness :
    SimTime.AddTime ⟨10000⟩ ⟨15000⟩ = Except.ok ⟨25000⟩
      ∧ SimTime.AddTime ⟨2 ^ 64 - 1⟩ ⟨2 ^ 64 - 1⟩ = Except.error Abort.fatal :=
  ⟨(AddTime_exact_or_fatal ⟨10000⟩ ⟨15000⟩ (by norm_num) (by norm_num)).1 (by norm_num),
    (AddTime_exact_or_fatal ⟨2 ^ 64 - 1⟩ ⟨2 ^ 64 - 1⟩ (by norm_num) (by norm_num)).2
      (by norm_num)⟩



theorem floorArg_abs_sub_le (fk : FloorKind) (q : ℚ) : |floorArg fk q - q| ≤ |q| / 2 ^ 53 := by
  cases fk with
  | longDouble =>
    simp only [floorArg, sub_self, abs_zero]
    positivity
  | double => exact rnd_abs_sub_le 53 q

/-- The conversion `RealTicks2Ticks` of a value `x` between 0 and `2 ^ 52`: it is the
floor of a value `d` that differs from `x + 1/2` by the two roundings at most. -/
theorem RealTicks2Ticks_near (fk : FloorKind) (x : ℚ) (h0 : 0 ≤ x) (h1 : x ≤ 2 ^ 52) :
    ∃ d : ℚ, SimTime.RealTicks2Ticks fk x = Except.ok ⌊d⌋.toNat
      ∧ 0 ≤ ⌊d⌋ ∧ |d - (x + 1 / 2)| ≤ (x + 1) / 2 ^ 53 + (x + 1) / 2 ^ 64 := by
  have hy := rnd_abs_sub_le 64 (x + 1 / 2)
  rw [abs_of_nonneg (by linarith : (0 : ℚ) ≤ x + 1 / 2)] at hy
  have hy' := abs_le.1 hy
  have hd := floorArg_abs_sub_le fk (rnd 64 (x + 1 / 2))
  have hypos : 0 ≤ rnd 64 (x + 1 / 2) := by
    have : (x + 1 / 2) / 2 ^ 64 ≤ x + 1 / 2 := by
      rw [div_le_iff₀ (by positivity)]
      nlinarith
    linarith [hy'.1]
  rw [abs_of_nonneg hypos] at hd
  have hd' := abs_le.1 hd
  have hsmall : (x + 1 / 2) / 2 ^ 64 ≤ 1 / 2 := by
    rw [div_le_iff₀ (by positivity)]
    norm_num
    nlinarith
  have hyle : rnd 64 (x + 1 / 2) ≤ x + 1 := by linarith [hy'.2]
  refine ⟨floorArg fk (rnd 64 (x + 1 / 2)), ?_, ?_, ?_⟩
  · have hguard : ¬ ldAdd x (1 / 2) > kMaxRealNumTicks := by
      rw [kMaxRealNumTicks_eq]
      unfold ldAdd
      have : x + 1 ≤ 2 ^ 64 - 1 := by
        have : (2 : ℚ) ^ 52 + 1 ≤ 2 ^ 64 - 1 := by norm_num
        linarith
      exact not_lt.2 (le_trans hyle this)
    have hdpos : 0 ≤ floorArg fk (rnd 64 (x + 1 / 2)) := by
      have : rnd 64 (x + 1 / 2) / 2 ^ 53 ≤ rnd 64 (x + 1 / 2) := by
        rw [div_le_iff₀ (by positivity)]
        nlinarith
      linarith [hd'.1]
    have hdlt : floorArg fk (rnd 64 (x + 1 / 2)) < 2 ^ 64 := by
      have h2 : rnd 64 (x + 1 / 2) / 2 ^ 53 ≤ (x + 1) / 2 ^ 53 := by gcongr
      have h3 : (x + 1) / 2 ^ 53 ≤ 1 := by
        rw [div_le_iff₀ (by positivity)]
        have : (2 : ℚ) ^ 52 + 1 ≤ 1 * 2 ^ 53 := by norm_num
        linarith
      have : (2 : ℚ) ^ 52 + 2 < 2 ^ 64 := by norm_num
      linarith [hd'.2]
    have hfl0 : 0 ≤ ⌊floorArg fk (rnd 64 (x + 1 / 2))⌋ := Int.floor_nonneg.2 hdpos
    have hfl1 : ⌊floorArg fk (rnd 64 (x + 1 / 2))⌋ < 2 ^ 64 := by
      rw [Int.floor_lt]
      exact_mod_cast hdlt
    unfold SimTime.RealTicks2Ticks
    rw [if_pos hguard]
    unfold ldAdd castSimTick
    rw [if_pos ⟨hfl0, hfl1⟩]
  · apply Int.floor_nonneg.2
    have : rnd 64 (x + 1 / 2) / 2 ^ 53 ≤ rnd 64 (x + 1 / 2) := by
      rw [div_le_iff₀ (by positivity)]
      nlinarith
    linarith [hd'.1]
  · have h2 : rnd 64 (x + 1 / 2) / 2 ^ 53 ≤ (x + 1) / 2 ^ 53 := by gcongr
    have h3 : (x + 1 / 2) / 2 ^ 64 ≤ (x + 1) / 2 ^ 64 := by gcongr; linarith
    rw [abs_le]
    constructor <;> linarith [hd'.1, hd'.2, hy'.1, hy'.2]

theorem GetUserTime_near (n : ℕ) (hn : n < 2 ^ 64) :
    |SimTime.GetUserTime ⟨n⟩ - (n : ℚ) / 100| ≤ (n : ℚ) / 100 / 2 ^ 64 := by
  unfold SimTime.GetUserTime ldDiv kTicksPerUserTimeUnit
  rw [ofTick_eq n hn]
  have := rnd_abs_sub_le 64 ((n : ℚ) / 100)
  rwa [abs_of_nonneg (by positivity : (0 : ℚ) ≤ (n : ℚ) / 100)] at this

/-- Tick counts below `2 ^ 50` survive the conversion to user time and back. -/
theorem ofUserTime_GetUserTime (fk : FloorKind) (n : ℕ) (hn : n < 2 ^ 50) :
    SimTime.ofUserTime fk (SimTime.GetUserTime ⟨n⟩) = Except.ok ⟨n⟩ := by
  have hnq : (n : ℚ) ≤ 2 ^ 50 := by exact_mod_cast le_of_lt hn
  have hn0 : (0 : ℚ) ≤ n := by positivity
  have hu := abs_le.1 (GetUserTime_near n (lt_trans hn (by norm_num)))
  have hupos : 0 ≤ SimTime.GetUserTime ⟨n⟩ := by
    have : (n : ℚ) / 100 / 2 ^ 64 ≤ (n : ℚ) / 100 := by
      rw [div_le_iff₀ (by positivity)]
      nlinarith
    linarith [hu.1]
  have hsm : (n : ℚ) / 100 / 2 ^ 64 ≤ 1 / 2 ^ 20 := by
    rw [div_div, div_le_div_iff₀ (by positivity) (by positivity)]
    norm_num
    linarith
  have hule : SimTime.GetUserTime ⟨n⟩ ≤ 2 ^ 50 := by
    have : (n : ℚ) / 100 ≤ 2 ^ 50 / 100 := by gcongr
    norm_num at this hsm ⊢
    linarith [hu.2]
  have hx := rnd_abs_sub_le 64 (SimTime.GetUserTime ⟨n⟩ * 100)
  rw [abs_of_nonneg (by positivity : (0 : ℚ) ≤ SimTime.GetUserTime ⟨n⟩ * 100)] at hx
  have hx' := abs_le.1 hx
  have h100u : SimTime.GetUserTime ⟨n⟩ * 100 ≤ (n : ℚ) + 1 / 2 ^ 13 := by
    norm_num at hsm ⊢
    linarith [hu.2]
  have h100u' : (n : ℚ) - 1 / 2 ^ 13 ≤ SimTime.GetUserTime ⟨n⟩ * 100 := by
    norm_num at hsm ⊢
    linarith [hu.1]
  have hxe : SimTime.GetUserTime ⟨n⟩ * 100 / 2 ^ 64 ≤ 1 / 2 ^ 13 := by
    rw [div_le_div_iff₀ (by positivity) (by positivity)]
    norm_num at h100u ⊢
    linarith
  have hx0 : 0 ≤ rnd 64 (SimTime.GetUserTime ⟨n⟩ * 100) := by
    have : SimTime.GetUserTime ⟨n⟩ * 100 / 2 ^ 64 ≤ SimTime.GetUserTime ⟨n⟩ * 100 := by
      rw [div_le_iff₀ (by positivity)]
      nlinarith
    linarith [hx'.1]
  have hx1 : rnd 64 (SimTime.GetUserTime ⟨n⟩ * 100) ≤ 2 ^ 52 := by
    norm_num at hxe h100u hnq ⊢
    linarith [hx'.2]
  obtain ⟨d, hd1, _, hd3⟩ := RealTicks2Ticks_near fk _ hx0 hx1
  have hd3' := abs_le.1 hd3
  have hxn1 : rnd 64 (SimTime.GetUserTime ⟨n⟩ * 100) ≤ (n : ℚ) + 1 / 2 ^ 12 := by
    norm_num at hxe h100u ⊢
    linarith [hx'.2]
  have hxn2 : (n : ℚ) - 1 / 2 ^ 12 ≤ rnd 64 (SimTime.GetUserTime ⟨n⟩ * 100) := by
    norm_num at hxe h100u' ⊢
    linarith [hx'.1]
  have he1 : (rnd 64 (SimTime.GetUserTime ⟨n⟩ * 100) + 1) / 2 ^ 53 ≤ 1 / 4 := by
    rw [div_le_div_iff₀ (by positivity) (by positivity)]
    norm_num at hxn1 hnq ⊢
    linarith
  have he2 : (rnd 64 (SimTime.GetUserTime ⟨n⟩ * 100) + 1) / 2 ^ 64 ≤ 1 / 2 ^ 10 := by
    rw [div_le_div_iff₀ (by positivity) (by positivity)]
    norm_num at hxn1 hnq ⊢
    linarith
  have hfl : ⌊d⌋ = (n : ℤ) := by
    rw [Int.floor_eq_iff]
    norm_num at he1 he2 hxn1 hxn2 ⊢
    constructor <;> linarith [hd3'.1, hd3'.2]
  have hmax : ¬ SimTime.GetUserTime ⟨n⟩ > kMaxUserTimeUnits := by
    rw [kMaxUserTimeUnits_eq]
    have : (2 : ℚ) ^ 50 ≤ 11805916207174113034 / 64 := by norm_num
    exact not_lt.2 (le_trans hule this)
  unfold SimTime.ofUserTime SimTime.SetTime
  rw [if_pos ⟨hupos, hmax⟩]
  unfold ldMul kTicksPerUserTimeUnit
  rw [hd1, hfl]
  rfl


/-- The conversion of a user time `t` between 0 and `2 ^ 45`: it succeeds, and the
tick count is within `9/10` of `100 t`. -/
theorem SetTime_near (fk : FloorKind) (s : SimTime) (t : UserTime) (h0 : 0 ≤ t)
    (h1 : t ≤ 2 ^ 45) :
    ∃ n : ℕ, s.SetTime fk t = Except.ok ⟨n⟩ ∧ n < 2 ^ 52 ∧ |(n : ℚ) - 100 * t| ≤ 9 / 10 := by
  have hx := rnd_abs_sub_le 64 (t * 100)
  rw [abs_of_nonneg (by positivity : (0 : ℚ) ≤ t * 100)] at hx
  have hx' := abs_le.1 hx
  have hxe : t * 100 / 2 ^ 64 ≤ 1 / 2 ^ 12 := by
    rw [div_le_div_iff₀ (by positivity) (by positivity)]
    norm_num at h1 ⊢
    linarith
  have hx0 : 0 ≤ rnd 64 (t * 100) := by
    have : t * 100 / 2 ^ 64 ≤ t * 100 := by
      rw [div_le_iff₀ (by positivity)]
      nlinarith
    linarith [hx'.1]
  have hx1 : rnd 64 (t * 100) ≤ 25 * 2 ^ 47 + 1 / 2 ^ 12 := by
    norm_num at hxe h1 ⊢
    linarith [hx'.2]
  have hx2 : rnd 64 (t * 100) ≤ 2 ^ 52 := by
    norm_num at hx1 ⊢
    linarith
  obtain ⟨d, hd1, hd2, hd3⟩ := RealTicks2Ticks_near fk _ hx0 hx2
  have hd3' := abs_le.1 hd3
  have he1 : (rnd 64 (t * 100) + 1) / 2 ^ 53 ≤ 25 / 64 + 1 / 2 ^ 52 := by
    rw [div_le_iff₀ (by positivity)]
    norm_num at hx1 ⊢
    linarith
  have he2 : (rnd 64 (t * 100) + 1) / 2 ^ 64 ≤ 1 / 2 ^ 11 := by
    rw [div_le_div_iff₀ (by positivity) (by positivity)]
    norm_num at hx1 ⊢
    linarith
  have hcast : ((⌊d⌋.toNat : ℕ) : ℚ) = (⌊d⌋ : ℚ) := by
    have : ((⌊d⌋.toNat : ℕ) : ℤ) = ⌊d⌋ := Int.toNat_of_nonneg hd2
    exact_mod_cast congrArg (fun z : ℤ => (z : ℚ)) this
  have hfl1 : (⌊d⌋ : ℚ) ≤ d := Int.floor_le d
  have hfl2 : d < (⌊d⌋ : ℚ) + 1 := Int.lt_floor_add_one d
  have hnlt : ⌊d⌋.toNat < 2 ^ 52 := by
    have : ((⌊d⌋.toNat : ℕ) : ℚ) < ((2 ^ 52 : ℕ) : ℚ) := by
      rw [hcast]
      norm_num at he1 he2 hx1 ⊢
      linarith [hd3'.2]
    exact_mod_cast this
  have hmax : ¬ t > kMaxUserTimeUnits := by
    rw [kMaxUserTimeUnits_eq]
    have : (2 : ℚ) ^ 45 ≤ 11805916207174113034 / 64 := by norm_num
    exact not_lt.2 (le_trans h1 this)
  refine ⟨⌊d⌋.toNat, ?_, hnlt, ?_⟩
  · unfold SimTime.SetTime
    rw [if_pos ⟨h0, hmax⟩]
    unfold ldMul kTicksPerUserTimeUnit
    rw [hd1]
    rfl
  · rw [hcast, abs_le]
    norm_num at he1 he2 hxe ⊢
    constructor <;> linarith [hd3'.1, hd3'.2, hx'.1, hx'.2]

/-- C7, amended: for every user time `t` with `0 < t ≤ 2 ^ 45` (and whichever
`floor` is linked), constructing `SimTime(t)` succeeds, and reading it back with
`GetUserTime()` yields a value that differs from `t` by at most one tick (1/100
of a user-time unit). -/
theorem user_time_round_trip_within_one_tick (fk : FloorKind) (t : UserTime) (h0 : 0 < t)
    (h1 : t ≤ 2 ^ 45) :
    ∃ s, SimTime.ofUserTime fk t = Except.ok s ∧ |s.GetUserTime - t| ≤ 1 / 100 := by
  obtain ⟨n, hn1, hn2, hn3⟩ := SetTime_near fk ⟨0⟩ t (le_of_lt h0) h1
  have hn3' := abs_le.1 hn3
  have hg := abs_le.1 (GetUserTime_near n (lt_trans hn2 (by norm_num)))
  have hnq : (n : ℚ) < 2 ^ 52 := by exact_mod_cast hn2
  have hge : (n : ℚ) / 100 / 2 ^ 64 ≤ 1 / 2 ^ 12 := by
    rw [div_div, div_le_div_iff₀ (by positivity) (by positivity)]
    norm_num at hnq ⊢
    linarith
  refine ⟨⟨n⟩, hn1, ?_⟩
  rw [abs_le]
  norm_num at hge ⊢
  constructor <;> linarith [hn3'.1, hn3'.2, hg.1, hg.2]

/-- The amended statement of C7 at the user time 17.3 (as a `long double`). -/
theorem user_time_round_trip_within_one_tick_witness :
    (0 : UserTime) < rnd 64 (173 / 10) ∧ rnd 64 (173 / 10) ≤ 2 ^ 45
      ∧ ∃ s, SimTime.ofUserTime FloorKind.double (rnd 64 (173 / 10)) = Except.ok s
          ∧ |s.GetUserTime - rnd 64 (173 / 10)| ≤ 1 / 100 :=
  have hv : rnd 64 (173 / 10) = 9972771014849226342 / 2 ^ 59 := by
    rw [rnd_of_binade 64 _ 4 (by norm_num [abs_of_nonneg]) (by norm_num [abs_of_nonneg])]
    rw [roundEven_eq_of_near _ 9972771014849226342 (by norm_num [abs_lt])]
    norm_num
  have h0 : (0 : UserTime) < rnd 64 (173 / 10) := by rw [hv]; norm_num
  have h1 : rnd 64 (173 / 10) ≤ 2 ^ 45 := by rw [hv]; norm_num
  ⟨h0, h1, user_time_round_trip_within_one_tick FloorKind.double _ h0 h1⟩


theorem roundEven_half (k : ℤ) :
    roundEven ((k : ℚ) + 1 / 2) = if k % 2 = 0 then k else k + 1 := by
  have hf : ⌊(k : ℚ) + 1 / 2⌋ = k := by
    rw [Int.floor_eq_iff]; constructor <;> linarith
  unfold roundEven
  rw [hf]
  have h1 : ¬ ((k : ℚ) + 1 / 2 - k < 1 / 2) := by norm_num
  have h2 : ¬ ((1 : ℚ) / 2 < (k : ℚ) + 1 / 2 - k) := by norm_num
  rw [if_neg h1, if_neg h2]

/-- Evaluation of a rounding: the binade `e` and the nearest integer multiple `k` of
the unit in the last place are given. -/
theorem rnd_eval (p : ℕ) (q : ℚ) (e k : ℤ) (h1 : (2 : ℚ) ^ e ≤ |q|)
    (h2 : |q| < (2 : ℚ) ^ (e + 1)) (hk : |q / 2 ^ (e - ((p : ℤ) - 1)) - k| < 1 / 2) :
    rnd p q = (k : ℚ) * 2 ^ (e - ((p : ℤ) - 1)) := by
  rw [rnd_of_binade p q e h1 h2, roundEven_eq_of_near _ k hk]

/-- Evaluation of a rounding that is a tie between `k` and `k + 1` units in the last
place. -/
theorem rnd_eval_tie (p : ℕ) (q : ℚ) (e k : ℤ) (h1 : (2 : ℚ) ^ e ≤ |q|)
    (h2 : |q| < (2 : ℚ) ^ (e + 1)) (hk : q / 2 ^ (e - ((p : ℤ) - 1)) = (k : ℚ) + 1 / 2) :
    rnd p q = ((if k % 2 = 0 then k else k + 1 : ℤ) : ℚ) * 2 ^ (e - ((p : ℤ) - 1)) := by
  rw [rnd_of_binade p q e h1 h2, hk, roundEven_half]

/-- C7 fails at the user time `t = 2 ^ 57 + 1/32` (a `long double`: its significand
`2 ^ 63 + 2` has 64 bits, and `t ≤ GetMaxUserTime()`).  There `100 t` lies `1/8`
above the odd integer `N = 14411518807585587203`; the product rounds to `N`, the sum
`N + 1/2` is a tie that goes to the even `N + 1`, and `(N + 1) / 100` reads back as
`t + 1/64`; through `floor(double)` the tick count is `N - 3` and the value read
back is `t - 1/32`.  Either way the difference exceeds one tick, `1/100`.

Through `floor(double)` it already fails at `u = 11805916207174126141 / 2 ^ 18`,
about `4.5e13`: the product rounds to the odd integer `2 ^ 52 + 5`, the sum with
`1/2` is a tie for `double` and goes to `2 ^ 52 + 6`, read back as
`u + 1311/131072`. -/
theorem user_time_round_trip_off_by_more_than_a_tick :
    ((0 : UserTime) < 9223372036854775810 / 64
      ∧ (9223372036854775810 / 64 : UserTime) ≤ SimTime.GetMaxUserTime
      ∧ rnd 64 (9223372036854775810 / 64) = 9223372036854775810 / 64
      ∧ SimTime.ofUserTime FloorKind.longDouble (9223372036854775810 / 64)
          = Except.ok ⟨14411518807585587204⟩
      ∧ (1 : ℚ) / 100
          < |SimTime.GetUserTime ⟨14411518807585587204⟩ - 9223372036854775810 / 64|
      ∧ SimTime.ofUserTime FloorKind.double (9223372036854775810 / 64)
          = Except.ok ⟨14411518807585587200⟩
      ∧ (1 : ℚ) / 100
          < |SimTime.GetUserTime ⟨14411518807585587200⟩ - 9223372036854775810 / 64|)
    ∧ ((0 : UserTime) < 11805916207174126141 / 2 ^ 18
      ∧ (11805916207174126141 / 2 ^ 18 : UserTime) ≤ 2 ^ 46
      ∧ rnd 64 (11805916207174126141 / 2 ^ 18) = 11805916207174126141 / 2 ^ 18
      ∧ SimTime.ofUserTime FloorKind.double (11805916207174126141 / 2 ^ 18)
          = Except.ok ⟨4503599627370502⟩
      ∧ (1 : ℚ) / 100
          < |SimTime.GetUserTime ⟨4503599627370502⟩ - 11805916207174126141 / 2 ^ 18|) := by
  have hmul : ldMul (9223372036854775810 / 64) kTicksPerUserTimeUnit = 14411518807585587203 := by
    unfold ldMul kTicksPerUserTimeUnit
    rw [rnd_eval 64 _ 63 14411518807585587203 (by norm_num [abs_of_nonneg])
      (by norm_num [abs_of_nonneg]) (by norm_num [abs_lt])]
    norm_num
  have hadd : ldAdd 14411518807585587203 (1 / 2) = 14411518807585587204 := by
    unfold ldAdd
    rw [rnd_eval_tie 64 _ 63 14411518807585587203 (by norm_num [abs_of_nonneg])
      (by norm_num [abs_of_nonneg]) (by norm_num)]
    norm_num
  have hdbl : rnd 53 14411518807585587204 = 14411518807585587200 := by
    rw [rnd_eval 53 _ 63 7036874417766400 (by norm_num [abs_of_nonneg])
      (by norm_num [abs_of_nonneg]) (by norm_num [abs_lt])]
    norm_num
  have hguard : ¬ ((14411518807585587204 : ℚ) > kMaxRealNumTicks) := by
    rw [kMaxRealNumTicks_eq]; norm_num
  have hmax : ¬ ((9223372036854775810 / 64 : ℚ) > kMaxUserTimeUnits) := by
    rw [kMaxUserTimeUnits_eq]; norm_num
  have hback1 : SimTime.GetUserTime ⟨14411518807585587204⟩ = 9223372036854775811 / 64 := by
    unfold SimTime.GetUserTime ldDiv kTicksPerUserTimeUnit
    rw [ofTick_eq _ (by norm_num)]
    rw [rnd_eval 64 _ 57 9223372036854775811 (by norm_num [abs_of_nonneg])
      (by norm_num [abs_of_nonneg]) (by norm_num [abs_lt])]
    norm_num
  have hback2 : SimTime.GetUserTime ⟨14411518807585587200⟩ = 9223372036854775808 / 64 := by
    unfold SimTime.GetUserTime ldDiv kTicksPerUserTimeUnit
    rw [ofTick_eq _ (by norm_num)]
    rw [rnd_eval 64 _ 57 9223372036854775808 (by norm_num [abs_of_nonneg])
      (by norm_num [abs_of_nonneg]) (by norm_num [abs_lt])]
    norm_num
  have hmul' : ldMul (11805916207174126141 / 2 ^ 18) kTicksPerUserTimeUnit
      = 4503599627370501 := by
    unfold ldMul kTicksPerUserTimeUnit
    rw [rnd_eval 64 _ 52 9223372036854786048 (by norm_num [abs_of_nonneg])
      (by norm_num [abs_of_nonneg]) (by norm_num [abs_lt])]
    norm_num
  have hadd' : ldAdd 4503599627370501 (1 / 2) = 9007199254741003 / 2 := by
    unfold ldAdd
    rw [rnd_eval 64 _ 52 9223372036854787072 (by norm_num [abs_of_nonneg])
      (by norm_num [abs_of_nonneg]) (by norm_num [abs_lt])]
    norm_num
  have hdbl' : rnd 53 (9007199254741003 / 2) = 4503599627370502 := by
    rw [rnd_eval_tie 53 _ 52 4503599627370501 (by norm_num [abs_of_nonneg])
      (by norm_num [abs_of_nonneg]) (by norm_num)]
    norm_num
  have hguard' : ¬ ((9007199254741003 / 2 : ℚ) > kMaxRealNumTicks) := by
    rw [kMaxRealNumTicks_eq]; norm_num
  have hmax' : ¬ ((11805916207174126141 / 2 ^ 18 : ℚ) > kMaxUserTimeUnits) := by
    rw [kMaxUserTimeUnits_eq]; norm_num
  have hback' : SimTime.GetUserTime ⟨4503599627370502⟩ = 11805916207174128763 / 2 ^ 18 := by
    unfold SimTime.GetUserTime ldDiv kTicksPerUserTimeUnit
    rw [ofTick_eq _ (by norm_num)]
    rw [rnd_eval 64 _ 45 11805916207174128763 (by norm_num [abs_of_nonneg])
      (by norm_num [abs_of_nonneg]) (by norm_num [abs_lt])]
    norm_num
  refine ⟨⟨by norm_num, ?_, ?_, ?_, ?_, ?_, ?_⟩, ⟨by norm_num, by norm_num, ?_, ?_, ?_⟩⟩
  · unfold SimTime.GetMaxUserTime
    rw [kMaxUserTimeUnits_eq]; norm_num
  · rw [rnd_eval 64 _ 57 9223372036854775810 (by norm_num [abs_of_nonneg])
      (by norm_num [abs_of_nonneg]) (by norm_num [abs_lt])]
    norm_num
  · unfold SimTime.ofUserTime SimTime.SetTime
    rw [if_pos ⟨by norm_num, hmax⟩, hmul]
    unfold SimTime.RealTicks2Ticks
    rw [hadd, if_pos hguard]
    simp only [floorArg]
    rw [show ⌊(14411518807585587204 : ℚ)⌋ = 14411518807585587204 from
      Int.floor_eq_iff.2 ⟨by norm_num, by norm_num⟩]
    rfl
  · rw [hback1]; norm_num [abs_of_nonneg]
  · unfold SimTime.ofUserTime SimTime.SetTime
    rw [if_pos ⟨by norm_num, hmax⟩, hmul]
    unfold SimTime.RealTicks2Ticks
    rw [hadd, if_pos hguard]
    simp only [floorArg]
    rw [hdbl, show ⌊(14411518807585587200 : ℚ)⌋ = 14411518807585587200 from
      Int.floor_eq_iff.2 ⟨by norm_num, by norm_num⟩]
    rfl
  · rw [hback2]; norm_num [abs_of_neg]
  · rw [rnd_eval 64 _ 45 11805916207174126141 (by norm_num [abs_of_nonneg])
      (by norm_num [abs_of_nonneg]) (by norm_num [abs_lt])]
    norm_num
  · unfold SimTime.ofUserTime SimTime.SetTime
    rw [if_pos ⟨by norm_num, hmax'⟩, hmul']
    unfold SimTime.RealTicks2Ticks
    rw [hadd', if_pos hguard']
    simp only [floorArg]
    rw [hdbl', show ⌊(4503599627370502 : ℚ)⌋ = 4503599627370502 from
      Int.floor_eq_iff.2 ⟨by norm_num, by norm_num⟩]
    rfl
  · rw [hback']; norm_num [abs_of_nonneg]

/-- The conversion at the maximum user time: the product rounds to `2 ^ 64`, so
`RealTicks2Ticks` saturates. -/
theorem SetTime_max (fk : FloorKind) (s : SimTime) :
    s.SetTime fk SimTime.GetMaxUserTime = Except.ok ⟨2 ^ 64 - 1⟩ := by
  have hmul : ldMul kMaxUserTimeUnits kTicksPerUserTimeUnit = 2 ^ 64 := by
    unfold ldMul kTicksPerUserTimeUnit
    rw [kMaxUserTimeUnits_eq]
    rw [rnd_eval 64 _ 63 (2 ^ 64) (by norm_num [abs_of_nonneg])
      (by norm_num [abs_of_nonneg]) (by norm_num [abs_lt])]
    norm_num
  have hadd : ldAdd (2 ^ 64) (1 / 2) = 2 ^ 64 := by
    unfold ldAdd
    rw [rnd_eval 64 _ 64 (2 ^ 63) (by norm_num [abs_of_nonneg])
      (by norm_num [abs_of_nonneg]) (by norm_num [abs_lt])]
    norm_num
  have hguard : ¬ ¬ ((2 : ℚ) ^ 64 > kMaxRealNumTicks) := by
    rw [kMaxRealNumTicks_eq]; norm_num
  have h0 : (0 : ℚ) ≤ kMaxUserTimeUnits := by rw [kMaxUserTimeUnits_eq]; norm_num
  unfold SimTime.GetMaxUserTime SimTime.SetTime
  rw [if_pos ⟨h0, lt_irrefl _⟩, hmul]
  unfold SimTime.RealTicks2Ticks
  rw [hadd, if_neg hguard, if_neg (by norm_num)]
  rfl

/-- C9 fails at `t = GetMaxUserTime()` itself, which as a `long double` is
`184467440737095516.15625`: there `floor(100 t + 1/2) = 2 ^ 64`, while the tick
count is `2 ^ 64 - 1`.  It also fails at the `long double` nearest to `0.005`,
`t = 11805916207174113034 / 2 ^ 71 < 0.005`: there `floor(100 t + 1/2) = 0`, while
the product `100 t` rounds to `1/2` and the tick count is 1. -/
theorem tick_count_is_not_always_round_half_up :
    ((0 : UserTime) ≤ SimTime.GetMaxUserTime
        ∧ SimTime.ofUserTime FloorKind.longDouble SimTime.GetMaxUserTime
            = Except.ok ⟨2 ^ 64 - 1⟩
        ∧ SimTime.ofUserTime FloorKind.double SimTime.GetMaxUserTime = Except.ok ⟨2 ^ 64 - 1⟩
        ∧ ⌊100 * SimTime.GetMaxUserTime + 1 / 2⌋ = 2 ^ 64)
      ∧ ((0 : UserTime) ≤ 11805916207174113034 / 2 ^ 71
        ∧ (11805916207174113034 / 2 ^ 71 : UserTime) ≤ SimTime.GetMaxUserTime
        ∧ rnd 64 (11805916207174113034 / 2 ^ 71) = 11805916207174113034 / 2 ^ 71
        ∧ SimTime.ofUserTime FloorKind.longDouble (11805916207174113034 / 2 ^ 71)
            = Except.ok ⟨1⟩
        ∧ SimTime.ofUserTime FloorKind.double (11805916207174113034 / 2 ^ 71) = Except.ok ⟨1⟩
        ∧ ⌊100 * (11805916207174113034 / 2 ^ 71 : UserTime) + 1 / 2⌋ = 0) := by
  have hmul : ldMul (11805916207174113034 / 2 ^ 71) kTicksPerUserTimeUnit = 1 / 2 := by
    unfold ldMul kTicksPerUserTimeUnit
    rw [rnd_eval 64 _ (-2) (2 ^ 64) (by norm_num [abs_of_nonneg])
      (by norm_num [abs_of_nonneg]) (by norm_num [abs_lt])]
    norm_num
  have hadd : ldAdd (1 / 2) (1 / 2) = 1 := by
    unfold ldAdd
    rw [rnd_eval 64 _ 0 (2 ^ 63) (by norm_num [abs_of_nonneg])
      (by norm_num [abs_of_nonneg]) (by norm_num [abs_lt])]
    norm_num
  have hdbl : rnd 53 1 = 1 := by
    rw [rnd_eval 53 _ 0 (2 ^ 52) (by norm_num [abs_of_nonneg])
      (by norm_num [abs_of_nonneg]) (by norm_num [abs_lt])]
    norm_num
  have hguard : ¬ ((1 : ℚ) > kMaxRealNumTicks) := by
    rw [kMaxRealNumTicks_eq]; norm_num
  have hmax : ¬ ((11805916207174113034 / 2 ^ 71 : ℚ) > kMaxUserTimeUnits) := by
    rw [kMaxUserTimeUnits_eq]; norm_num
  have hfl1 : ⌊(1 : ℚ)⌋ = 1 := Int.floor_one
  refine ⟨⟨?_, SetTime_max _ _, SetTime_max _ _, ?_⟩, ⟨by norm_num, ?_, ?_, ?_, ?_, ?_⟩⟩
  · unfold SimTime.GetMaxUserTime; rw [kMaxUserTimeUnits_eq]; norm_num
  · unfold SimTime.GetMaxUserTime; rw [kMaxUserTimeUnits_eq, Int.floor_eq_iff]
    constructor <;> norm_num
  · unfold SimTime.GetMaxUserTime; rw [kMaxUserTimeUnits_eq]; norm_num
  · rw [rnd_eval 64 _ (-8) 11805916207174113034 (by norm_num [abs_of_nonneg])
      (by norm_num [abs_of_nonneg]) (by norm_num [abs_lt])]
    norm_num
  · unfold SimTime.ofUserTime SimTime.SetTime
    rw [if_pos ⟨by norm_num, hmax⟩, hmul]
    unfold SimTime.RealTicks2Ticks
    rw [hadd, if_pos hguard]
    simp only [floorArg]
    rw [hfl1]
    rfl
  · unfold SimTime.ofUserTime SimTime.SetTime
    rw [if_pos ⟨by norm_num, hmax⟩, hmul]
    unfold SimTime.RealTicks2Ticks
    rw [hadd, if_pos hguard]
    simp only [floorArg]
    rw [hdbl, hfl1]
    rfl
  · rw [Int.floor_eq_iff]
    constructor <;> norm_num

/-- C9, amended: for every user time `t` with `0 ≤ t ≤ 2 ^ 45`, `SimTime(t)`
succeeds with a tick count that differs from `floor(100 t + 1/2)` by at most 1;
for every `t` with `0 ≤ t ≤ GetMaxUserTime()` at which the `long double` product
`100 t`, the sum `100 t + 1/2` and the argument handed to `floor` are exact, and
`100 t + 1/2 ≤ 2 ^ 64 - 1`, the tick count is `floor(100 t + 1/2)`; and
`SetTime(GetMaxUserTime())` succeeds and yields the maximum tick value
`2 ^ 64 - 1` (by saturation). -/
theorem tick_count_round_half_up_up_to_rounding (fk : FloorKind) (s : SimTime)
    (t : UserTime) :
    (0 ≤ t → t ≤ 2 ^ 45 →
        ∃ n : ℕ, s.SetTime fk t = Except.ok ⟨n⟩ ∧ |(n : ℤ) - ⌊100 * t + 1 / 2⌋| ≤ 1)
      ∧ (0 ≤ t → t ≤ SimTime.GetMaxUserTime → rnd 64 (t * 100) = t * 100 →
        rnd 64 (t * 100 + 1 / 2) = t * 100 + 1 / 2 →
        floorArg fk (t * 100 + 1 / 2) = t * 100 + 1 / 2 → t * 100 + 1 / 2 ≤ 2 ^ 64 - 1 →
        s.SetTime fk t = Except.ok ⟨⌊100 * t + 1 / 2⌋.toNat⟩)
      ∧ s.SetTime fk SimTime.GetMaxUserTime = Except.ok ⟨2 ^ 64 - 1⟩ := by
  refine ⟨?_, ?_, SetTime_max fk s⟩
  · intro h0 h1
    obtain ⟨n, hn1, _, hn3⟩ := SetTime_near fk s t h0 h1
    have hn3' := abs_le.1 hn3
    have hfl1 : (⌊100 * t + 1 / 2⌋ : ℚ) ≤ 100 * t + 1 / 2 := Int.floor_le _
    have hfl2 : 100 * t + 1 / 2 < (⌊100 * t + 1 / 2⌋ : ℚ) + 1 := Int.lt_floor_add_one _
    refine ⟨n, hn1, ?_⟩
    rw [abs_le]
    constructor
    · have : ((-2 : ℤ) : ℚ) < (((n : ℤ) - ⌊100 * t + 1 / 2⌋ : ℤ) : ℚ) := by
        push_cast
        linarith [hn3'.1]
      have := Int.cast_lt.1 this
      omega
    · have : ((((n : ℤ) - ⌊100 * t + 1 / 2⌋ : ℤ)) : ℚ) < ((2 : ℤ) : ℚ) := by
        push_cast
        linarith [hn3'.2]
      have := Int.cast_lt.1 this
      omega
  · intro h0 hmax hprod hsum hfl hfit
    have hguard : ¬ (t * 100 + 1 / 2 > kMaxRealNumTicks) := by
      rw [kMaxRealNumTicks_eq]; exact not_lt.2 hfit
    have hfl0 : 0 ≤ ⌊t * 100 + 1 / 2⌋ := Int.floor_nonneg.2 (by positivity)
    have hfl1 : ⌊t * 100 + 1 / 2⌋ < 2 ^ 64 := by
      rw [Int.floor_lt]
      push_cast
      linarith
    unfold SimTime.SetTime
    rw [if_pos ⟨h0, not_lt.2 hmax⟩]
    unfold ldMul kTicksPerUserTimeUnit SimTime.RealTicks2Ticks ldAdd
    rw [hprod, hsum, if_pos hguard, hfl]
    unfold castSimTick
    rw [if_pos ⟨hfl0, hfl1⟩, mul_comm t 100]
    rfl

/-- The amended statement of C9 at the user time 0.125 (12.5 ticks round up to 13)
and at the maximum user time. -/
theorem tick_count_round_half_up_up_to_rounding_witness :
    (∃ n : ℕ, SimTime.SetTime FloorKind.double ⟨0⟩ (1 / 8) = Except.ok ⟨n⟩
        ∧ |(n : ℤ) - ⌊100 * (1 / 8 : ℚ) + 1 / 2⌋| ≤ 1)
      ∧ SimTime.SetTime FloorKind.double ⟨0⟩ (1 / 8)
          = Except.ok ⟨⌊100 * (1 / 8 : ℚ) + 1 / 2⌋.toNat⟩
      ∧ ⌊100 * (1 / 8 : ℚ) + 1 / 2⌋ = 13
      ∧ SimTime.SetTime FloorKind.double ⟨0⟩ SimTime.GetMaxUserTime
          = Except.ok ⟨2 ^ 64 - 1⟩ :=
  have hprod : rnd 64 ((1 / 8 : ℚ) * 100) = 1 / 8 * 100 := by
    rw [rnd_eval 64 _ 3 (25 * 2 ^ 59) (by norm_num [abs_of_nonneg])
      (by norm_num [abs_of_nonneg]) (by norm_num [abs_lt])]
    norm_num
  have hsum : rnd 64 ((1 / 8 : ℚ) * 100 + 1 / 2) = 1 / 8 * 100 + 1 / 2 := by
    rw [rnd_eval 64 _ 3 (13 * 2 ^ 60) (by norm_num [abs_of_nonneg])
      (by norm_num [abs_of_nonneg]) (by norm_num [abs_lt])]
    norm_num
  have hfl : floorArg FloorKind.double ((1 / 8 : ℚ) * 100 + 1 / 2) = 1 / 8 * 100 + 1 / 2 := by
    simp only [floorArg]
    rw [rnd_eval 53 _ 3 (13 * 2 ^ 49) (by norm_num [abs_of_nonneg])
      (by norm_num [abs_of_nonneg]) (by norm_num [abs_lt])]
    norm_num
  have hmax : (1 / 8 : ℚ) ≤ SimTime.GetMaxUserTime := by
    unfold SimTime.GetMaxUserTime; rw [kMaxUserTimeUnits_eq]; norm_num
  ⟨(tick_count_round_half_up_up_to_rounding FloorKind.double ⟨0⟩ (1 / 8)).1 (by norm_num)
      (by norm_num),
    (tick_count_round_half_up_up_to_rounding FloorKind.double ⟨0⟩ (1 / 8)).2.1 (by norm_num) hmax
      hprod hsum hfl (by norm_num),
    by rw [Int.floor_eq_iff]; constructor <;> norm_num,
    (tick_count_round_half_up_up_to_rounding FloorKind.double ⟨0⟩ (1 / 8)).2.2⟩

/-! ## Properties of the event queue -/

theorem SimTime.SetTimeFrom_eq (t u : SimTime) : t.SetTimeFrom u = u := rfl

theorem insertFromEarliest_sorted (e : SimBaseEvent) :
    ∀ q : List SimBaseEvent, QueueSorted q →
      SimExec.insertFromEarliest e q = upTo e.event_time q ++ [e] ++ laterThan e.event_time q
  | [], _ => rfl
  | x :: rest, h => by
    have hrest : QueueSorted rest := (List.pairwise_cons.1 h).2
    have hx : ∀ y ∈ rest, x.event_time.ticks ≤ y.event_time.ticks := (List.pairwise_cons.1 h).1
    by_cases hxe : x.event_time.ticks ≤ e.event_time.ticks
    · have hnot : ¬ e.event_time.ticks < x.event_time.ticks := not_lt.2 hxe
      simp [SimExec.insertFromEarliest, SimBaseEvent.AsEarlyAsEvent, SimTime.AsEarlyAs, upTo,
        laterThan, hxe, hnot, List.filter_cons]
      simpa [upTo, laterThan] using insertFromEarliest_sorted e rest hrest
    · have hlt : e.event_time.ticks < x.event_time.ticks := not_le.1 hxe
      have h1 : upTo e.event_time rest = [] := by
        unfold upTo
        rw [List.filter_eq_nil_iff]
        intro y hy
        have := hx y hy
        simp only [decide_eq_true_eq, not_le]
        omega
      have h2 : laterThan e.event_time rest = rest := by
        unfold laterThan
        rw [List.filter_eq_self]
        intro y hy
        have := hx y hy
        simp only [decide_eq_true_eq]
        omega
      have h1' : upTo e.event_time (x :: rest) = [] := by
        unfold upTo at h1 ⊢
        rw [List.filter_cons, h1]
        simp [hxe]
      have h2' : laterThan e.event_time (x :: rest) = x :: rest := by
        unfold laterThan at h2 ⊢
        rw [List.filter_cons, h2]
        simp [hlt]
      rw [h1', h2']
      simp [SimExec.insertFromEarliest, SimBaseEvent.AsEarlyAsEvent, SimTime.AsEarlyAs, hxe]

/-- C1: on a queue sorted by scheduled time, `ScheduleEvent` of an event `e` that
is not earlier than `curr_time` yields the queue `A ++ [e] ++ B`, with `A` the
old events whose time is `≤` that of `e` and `B` those whose time is later, each
in their old order; the two clock values are untouched. -/
theorem ScheduleEvent_places_after_equal_times (s : SimExec) (e : SimBaseEvent)
    (hsorted : QueueSorted s.event_queue)
    (hnow : s.curr_time.ticks ≤ e.event_time.ticks) :
    (s.ScheduleEvent e).event_queue
        = upTo e.event_time s.event_queue ++ [e] ++ laterThan e.event_time s.event_queue
      ∧ (s.ScheduleEvent e).curr_time = s.curr_time
      ∧ (s.ScheduleEvent e).run_until_time = s.run_until_time := by
  have hacc : e.EarlierThan s.curr_time = false := by
    simp [SimBaseEvent.EarlierThan, SimTime.EarlierThan, hnow]
  simp only [SimExec.ScheduleEvent, SimExec.EnqueueEventFromEarliest, hacc]
  exact ⟨insertFromEarliest_sorted e s.event_queue hsorted, rfl, rfl⟩

/-- The statement of C1 at the queue with times 3, 5, 5, 9 and a new event at 5. -/
theorem ScheduleEvent_places_after_equal_times_witness :
    QueueSorted [⟨⟨3⟩, 0⟩, ⟨⟨5⟩, 1⟩, ⟨⟨5⟩, 2⟩, ⟨⟨9⟩, 3⟩]
      ∧ (2 : ℕ) ≤ 5
      ∧ (SimExec.ScheduleEvent ⟨⟨2⟩, ⟨100⟩, [⟨⟨3⟩, 0⟩, ⟨⟨5⟩, 1⟩, ⟨⟨5⟩, 2⟩, ⟨⟨9⟩, 3⟩]⟩
            ⟨⟨5⟩, 7⟩).event_queue
          = [⟨⟨3⟩, 0⟩, ⟨⟨5⟩, 1⟩, ⟨⟨5⟩, 2⟩, ⟨⟨5⟩, 7⟩, ⟨⟨9⟩, 3⟩] :=
  ⟨by decide, by decide,
    (ScheduleEvent_places_after_equal_times
      ⟨⟨2⟩, ⟨100⟩, [⟨⟨3⟩, 0⟩, ⟨⟨5⟩, 1⟩, ⟨⟨5⟩, 2⟩, ⟨⟨9⟩, 3⟩]⟩ ⟨⟨5⟩, 7⟩
      (by decide) (by decide)).1.trans (by decide)⟩

/-- C3: `ScheduleEvent` of an event strictly earlier than `curr_time` leaves the
executive exactly as it was (queue and `curr_time` included), so every later
`Run` is the `Run` of the executive without that event; an event whose time
equals `curr_time` is not rejected: it is added to the queue. -/
theorem ScheduleEvent_discards_past_event (s : SimExec) (e : SimBaseEvent) :
    (e.event_time.ticks < s.curr_time.ticks →
        s.ScheduleEvent e = s
          ∧ ∀ (σ : Type) (fk : FloorKind) (act : DispatchAction σ) (fuel : ℕ) (out : σ),
              SimExec.Run fk act fuel (s.ScheduleEvent e) out = SimExec.Run fk act fuel s out)
      ∧ (e.event_time.ticks = s.curr_time.ticks →
          e ∈ (s.ScheduleEvent e).event_queue
            ∧ (s.ScheduleEvent e).event_queue.length = s.event_queue.length + 1) := by
  constructor
  · intro hpast
    have hs : s.ScheduleEvent e = s := by
      simp [SimExec.ScheduleEvent, SimExec.EnqueueEventFromEarliest, SimBaseEvent.EarlierThan,
        SimTime.EarlierThan, hpast]
    refine ⟨hs, ?_⟩
    intro σ fk act fuel out
    rw [hs]
  · intro hnow
    have hacc : e.EarlierThan s.curr_time = false := by
      simp [SimBaseEvent.EarlierThan, SimTime.EarlierThan, hnow]
    have hmem : ∀ q : List SimBaseEvent, e ∈ SimExec.insertFromEarliest e q
        ∧ (SimExec.insertFromEarliest e q).length = q.length + 1 := by
      intro q
      induction q with
      | nil => simp [SimExec.insertFromEarliest]
      | cons x rest ih =>
        by_cases hx : x.AsEarlyAsEvent e = true
        · simp [SimExec.insertFromEarliest, hx, ih.1, ih.2]
        · simp [SimExec.insertFromEarliest, hx]
    simpa [SimExec.ScheduleEvent, SimExec.EnqueueEventFromEarliest, hacc] using hmem s.event_queue

/-- The statement of C3 at an executive with `curr_time` 5: an event at 4 is
dropped, an event at 5 is queued. -/
theorem ScheduleEvent_discards_past_event_witness :
    SimExec.ScheduleEvent ⟨⟨5⟩, ⟨100⟩, [⟨⟨7⟩, 0⟩]⟩ ⟨⟨4⟩, 1⟩ = ⟨⟨5⟩, ⟨100⟩, [⟨⟨7⟩, 0⟩]⟩
      ∧ (⟨⟨5⟩, 1⟩ : SimBaseEvent)
          ∈ (SimExec.ScheduleEvent ⟨⟨5⟩, ⟨100⟩, [⟨⟨7⟩, 0⟩]⟩ ⟨⟨5⟩, 1⟩).event_queue :=
  ⟨((ScheduleEvent_discards_past_event ⟨⟨5⟩, ⟨100⟩, [⟨⟨7⟩, 0⟩]⟩ ⟨⟨4⟩, 1⟩).1 (by decide)).1,
    ((ScheduleEvent_discards_past_event ⟨⟨5⟩, ⟨100⟩, [⟨⟨7⟩, 0⟩]⟩ ⟨⟨5⟩, 1⟩).2 (by decide)).1⟩

/-! ## The dispatch loop when no event schedules anything -/

theorem runSteps_add {σ : Type} (act : DispatchAction σ) (a b : ℕ) (m : RunState σ) :
    SimExec.runSteps act (a + b) m = SimExec.runSteps act b (SimExec.runSteps act a m) := by
  unfold SimExec.runSteps
  rw [Nat.add_comm, Function.iterate_add_apply]

theorem runSteps_succ {σ : Type} (act : DispatchAction σ) (n : ℕ) (m : RunState σ) :
    SimExec.runSteps act (n + 1) m = SimExec.runSteps act n (SimExec.runStep act m) := by
  unfold SimExec.runSteps
  rw [Function.iterate_succ_apply]

theorem runSteps_finished {σ : Type} (act : DispatchAction σ) (n : ℕ) (m : RunState σ)
    (h : m.point = RunPoint.finished) : SimExec.runSteps act n m = m := by
  induction n with
  | zero => rfl
  | succ k ih =>
    rw [runSteps_succ]
    have : SimExec.runStep act m = m := by
      unfold SimExec.runStep
      rw [h]
    rw [this, ih]

/-- The inner loop of `Run`, when no event schedules anything: the events at the
head of the queue whose time is `c` are dispatched, in order. -/
theorem inner_noSchedule (c H : SimTime) :
    ∀ (q : List SimBaseEvent) (d : List (SimBaseEvent × SimTime)),
      ∃ n, SimExec.runSteps noSchedule n ⟨⟨c, H, q⟩, (), q.head?, RunPoint.innerTest, d⟩
        = ⟨⟨nextTime c (q.dropWhile (fun x => decide (x.event_time.ticks = c.ticks))), H,
              q.dropWhile (fun x => decide (x.event_time.ticks = c.ticks))⟩, (),
            (q.dropWhile (fun x => decide (x.event_time.ticks = c.ticks))).head?,
            RunPoint.outerTest,
            d ++ (q.takeWhile (fun x => decide (x.event_time.ticks = c.ticks))).map
              (fun e => (e, c))⟩
  | [], d => ⟨1, by simp [SimExec.runSteps, SimExec.runStep, nextTime]⟩
  | x :: rest, d => by
    by_cases hx : x.event_time.ticks = c.ticks
    · obtain ⟨n, hn⟩ := inner_noSchedule c H rest (d ++ [(x, c)])
      refine ⟨n + 1, ?_⟩
      rw [runSteps_succ]
      have hstep : SimExec.runStep noSchedule
          ⟨⟨c, H, x :: rest⟩, (), (x :: rest).head?, RunPoint.innerTest, d⟩
          = ⟨⟨c, H, rest⟩, (), rest.head?, RunPoint.innerTest, d ++ [(x, c)]⟩ := by
        simp [SimExec.runStep, SimBaseEvent.SameTimeAs, SimTime.SameAs, hx, noSchedule,
          SimExec.scheduleAll]
      rw [hstep, hn]
      simp [List.dropWhile_cons, List.takeWhile_cons, hx]
    · refine ⟨1, ?_⟩
      simp [SimExec.runSteps, SimExec.runStep, SimBaseEvent.SameTimeAs, SimTime.SameAs, hx,
        nextTime, List.dropWhile_cons, List.takeWhile_cons, SimTime.SetTimeFrom]

theorem upTo_eq_nil_of_head_late (H : SimTime) (x : SimBaseEvent) (rest : List SimBaseEvent)
    (hs : QueueSorted (x :: rest)) (hx : H.ticks < x.event_time.ticks) :
    upTo H (x :: rest) = [] ∧ laterThan H (x :: rest) = x :: rest := by
  have hall : ∀ y ∈ x :: rest, H.ticks < y.event_time.ticks := by
    intro y hy
    rcases List.mem_cons.1 hy with rfl | hy
    · exact hx
    · exact lt_of_lt_of_le hx ((List.pairwise_cons.1 hs).1 y hy)
  constructor
  · unfold upTo
    rw [List.filter_eq_nil_iff]
    intro y hy
    have := hall y hy
    simp only [decide_eq_true_eq, not_le]
    exact this
  · unfold laterThan
    rw [List.filter_eq_self]
    intro y hy
    simpa using hall y hy

theorem filter_takeWhile_dropWhile (p r : SimBaseEvent → Bool) (q : List SimBaseEvent) :
    q.filter p = (q.takeWhile r).filter p ++ (q.dropWhile r).filter p := by
  rw [← List.filter_append, List.takeWhile_append_dropWhile]

theorem upTo_split (c H : SimTime) (hc : c.ticks ≤ H.ticks) (q : List SimBaseEvent) :
    upTo H q = q.takeWhile (fun x => decide (x.event_time.ticks = c.ticks))
        ++ upTo H (q.dropWhile (fun x => decide (x.event_time.ticks = c.ticks)))
      ∧ laterThan H q
        = laterThan H (q.dropWhile (fun x => decide (x.event_time.ticks = c.ticks))) := by
  constructor
  · unfold upTo
    rw [filter_takeWhile_dropWhile _ (fun x => decide (x.event_time.ticks = c.ticks)) q]
    congr 1
    rw [List.filter_eq_self]
    intro y hy
    have := List.mem_takeWhile_imp hy
    simp only [decide_eq_true_eq] at this ⊢
    omega
  · unfold laterThan
    rw [filter_takeWhile_dropWhile _ (fun x => decide (x.event_time.ticks = c.ticks)) q]
    have : (q.takeWhile (fun x => decide (x.event_time.ticks = c.ticks))).filter
        (fun x => decide (H.ticks < x.event_time.ticks)) = [] := by
      rw [List.filter_eq_nil_iff]
      intro y hy
      have := List.mem_takeWhile_imp hy
      simp only [decide_eq_true_eq] at this ⊢
      omega
    rw [this, List.nil_append]

theorem atOwnTime_takeWhile (c : SimTime) (q : List SimBaseEvent) :
    (q.takeWhile (fun x => decide (x.event_time.ticks = c.ticks))).map (fun e => (e, c))
      = atOwnTime (q.takeWhile (fun x => decide (x.event_time.ticks = c.ticks))) := by
  unfold atOwnTime
  apply List.map_congr_left
  intro y hy
  have := List.mem_takeWhile_imp hy
  simp only [decide_eq_true_eq] at this
  have hc : y.event_time = c := by
    cases hyt : y.event_time; cases c; simp_all
  rw [hc]

theorem atOwnTime_append (a b : List SimBaseEvent) :
    atOwnTime (a ++ b) = atOwnTime a ++ atOwnTime b := by
  simp [atOwnTime]

theorem finalTime_step (c H : SimTime) (x : SimBaseEvent) (rest : List SimBaseEvent)
    (hx : x.event_time = c) (hc : c.ticks ≤ H.ticks) :
    finalTime c H (x :: rest)
      = finalTime
          (nextTime c ((x :: rest).dropWhile (fun x => decide (x.event_time.ticks = c.ticks))))
          H ((x :: rest).dropWhile (fun x => decide (x.event_time.ticks = c.ticks))) := by
  have hl := (upTo_split c H hc (x :: rest)).2
  unfold finalTime
  rw [← hl]
  cases hlt : (laterThan H (x :: rest)).head? with
  | some y => rfl
  | none =>
    simp only
    cases hq : (x :: rest).dropWhile (fun x => decide (x.event_time.ticks = c.ticks)) with
    | nil =>
      have hall : (x :: rest).takeWhile (fun x => decide (x.event_time.ticks = c.ticks))
          = x :: rest := by
        have := List.takeWhile_append_dropWhile
          (fun x => decide (x.event_time.ticks = c.ticks)) (x :: rest)
        rw [hq, List.append_nil] at this
        exact this
      have hlast : ∀ l, (x :: rest).getLast? = some l → l.event_time = c := by
        intro l hl'
        have hmem : l ∈ (x :: rest) := List.mem_of_getLast?_eq_some hl'
        rw [← hall] at hmem
        have := List.mem_takeWhile_imp hmem
        simp only [decide_eq_true_eq] at this
        cases hyt : l.event_time; cases c; simp_all
      cases hgl : (x :: rest).getLast? with
      | none => simp at hgl
      | some l => simp [nextTime, hlast l hgl]
    | cons y ys =>
      have hsuf : (y :: ys) <:+ (x :: rest) := by
        rw [← hq]; exact List.dropWhile_suffix _
      obtain ⟨pre, hpre⟩ := hsuf
      have : (x :: rest).getLast? = (y :: ys).getLast? := by
        rw [← hpre, List.getLast?_append_of_ne_nil _ (by simp)]
      rw [this]
      cases hgl : (y :: ys).getLast? with
      | none => simp at hgl
      | some l => rfl


/-- The loops of `Run` on a sorted queue whose events schedule nothing: started
at the outer test with `curr_time_` the time of the first event, they end, having
dispatched the events up to the horizon, each at its own time, in queue order. -/
theorem outer_noSchedule (H : SimTime) :
    ∀ (k : ℕ) (q : List SimBaseEvent) (c : SimTime) (d : List (SimBaseEvent × SimTime)),
      q.length ≤ k → QueueSorted q → (∀ x, q.head? = some x → x.event_time = c) →
      ∃ n, SimExec.runSteps noSchedule n ⟨⟨c, H, q⟩, (), q.head?, RunPoint.outerTest, d⟩
        = ⟨⟨finalTime c H q, H, laterThan H q⟩, (), (laterThan H q).head?,
            RunPoint.finished, d ++ atOwnTime (upTo H q)⟩ := by
  intro k
  induction k with
  | zero =>
    intro q c d hk _ _
    have hq : q = [] := List.length_eq_zero.1 (Nat.le_zero.1 hk)
    subst hq
    exact ⟨1, by simp [SimExec.runSteps, SimExec.runStep, finalTime, laterThan, upTo, atOwnTime]⟩
  | succ k ih =>
    intro q c d hk hs hhead
    cases q with
    | nil =>
      exact ⟨1, by
        simp [SimExec.runSteps, SimExec.runStep, finalTime, laterThan, upTo, atOwnTime]⟩
    | cons x rest =>
      have hxc : x.event_time = c := hhead x rfl
      by_cases hc : c.ticks ≤ H.ticks
      · -- the outer test passes, the inner loop runs, and the outer test is reached again
        have hxt : x.event_time.ticks = c.ticks := by rw [hxc]
        obtain ⟨n1, hn1⟩ := inner_noSchedule c H (x :: rest) d
        have hdrop : (x :: rest).dropWhile (fun x => decide (x.event_time.ticks = c.ticks))
            = rest.dropWhile (fun x => decide (x.event_time.ticks = c.ticks)) := by
          simp [List.dropWhile_cons, hxt]
        have hlen : ((x :: rest).dropWhile
            (fun x => decide (x.event_time.ticks = c.ticks))).length ≤ k := by
          rw [hdrop]
          have := (List.dropWhile_sublist
            (fun x => decide (x.event_time.ticks = c.ticks)) (l := rest)).length_le
          simp only [List.length_cons] at hk
          omega
        have hs' : QueueSorted ((x :: rest).dropWhile
            (fun x => decide (x.event_time.ticks = c.ticks))) :=
          List.Pairwise.sublist (List.dropWhile_sublist _) hs
        have hhead' : ∀ y, ((x :: rest).dropWhile
            (fun x => decide (x.event_time.ticks = c.ticks))).head? = some y →
            y.event_time = nextTime c ((x :: rest).dropWhile
              (fun x => decide (x.event_time.ticks = c.ticks))) := by
          intro y hy
          cases hq : (x :: rest).dropWhile (fun x => decide (x.event_time.ticks = c.ticks)) with
          | nil => rw [hq] at hy; simp at hy
          | cons z zs =>
            rw [hq] at hy
            simp only [List.head?_cons, Option.some.injEq] at hy
            subst hy
            rfl
        obtain ⟨n2, hn2⟩ := ih _ (nextTime c ((x :: rest).dropWhile
            (fun x => decide (x.event_time.ticks = c.ticks))))
          (d ++ ((x :: rest).takeWhile (fun x => decide (x.event_time.ticks = c.ticks))).map
              (fun e => (e, c))) hlen hs' hhead'
        refine ⟨1 + (n1 + n2), ?_⟩
        rw [Nat.add_comm 1, runSteps_succ]
        have hstep : SimExec.runStep noSchedule
            ⟨⟨c, H, x :: rest⟩, (), (x :: rest).head?, RunPoint.outerTest, d⟩
            = ⟨⟨c, H, x :: rest⟩, (), (x :: rest).head?, RunPoint.innerTest, d⟩ := by
          simp [SimExec.runStep, SimTime.AsEarlyAs, hc]
        rw [hstep, runSteps_add, hn1, hn2]
        have hsplit := upTo_split c H hc (x :: rest)
        rw [← hsplit.2, ← finalTime_step c H x rest hxc hc, atOwnTime_takeWhile,
          List.append_assoc, ← atOwnTime_append, ← hsplit.1]
      · -- the first event is beyond the horizon: the loops end at once
        have hlate : H.ticks < x.event_time.ticks := by rw [hxc]; omega
        obtain ⟨h1, h2⟩ := upTo_eq_nil_of_head_late H x rest hs hlate
        refine ⟨1, ?_⟩
        simp [SimExec.runSteps, SimExec.runStep, SimTime.AsEarlyAs, hc, finalTime, h1, h2,
          atOwnTime, hxc]

/-- The function `Run` on a sorted queue whose events schedule nothing: with enough fuel it
returns, having dispatched exactly the events up to the horizon, each at its own
time and in queue order, and leaving the later events queued in their order. -/
theorem Run_noSchedule (fk : FloorKind) (s : SimExec) (hs : QueueSorted s.event_queue) :
    ∃ N, ∀ fuel, N ≤ fuel →
      ∃ r, SimExec.Run fk noSchedule fuel s () = some r
        ∧ r.exec = ⟨finalTime s.curr_time s.run_until_time s.event_queue, s.run_until_time,
            laterThan s.run_until_time s.event_queue⟩
        ∧ r.dispatched = atOwnTime (upTo s.run_until_time s.event_queue)
        ∧ r.return_time = SimExec.returnTime fk r.exec := by
  obtain ⟨c, H, q⟩ := s
  simp only at hs
  cases q with
  | nil =>
    refine ⟨1, fun fuel hfuel => ?_⟩
    obtain ⟨k, rfl⟩ := Nat.exists_eq_add_of_le hfuel
    simp only [SimExec.Run, SimExec.runEnter]
    rw [runSteps_add]
    have h1 : SimExec.runSteps noSchedule 1 ⟨⟨c, H, []⟩, (), none, RunPoint.outerTest, []⟩
        = ⟨⟨c, H, []⟩, (), none, RunPoint.finished, []⟩ := by
      simp [SimExec.runSteps, SimExec.runStep]
    rw [h1, runSteps_finished _ _ _ rfl]
    simp [finalTime, laterThan, upTo, atOwnTime]
  | cons x rest =>
    obtain ⟨n, hn⟩ := outer_noSchedule H (x :: rest).length (x :: rest) x.event_time []
      le_rfl hs (by intro y hy; simp at hy; rw [hy])
    refine ⟨n, fun fuel hfuel => ?_⟩
    obtain ⟨k, rfl⟩ := Nat.exists_eq_add_of_le hfuel
    have hc : finalTime c H (x :: rest) = finalTime x.event_time H (x :: rest) := by
      unfold finalTime
      cases (laterThan H (x :: rest)).head? with
      | some y => rfl
      | none =>
        cases hgl : (x :: rest).getLast? with
        | none => simp at hgl
        | some l => rfl
    simp only [SimExec.Run, SimExec.runEnter, SimTime.SetTimeFrom_eq]
    rw [runSteps_add]
    have hn' : SimExec.runSteps noSchedule n
        ⟨⟨x.event_time, H, x :: rest⟩, (), some x, RunPoint.outerTest, []⟩ = _ := hn
    rw [hn', runSteps_finished _ _ _ rfl]
    simp [hc]


theorem sorted_insert (e : SimBaseEvent) (q : List SimBaseEvent) (hs : QueueSorted q) :
    QueueSorted (upTo e.event_time q ++ [e] ++ laterThan e.event_time q) := by
  unfold QueueSorted at hs ⊢
  rw [List.append_assoc, List.pairwise_append]
  refine ⟨List.Pairwise.sublist (List.filter_sublist _) hs, ?_, ?_⟩
  · rw [List.singleton_append, List.pairwise_cons]
    refine ⟨?_, List.Pairwise.sublist (List.filter_sublist _) hs⟩
    intro y hy
    have := (List.mem_filter.1 hy).2
    simp only [decide_eq_true_eq] at this
    omega
  · intro a ha b hb
    have ha' := (List.mem_filter.1 ha).2
    simp only [decide_eq_true_eq] at ha'
    rcases List.mem_append.1 hb with hb | hb
    · rw [List.mem_singleton] at hb
      subst hb
      exact ha'
    · have hb' := (List.mem_filter.1 hb).2
      simp only [decide_eq_true_eq] at hb'
      omega

theorem perm_insert (e : SimBaseEvent) (q : List SimBaseEvent) :
    (upTo e.event_time q ++ [e] ++ laterThan e.event_time q).Perm (q ++ [e]) := by
  have hl : laterThan e.event_time q
      = q.filter (fun x => !decide (x.event_time.ticks ≤ e.event_time.ticks)) := by
    unfold laterThan
    apply List.filter_congr
    intro x _
    by_cases h : x.event_time.ticks ≤ e.event_time.ticks
    · simp [h]
    · simp [h]; omega
  rw [hl, List.append_assoc]
  have h1 : (upTo e.event_time q
      ++ ([e] ++ q.filter (fun x => !decide (x.event_time.ticks ≤ e.event_time.ticks)))).Perm
      (upTo e.event_time q
        ++ (q.filter (fun x => !decide (x.event_time.ticks ≤ e.event_time.ticks)) ++ [e])) :=
    List.Perm.append_left _ List.perm_append_comm
  refine h1.trans ?_
  rw [← List.append_assoc]
  exact List.Perm.append_right _ (List.filter_append_perm _ q)

theorem atTime_insert (t : SimTime) (e : SimBaseEvent) (q : List SimBaseEvent) :
    atTime t (upTo e.event_time q ++ [e] ++ laterThan e.event_time q)
      = atTime t q ++ atTime t [e] := by
  unfold atTime upTo laterThan
  rw [List.filter_append, List.filter_append, List.filter_filter, List.filter_filter]
  by_cases ht : t.ticks ≤ e.event_time.ticks
  · have h1 : q.filter (fun a => decide (a.event_time.ticks = t.ticks)
        && decide (a.event_time.ticks ≤ e.event_time.ticks))
        = q.filter (fun a => decide (a.event_time.ticks = t.ticks)) := by
      apply List.filter_congr
      intro x _
      by_cases h : x.event_time.ticks = t.ticks
      · simp [h, ht]
      · simp [h]
    have h2 : q.filter (fun a => decide (a.event_time.ticks = t.ticks)
        && decide (e.event_time.ticks < a.event_time.ticks)) = [] := by
      rw [List.filter_eq_nil_iff]
      intro x _
      simp only [Bool.and_eq_true, decide_eq_true_eq, not_and, not_lt]
      intro h
      omega
    rw [h1, h2, List.append_nil]
  · have h1 : q.filter (fun a => decide (a.event_time.ticks = t.ticks)
        && decide (a.event_time.ticks ≤ e.event_time.ticks)) = [] := by
      rw [List.filter_eq_nil_iff]
      intro x _
      simp only [Bool.and_eq_true, decide_eq_true_eq, not_and, not_le]
      intro h
      omega
    have h2 : q.filter (fun a => decide (a.event_time.ticks = t.ticks)
        && decide (e.event_time.ticks < a.event_time.ticks))
        = q.filter (fun a => decide (a.event_time.ticks = t.ticks)) := by
      apply List.filter_congr
      intro x _
      by_cases h : x.event_time.ticks = t.ticks
      · have : e.event_time.ticks < t.ticks := by omega
        simp [h, this]
      · simp [h]
    have h3 : [e].filter (fun a => decide (a.event_time.ticks = t.ticks)) = [] := by
      rw [List.filter_eq_nil_iff]
      intro x hx
      rw [List.mem_singleton] at hx
      subst hx
      simp only [decide_eq_true_eq]
      omega
    rw [h1, h2, h3]
    simp

/-- A sequence of `ScheduleEvent` calls on an executive whose clock is at zero and
whose queue is sorted: every event is queued, the queue stays sorted, and the
events of each single time are the old ones followed by the new ones in call
order. -/
theorem scheduleAll_at_zero :
    ∀ (events : List SimBaseEvent) (s : SimExec), s.curr_time = ⟨0⟩ →
      QueueSorted s.event_queue →
      (SimExec.scheduleAll s events).curr_time = ⟨0⟩
        ∧ (SimExec.scheduleAll s events).run_until_time = s.run_until_time
        ∧ QueueSorted (SimExec.scheduleAll s events).event_queue
        ∧ (SimExec.scheduleAll s events).event_queue.Perm (s.event_queue ++ events)
        ∧ ∀ t, atTime t (SimExec.scheduleAll s events).event_queue
            = atTime t s.event_queue ++ atTime t events
  | [], s, h0, hs => by
    simp [SimExec.scheduleAll, h0, hs, atTime]
  | e :: rest, s, h0, hs => by
    have hacc : e.EarlierThan s.curr_time = false := by
      simp [SimBaseEvent.EarlierThan, SimTime.EarlierThan, h0]
    have hq : (s.ScheduleEvent e).event_queue
        = upTo e.event_time s.event_queue ++ [e] ++ laterThan e.event_time s.event_queue := by
      simp only [SimExec.ScheduleEvent, SimExec.EnqueueEventFromEarliest, hacc]
      exact insertFromEarliest_sorted e s.event_queue hs
    have hc : (s.ScheduleEvent e).curr_time = ⟨0⟩ := by
      simp only [SimExec.ScheduleEvent, SimExec.EnqueueEventFromEarliest, hacc]
      simpa using h0
    have hr : (s.ScheduleEvent e).run_until_time = s.run_until_time := by
      simp [SimExec.ScheduleEvent, SimExec.EnqueueEventFromEarliest, hacc]
    have hs1 : QueueSorted (s.ScheduleEvent e).event_queue := by
      rw [hq]; exact sorted_insert e _ hs
    obtain ⟨i1, i2, i3, i4, i5⟩ := scheduleAll_at_zero rest (s.ScheduleEvent e) hc hs1
    have hfold : SimExec.scheduleAll s (e :: rest)
        = SimExec.scheduleAll (s.ScheduleEvent e) rest := rfl
    rw [hfold]
    refine ⟨i1, i2.trans hr, i3, ?_, ?_⟩
    · refine i4.trans ?_
      rw [hq]
      have := (perm_insert e s.event_queue).append_right rest
      simpa using this
    · intro t
      rw [i5 t, hq, atTime_insert, List.append_assoc]
      congr 1
      unfold atTime
      rw [← List.filter_append, List.singleton_append]


theorem map_fst_atOwnTime (q : List SimBaseEvent) : (atOwnTime q).map Prod.fst = q := by
  simp [atOwnTime, Function.comp_def]

/-- C5: on a sorted queue, with dispatch actions that schedule nothing, `Run`
(given enough fuel) returns having dispatched exactly the queued events whose
time is `≤` the horizon, an event exactly at the horizon included, in queue
order; no dispatched event is later than the horizon, and the undispatched
events are what remains queued, in their original order. -/
theorem Run_dispatches_exactly_up_to_horizon (fk : FloorKind) (s : SimExec)
    (hs : QueueSorted s.event_queue) :
    ∃ N, ∀ fuel, N ≤ fuel →
      ∃ r, SimExec.Run fk noSchedule fuel s () = some r
        ∧ r.dispatched.map Prod.fst = upTo s.run_until_time s.event_queue
        ∧ (∀ x ∈ r.dispatched, x.1.event_time.ticks ≤ s.run_until_time.ticks)
        ∧ r.exec.event_queue = laterThan s.run_until_time s.event_queue := by
  obtain ⟨N, hN⟩ := Run_noSchedule fk s hs
  refine ⟨N, fun fuel hfuel => ?_⟩
  obtain ⟨r, hr, hexec, hd, _⟩ := hN fuel hfuel
  refine ⟨r, hr, ?_, ?_, ?_⟩
  · rw [hd, map_fst_atOwnTime]
  · intro x hx
    rw [hd] at hx
    unfold atOwnTime at hx
    obtain ⟨y, hy, rfl⟩ := List.mem_map.1 hx
    have := (List.mem_filter.1 hy).2
    simpa using this
  · rw [hexec]

/-- The statement of C5 at the queue with times 3, 5, 5, 9 and horizon 5. -/
theorem Run_dispatches_exactly_up_to_horizon_witness :
    QueueSorted [⟨⟨3⟩, 0⟩, ⟨⟨5⟩, 1⟩, ⟨⟨5⟩, 2⟩, ⟨⟨9⟩, 3⟩]
      ∧ ∃ N, ∀ fuel, N ≤ fuel →
        ∃ r, SimExec.Run FloorKind.longDouble noSchedule fuel
              ⟨⟨0⟩, ⟨5⟩, [⟨⟨3⟩, 0⟩, ⟨⟨5⟩, 1⟩, ⟨⟨5⟩, 2⟩, ⟨⟨9⟩, 3⟩]⟩ () = some r
          ∧ r.dispatched.map Prod.fst = [⟨⟨3⟩, 0⟩, ⟨⟨5⟩, 1⟩, ⟨⟨5⟩, 2⟩]
          ∧ (∀ x ∈ r.dispatched, x.1.event_time.ticks ≤ 5)
          ∧ r.exec.event_queue = [⟨⟨9⟩, 3⟩] :=
  ⟨by decide,
    Run_dispatches_exactly_up_to_horizon FloorKind.longDouble
      ⟨⟨0⟩, ⟨5⟩, [⟨⟨3⟩, 0⟩, ⟨⟨5⟩, 1⟩, ⟨⟨5⟩, 2⟩, ⟨⟨9⟩, 3⟩]⟩ (by decide)⟩

/-- C2: events scheduled, in any order of times, into a fresh executive (empty
queue, `curr_time` 0) with horizon `H` not earlier than any of them, and whose
dispatch actions schedule nothing: `Run` (given enough fuel) returns having
dispatched every event exactly once, in non-decreasing time order, the events
of each single time in the order they were scheduled; the queue is left empty. -/
theorem Run_dispatches_in_stable_time_order (fk : FloorKind) (H : SimTime)
    (events : List SimBaseEvent) (hH : ∀ e ∈ events, e.event_time.ticks ≤ H.ticks) :
    ∃ N, ∀ fuel, N ≤ fuel →
      ∃ r, SimExec.Run fk noSchedule fuel
            (SimExec.scheduleAll { SimExec.fresh with run_until_time := H } events) () = some r
        ∧ (r.dispatched.map Prod.fst).Perm events
        ∧ QueueSorted (r.dispatched.map Prod.fst)
        ∧ (∀ t, atTime t (r.dispatched.map Prod.fst) = atTime t events)
        ∧ (∀ x ∈ r.dispatched, x.2 = x.1.event_time)
        ∧ r.exec.event_queue = [] := by
  obtain ⟨_, h2, h3, h4, h5⟩ := scheduleAll_at_zero events
    { SimExec.fresh with run_until_time := H } rfl List.Pairwise.nil
  simp only [SimExec.fresh, List.nil_append] at h2 h4 h5
  have hall : ∀ x ∈ (SimExec.scheduleAll { SimExec.fresh with run_until_time := H }
      events).event_queue, x.event_time.ticks ≤ H.ticks :=
    fun x hx => hH x (h4.subset hx)
  have hup : upTo H (SimExec.scheduleAll { SimExec.fresh with run_until_time := H }
      events).event_queue
      = (SimExec.scheduleAll { SimExec.fresh with run_until_time := H } events).event_queue := by
    unfold upTo
    rw [List.filter_eq_self]
    intro x hx
    simpa using hall x hx
  have hlate : laterThan H (SimExec.scheduleAll { SimExec.fresh with run_until_time := H }
      events).event_queue = [] := by
    unfold laterThan
    rw [List.filter_eq_nil_iff]
    intro x hx
    have := hall x hx
    simp only [decide_eq_true_eq, not_lt]
    exact this
  obtain ⟨N, hN⟩ := Run_noSchedule fk _ h3
  refine ⟨N, fun fuel hfuel => ?_⟩
  obtain ⟨r, hr, hexec, hd, _⟩ := hN fuel hfuel
  simp only [SimExec.fresh] at hd hexec hup hlate hr h3 ⊢
  rw [h2] at hd hexec
  rw [hup] at hd
  rw [hlate] at hexec
  refine ⟨r, hr, ?_, ?_, ?_, ?_, ?_⟩
  · rw [hd, map_fst_atOwnTime]; exact h4
  · rw [hd, map_fst_atOwnTime]; exact h3
  · intro t; rw [hd, map_fst_atOwnTime]; exact h5 t
  · intro x hx
    rw [hd] at hx
    unfold atOwnTime at hx
    obtain ⟨y, _, rfl⟩ := List.mem_map.1 hx
    rfl
  · rw [hexec]

/-- The statement of C2 for events scheduled at times 5, 3, 5, 3 with horizon 9. -/
theorem Run_dispatches_in_stable_time_order_witness :
    (∀ e ∈ ([⟨⟨5⟩, 0⟩, ⟨⟨3⟩, 1⟩, ⟨⟨5⟩, 2⟩, ⟨⟨3⟩, 3⟩] : List SimBaseEvent),
        e.event_time.ticks ≤ 9)
      ∧ ∃ N, ∀ fuel, N ≤ fuel →
        ∃ r, SimExec.Run FloorKind.longDouble noSchedule fuel
              (SimExec.scheduleAll { SimExec.fresh with run_until_time := ⟨9⟩ }
                [⟨⟨5⟩, 0⟩, ⟨⟨3⟩, 1⟩, ⟨⟨5⟩, 2⟩, ⟨⟨3⟩, 3⟩]) () = some r
          ∧ (r.dispatched.map Prod.fst).Perm [⟨⟨5⟩, 0⟩, ⟨⟨3⟩, 1⟩, ⟨⟨5⟩, 2⟩, ⟨⟨3⟩, 3⟩]
          ∧ QueueSorted (r.dispatched.map Prod.fst)
          ∧ (∀ t, atTime t (r.dispatched.map Prod.fst)
              = atTime t [⟨⟨5⟩, 0⟩, ⟨⟨3⟩, 1⟩, ⟨⟨5⟩, 2⟩, ⟨⟨3⟩, 3⟩])
          ∧ (∀ x ∈ r.dispatched, x.2 = x.1.event_time)
          ∧ r.exec.event_queue = [] :=
  ⟨by decide,
    Run_dispatches_in_stable_time_order FloorKind.longDouble ⟨9⟩
      [⟨⟨5⟩, 0⟩, ⟨⟨3⟩, 1⟩, ⟨⟨5⟩, 2⟩, ⟨⟨3⟩, 3⟩] (by decide)⟩


/-! ## The dispatch loop when events schedule further events -/

theorem insertFromEarliest_append (y : SimBaseEvent) :
    ∀ (A B : List SimBaseEvent), (∀ a ∈ A, a.event_time.ticks ≤ y.event_time.ticks) →
      SimExec.insertFromEarliest y (A ++ B) = A ++ SimExec.insertFromEarliest y B
  | [], _, _ => rfl
  | a :: A, B, h => by
    have ha : a.event_time.ticks ≤ y.event_time.ticks := h a (List.mem_cons_self _ _)
    have ih := insertFromEarliest_append y A B (fun x hx => h x (List.mem_cons_of_mem _ hx))
    simp [SimExec.insertFromEarliest, SimBaseEvent.AsEarlyAsEvent, SimTime.AsEarlyAs, ha, ih]

theorem insertFromEarliest_before_later (y : SimBaseEvent) (B : List SimBaseEvent)
    (h : ∀ b ∈ B, y.event_time.ticks < b.event_time.ticks) :
    SimExec.insertFromEarliest y B = y :: B := by
  cases B with
  | nil => rfl
  | cons b B =>
    have hb : ¬ b.event_time.ticks ≤ y.event_time.ticks :=
      not_le.2 (h b (List.mem_cons_self _ _))
    simp [SimExec.insertFromEarliest, SimBaseEvent.AsEarlyAsEvent, SimTime.AsEarlyAs, hb]

theorem mem_insertFromEarliest (y x : SimBaseEvent) :
    ∀ B : List SimBaseEvent, x ∈ SimExec.insertFromEarliest y B ↔ x = y ∨ x ∈ B
  | [] => by simp [SimExec.insertFromEarliest]
  | b :: B => by
    by_cases hb : b.AsEarlyAsEvent y = true
    · simp [SimExec.insertFromEarliest, hb, mem_insertFromEarliest y x B]
      tauto
    · simp [SimExec.insertFromEarliest, hb]

theorem ScheduleEvent_clock (s : SimExec) (y : SimBaseEvent) :
    (s.ScheduleEvent y).curr_time = s.curr_time
      ∧ (s.ScheduleEvent y).run_until_time = s.run_until_time := by
  unfold SimExec.ScheduleEvent SimExec.EnqueueEventFromEarliest
  split <;> exact ⟨rfl, rfl⟩

theorem scheduleAll_cons (s : SimExec) (y : SimBaseEvent) (ns : List SimBaseEvent) :
    SimExec.scheduleAll s (y :: ns) = SimExec.scheduleAll (s.ScheduleEvent y) ns := rfl

theorem scheduleAll_append (s : SimExec) (n1 n2 : List SimBaseEvent) :
    SimExec.scheduleAll s (n1 ++ n2) = SimExec.scheduleAll (SimExec.scheduleAll s n1) n2 := by
  unfold SimExec.scheduleAll
  rw [List.foldl_append]

theorem scheduleAll_clock :
    ∀ (ns : List SimBaseEvent) (s : SimExec),
      (SimExec.scheduleAll s ns).curr_time = s.curr_time
        ∧ (SimExec.scheduleAll s ns).run_until_time = s.run_until_time
  | [], _ => ⟨rfl, rfl⟩
  | y :: ns, s => by
    rw [scheduleAll_cons]
    obtain ⟨h1, h2⟩ := scheduleAll_clock ns (s.ScheduleEvent y)
    obtain ⟨h3, h4⟩ := ScheduleEvent_clock s y
    exact ⟨h1.trans h3, h2.trans h4⟩

/-- Events scheduled while the queue starts with events `A` at the current time
go behind `A`. -/
theorem scheduleAll_keeps_front (t : SimTime) (A : List SimBaseEvent)
    (hA : ∀ a ∈ A, a.event_time.ticks = t.ticks) :
    ∀ (ns : List SimBaseEvent) (s : SimExec) (B : List SimBaseEvent),
      s.curr_time = t → s.event_queue = A ++ B →
      ∃ B', (SimExec.scheduleAll s ns).event_queue = A ++ B'
  | [], s, B, _, hq => ⟨B, hq⟩
  | y :: ns, s, B, hc, hq => by
    rw [scheduleAll_cons]
    have hc' : (s.ScheduleEvent y).curr_time = t := (ScheduleEvent_clock s y).1.trans hc
    by_cases hy : y.event_time.ticks < t.ticks
    · have hs : s.ScheduleEvent y = s := by
        simp [SimExec.ScheduleEvent, SimExec.EnqueueEventFromEarliest, SimBaseEvent.EarlierThan,
          SimTime.EarlierThan, hc, hy]
      rw [hs]
      exact scheduleAll_keeps_front t A hA ns s B hc hq
    · have hq' : (s.ScheduleEvent y).event_queue = A ++ SimExec.insertFromEarliest y B := by
        simp only [SimExec.ScheduleEvent, SimExec.EnqueueEventFromEarliest,
          SimBaseEvent.EarlierThan, SimTime.EarlierThan, hc, hy, decide_False,
          Bool.false_eq_true, if_false, hq]
        exact insertFromEarliest_append y A B (fun a ha => by have := hA a ha; omega)
      exact scheduleAll_keeps_front t A hA ns _ _ hc' hq'

/-- Events scheduled while the queue consists of events `A` at the current time
`t` followed by later events: those scheduled for `t` are appended to `A`, in
call order. -/
theorem scheduleAll_same_time (t : SimTime) :
    ∀ (ns : List SimBaseEvent) (s : SimExec) (A B : List SimBaseEvent),
      s.curr_time = t → s.event_queue = A ++ B →
      (∀ a ∈ A, a.event_time.ticks = t.ticks) → (∀ b ∈ B, t.ticks < b.event_time.ticks) →
      ∃ B', (SimExec.scheduleAll s ns).event_queue = (A ++ atTime t ns) ++ B'
        ∧ ∀ b ∈ B', t.ticks < b.event_time.ticks
  | [], s, A, B, _, hq, _, hB => ⟨B, by simpa [atTime, SimExec.scheduleAll] using hq, hB⟩
  | y :: ns, s, A, B, hc, hq, hA, hB => by
    rw [scheduleAll_cons]
    have hc' : (s.ScheduleEvent y).curr_time = t := (ScheduleEvent_clock s y).1.trans hc
    rcases Nat.lt_trichotomy y.event_time.ticks t.ticks with hy | hy | hy
    · have hs : s.ScheduleEvent y = s := by
        simp [SimExec.ScheduleEvent, SimExec.EnqueueEventFromEarliest, SimBaseEvent.EarlierThan,
          SimTime.EarlierThan, hc, hy]
      have hat : atTime t (y :: ns) = atTime t ns := by
        unfold atTime
        rw [List.filter_cons]
        simp [Nat.ne_of_lt hy]
      rw [hs, hat]
      exact scheduleAll_same_time t ns s A B hc hq hA hB
    · have hny : ¬ y.event_time.ticks < t.ticks := by omega
      have hq' : (s.ScheduleEvent y).event_queue = (A ++ [y]) ++ B := by
        simp only [SimExec.ScheduleEvent, SimExec.EnqueueEventFromEarliest,
          SimBaseEvent.EarlierThan, SimTime.EarlierThan, hc, hny, decide_False,
          Bool.false_eq_true, if_false, hq]
        rw [insertFromEarliest_append y A B (fun a ha => by have := hA a ha; omega),
          insertFromEarliest_before_later y B (fun b hb => by have := hB b hb; omega)]
        simp
      have hA' : ∀ a ∈ A ++ [y], a.event_time.ticks = t.ticks := by
        intro a ha
        rcases List.mem_append.1 ha with ha | ha
        · exact hA a ha
        · rw [List.mem_singleton] at ha; subst ha; exact hy
      obtain ⟨B', h1, h2⟩ := scheduleAll_same_time t ns _ (A ++ [y]) B hc' hq' hA' hB
      refine ⟨B', ?_, h2⟩
      have hat : atTime t (y :: ns) = y :: atTime t ns := by
        unfold atTime
        rw [List.filter_cons]
        simp [hy]
      rw [h1, hat]
      simp
    · have hny : ¬ y.event_time.ticks < t.ticks := by omega
      have hq' : (s.ScheduleEvent y).event_queue = A ++ SimExec.insertFromEarliest y B := by
        simp only [SimExec.ScheduleEvent, SimExec.EnqueueEventFromEarliest,
          SimBaseEvent.EarlierThan, SimTime.EarlierThan, hc, hny, decide_False,
          Bool.false_eq_true, if_false, hq]
        exact insertFromEarliest_append y A B (fun a ha => by have := hA a ha; omega)
      have hB' : ∀ b ∈ SimExec.insertFromEarliest y B, t.ticks < b.event_time.ticks := by
        intro b hb
        rcases (mem_insertFromEarliest y b B).1 hb with rfl | hb
        · exact hy
        · exact hB b hb
      have hat : atTime t (y :: ns) = atTime t ns := by
        unfold atTime
        rw [List.filter_cons]
        simp [Nat.ne_of_gt hy]
      rw [hat]
      exact scheduleAll_same_time t ns _ A _ hc' hq' hA hB'

theorem runSteps_succ_last {σ : Type} (act : DispatchAction σ) (n : ℕ) (m : RunState σ) :
    SimExec.runSteps act (n + 1) m = SimExec.runStep act (SimExec.runSteps act n m) := by
  unfold SimExec.runSteps
  rw [Function.iterate_succ_apply']

/-- One pass through the body of the inner loop of `Run`. -/
theorem runStep_dispatch {σ : Type} (act : DispatchAction σ) (m : RunState σ)
    (h : SimBaseEvent) (hpoint : m.point = RunPoint.innerTest) (hhead : m.head_event = some h)
    (htime : h.event_time = m.exec.curr_time) :
    (SimExec.runStep act m).point = RunPoint.innerTest
      ∧ (SimExec.runStep act m).exec.curr_time = m.exec.curr_time
      ∧ (SimExec.runStep act m).exec.event_queue
          = (SimExec.scheduleAll m.exec (act m.outside m.exec.curr_time h).2).event_queue.tail
      ∧ (SimExec.runStep act m).head_event
          = (SimExec.scheduleAll m.exec
              (act m.outside m.exec.curr_time h).2).event_queue.tail.head?
      ∧ (SimExec.runStep act m).dispatched = m.dispatched ++ [(h, m.exec.curr_time)] := by
  have hsame : h.SameTimeAs m.exec.curr_time = true := by
    simp [SimBaseEvent.SameTimeAs, SimTime.SameAs, htime]
  unfold SimExec.runStep
  rw [hpoint]
  simp only [hhead, hsame, if_true]
  refine ⟨trivial, ?_, trivial, trivial, trivial⟩
  exact (scheduleAll_clock _ _).1

theorem sorted_split_at_head (t : SimTime) :
    ∀ rest : List SimBaseEvent, QueueSorted rest →
      (∀ x ∈ rest, t.ticks ≤ x.event_time.ticks) →
      rest = atTime t rest ++ laterThan t rest
  | [], _, _ => rfl
  | x :: xs, hs, hge => by
    have hxs : QueueSorted xs := (List.pairwise_cons.1 hs).2
    have hx : ∀ y ∈ xs, x.event_time.ticks ≤ y.event_time.ticks := (List.pairwise_cons.1 hs).1
    by_cases hxt : x.event_time.ticks = t.ticks
    · have ih := sorted_split_at_head t xs hxs (fun y hy => hge y (List.mem_cons_of_mem _ hy))
      have h1 : atTime t (x :: xs) = x :: atTime t xs := by
        unfold atTime; rw [List.filter_cons]; simp [hxt]
      have h2 : laterThan t (x :: xs) = laterThan t xs := by
        unfold laterThan; rw [List.filter_cons]; simp [hxt]
      rw [h1, h2, List.cons_append, ← ih]
    · have hlt : t.ticks < x.event_time.ticks := by
        have := hge x (List.mem_cons_self _ _)
        omega
      have h1 : atTime t (x :: xs) = [] := by
        unfold atTime
        rw [List.filter_eq_nil_iff]
        intro y hy
        simp only [decide_eq_true_eq]
        rcases List.mem_cons.1 hy with rfl | hy
        · exact hxt
        · have := hx y hy; omega
      have h2 : laterThan t (x :: xs) = x :: xs := by
        unfold laterThan
        rw [List.filter_eq_self]
        intro y hy
        simp only [decide_eq_true_eq]
        rcases List.mem_cons.1 hy with rfl | hy
        · exact hlt
        · have := hx y hy; omega
      rw [h1, h2, List.nil_append]

/-- The inner loop of `Run` works through the events `P` at the current time that
precede `e`: whatever their dispatch schedules goes behind `e`, and `e` becomes
the head while `curr_time_` has not moved. -/
theorem inner_reaches {σ : Type} (act : DispatchAction σ) (t : SimTime) (e : SimBaseEvent)
    (he : e.event_time = t) :
    ∀ (P : List SimBaseEvent) (m : RunState σ) (B : List SimBaseEvent),
      (∀ x ∈ P, x.event_time.ticks = t.ticks) →
      m.point = RunPoint.innerTest → m.exec.curr_time = t →
      m.exec.event_queue = P ++ e :: B → m.head_event = m.exec.event_queue.head? →
      (SimExec.runSteps act P.length m).point = RunPoint.innerTest
        ∧ (SimExec.runSteps act P.length m).exec.curr_time = t
        ∧ (SimExec.runSteps act P.length m).head_event = some e
        ∧ (∃ B', (SimExec.runSteps act P.length m).exec.event_queue = e :: B')
        ∧ (SimExec.runSteps act P.length m).dispatched
            = m.dispatched ++ P.map (fun x => (x, t))
  | [], m, B, _, hp, hc, hq, hh => by
    refine ⟨hp, hc, ?_, ⟨B, by simpa using hq⟩, by simp [SimExec.runSteps]⟩
    simp only [SimExec.runSteps, List.length_nil, Function.iterate_zero, id_eq]
    rw [hh, hq]
    rfl
  | x :: P, m, B, hP, hp, hc, hq, hh => by
    have hx : x.event_time = t := by
      have := hP x (List.mem_cons_self _ _)
      cases hxt : x.event_time; cases t; simp_all
    have hhead : m.head_event = some x := by rw [hh, hq]; rfl
    obtain ⟨s1, s2, s3, s4, s5⟩ := runStep_dispatch act m x hp hhead (hx.trans hc.symm)
    have hfront : ∀ a ∈ (x :: P) ++ [e], a.event_time.ticks = t.ticks := by
      intro a ha
      rcases List.mem_append.1 ha with ha | ha
      · exact hP a ha
      · rw [List.mem_singleton] at ha; subst ha; rw [he]
    obtain ⟨B', hB'⟩ := scheduleAll_keeps_front t ((x :: P) ++ [e]) hfront
      (act m.outside m.exec.curr_time x).2 m.exec B hc (by rw [hq]; simp)
    have hq1 : (SimExec.runStep act m).exec.event_queue = P ++ e :: B' := by
      rw [s3, hB']; simp
    have hh1 : (SimExec.runStep act m).head_event
        = (SimExec.runStep act m).exec.event_queue.head? := by
      rw [s4, s3]
    obtain ⟨r1, r2, r3, r4, r5⟩ := inner_reaches act t e he P (SimExec.runStep act m) B'
      (fun a ha => hP a (List.mem_cons_of_mem _ ha)) s1 (s2.trans hc) hq1 hh1
    simp only [List.length_cons]
    rw [runSteps_succ]
    refine ⟨r1, r2, r3, r4, ?_⟩
    rw [r5, s5, hc]
    simp


/-- C6: the inner loop of `Run` is about to dispatch the head event `h` at time
`t = curr_time` (sorted queue `h :: rest`), and that dispatch schedules the events
`n1 ++ e :: n2` where `e` is also at time `t`.  Then `e` is accepted into the
queue; the loop next dispatches, all at `curr_time = t`, exactly the events at
time `t` that were already queued (`atTime t rest`) followed by those at time `t`
scheduled before `e` in the same dispatch; after these `e` is the head event
while `curr_time` is still `t`, and the following step dispatches `e` at `t`:
after every event at time `t` that was already queued, before any later event. -/
theorem same_time_event_dispatched_in_same_window {σ : Type} (act : DispatchAction σ)
    (m : RunState σ) (h e : SimBaseEvent) (rest n1 n2 : List SimBaseEvent)
    (hpoint : m.point = RunPoint.innerTest) (hhead : m.head_event = some h)
    (hqueue : m.exec.event_queue = h :: rest) (hsorted : QueueSorted (h :: rest))
    (htime : h.event_time = m.exec.curr_time)
    (hact : (act m.outside m.exec.curr_time h).2 = n1 ++ e :: n2)
    (he : e.event_time = m.exec.curr_time) :
    e ∈ (SimExec.runStep act m).exec.event_queue
      ∧ (SimExec.runSteps act
            ((atTime m.exec.curr_time rest ++ atTime m.exec.curr_time n1).length + 1)
            m).point = RunPoint.innerTest
      ∧ (SimExec.runSteps act
            ((atTime m.exec.curr_time rest ++ atTime m.exec.curr_time n1).length + 1)
            m).head_event = some e
      ∧ (SimExec.runSteps act
            ((atTime m.exec.curr_time rest ++ atTime m.exec.curr_time n1).length + 1)
            m).exec.curr_time = m.exec.curr_time
      ∧ (SimExec.runSteps act
            ((atTime m.exec.curr_time rest ++ atTime m.exec.curr_time n1).length + 1)
            m).dispatched
          = m.dispatched ++ (h, m.exec.curr_time)
              :: (atTime m.exec.curr_time rest ++ atTime m.exec.curr_time n1).map
                  (fun x => (x, m.exec.curr_time))
      ∧ (SimExec.runSteps act
            ((atTime m.exec.curr_time rest ++ atTime m.exec.curr_time n1).length + 2)
            m).dispatched
          = m.dispatched ++ (h, m.exec.curr_time)
              :: (atTime m.exec.curr_time rest ++ atTime m.exec.curr_time n1).map
                  (fun x => (x, m.exec.curr_time)) ++ [(e, m.exec.curr_time)] := by
  obtain ⟨s1, s2, s3, s4, s5⟩ := runStep_dispatch act m h hpoint hhead htime
  -- the queue before the dispatch: the events at `t`, then the later ones
  have hge : ∀ x ∈ rest, m.exec.curr_time.ticks ≤ x.event_time.ticks := by
    intro x hx
    rw [← htime]
    exact (List.pairwise_cons.1 hsorted).1 x hx
  have hsplit := sorted_split_at_head m.exec.curr_time rest (List.pairwise_cons.1 hsorted).2 hge
  have hq0 : m.exec.event_queue
      = (h :: atTime m.exec.curr_time rest) ++ laterThan m.exec.curr_time rest := by
    rw [hqueue, List.cons_append, ← hsplit]
  have hA0 : ∀ a ∈ h :: atTime m.exec.curr_time rest,
      a.event_time.ticks = m.exec.curr_time.ticks := by
    intro a ha
    rcases List.mem_cons.1 ha with rfl | ha
    · rw [htime]
    · simpa [atTime] using (List.mem_filter.1 ha).2
  have hB0 : ∀ b ∈ laterThan m.exec.curr_time rest,
      m.exec.curr_time.ticks < b.event_time.ticks := by
    intro b hb
    simpa [laterThan] using (List.mem_filter.1 hb).2
  -- the events scheduled before `e`
  obtain ⟨B1, hq1, hB1⟩ := scheduleAll_same_time m.exec.curr_time n1 m.exec _ _ rfl hq0 hA0 hB0
  have hc1 : (SimExec.scheduleAll m.exec n1).curr_time = m.exec.curr_time :=
    (scheduleAll_clock n1 m.exec).1
  -- `e` itself
  obtain ⟨B2, hq2, hB2⟩ := scheduleAll_same_time m.exec.curr_time [e]
    (SimExec.scheduleAll m.exec n1) _ _ hc1 hq1
    (by
      intro a ha
      rcases List.mem_append.1 ha with ha | ha
      · exact hA0 a ha
      · simpa [atTime] using (List.mem_filter.1 ha).2) hB1
  have hate : atTime m.exec.curr_time [e] = [e] := by
    unfold atTime
    rw [List.filter_eq_self]
    intro x hx
    rw [List.mem_singleton] at hx
    subst hx
    simp [he]
  rw [hate] at hq2
  have hc2 : (SimExec.scheduleAll (SimExec.scheduleAll m.exec n1) [e]).curr_time
      = m.exec.curr_time := (scheduleAll_clock _ _).1.trans hc1
  -- the events scheduled after `e`
  have hfront : ∀ a ∈ ((h :: atTime m.exec.curr_time rest) ++ atTime m.exec.curr_time n1)
      ++ [e], a.event_time.ticks = m.exec.curr_time.ticks := by
    intro a ha
    rcases List.mem_append.1 ha with ha | ha
    · rcases List.mem_append.1 ha with ha | ha
      · exact hA0 a ha
      · simpa [atTime] using (List.mem_filter.1 ha).2
    · rw [List.mem_singleton] at ha; subst ha; rw [he]
  obtain ⟨B3, hq3⟩ := scheduleAll_keeps_front m.exec.curr_time _ hfront n2
    (SimExec.scheduleAll (SimExec.scheduleAll m.exec n1) [e]) B2 hc2 hq2
  have hall : SimExec.scheduleAll m.exec (act m.outside m.exec.curr_time h).2
      = SimExec.scheduleAll (SimExec.scheduleAll (SimExec.scheduleAll m.exec n1) [e]) n2 := by
    rw [hact, scheduleAll_append]
    rfl
  have hqs : (SimExec.runStep act m).exec.event_queue
      = (atTime m.exec.curr_time rest ++ atTime m.exec.curr_time n1) ++ e :: B3 := by
    rw [s3, hall, hq3]
    simp
  have hhs : (SimExec.runStep act m).head_event
      = (SimExec.runStep act m).exec.event_queue.head? := by
    rw [s4, s3]
  have hbefore : ∀ x ∈ atTime m.exec.curr_time rest ++ atTime m.exec.curr_time n1,
      x.event_time.ticks = m.exec.curr_time.ticks := by
    intro x hx
    rcases List.mem_append.1 hx with hx | hx <;>
      simpa [atTime] using (List.mem_filter.1 hx).2
  obtain ⟨r1, r2, r3, ⟨B4, r4⟩, r5⟩ := inner_reaches act m.exec.curr_time e he
    (atTime m.exec.curr_time rest ++ atTime m.exec.curr_time n1) (SimExec.runStep act m) B3
    hbefore s1 s2 hqs hhs
  have hsteps : ∀ k, SimExec.runSteps act (k + 1) m
      = SimExec.runSteps act k (SimExec.runStep act m) := fun k => runSteps_succ act k m
  refine ⟨?_, ?_, ?_, ?_, ?_, ?_⟩
  · rw [hqs]; simp
  · rw [hsteps]; exact r1
  · rw [hsteps]; exact r3
  · rw [hsteps]; exact r2
  · rw [hsteps, r5, s5]; simp
  · have h2 : SimExec.runSteps act
        ((atTime m.exec.curr_time rest ++ atTime m.exec.curr_time n1).length + 2) m
        = SimExec.runStep act (SimExec.runSteps act
            (atTime m.exec.curr_time rest ++ atTime m.exec.curr_time n1).length
            (SimExec.runStep act m)) := by
      rw [show (atTime m.exec.curr_time rest ++ atTime m.exec.curr_time n1).length + 2
          = ((atTime m.exec.curr_time rest ++ atTime m.exec.curr_time n1).length + 1) + 1
          from rfl, hsteps, runSteps_succ_last]
    rw [h2]
    obtain ⟨_, _, _, _, t5⟩ := runStep_dispatch act _ e r1 r3 (he.trans r2.symm)
    rw [t5, r5, s5, r2]
    simp


/-- The statement of C6 where the event with tag 0, dispatched at time 5 ahead of
another event at 5 and one at 7, schedules a new event at time 5. -/
theorem same_time_event_dispatched_in_same_window_witness :
    QueueSorted [⟨⟨5⟩, 0⟩, ⟨⟨5⟩, 2⟩, ⟨⟨7⟩, 3⟩]
      ∧ (SimExec.runSteps spawnAtNow 3
            ⟨⟨⟨5⟩, ⟨100⟩, [⟨⟨5⟩, 0⟩, ⟨⟨5⟩, 2⟩, ⟨⟨7⟩, 3⟩]⟩, (), some ⟨⟨5⟩, 0⟩,
              RunPoint.innerTest, []⟩).dispatched
          = [(⟨⟨5⟩, 0⟩, ⟨5⟩), (⟨⟨5⟩, 2⟩, ⟨5⟩), (⟨⟨5⟩, 1⟩, ⟨5⟩)] :=
  ⟨by decide,
    (same_time_event_dispatched_in_same_window spawnAtNow
      ⟨⟨⟨5⟩, ⟨100⟩, [⟨⟨5⟩, 0⟩, ⟨⟨5⟩, 2⟩, ⟨⟨7⟩, 3⟩]⟩, (), some ⟨⟨5⟩, 0⟩,
        RunPoint.innerTest, []⟩
      ⟨⟨5⟩, 0⟩ ⟨⟨5⟩, 1⟩ [⟨⟨5⟩, 2⟩, ⟨⟨7⟩, 3⟩] [] []
      rfl rfl rfl (by decide) rfl rfl rfl).2.2.2.2.2⟩


/-! ## The instant reported by `Run` -/

/-- The conversion of the tick count `2 ^ 63 + 1` to user time and back: the user
time is `92233720368547758.09375` (the grid there is `1/128`), its product with 100
rounds to `2 ^ 63 + 1`, and the sum with `1/2` is a tie that goes to the even
`2 ^ 63 + 2`; through `floor(double)` the result is `2 ^ 63`. -/
theorem round_trip_of_large_tick_count :
    SimTime.ofUserTime FloorKind.longDouble (SimTime.GetUserTime ⟨2 ^ 63 + 1⟩)
        = Except.ok ⟨2 ^ 63 + 2⟩
      ∧ SimTime.ofUserTime FloorKind.double (SimTime.GetUserTime ⟨2 ^ 63 + 1⟩)
        = Except.ok ⟨2 ^ 63⟩ := by
  have hget : SimTime.GetUserTime ⟨2 ^ 63 + 1⟩ = 11805916207174113036 / 128 := by
    unfold SimTime.GetUserTime ldDiv kTicksPerUserTimeUnit
    rw [ofTick_eq _ (by norm_num)]
    rw [rnd_eval 64 _ 56 11805916207174113036 (by norm_num [abs_of_nonneg])
      (by norm_num [abs_of_nonneg]) (by norm_num [abs_lt])]
    norm_num
  have hmul : ldMul (11805916207174113036 / 128) kTicksPerUserTimeUnit
      = 9223372036854775809 := by
    unfold ldMul kTicksPerUserTimeUnit
    rw [rnd_eval 64 _ 63 9223372036854775809 (by norm_num [abs_of_nonneg])
      (by norm_num [abs_of_nonneg]) (by norm_num [abs_lt])]
    norm_num
  have hadd : ldAdd 9223372036854775809 (1 / 2) = 9223372036854775810 := by
    unfold ldAdd
    rw [rnd_eval_tie 64 _ 63 9223372036854775809 (by norm_num [abs_of_nonneg])
      (by norm_num [abs_of_nonneg]) (by norm_num)]
    norm_num
  have hdbl : rnd 53 9223372036854775810 = 9223372036854775808 := by
    rw [rnd_eval 53 _ 63 (2 ^ 52) (by norm_num [abs_of_nonneg])
      (by norm_num [abs_of_nonneg]) (by norm_num [abs_lt])]
    norm_num
  have hguard : ¬ ((9223372036854775810 : ℚ) > kMaxRealNumTicks) := by
    rw [kMaxRealNumTicks_eq]; norm_num
  have hmax : ¬ ((11805916207174113036 / 128 : ℚ) > kMaxUserTimeUnits) := by
    rw [kMaxUserTimeUnits_eq]; norm_num
  rw [hget]
  constructor
  · unfold SimTime.ofUserTime SimTime.SetTime
    rw [if_pos ⟨by norm_num, hmax⟩, hmul]
    unfold SimTime.RealTicks2Ticks
    rw [hadd, if_pos hguard]
    simp only [floorArg]
    rw [show ⌊(9223372036854775810 : ℚ)⌋ = 9223372036854775810 from
      Int.floor_eq_iff.2 ⟨by norm_num, by norm_num⟩]
    rfl
  · unfold SimTime.ofUserTime SimTime.SetTime
    rw [if_pos ⟨by norm_num, hmax⟩, hmul]
    unfold SimTime.RealTicks2Ticks
    rw [hadd, if_pos hguard]
    simp only [floorArg]
    rw [hdbl, show ⌊(9223372036854775808 : ℚ)⌋ = 9223372036854775808 from
      Int.floor_eq_iff.2 ⟨by norm_num, by norm_num⟩]
    rfl

/-- C4 at the queue holding one event at tick `2 ^ 63 + 1` with the horizon at the
maximum instant, the event scheduling nothing: `Run` dispatches the event, leaves
`curr_time` at `2 ^ 63 + 1`, which is earlier than the horizon, and returns the
instant `2 ^ 63 + 2` (`2 ^ 63` when `floor` is `floor(double)`), not the time of
the last event it dispatched. -/
theorem Run_return_time_off_at_large_tick_count :
    QueueSorted [⟨⟨2 ^ 63 + 1⟩, 0⟩]
      ∧ (∀ e ∈ ([⟨⟨2 ^ 63 + 1⟩, 0⟩] : List SimBaseEvent), e.event_time.ticks < 2 ^ 64 - 1)
      ∧ (∃ N, ∀ fuel, N ≤ fuel →
          ∃ r, SimExec.Run FloorKind.longDouble noSchedule fuel
                ⟨⟨0⟩, ⟨2 ^ 64 - 1⟩, [⟨⟨2 ^ 63 + 1⟩, 0⟩]⟩ () = some r
            ∧ r.dispatched = [(⟨⟨2 ^ 63 + 1⟩, 0⟩, ⟨2 ^ 63 + 1⟩)]
            ∧ r.exec.curr_time = ⟨2 ^ 63 + 1⟩
            ∧ r.return_time = Except.ok ⟨2 ^ 63 + 2⟩)
      ∧ (∃ N, ∀ fuel, N ≤ fuel →
          ∃ r, SimExec.Run FloorKind.double noSchedule fuel
                ⟨⟨0⟩, ⟨2 ^ 64 - 1⟩, [⟨⟨2 ^ 63 + 1⟩, 0⟩]⟩ () = some r
            ∧ r.dispatched = [(⟨⟨2 ^ 63 + 1⟩, 0⟩, ⟨2 ^ 63 + 1⟩)]
            ∧ r.exec.curr_time = ⟨2 ^ 63 + 1⟩
            ∧ r.return_time = Except.ok ⟨2 ^ 63⟩) := by
  have hsorted : QueueSorted [⟨⟨2 ^ 63 + 1⟩, 0⟩] := List.pairwise_singleton _ _
  have hexec : (⟨finalTime ⟨0⟩ ⟨2 ^ 64 - 1⟩ [⟨⟨2 ^ 63 + 1⟩, 0⟩], ⟨2 ^ 64 - 1⟩,
      laterThan ⟨2 ^ 64 - 1⟩ [⟨⟨2 ^ 63 + 1⟩, 0⟩]⟩ : SimExec)
      = ⟨⟨2 ^ 63 + 1⟩, ⟨2 ^ 64 - 1⟩, []⟩ := by decide
  have hdisp : atOwnTime (upTo ⟨2 ^ 64 - 1⟩ [⟨⟨2 ^ 63 + 1⟩, 0⟩])
      = [(⟨⟨2 ^ 63 + 1⟩, 0⟩, ⟨2 ^ 63 + 1⟩)] := by decide
  have hret : ∀ fk, SimExec.returnTime fk ⟨⟨2 ^ 63 + 1⟩, ⟨2 ^ 64 - 1⟩, []⟩
      = SimTime.ofUserTime fk (SimTime.GetUserTime ⟨2 ^ 63 + 1⟩) := by
    intro fk
    have : SimTime.AsEarlyAs ⟨2 ^ 63 + 1⟩ ⟨2 ^ 64 - 1⟩ = true := by decide
    simp only [SimExec.returnTime, this, if_true]
  refine ⟨hsorted, by decide, ?_, ?_⟩
  · obtain ⟨N, hN⟩ := Run_noSchedule FloorKind.longDouble
      ⟨⟨0⟩, ⟨2 ^ 64 - 1⟩, [⟨⟨2 ^ 63 + 1⟩, 0⟩]⟩ hsorted
    refine ⟨N, fun fuel hfuel => ?_⟩
    obtain ⟨r, hr, he, hd, ht⟩ := hN fuel hfuel
    rw [hexec] at he
    refine ⟨r, hr, hd.trans hdisp, by rw [he], ?_⟩
    rw [ht, he, hret]
    exact round_trip_of_large_tick_count.1
  · obtain ⟨N, hN⟩ := Run_noSchedule FloorKind.double
      ⟨⟨0⟩, ⟨2 ^ 64 - 1⟩, [⟨⟨2 ^ 63 + 1⟩, 0⟩]⟩ hsorted
    refine ⟨N, fun fuel hfuel => ?_⟩
    obtain ⟨r, hr, he, hd, ht⟩ := hN fuel hfuel
    rw [hexec] at he
    refine ⟨r, hr, hd.trans hdisp, by rw [he], ?_⟩
    rw [ht, he, hret]
    exact round_trip_of_large_tick_count.2

theorem returnTime_small (fk : FloorKind) (s : SimExec) (hH : s.run_until_time.ticks < 2 ^ 50) :
    SimExec.returnTime fk s
      = Except.ok (if s.curr_time.AsEarlyAs s.run_until_time then s.curr_time
          else s.run_until_time) := by
  unfold SimExec.returnTime
  by_cases hc : s.curr_time.AsEarlyAs s.run_until_time = true
  · have hle : s.curr_time.ticks ≤ s.run_until_time.ticks := by
      simpa [SimTime.AsEarlyAs] using hc
    rw [if_pos hc, if_pos hc]
    exact ofUserTime_GetUserTime fk _ (lt_of_le_of_lt hle hH)
  · rw [if_neg hc, if_neg hc]
    exact ofUserTime_GetUserTime fk _ hH

/-- The return value of `Run`, for a horizon below `2 ^ 50` ticks: on a non-empty
sorted queue whose events schedule nothing, `Run` (given enough fuel) returns the
time of the last event it dispatched when every queued event is earlier than the
horizon, and exactly the horizon when some queued event is later than it; either
way the earlier of `curr_time`, as the loop left it, and the horizon. -/
theorem Run_returns_last_event_time_or_horizon (fk : FloorKind) (s : SimExec)
    (hne : s.event_queue ≠ []) (hs : QueueSorted s.event_queue)
    (hH : s.run_until_time.ticks < 2 ^ 50) :
    ∃ N, ∀ fuel, N ≤ fuel →
      ∃ r, SimExec.Run fk noSchedule fuel s () = some r
        ∧ ((∀ e ∈ s.event_queue, e.event_time.ticks < s.run_until_time.ticks) →
            ∃ l, r.dispatched.getLast? = some (l, l.event_time)
              ∧ r.return_time = Except.ok l.event_time)
        ∧ ((∃ e ∈ s.event_queue, s.run_until_time.ticks < e.event_time.ticks) →
            r.return_time = Except.ok s.run_until_time)
        ∧ r.return_time
            = Except.ok (if r.exec.curr_time.AsEarlyAs s.run_until_time then r.exec.curr_time
                else s.run_until_time) := by
  obtain ⟨N, hN⟩ := Run_noSchedule fk s hs
  refine ⟨N, fun fuel hfuel => ?_⟩
  obtain ⟨r, hr, he, hd, ht⟩ := hN fuel hfuel
  have hrun : r.exec.run_until_time = s.run_until_time := by rw [he]
  have hret : r.return_time
      = Except.ok (if r.exec.curr_time.AsEarlyAs s.run_until_time then r.exec.curr_time
          else s.run_until_time) := by
    rw [ht, returnTime_small fk r.exec (by rw [hrun]; exact hH), hrun]
  have hcurr : r.exec.curr_time = finalTime s.curr_time s.run_until_time s.event_queue := by
    rw [he]
  refine ⟨r, hr, ?_, ?_, hret⟩
  · intro hall
    have hlate : laterThan s.run_until_time s.event_queue = [] := by
      unfold laterThan
      rw [List.filter_eq_nil_iff]
      intro x hx
      have := hall x hx
      simp only [decide_eq_true_eq, not_lt]
      omega
    have hup : upTo s.run_until_time s.event_queue = s.event_queue := by
      unfold upTo
      rw [List.filter_eq_self]
      intro x hx
      have := hall x hx
      simp only [decide_eq_true_eq]
      omega
    obtain ⟨l, hl⟩ : ∃ l, s.event_queue.getLast? = some l := by
      cases hq : s.event_queue.getLast? with
      | none => exact absurd (List.getLast?_eq_none_iff.1 hq) hne
      | some l => exact ⟨l, rfl⟩
    have hfin : finalTime s.curr_time s.run_until_time s.event_queue = l.event_time := by
      unfold finalTime
      rw [hlate, hl]
      rfl
    have hle : l.event_time.AsEarlyAs s.run_until_time = true := by
      have := hall l (List.mem_of_getLast?_eq_some hl)
      simp only [SimTime.AsEarlyAs, decide_eq_true_eq]
      omega
    refine ⟨l, ?_, ?_⟩
    · rw [hd, hup]
      unfold atOwnTime
      rw [List.getLast?_map, hl]
      rfl
    · rw [hret, hcurr, hfin, if_pos hle]
  · rintro ⟨e, hemem, he'⟩
    have hmem : e ∈ laterThan s.run_until_time s.event_queue := by
      unfold laterThan
      rw [List.mem_filter]
      exact ⟨hemem, by simpa using he'⟩
    obtain ⟨x, rest, hx⟩ : ∃ x rest, laterThan s.run_until_time s.event_queue = x :: rest := by
      cases hq : laterThan s.run_until_time s.event_queue with
      | nil => rw [hq] at hmem; exact absurd hmem (List.not_mem_nil _)
      | cons x rest => exact ⟨x, rest, rfl⟩
    have hxl : s.run_until_time.ticks < x.event_time.ticks := by
      have : x ∈ laterThan s.run_until_time s.event_queue := by rw [hx]; exact List.mem_cons_self _ _
      unfold laterThan at this
      simpa using (List.mem_filter.1 this).2
    have hfin : finalTime s.curr_time s.run_until_time s.event_queue = x.event_time := by
      unfold finalTime
      rw [hx]
      rfl
    have hnle : ¬ x.event_time.AsEarlyAs s.run_until_time = true := by
      simp only [SimTime.AsEarlyAs, decide_eq_true_eq, not_le]
      exact hxl
    rw [hret, hcurr, hfin, if_neg hnle]

/-! ## Adding a user time to an instant -/

theorem rnd_neg (p : ℕ) (hp : 1 ≤ p) (q : ℚ) (h : q < 0) : rnd p q < 0 := by
  have h1 := (abs_le.1 (rnd_abs_sub_le p q)).2
  rw [abs_of_neg h] at h1
  have h2 : (2 : ℚ) ≤ 2 ^ p := by
    calc (2 : ℚ) = 2 ^ 1 := by norm_num
      _ ≤ 2 ^ p := pow_le_pow_right₀ (by norm_num) hp
  have h3 : -q / 2 ^ p ≤ -q / 2 := by
    apply div_le_div_of_nonneg_left (by linarith) (by norm_num) h2
  linarith

theorem rnd_gt_max (q : ℚ) (h : (2 : ℚ) ^ 64 ≤ q) : (2 : ℚ) ^ 64 - 1 < rnd 64 q := by
  rcases lt_or_le q (2 ^ 65) with h2 | h2
  · have := rnd_ge_of_overflow q h h2
    linarith
  · have h1 := (abs_le.1 (rnd_abs_sub_le 64 q)).1
    rw [abs_of_nonneg (by linarith [show (0 : ℚ) < 2 ^ 65 by positivity])] at h1
    have h3 : q / 2 ^ 64 ≤ q / 2 := by
      apply div_le_div_of_nonneg_left (by linarith [show (0 : ℚ) < 2 ^ 65 by positivity])
        (by norm_num) (by norm_num)
    norm_num at h2 ⊢
    linarith

theorem near_floor (n : ℕ) (x : ℚ) (h : |(n : ℚ) - x| ≤ 9 / 10) :
    |(n : ℤ) - ⌊x + 1 / 2⌋| ≤ 1 := by
  have h' := abs_le.1 h
  have hfl1 : (⌊x + 1 / 2⌋ : ℚ) ≤ x + 1 / 2 := Int.floor_le _
  have hfl2 : x + 1 / 2 < (⌊x + 1 / 2⌋ : ℚ) + 1 := Int.lt_floor_add_one _
  rw [abs_le]
  constructor
  · have : ((-2 : ℤ) : ℚ) < (((n : ℤ) - ⌊x + 1 / 2⌋ : ℤ) : ℚ) := by
      push_cast
      linarith [h'.1]
    have := Int.cast_lt.1 this
    omega
  · have : ((((n : ℤ) - ⌊x + 1 / 2⌋ : ℤ)) : ℚ) < ((2 : ℤ) : ℚ) := by
      push_cast
      linarith [h'.2]
    have := Int.cast_lt.1 this
    omega

/-- The delta `1/256` added to the instant with the maximum tick count: the
`long double` sum `2 ^ 64 - 1 + 25/64` rounds to `2 ^ 64 - 1`, and
`floor(25/64 + 1/2) = 0` ticks are added. -/
theorem AddTimeUser_at_max (fk : FloorKind) :
    SimTime.AddTimeUser fk ⟨2 ^ 64 - 1⟩ (1 / 256) = Except.ok ⟨2 ^ 64 - 1⟩ := by
  have hmul : ldMul (1 / 256) kTicksPerUserTimeUnit = 25 / 64 := by
    unfold ldMul kTicksPerUserTimeUnit
    rw [rnd_eval 64 _ (-2) (25 * 2 ^ 59) (by norm_num [abs_of_nonneg])
      (by norm_num [abs_of_nonneg]) (by norm_num [abs_lt])]
    norm_num
  have hsum : ldAdd (ofTick (2 ^ 64 - 1)) (25 / 64) = 2 ^ 64 - 1 := by
    rw [ofTick_eq _ (by norm_num)]
    unfold ldAdd
    rw [rnd_eval 64 _ 63 (2 ^ 64 - 1) (by norm_num [abs_of_nonneg])
      (by norm_num [abs_of_nonneg]) (by norm_num [abs_lt])]
    norm_num
  have hhalf : ldAdd (25 / 64) (1 / 2) = 57 / 64 := by
    unfold ldAdd
    rw [rnd_eval 64 _ (-1) (57 * 2 ^ 58) (by norm_num [abs_of_nonneg])
      (by norm_num [abs_of_nonneg]) (by norm_num [abs_lt])]
    norm_num
  have hfl : ⌊floorArg fk (57 / 64)⌋ = 0 := by
    cases fk with
    | longDouble =>
      simp only [floorArg]
      rw [Int.floor_eq_iff]; constructor <;> norm_num
    | double =>
      simp only [floorArg]
      rw [rnd_eval 53 _ (-1) (57 * 2 ^ 47) (by norm_num [abs_of_nonneg])
        (by norm_num [abs_of_nonneg]) (by norm_num [abs_lt])]
      rw [Int.floor_eq_iff]; constructor <;> norm_num
  unfold SimTime.AddTimeUser
  rw [hmul, hsum, kMaxRealNumTicks_eq, if_pos (by norm_num)]
  unfold SimTime.RealTicks2Ticks
  rw [hhalf, kMaxRealNumTicks_eq, if_pos (by norm_num), hfl]
  rfl

/-- C11 fails at the instant with the maximum tick count `2 ^ 64 - 1` and the delta
`d = 1/256`: `ticks(a) + 100 d = 2 ^ 64 - 39/64` exceeds `2 ^ 64 - 1`, but the
`long double` sum rounds to `2 ^ 64 - 1`, which is not greater than
`kMaxRealNumTicks`, so `AddTime` is not fatal; it adds `floor(25/64 + 1/2) = 0`
ticks and leaves the instant unchanged (with either `floor`). -/
theorem AddTime_not_fatal_just_above_max :
    (0 : ℚ) ≤ 1 / 256 ∧ (((2 ^ 64 - 1 : ℕ) : ℚ) + 100 * (1 / 256) > 2 ^ 64 - 1)
      ∧ SimTime.AddTimeUser FloorKind.longDouble ⟨2 ^ 64 - 1⟩ (1 / 256)
          = Except.ok ⟨2 ^ 64 - 1⟩
      ∧ SimTime.AddTimeUser FloorKind.double ⟨2 ^ 64 - 1⟩ (1 / 256)
          = Except.ok ⟨2 ^ 64 - 1⟩ :=
  ⟨by norm_num, by norm_num, AddTimeUser_at_max FloorKind.longDouble,
    AddTimeUser_at_max FloorKind.double⟩

/-- C11, amended: for every instant `a` and every delta `d ≥ 0`: when
`ticks(a) ≤ 2 ^ 63` and `d ≤ 2 ^ 45`, `a.AddTime(d)` succeeds and adds to the tick
count of `a` the tick count `n` of `SimTime(d)`, which differs from
`floor(100 d + 1/2)` by at most 1, and the sum does not wrap; when
`ticks(a) + 100 d ≥ 2 ^ 64 + 2` the operation is fatal. -/
theorem AddTime_user_delta_adds_ticks_or_fatal (fk : FloorKind) (a : SimTime) (d : UserTime)
    (ha : a.ticks < 2 ^ 64) (hd : 0 ≤ d) :
    (a.ticks ≤ 2 ^ 63 → d ≤ 2 ^ 45 →
        ∃ n : ℕ, SimTime.ofUserTime fk d = Except.ok ⟨n⟩
          ∧ |(n : ℤ) - ⌊100 * d + 1 / 2⌋| ≤ 1
          ∧ a.AddTimeUser fk d = Except.ok ⟨a.ticks + n⟩ ∧ a.ticks + n < 2 ^ 64)
      ∧ ((2 : ℚ) ^ 64 + 2 ≤ (a.ticks : ℚ) + 100 * d →
        a.AddTimeUser fk d = Except.error Abort.fatal) := by
  have hx := abs_le.1 (rnd_abs_sub_le 64 (d * 100))
  rw [abs_of_nonneg (by positivity : (0 : ℚ) ≤ d * 100)] at hx
  have haq : (a.ticks : ℚ) < 2 ^ 64 := by exact_mod_cast ha
  constructor
  · intro ha63 hd45
    obtain ⟨n, hn1, hn2, hn3⟩ := SetTime_near fk ⟨0⟩ d hd hd45
    have hmax : ¬ (d > kMaxUserTimeUnits) := by
      rw [kMaxUserTimeUnits_eq]
      norm_num at hd45 ⊢
      linarith
    have hr : SimTime.RealTicks2Ticks fk (ldMul d kTicksPerUserTimeUnit) = Except.ok n := by
      unfold SimTime.SetTime at hn1
      rw [if_pos ⟨hd, hmax⟩] at hn1
      cases hR : SimTime.RealTicks2Ticks fk (ldMul d kTicksPerUserTimeUnit) with
      | error e => rw [hR] at hn1; cases hn1
      | ok m =>
        rw [hR] at hn1
        simp only [Except.map] at hn1
        injection hn1 with h1
        injection h1 with h2
        rw [h2]
    have ha63q : (a.ticks : ℚ) ≤ 9223372036854775808 :=
      le_trans (by exact_mod_cast ha63 : (a.ticks : ℚ) ≤ 2 ^ 63) (by norm_num)
    have hd45' : d ≤ 35184372088832 := le_trans hd45 (by norm_num)
    have h4 : d * 100 / 2 ^ 64 ≤ d * 100 := by
      apply div_le_self (by positivity) (by norm_num)
    have hguard : ¬ (ldAdd (ofTick a.ticks) (ldMul d kTicksPerUserTimeUnit)
        > kMaxRealNumTicks) := by
      rw [ofTick_eq _ ha, kMaxRealNumTicks_eq]
      unfold ldAdd ldMul kTicksPerUserTimeUnit
      have hy := abs_le.1 (rnd_abs_sub_le 64 ((a.ticks : ℚ) + rnd 64 (d * 100)))
      have hnn : (0 : ℚ) ≤ (a.ticks : ℚ) + rnd 64 (d * 100) := by
        have : (0 : ℚ) ≤ (a.ticks : ℚ) := Nat.cast_nonneg _
        linarith [hx.1]
      rw [abs_of_nonneg hnn] at hy
      have h5 : ((a.ticks : ℚ) + rnd 64 (d * 100)) / 2 ^ 64 ≤ 1 := by
        rw [div_le_one (by positivity)]
        have : (2 : ℚ) ^ 64 = 18446744073709551616 := by norm_num
        rw [this]
        linarith [hx.2]
      have h6 : (2 : ℚ) ^ 64 - 1 = 18446744073709551615 := by norm_num
      rw [h6]
      linarith [hx.2, hy.2]
    have hnq : (n : ℚ) < 4503599627370496 :=
      lt_of_lt_of_le (by exact_mod_cast hn2 : (n : ℚ) < 2 ^ 52) (by norm_num)
    have hsum : a.ticks + n < 2 ^ 64 := by
      have : ((a.ticks + n : ℕ) : ℚ) < ((18446744073709551616 : ℕ) : ℚ) := by
        push_cast
        linarith
      have h7 := Nat.cast_lt.1 this
      norm_num
      exact h7
    refine ⟨n, hn1, ?_, ?_, hsum⟩
    · have := near_floor n (100 * d) hn3
      exact this
    · unfold SimTime.AddTimeUser
      rw [if_pos hguard, hr]
      simp only [Except.map]
      rw [Nat.mod_eq_of_lt hsum]
  · intro hbig
    unfold SimTime.AddTimeUser
    rw [if_neg]
    rw [not_not, ofTick_eq _ ha, kMaxRealNumTicks_eq]
    unfold ldAdd ldMul kTicksPerUserTimeUnit
    apply rnd_gt_max
    have h0 : (0 : ℚ) ≤ (a.ticks : ℚ) := Nat.cast_nonneg _
    have h1 : d * 100 / 2 ^ 64 = d * (100 / 18446744073709551616) := by ring
    rw [h1] at hx
    have h2 : (2 : ℚ) ^ 64 = 18446744073709551616 := by norm_num
    rw [h2] at hbig ⊢
    linarith [hx.1]

/-- The amended statement of C11 at the instant 250.00 (25000 ticks) with the delta
2.5, and at the maximum instant with the delta 1. -/
theorem AddTime_user_delta_adds_ticks_or_fatal_witness :
    (∃ n : ℕ, SimTime.ofUserTime FloorKind.double (5 / 2) = Except.ok ⟨n⟩
        ∧ |(n : ℤ) - ⌊100 * (5 / 2 : ℚ) + 1 / 2⌋| ≤ 1
        ∧ SimTime.AddTimeUser FloorKind.double ⟨25000⟩ (5 / 2) = Except.ok ⟨25000 + n⟩
        ∧ 25000 + n < 2 ^ 64)
      ∧ SimTime.AddTimeUser FloorKind.double ⟨2 ^ 64 - 1⟩ 1 = Except.error Abort.fatal :=
  ⟨(AddTime_user_delta_adds_ticks_or_fatal FloorKind.double ⟨25000⟩ (5 / 2) (by norm_num)
      (by norm_num)).1 (by norm_num) (by norm_num),
    (AddTime_user_delta_adds_ticks_or_fatal FloorKind.double ⟨2 ^ 64 - 1⟩ 1 (by norm_num)
      (by norm_num)).2 (by norm_num)⟩

/-- The sum of tick counts in `AddTime(const UserTime&)` can wrap around although the
range test has passed (with `floor(long double)`): for the instant of 4 ticks and the
delta `d = 11805916207174113031 / 64`, the product `100 d` rounds to the odd integer
`2 ^ 64 - 5`, the sum `4 + (2 ^ 64 - 5) = 2 ^ 64 - 1` is not above
`kMaxRealNumTicks`, and in `RealTicks2Ticks` the sum `2 ^ 64 - 5 + 1/2` is a tie that
goes to the even `2 ^ 64 - 4`; `ticks_ += 2 ^ 64 - 4` leaves 0 ticks. -/
theorem AddTimeUser_wraps_around :
    SimTime.AddTimeUser FloorKind.longDouble ⟨4⟩ (11805916207174113031 / 64)
      = Except.ok ⟨0⟩ := by
  have hmul : ldMul (11805916207174113031 / 64) kTicksPerUserTimeUnit
      = 18446744073709551611 := by
    unfold ldMul kTicksPerUserTimeUnit
    rw [rnd_eval 64 _ 63 18446744073709551611 (by norm_num [abs_of_nonneg])
      (by norm_num [abs_of_nonneg]) (by norm_num [abs_lt])]
    norm_num
  have hsum : ldAdd (ofTick 4) 18446744073709551611 = 2 ^ 64 - 1 := by
    rw [ofTick_eq _ (by norm_num)]
    unfold ldAdd
    rw [rnd_eval 64 _ 63 (2 ^ 64 - 1) (by norm_num [abs_of_nonneg])
      (by norm_num [abs_of_nonneg]) (by norm_num [abs_lt])]
    norm_num
  have hhalf : ldAdd 18446744073709551611 (1 / 2) = 18446744073709551612 := by
    unfold ldAdd
    rw [rnd_eval_tie 64 _ 63 18446744073709551611 (by norm_num [abs_of_nonneg])
      (by norm_num [abs_of_nonneg]) (by norm_num)]
    norm_num
  unfold SimTime.AddTimeUser
  rw [hmul, hsum, kMaxRealNumTicks_eq, if_pos (by norm_num)]
  unfold SimTime.RealTicks2Ticks
  rw [hhalf, kMaxRealNumTicks_eq, if_pos (by norm_num)]
  simp only [floorArg]
  have hfl : ⌊(18446744073709551612 : ℚ)⌋ = 18446744073709551612 := by
    rw [Int.floor_eq_iff]; constructor <;> norm_num
  rw [hfl]
  rfl

/-- C12 (code contradicts its documentation): for every instant `a` and every delta
`d ≤ -1/100` (one tick or more below zero), `a.AddTime(d)` does not set `a` to the
zero instant: `RealTicks2Ticks` passes its range test, takes the floor of a negative
value and converts that negative value to the unsigned tick type, which is
undefined. -/
theorem AddTime_negative_delta_is_undefined (fk : FloorKind) (a : SimTime) (d : UserTime)
    (ha : a.ticks < 2 ^ 64) (hd : d ≤ -1 / 100) :
    a.AddTimeUser fk d = Except.error Abort.undefined := by
  have hneg : d * 100 < 0 := by linarith
  have hx := abs_le.1 (rnd_abs_sub_le 64 (d * 100))
  rw [abs_of_neg hneg] at hx
  have h1 : -(d * 100) / 2 ^ 64 = -(d * 100) * (1 / 18446744073709551616) := by ring
  rw [h1] at hx
  have hx1 : rnd 64 (d * 100) ≤ -(3 / 4) := by linarith [hx.2]
  have haq : (a.ticks : ℚ) ≤ 18446744073709551615 := by
    have : ((a.ticks : ℕ) : ℚ) < ((18446744073709551616 : ℕ) : ℚ) := by
      exact_mod_cast ha
    have h2 : a.ticks + 1 ≤ 18446744073709551616 := by
      have := Nat.cast_lt.1 this
      omega
    have h3 : ((a.ticks + 1 : ℕ) : ℚ) ≤ ((18446744073709551616 : ℕ) : ℚ) := Nat.cast_le.2 h2
    push_cast at h3
    linarith
  have hguard : ¬ (ldAdd (ofTick a.ticks) (ldMul d kTicksPerUserTimeUnit)
      > kMaxRealNumTicks) := by
    rw [ofTick_eq _ ha, kMaxRealNumTicks_eq]
    unfold ldAdd ldMul kTicksPerUserTimeUnit
    have h6 : (2 : ℚ) ^ 64 - 1 = 18446744073709551615 := by norm_num
    rw [h6]
    rcases lt_or_le ((a.ticks : ℚ) + rnd 64 (d * 100)) 0 with hs | hs
    · have := rnd_neg 64 (by norm_num) _ hs
      linarith
    · have hy := abs_le.1 (rnd_abs_sub_le 64 ((a.ticks : ℚ) + rnd 64 (d * 100)))
      rw [abs_of_nonneg hs] at hy
      have h7 : ((a.ticks : ℚ) + rnd 64 (d * 100)) / 2 ^ 64
          = ((a.ticks : ℚ) + rnd 64 (d * 100)) * (1 / 18446744073709551616) := by ring
      rw [h7] at hy
      linarith [hy.2]
  have hhalf : ldAdd (ldMul d kTicksPerUserTimeUnit) (1 / 2) < 0 := by
    unfold ldAdd ldMul kTicksPerUserTimeUnit
    exact rnd_neg 64 (by norm_num) _ (by linarith)
  have hfl : ⌊floorArg fk (ldAdd (ldMul d kTicksPerUserTimeUnit) (1 / 2))⌋ < 0 := by
    rw [Int.floor_lt]
    cases fk with
    | longDouble => simpa [floorArg] using hhalf
    | double =>
      simp only [floorArg, Int.cast_zero]
      exact rnd_neg 53 (by norm_num) _ hhalf
  unfold SimTime.AddTimeUser
  rw [if_pos hguard]
  unfold SimTime.RealTicks2Ticks
  rw [if_pos (by rw [kMaxRealNumTicks_eq]; intro h; norm_num at h; linarith)]
  unfold castSimTick
  rw [if_neg (by intro h; exact absurd h.1 (not_le.2 hfl))]
  rfl

/-- The instant 1.00 (100 ticks) adjusted by the delta -2.0: the adjustment would
result in -100 ticks, and the outcome is not the zero instant. -/
theorem AddTime_negative_delta_is_undefined_witness :
    ((100 : ℕ) : ℚ) + 100 * (-2) < 0
      ∧ SimTime.AddTimeUser FloorKind.double ⟨100⟩ (-2) = Except.error Abort.undefined
      ∧ SimTime.AddTimeUser FloorKind.double ⟨100⟩ (-2) ≠ Except.ok ⟨0⟩ :=
  ⟨by norm_num,
    AddTime_negative_delta_is_undefined FloorKind.double ⟨100⟩ (-2) (by norm_num) (by norm_num),
    by
      rw [AddTime_negative_delta_is_undefined FloorKind.double ⟨100⟩ (-2) (by norm_num)
        (by norm_num)]
      intro h
      cases h⟩

/-! ## Comparisons -/

/-- C13: for all instants `a` and `b`, `EarlierThan`, `AsEarlyAs` and `SameAs` hold
exactly when `ticks(a) <`, `≤`, `= ticks(b)`; and for all events `e1`, `e2` and every
instant `s`, the event-to-event and the event-to-instant forms of `EarlierThan`,
`AsEarlyAs` and `SameTimeAs` return what the instant comparison returns on the
scheduled times. -/
theorem comparisons_follow_tick_counts (a b s : SimTime) (e1 e2 : SimBaseEvent) :
    (a.EarlierThan b = true ↔ a.ticks < b.ticks)
      ∧ (a.AsEarlyAs b = true ↔ a.ticks ≤ b.ticks)
      ∧ (a.SameAs b = true ↔ a.ticks = b.ticks)
      ∧ e1.EarlierThanEvent e2 = e1.event_time.EarlierThan e2.event_time
      ∧ e1.AsEarlyAsEvent e2 = e1.event_time.AsEarlyAs e2.event_time
      ∧ e1.SameTimeAsEvent e2 = e1.event_time.SameAs e2.event_time
      ∧ e1.EarlierThan s = e1.event_time.EarlierThan s
      ∧ e1.AsEarlyAs s = e1.event_time.AsEarlyAs s
      ∧ e1.SameTimeAs s = e1.event_time.SameAs s := by
  refine ⟨?_, ?_, ?_, rfl, rfl, rfl, rfl, rfl, rfl⟩
  · simp [SimTime.EarlierThan]
  · simp [SimTime.AsEarlyAs]
  · simp [SimTime.SameAs]

/-! ## One pass of the stimulus loader -/

theorem ReadStimRecord_cons (L : StimLoader) (r : StimRecord) (rest : List StimRecord)
    (h : L.stim_file.readable = r :: rest) :
    L.ReadStimRecord.1 = true ∧ L.ReadStimRecord.2.cached = r
      ∧ L.ReadStimRecord.2.stim_file.readable = rest
      ∧ L.ReadStimRecord.2.read_until = L.read_until
      ∧ L.ReadStimRecord.2.ready = L.ready
      ∧ L.ReadStimRecord.2.look_ahead = L.look_ahead
      ∧ L.ReadStimRecord.2.stim_file.is_open = L.stim_file.is_open
      ∧ L.ReadStimRecord.2.stim_file.header = false := by
  unfold StimFile.readable at h
  split at h
  · rename_i hc
    simp only [Bool.and_eq_true, Bool.not_eq_true', StimFile.good] at hc
    obtain ⟨⟨ho, he, hf⟩, hh⟩ := hc
    unfold StimLoader.ReadStimRecord
    simp only [ho, he, hf, hh, h, StimFile.good]
    simp only [StimLoader.cached, StimFile.readable, StimFile.good]
    refine ⟨by simp, by simp, ?_, by simp, by simp, by simp, by simp, by simp⟩
    cases rest with
    | nil => simp
    | cons x xs => simp
  · cases h

theorem ReadStimRecord_nil (L : StimLoader) (h : L.stim_file.readable = []) :
    L.ReadStimRecord.1 = false ∧ L.ReadStimRecord.2.stim_file.readable = []
      ∧ L.ReadStimRecord.2.StimFileOK = false
      ∧ L.ReadStimRecord.2.read_until = L.read_until
      ∧ L.ReadStimRecord.2.ready = L.ready
      ∧ L.ReadStimRecord.2.look_ahead = L.look_ahead
      ∧ L.ReadStimRecord.2.stim_file.is_open = L.stim_file.is_open
      ∧ (L.stim_file.header = false →
          L.ReadStimRecord.2.cached = L.cached
            ∧ L.ReadStimRecord.2.stim_file.header = false) := by
  unfold StimFile.readable at h
  unfold StimLoader.ReadStimRecord
  by_cases h1 : (!L.stim_file.is_open || !L.stim_file.good) = true
  · rw [if_pos h1]
    simp [StimFile.readable, StimFile.good, StimLoader.StimFileOK, StimLoader.cached]
  · rw [if_neg h1]
    by_cases h2 : L.stim_file.header = true
    · rw [if_pos h2]
      simp [StimFile.readable, StimFile.good, StimLoader.StimFileOK, h2]
    · rw [if_neg h2]
      simp only [Bool.or_eq_true, Bool.not_eq_true', not_or, Bool.not_eq_false] at h1
      simp only [Bool.not_eq_true] at h2
      simp only [h1.1, h1.2, h2, Bool.and_self, Bool.not_false, if_true] at h
      rw [h]
      simp [StimFile.readable, StimFile.good, StimLoader.StimFileOK, StimLoader.cached, h2]

theorem passReads_cons (ru c : UserTime) (r : StimRecord) (rest : List StimRecord)
    (hc : c < ru) : passReads ru c (r :: rest) = r :: passReads ru r.time rest := by
  simp [passReads, hc]

theorem passReads_stop (ru c : UserTime) (avail : List StimRecord) (hc : ¬ c < ru) :
    passReads ru c avail = [] := by
  cases avail with
  | nil => rfl
  | cons r rest => simp [passReads, hc]

/-- What the loop of `LoadQueue` has done when it ends without a fatal error. -/
theorem readLoop_spec (fk : FloorKind) :
    ∀ (fuel : ℕ) (p p' : LoadPass), p.loader.stim_file.readable.length < fuel →
      StimLoader.readLoop fk fuel p = Except.ok p' →
      ∃ evs : List SimBaseEvent,
        p'.read = p.read
            ++ passReads p.loader.read_until p.loader.stim_event_time p.loader.stim_file.readable
        ∧ p'.posted = p.posted
            ++ (passReads p.loader.read_until p.loader.stim_event_time
                p.loader.stim_file.readable).filter
                  (fun r => decide (r.time < p.loader.read_until))
        ∧ p'.scheduled = p.scheduled ++ evs
        ∧ List.Forall₂ (fun r e => StimRecord.event fk r = Except.ok e)
            ((passReads p.loader.read_until p.loader.stim_event_time
                p.loader.stim_file.readable).filter
                  (fun r => decide (r.time < p.loader.read_until))) evs
        ∧ p'.success = (p.success
            || !(passReads p.loader.read_until p.loader.stim_event_time
                  p.loader.stim_file.readable).isEmpty)
        ∧ p'.loader.read_until = p.loader.read_until
        ∧ p'.loader.ready = p.loader.ready
        ∧ p'.loader.look_ahead = (p.loader.look_ahead
            || (passReads p.loader.read_until p.loader.stim_event_time
                  p.loader.stim_file.readable).any
                    (fun r => decide (¬ r.time < p.loader.read_until)))
        ∧ p'.loader.stim_file.readable = p.loader.stim_file.readable.drop
            (passReads p.loader.read_until p.loader.stim_event_time
              p.loader.stim_file.readable).length
        ∧ p'.loader.stim_file.is_open = p.loader.stim_file.is_open
        ∧ (p.loader.stim_file.header = false →
            p'.loader.cached = ((passReads p.loader.read_until p.loader.stim_event_time
              p.loader.stim_file.readable).getLast?).getD p.loader.cached
            ∧ p'.loader.stim_file.header = false)
        ∧ (¬ p.loader.stim_event_time < p.loader.read_until → p' = p)
        ∧ (p.loader.stim_event_time < p.loader.read_until →
            (∀ r ∈ passReads p.loader.read_until p.loader.stim_event_time
              p.loader.stim_file.readable, r.time < p.loader.read_until) →
            p'.loader.StimFileOK = false) := by
  intro fuel
  induction fuel with
  | zero => intro p p' h; exact absurd h (Nat.not_lt_zero _)
  | succ n ih =>
    intro p p' hlen h
    rw [StimLoader.readLoop] at h
    by_cases hc : p.loader.stim_event_time < p.loader.read_until
    · rw [if_pos hc] at h
      cases hav : p.loader.stim_file.readable with
      | nil =>
        obtain ⟨h1, h2, h3, h4, h5, h6, h7, h8⟩ := ReadStimRecord_nil p.loader hav
        rw [h1] at h
        simp only [Bool.false_eq_true, if_false, Except.ok.injEq] at h
        subst h
        refine ⟨[], ?_⟩
        simp only [passReads, h2, h3, h4, h5, h6, h7, hc]
        simp
        exact h8
      | cons r rest =>
        obtain ⟨h1, h2, h3, h4, h5, h6, h7, h8⟩ := ReadStimRecord_cons p.loader r rest hav
        rw [h1, if_pos rfl] at h
        have ht : p.loader.ReadStimRecord.2.stim_event_time = r.time := by
          rw [← h2]; rfl
        simp only [h4, ht] at h
        rw [passReads_cons _ _ _ _ hc]
        rw [hav] at hlen
        have hlen' : rest.length < n := by simpa using hlen
        by_cases hr : r.time < p.loader.read_until
        · rw [if_pos hr] at h
          unfold LoadPass.post StimLoader.PostEvent at h
          simp only [h2] at h
          cases hev : StimRecord.event fk r with
          | error a => rw [hev] at h; cases h
          | ok e =>
            rw [hev] at h
            simp only [Except.map, Except.bind] at h
            obtain ⟨evs, g1, g2, g3, g4, g5, g6, g7, g8, g9, g10, g11, g12, g13⟩ :=
              ih _ p' (by simpa [h3] using hlen') h
            simp only [h3, h4, h5, h6, h7, ht] at g1 g2 g3 g4 g5 g6 g7 g8 g9 g10 g11 g12 g13
            have g11' := g11 h8
            rw [h2] at g11'
            refine ⟨e :: evs, ?_, ?_, ?_, ?_, ?_, g6, g7, ?_, ?_, g10, ?_, ?_, ?_⟩
            · simp [g1]
            · simp [g2, hr]
            · simp [g3]
            · simp only [List.filter_cons, hr, decide_True, if_true]
              exact List.Forall₂.cons hev g4
            · simp [g5]
            · simp [g8, not_le.2 hr]
            · simp [g9]
            · intro _
              refine ⟨?_, g11'.2⟩
              rw [g11'.1]
              cases hX : passReads p.loader.read_until r.time rest with
              | nil => simp
              | cons y ys =>
                rw [List.getLast?_cons_cons,
                  List.getLast?_eq_getLast _ (List.cons_ne_nil y ys)]
                simp
            · intro hn; exact absurd hc hn
            · intro _ hall
              apply g13 hr
              intro x hx
              exact hall x (List.mem_cons_of_mem _ hx)
        · rw [if_neg hr] at h
          obtain ⟨evs, g1, g2, g3, g4, g5, g6, g7, g8, g9, g10, g11, g12, g13⟩ :=
            ih _ p' (by simpa [h3] using hlen') h
          have hp := g12 (by simpa [ht, h4] using hr)
          subst hp
          refine ⟨[], ?_⟩
          simp only [passReads_stop _ _ _ hr]
          have hcl : ({ p.loader.ReadStimRecord.2 with look_ahead := true } : StimLoader).cached
              = r := h2
          simp [hr, hcl, h2, h3, h4, h5, h6, h7, h8, not_lt.1 hr, not_le.2 hc]
          intro _
          have hpl : p.loader.ReadStimRecord.2.stim_payload = r.payload := by rw [← h2]; rfl
          simp [StimLoader.cached, hpl]
    · rw [if_neg hc] at h
      simp only [Except.ok.injEq] at h
      subst h
      refine ⟨[], ?_⟩
      simp [passReads_stop _ _ _ hc, hc]

theorem readLoop_total (fk : FloorKind) :
    ∀ (fuel : ℕ) (p : LoadPass),
      (∀ r ∈ p.loader.stim_file.readable, ∃ e, StimRecord.event fk r = Except.ok e) →
      ∃ p', StimLoader.readLoop fk fuel p = Except.ok p' := by
  intro fuel
  induction fuel with
  | zero => intro p _; exact ⟨p, rfl⟩
  | succ n ih =>
    intro p hconv
    rw [StimLoader.readLoop]
    by_cases hc : p.loader.stim_event_time < p.loader.read_until
    · rw [if_pos hc]
      cases hav : p.loader.stim_file.readable with
      | nil =>
        obtain ⟨h1, _⟩ := ReadStimRecord_nil p.loader hav
        rw [h1]
        exact ⟨_, rfl⟩
      | cons r rest =>
        obtain ⟨h1, h2, h3, h4, h5, h6, h7, h8⟩ := ReadStimRecord_cons p.loader r rest hav
        rw [h1, if_pos rfl]
        rw [hav] at hconv
        have hrest : ∀ x ∈ rest, ∃ e, StimRecord.event fk x = Except.ok e :=
          fun x hx => hconv x (List.mem_cons_of_mem _ hx)
        simp only
        split
        · obtain ⟨e, he⟩ := hconv r (List.mem_cons_self _ _)
          unfold LoadPass.post StimLoader.PostEvent
          simp only [h2, he, Except.map, Except.bind]
          exact ih _ (by simpa [h3] using hrest)
        · exact ih _ (by simpa [h3] using hrest)
    · rw [if_neg hc]
      exact ⟨p, rfl⟩

theorem except_bind_eq_ok {α β : Type} (x : Except Abort α) (f : α → Except Abort β) (b : β)
    (h : x.bind f = Except.ok b) : ∃ a, x = Except.ok a ∧ f a = Except.ok b := by
  cases x with
  | error e => cases h
  | ok a => exact ⟨a, rfl, h⟩

theorem except_map_eq_ok {α β : Type} (x : Except Abort α) (f : α → β) (b : β)
    (h : x.map f = Except.ok b) : ∃ a, x = Except.ok a ∧ f a = b := by
  cases x with
  | error e => cases h
  | ok a =>
    simp only [Except.map, Except.ok.injEq] at h
    exact ⟨a, rfl, h⟩

theorem readable_length_le (f : StimFile) : f.readable.length ≤ f.remaining.length := by
  unfold StimFile.readable
  split
  · exact le_refl _
  · simp

theorem readable_of_closed (f : StimFile) (h : f.is_open = false) : f.readable = [] := by
  simp [StimFile.readable, h]

/-- The last part of `LoadQueue`: the update of `read_until_` and the timer. -/
theorem timerStage_spec (fk : FloorKind) (p2 res : LoadPass)
    (h : (if (p2.success || p2.loader.StimFileOK) = true then
          Except.map
            (fun t =>
              ({ loader :=
                  { p2.loader with
                    read_until :=
                      if p2.success = true then ldAdd p2.loader.stim_event_time kReadPeriod
                      else ldAdd p2.loader.read_until kReadPeriod }
                 success := p2.success, read := p2.read, posted := p2.posted
                 scheduled := p2.scheduled ++ [{ event_time := t, tag := timerTag }] } : LoadPass))
            (SimTime.ofUserTime fk p2.loader.stim_event_time)
        else Except.ok p2) = Except.ok res) :
    res.read = p2.read ∧ res.posted = p2.posted ∧ res.success = p2.success
      ∧ res.loader.stim_file = p2.loader.stim_file
      ∧ res.loader.stim_event_time = p2.loader.stim_event_time
      ∧ res.loader.stim_payload = p2.loader.stim_payload
      ∧ res.loader.ready = p2.loader.ready
      ∧ res.loader.look_ahead = p2.loader.look_ahead
      ∧ res.loader.read_until =
          (if (p2.success || p2.loader.StimFileOK) = true then
            if p2.success then ldAdd p2.loader.stim_event_time kReadPeriod
            else ldAdd p2.loader.read_until kReadPeriod
          else p2.loader.read_until)
      ∧ ((p2.success || p2.loader.StimFileOK) = true →
          ∃ t, SimTime.ofUserTime fk p2.loader.stim_event_time = Except.ok t
            ∧ res.scheduled = p2.scheduled ++ [⟨t, timerTag⟩])
      ∧ ((p2.success || p2.loader.StimFileOK) = false → res.scheduled = p2.scheduled) := by
  by_cases hb : (p2.success || p2.loader.StimFileOK) = true
  · rw [if_pos hb] at h
    obtain ⟨t, ht, hres⟩ := except_map_eq_ok _ _ _ h
    subst hres
    rw [if_pos hb]
    refine ⟨rfl, rfl, rfl, rfl, rfl, rfl, rfl, rfl, rfl, fun _ => ⟨t, ht, rfl⟩, ?_⟩
    intro hf
    rw [hf] at hb
    cases hb
  · rw [if_neg hb] at h
    simp only [Except.ok.injEq] at h
    subst h
    rw [if_neg hb]
    refine ⟨rfl, rfl, rfl, rfl, rfl, rfl, rfl, rfl, rfl, fun hf => absurd hf hb, fun _ => rfl⟩

/-- What a `LoadQueue` pass has done when it returns. -/
theorem LoadQueue_spec (fk : FloorKind) (L : StimLoader) (res : LoadPass)
    (h : L.LoadQueue fk = Except.ok res) :
    L.ready = true
      ∧ res.read = L.passRecords
      ∧ res.posted = (if L.look_ahead then [L.cached] else [])
          ++ L.passRecords.filter (fun r => decide (r.time < L.windowEnd))
      ∧ res.success = !L.passRecords.isEmpty
      ∧ (∃ evs : List SimBaseEvent,
          List.Forall₂ (fun r e => StimRecord.event fk r = Except.ok e) res.posted evs
          ∧ ((res.success || res.loader.StimFileOK) = true →
              ∃ t, SimTime.ofUserTime fk res.loader.stim_event_time = Except.ok t
                ∧ res.scheduled = evs ++ [⟨t, timerTag⟩])
          ∧ ((res.success || res.loader.StimFileOK) = false → res.scheduled = evs))
      ∧ res.loader.read_until =
          (if (res.success || res.loader.StimFileOK) = true then
            if res.success then ldAdd res.loader.stim_event_time kReadPeriod
            else ldAdd L.windowEnd kReadPeriod
          else L.windowEnd)
      ∧ res.loader.ready = true
      ∧ res.loader.look_ahead
          = L.passRecords.any (fun r => decide (¬ r.time < L.windowEnd))
      ∧ res.loader.stim_file.readable = L.stim_file.readable.drop L.passRecords.length
      ∧ res.loader.stim_file.is_open = L.stim_file.is_open
      ∧ (L.stim_file.header = false →
          res.loader.cached = (L.passRecords.getLast?).getD L.cached
            ∧ res.loader.stim_file.header = false)
      ∧ (¬ L.stim_event_time < L.windowEnd →
          res.loader.stim_event_time = L.stim_event_time)
      ∧ (L.stim_event_time < L.windowEnd →
          (∀ r ∈ L.passRecords, r.time < L.windowEnd) → res.loader.StimFileOK = false) := by
  unfold StimLoader.LoadQueue at h
  by_cases hready : L.ready = true
  swap
  · rw [if_pos (by simpa using hready)] at h
    cases h
  rw [if_neg (by simp [hready])] at h
  obtain ⟨p1, hp1, h⟩ := except_bind_eq_ok _ _ _ h
  obtain ⟨p2, hp2, h⟩ := except_bind_eq_ok _ _ _ h
  obtain ⟨t1, t2, t3, t4, t5, t6, t7, t8, t9, t10, t11⟩ := timerStage_spec fk p2 res h
  have hOK : res.loader.StimFileOK = p2.loader.StimFileOK := by
    unfold StimLoader.StimFileOK; rw [t4]
  have hcached : res.loader.cached = p2.loader.cached := by
    unfold StimLoader.cached; rw [t5, t6]
  -- the state after the look-ahead has been posted
  have hp1' : ∃ evs0 : List SimBaseEvent,
      p1 = ⟨{ L with read_until := L.windowEnd, look_ahead := false }, false, [],
        (if L.look_ahead then [L.cached] else []), evs0⟩
      ∧ List.Forall₂ (fun r e => StimRecord.event fk r = Except.ok e)
        (if L.look_ahead then [L.cached] else []) evs0 := by
    by_cases hla : L.look_ahead = true
    · simp only [hla, if_true] at hp1 ⊢
      obtain ⟨q, hq, hq2⟩ := except_map_eq_ok _ _ _ hp1
      unfold LoadPass.post StimLoader.PostEvent at hq
      obtain ⟨e, he, he2⟩ := except_map_eq_ok _ _ _ hq
      subst he2
      subst hq2
      refine ⟨[e], ?_, ?_⟩
      · simp [StimLoader.windowEnd, StimLoader.cached]
      · exact List.Forall₂.cons he List.Forall₂.nil
    · have hla' : L.look_ahead = false := by simpa using hla
      simp only [hla', Bool.false_eq_true, if_false, Except.ok.injEq] at hp1 ⊢
      subst hp1
      refine ⟨[], ?_, List.Forall₂.nil⟩
      simp [StimLoader.windowEnd, hla']
  obtain ⟨evs0, hp1e, hev0⟩ := hp1'
  subst hp1e
  unfold StimLoader.passRecords
  by_cases hopen : L.stim_file.is_open = true
  · simp only [hopen, if_true] at hp2
    obtain ⟨evs, g1, g2, g3, g4, g5, g6, g7, g8, g9, g10, g11, g12, g13⟩ :=
      readLoop_spec fk _ _ p2 (Nat.lt_succ_of_le (readable_length_le _)) hp2
    dsimp only at g1 g2 g3 g4 g5 g6 g7 g8 g9 g10 g11 g12 g13
    rw [hOK, t3, t1, t2, t5, t7, t8, t9, t4, hcached]
    refine ⟨hready, ?_, g2, ?_, ⟨evs0 ++ evs, ?_, ?_, ?_⟩, ?_, ?_, ?_, g9, g10, g11, ?_, g13⟩
    · simpa using g1
    · simpa using g5
    · rw [g2]
      exact List.rel_append hev0 g4
    · intro hb
      obtain ⟨t, ht, hs⟩ := t10 hb
      exact ⟨t, ht, by rw [hs, g3]⟩
    · intro hb
      rw [t11 hb, g3]
    · rw [g6]
    · rw [g7]; exact hready
    · simpa using g8
    · intro hn
      rw [g12 hn]
  · have hclosed : L.stim_file.is_open = false := by simpa using hopen
    simp only [hclosed, Bool.false_eq_true, if_false, Except.ok.injEq] at hp2
    subst hp2
    dsimp only at t1 t2 t3 t4 t5 t6 t7 t8 t9 t10 t11 hOK hcached
    rw [readable_of_closed _ hclosed]
    rw [hOK, t3, t1, t2, t5, t7, t8, t9, t4, hcached]
    have hnotok : ({ L with read_until := L.windowEnd, look_ahead := false } :
        StimLoader).StimFileOK = false := by
      simp [StimLoader.StimFileOK, hclosed]
    refine ⟨hready, ?_, ?_, ?_, ⟨evs0, hev0, ?_, ?_⟩, ?_, hready, ?_, ?_, rfl, ?_, ?_,
      ?_⟩
    · simp [passReads]
    · simp [passReads]
    · simp [passReads]
    · intro hb
      obtain ⟨t, ht, hs⟩ := t10 hb
      exact ⟨t, ht, hs⟩
    · intro hb
      exact t11 hb
    · simp [passReads]
    · simp [passReads]
    · simp [passReads, readable_of_closed _ hclosed]
    · intro hh
      simp [passReads, StimLoader.cached, hh]
    · intro _; rfl
    · intro _ _; exact hnotok

theorem passReads_initial (ru : UserTime) :
    ∀ (avail : List StimRecord) (c : UserTime), passReads ru c avail <+: avail := by
  intro avail
  induction avail with
  | nil => intro c; exact ⟨[], rfl⟩
  | cons r rest ih =>
    intro c
    by_cases hc : c < ru
    · rw [passReads_cons _ _ _ _ hc]
      exact List.cons_prefix_cons.2 ⟨rfl, ih r.time⟩
    · rw [passReads_stop _ _ _ hc]
      exact ⟨_, rfl⟩

theorem event_eq_ok_of_time (fk : FloorKind) (r : StimRecord) (t : SimTime)
    (h : SimTime.ofUserTime fk r.time = Except.ok t) :
    StimRecord.event fk r = Except.ok ⟨t, textTag r.payload⟩ := by
  unfold StimRecord.event
  rw [h]
  rfl

theorem time_ok_of_event (fk : FloorKind) (r : StimRecord) (e : SimBaseEvent)
    (h : StimRecord.event fk r = Except.ok e) :
    SimTime.ofUserTime fk r.time = Except.ok e.event_time ∧ e.tag = textTag r.payload := by
  unfold StimRecord.event at h
  obtain ⟨t, ht, he⟩ := except_map_eq_ok _ _ _ h
  subst he
  exact ⟨ht, rfl⟩

/-- A pass of a ready loader returns when the cached time and the times of the
records in the stream all convert to a `SimTime`. -/
theorem LoadQueue_total (fk : FloorKind) (L : StimLoader) (hready : L.ready = true)
    (hh : L.stim_file.header = false)
    (hc : ∃ t, SimTime.ofUserTime fk L.stim_event_time = Except.ok t)
    (hconv : ∀ r ∈ L.stim_file.readable, ∃ t, SimTime.ofUserTime fk r.time = Except.ok t) :
    ∃ res, L.LoadQueue fk = Except.ok res := by
  obtain ⟨tc, htc⟩ := hc
  have hconv' : ∀ r ∈ L.stim_file.readable, ∃ e, StimRecord.event fk r = Except.ok e := by
    intro r hr
    obtain ⟨t, ht⟩ := hconv r hr
    exact ⟨_, event_eq_ok_of_time fk r t ht⟩
  -- the first stage
  have h1 : ∃ p1 : LoadPass,
      (if L.look_ahead = true then
          Except.map
            (fun p : LoadPass => { p with loader := { p.loader with look_ahead := false } })
            (LoadPass.post fk
              ⟨{ L with read_until := ldAdd L.stim_event_time kReadPeriod }, false, [], [], []⟩)
        else
          Except.ok
            ⟨{ L with read_until := ldAdd L.stim_event_time kReadPeriod }, false, [], [], []⟩)
        = Except.ok p1
      ∧ p1.loader.stim_file = L.stim_file ∧ p1.loader.cached = L.cached := by
    by_cases hla : L.look_ahead = true
    · rw [if_pos hla]
      unfold LoadPass.post StimLoader.PostEvent
      have : ({ L with read_until := ldAdd L.stim_event_time kReadPeriod } : StimLoader).cached
          = L.cached := rfl
      simp only [this]
      have he : StimRecord.event fk L.cached = Except.ok ⟨tc, textTag L.cached.payload⟩ :=
        event_eq_ok_of_time fk L.cached tc htc
      rw [he]
      exact ⟨_, rfl, rfl, rfl⟩
    · rw [if_neg hla]
      exact ⟨_, rfl, rfl, rfl⟩
  obtain ⟨p1, hp1, hf1, hc1⟩ := h1
  -- the loop
  have h2 : ∃ p2 : LoadPass,
      (if p1.loader.stim_file.is_open = true then
          StimLoader.readLoop fk (p1.loader.stim_file.remaining.length + 1) p1
        else Except.ok p1) = Except.ok p2
      ∧ ∃ t, SimTime.ofUserTime fk p2.loader.stim_event_time = Except.ok t := by
    by_cases hopen : p1.loader.stim_file.is_open = true
    · rw [if_pos hopen]
      obtain ⟨p2, hp2⟩ := readLoop_total fk (p1.loader.stim_file.remaining.length + 1) p1
        (by rw [hf1]; exact hconv')
      refine ⟨p2, hp2, ?_⟩
      obtain ⟨evs, g1, g2, g3, g4, g5, g6, g7, g8, g9, g10, g11, g12, g13⟩ :=
        readLoop_spec fk _ _ p2 (Nat.lt_succ_of_le (readable_length_le _)) hp2
      have hcached := (g11 (by rw [hf1]; exact hh)).1
      have htime : p2.loader.stim_event_time = p2.loader.cached.time := rfl
      rw [htime, hcached]
      cases hX : (passReads p1.loader.read_until p1.loader.stim_event_time
          p1.loader.stim_file.readable).getLast? with
      | none =>
        simp only [Option.getD_none, hc1]
        exact ⟨tc, htc⟩
      | some r =>
        simp only [Option.getD_some]
        apply hconv
        have hmem := List.mem_of_getLast?_eq_some hX
        have := List.IsPrefix.subset ( passReads_initial _ _ _) hmem
        rw [hf1] at this
        exact this
    · rw [if_neg hopen]
      refine ⟨p1, rfl, ?_⟩
      have htime : p1.loader.stim_event_time = p1.loader.cached.time := rfl
      rw [htime, hc1]
      exact ⟨tc, htc⟩
  obtain ⟨p2, hp2, t2, ht2⟩ := h2
  unfold StimLoader.LoadQueue
  rw [if_neg (by simp [hready])]
  simp only
  rw [hp1]
  simp only [Except.bind]
  rw [hp2]
  simp only [Except.bind]
  rw [ht2]
  split
  · exact ⟨_, rfl⟩
  · exact ⟨_, rfl⟩

/-! ## The passes of the stimulus loader over a whole stream -/

theorem lt_windowEnd (c : UserTime) (h1 : -(2 : ℚ) ^ 64 ≤ c) (h2 : c ≤ 2 ^ 64) :
    c < ldAdd c kReadPeriod := by
  unfold ldAdd kReadPeriod
  have h := (abs_le.1 (rnd_abs_sub_le 64 (c + 1000))).1
  have habs : |c + 1000| ≤ 2 ^ 64 + 1000 := by
    rw [abs_le]
    constructor <;> linarith
  have hdiv : |c + 1000| / 2 ^ 64 ≤ 2 := by
    rw [div_le_iff₀ (by positivity)]
    have : (2 : ℚ) ^ 64 = 18446744073709551616 := by norm_num
    rw [this] at habs ⊢
    linarith
  linarith

theorem le_of_ofUserTime_ok (fk : FloorKind) (c : UserTime) (t : SimTime)
    (h : SimTime.ofUserTime fk c = Except.ok t) : c ≤ 2 ^ 64 := by
  unfold SimTime.ofUserTime SimTime.SetTime at h
  by_cases hc : 0 ≤ c ∧ ¬ (c > kMaxUserTimeUnits)
  · have := hc.2
    rw [kMaxUserTimeUnits_eq] at this
    have h3 := not_lt.1 this
    have : (2 : ℚ) ^ 64 = 18446744073709551616 := by norm_num
    rw [this]
    linarith
  · rw [if_neg hc] at h
    by_cases hn : c < 0
    · have : (0 : ℚ) < 2 ^ 64 := by positivity
      linarith
    · rw [if_neg hn] at h
      cases h

theorem ofUserTime_natCast (fk : FloorKind) (k : ℕ) (hk : 100 * k < 2 ^ 50) :
    SimTime.ofUserTime fk (k : ℚ) = Except.ok ⟨100 * k⟩ := by
  have h := ofUserTime_GetUserTime fk (100 * k) hk
  have hg : SimTime.GetUserTime ⟨100 * k⟩ = (k : ℚ) := by
    unfold SimTime.GetUserTime ldDiv kTicksPerUserTimeUnit
    rw [ofTick_eq _ (lt_trans hk (by norm_num))]
    have : (((100 * k : ℕ) : ℚ)) / 100 = (k : ℚ) := by
      push_cast
      field_simp
    rw [this]
    exact rnd_natCast k (by omega)
  rw [hg] at h
  exact h

theorem ldAdd_natCast (a b : ℕ) (h : a + b < 2 ^ 64) :
    ldAdd (a : ℚ) (b : ℚ) = ((a + b : ℕ) : ℚ) := by
  unfold ldAdd
  rw [← Nat.cast_add]
  exact rnd_natCast _ h

theorem passReads_last (ru : UserTime) :
    ∀ (avail : List StimRecord) (c : UserTime) (r : StimRecord),
      r ∈ passReads ru c avail → ¬ r.time < ru → (passReads ru c avail).getLast? = some r := by
  intro avail
  induction avail with
  | nil => intro c r h; simp [passReads] at h
  | cons x rest ih =>
    intro c r h hr
    by_cases hc : c < ru
    · rw [passReads_cons _ _ _ _ hc] at h ⊢
      rcases List.mem_cons.1 h with h1 | h1
      · subst h1
        rw [passReads_stop _ _ _ hr]
        rfl
      · have := ih x.time r h1 hr
        cases hX : passReads ru x.time rest with
        | nil => rw [hX] at h1; cases h1
        | cons y ys =>
          rw [hX] at this
          rw [List.getLast?_cons_cons]
          exact this
    · rw [passReads_stop _ _ _ hc] at h
      cases h

theorem passReads_split (ru : UserTime) (d : StimRecord) :
    ∀ (avail : List StimRecord) (c : UserTime),
      (passReads ru c avail).filter (fun r => decide (r.time < ru))
        ++ (if (passReads ru c avail).any (fun r => decide (¬ r.time < ru)) then
              [((passReads ru c avail).getLast?).getD d] else [])
        = passReads ru c avail := by
  intro avail
  induction avail with
  | nil => intro c; simp [passReads]
  | cons x rest ih =>
    intro c
    by_cases hc : c < ru
    · rw [passReads_cons _ _ _ _ hc]
      by_cases hx : x.time < ru
      · have h := ih x.time
        cases hX : passReads ru x.time rest with
        | nil => simp [hx]
        | cons y ys =>
          rw [hX] at h
          have hq : decide (¬ x.time < ru) = false := by simp [hx]
          rw [List.getLast?_cons_cons, List.filter_cons_of_pos (by simpa using hx),
            List.any_cons, hq, Bool.false_or, List.cons_append, h]
      · rw [passReads_stop _ _ _ hx]
        simp [hx]
    · rw [passReads_stop _ _ _ hc]
      simp

theorem passReads_eq_nil (ru c : UserTime) (avail : List StimRecord) (hc : c < ru)
    (h : passReads ru c avail = []) : avail = [] := by
  cases avail with
  | nil => rfl
  | cons x rest => rw [passReads_cons _ _ _ _ hc] at h; cases h

theorem passReads_append_drop (ru c : UserTime) (avail : List StimRecord) :
    passReads ru c avail ++ avail.drop (passReads ru c avail).length = avail := by
  obtain ⟨t, ht⟩ := passReads_initial ru avail c
  have h1 : (passReads ru c avail ++ t).drop (passReads ru c avail).length = t := by simp
  rw [ht] at h1
  rw [h1, ht]

theorem timerScheduled_append (fk : FloorKind) (posted : List StimRecord)
    (evs : List SimBaseEvent)
    (h : List.Forall₂ (fun r e => StimRecord.event fk r = Except.ok e) posted evs) :
    evs.any (fun e => decide (e.tag = timerTag)) = false := by
  induction h with
  | nil => rfl
  | cons hre _ ih =>
    have := (time_ok_of_event fk _ _ hre).2
    simp only [List.any_cons, ih, Bool.or_false, decide_eq_false_iff_not]
    rw [this]
    unfold textTag timerTag
    omega

/-- A pass schedules a timer exactly when it has read a record or the stream is still
good. -/
theorem timerScheduled_iff (fk : FloorKind) (L : StimLoader) (res : LoadPass)
    (h : L.LoadQueue fk = Except.ok res) :
    res.timerScheduled = (res.success || res.loader.StimFileOK) := by
  obtain ⟨_, _, _, _, ⟨evs, hev, ht, hf⟩, _⟩ := LoadQueue_spec fk L res h
  have hno := timerScheduled_append fk _ _ hev
  unfold LoadPass.timerScheduled
  cases hb : (res.success || res.loader.StimFileOK) with
  | true =>
    obtain ⟨t, _, hs⟩ := ht hb
    rw [hs]
    simp [hno]
  | false =>
    rw [hf hb]
    exact hno

/-- One pass from a sound state: it returns, the state it leaves is sound, what it has
posted and what is left pending make up what was pending before, a pass that
schedules a timer has taken a record from the stream, and a pass that does not leaves
nothing pending. -/
theorem pass_step (fk : FloorKind) (L : StimLoader) (hS : L.Sound fk) :
    ∃ res, L.LoadQueue fk = Except.ok res ∧ res.loader.Sound fk
      ∧ res.posted ++ res.loader.pending = L.pending
      ∧ (res.timerScheduled = true →
          res.loader.stim_file.readable.length < L.stim_file.readable.length)
      ∧ (res.timerScheduled = false → res.loader.pending = []) := by
  obtain ⟨hready, hh, ⟨hcb, hcc⟩, hall⟩ := hS
  obtain ⟨res, hres⟩ := LoadQueue_total fk L hready hh hcc (fun r hr => (hall r hr).2)
  have htimer := timerScheduled_iff fk L res hres
  obtain ⟨s1, s2, s3, s4, _, s6, s7, s8, s9, s10, s11, s12, s13⟩ := LoadQueue_spec fk L res hres
  obtain ⟨tc, htc⟩ := hcc
  have hlt : L.stim_event_time < L.windowEnd :=
    lt_windowEnd _ hcb (le_of_ofUserTime_ok fk _ tc htc)
  obtain ⟨hcached, hheader⟩ := s11 hh
  have hsub : ∀ r ∈ L.passRecords, r ∈ L.stim_file.readable := fun r hr =>
    List.IsPrefix.subset ( passReads_initial _ _ _) hr
  refine ⟨res, hres, ⟨s7, hheader, ?_, ?_⟩, ?_, ?_, ?_⟩
  · have htime : res.loader.stim_event_time = res.loader.cached.time := rfl
    rw [htime, hcached]
    cases hX : L.passRecords.getLast? with
    | none => exact ⟨hcb, tc, htc⟩
    | some r => exact hall r (hsub r (List.mem_of_getLast?_eq_some hX))
  · intro r hr
    rw [s9] at hr
    exact hall r (List.mem_of_mem_drop hr)
  · unfold StimLoader.pending
    rw [s3, s8, s9, hcached]
    have h1 := passReads_split L.windowEnd L.cached L.stim_file.readable L.stim_event_time
    have h2 := passReads_append_drop L.windowEnd L.stim_event_time L.stim_file.readable
    unfold StimLoader.passRecords
    rw [List.append_assoc, ← List.append_assoc (List.filter _ _), h1, h2]
  · intro ht
    rw [htimer] at ht
    rw [s9]
    cases hX : L.passRecords with
    | nil =>
      rw [s4, hX] at ht
      rw [s13 hlt (by rw [hX]; intro r hr; cases hr)] at ht
      cases ht
    | cons x xs =>
      have hmem := hsub x (by rw [hX]; exact List.mem_cons_self _ _)
      have hpos : 0 < L.stim_file.readable.length := List.length_pos_of_mem hmem
      rw [List.length_drop]
      simp only [List.length_cons]
      omega
  · intro ht
    rw [htimer] at ht
    have hsucc : res.success = false := by
      cases hb : res.success with
      | true => rw [hb] at ht; cases ht
      | false => rfl
    rw [s4] at hsucc
    have hX : L.passRecords = [] := by
      cases hY : L.passRecords with
      | nil => rfl
      | cons x xs => rw [hY] at hsucc; cases hsucc
    have hav := passReads_eq_nil _ _ _ hlt hX
    unfold StimLoader.pending
    rw [s8, s9, hX, hav]
    rfl

/-- From a sound state the passes end, and together they post what was pending, in
order. -/
theorem loadPasses_posts_pending (fk : FloorKind) :
    ∀ (fuel : ℕ) (L : StimLoader), L.Sound fk → L.stim_file.readable.length < fuel →
      ∃ passes, loadPasses fk fuel L = some (Except.ok passes)
        ∧ (passes.map LoadPass.posted).flatten = L.pending := by
  intro fuel
  induction fuel with
  | zero => intro L _ h; exact absurd h (Nat.not_lt_zero _)
  | succ n ih =>
    intro L hS hlen
    obtain ⟨res, hres, hS', hpend, hyes, hno⟩ := pass_step fk L hS
    rw [loadPasses, hres]
    dsimp only
    cases ht : res.timerScheduled with
    | true =>
      obtain ⟨ps, hps, hflat⟩ := ih res.loader hS' (by have := hyes ht; omega)
      rw [if_pos rfl, hps]
      refine ⟨res :: ps, rfl, ?_⟩
      rw [List.map_cons, List.flatten_cons, hflat, hpend]
    | false =>
      rw [if_neg (by simp)]
      refine ⟨[res], rfl, ?_⟩
      have := hno ht
      rw [this, List.append_nil] at hpend
      simp [hpend]

/-- The loader that `StimTextEventLoader(stimulus_path)` constructs from a file with a
first record `r`: the cache holds `r`, and the stream stands before `r` again. -/
theorem StimTextEventLoader_opened (header ends_with_record : Bool) (r : StimRecord)
    (rest : List StimRecord) :
    StimTextEventLoader (StimFile.opened header (r :: rest) ends_with_record)
      = Except.ok ⟨ldAdd r.time kReadPeriod, StimFile.opened false (r :: rest) ends_with_record,
          r.time, true, r.payload, false⟩ := by
  cases header <;>
    simp [StimTextEventLoader, StimLoader.OpenStimFile, StimLoader.ReadStimRecord,
      StimFile.opened, StimFile.good, StimLoader.fresh, StimLoader.ResetStimData]

theorem le_max_of_ofUserTime_ok (fk : FloorKind) (c : UserTime) (t : SimTime)
    (h : SimTime.ofUserTime fk c = Except.ok t) : c ≤ kMaxUserTimeUnits := by
  unfold SimTime.ofUserTime SimTime.SetTime at h
  by_cases hc : 0 ≤ c ∧ ¬ (c > kMaxUserTimeUnits)
  · exact not_lt.1 hc.2
  · rw [if_neg hc] at h
    by_cases hn : c < 0
    · rw [kMaxUserTimeUnits_eq]
      have : (0 : ℚ) ≤ 11805916207174113034 / 64 := by norm_num
      linarith
    · rw [if_neg hn] at h
      cases h

theorem ofUserTime_fatal_above_max (fk : FloorKind) (c : UserTime)
    (h : kMaxUserTimeUnits < c) : SimTime.ofUserTime fk c = Except.error Abort.fatal := by
  have h0 : (0 : ℚ) < c := by
    rw [kMaxUserTimeUnits_eq] at h
    have : (0 : ℚ) ≤ 11805916207174113034 / 64 := by norm_num
    linarith
  unfold SimTime.ofUserTime SimTime.SetTime
  rw [if_neg (by intro hc; exact hc.2 h), if_neg (not_lt.2 (le_of_lt h0))]

/-- A pass whose first record read cannot be converted ends as that conversion does. -/
theorem LoadQueue_first_post_error (fk : FloorKind) (L : StimLoader) (r : StimRecord)
    (rest : List StimRecord) (a : Abort) (hready : L.ready = true)
    (hla : L.look_ahead = false) (hav : L.stim_file.readable = r :: rest)
    (hc : L.stim_event_time < L.windowEnd) (hr : r.time < L.windowEnd)
    (he : StimRecord.event fk r = Except.error a) :
    L.LoadQueue fk = Except.error a := by
  have hopen : L.stim_file.is_open = true := by
    cases ho : L.stim_file.is_open with
    | true => rfl
    | false => rw [readable_of_closed _ ho] at hav; cases hav
  unfold StimLoader.LoadQueue
  rw [if_neg (by simp [hready])]
  simp only [hla, Bool.false_eq_true, if_false, Except.bind, hopen, if_true]
  have hloop : StimLoader.readLoop fk (L.stim_file.remaining.length + 1)
      ⟨{ L with read_until := ldAdd L.stim_event_time kReadPeriod }, false, [], [], []⟩
        = Except.error a := by
    rw [StimLoader.readLoop]
    have hc' : L.stim_event_time < ldAdd L.stim_event_time kReadPeriod := hc
    simp only [hc', if_true]
    obtain ⟨h1, h2, h3, h4, h5, h6, h7, h8⟩ := ReadStimRecord_cons
      ({ L with read_until := ldAdd L.stim_event_time kReadPeriod } : StimLoader) r rest hav
    rw [h1, if_pos rfl]
    have ht : ({ L with read_until := ldAdd L.stim_event_time kReadPeriod } :
        StimLoader).ReadStimRecord.2.stim_event_time = r.time := by
      rw [← h2]; rfl
    simp only [h4, ht]
    have hr' : r.time < ldAdd L.stim_event_time kReadPeriod := hr
    rw [if_pos hr']
    unfold LoadPass.post StimLoader.PostEvent
    simp only [h2, he, Except.map, Except.bind]
  simp only [hla] at hloop
  rw [hloop]

theorem event_natCast (fk : FloorKind) (k p : ℕ) (hk : 100 * k < 2 ^ 50) :
    StimRecord.event fk ⟨(k : ℚ), p⟩ = Except.ok ⟨⟨100 * k⟩, p + 1⟩ :=
  event_eq_ok_of_time fk ⟨(k : ℚ), p⟩ ⟨100 * k⟩ (ofUserTime_natCast fk k hk)

/-! ## The example stream, and a stream with a record beyond the maximum time -/

theorem windowEnd_pace : paceLoader.windowEnd = 1005 := by
  have := ldAdd_natCast 5 1000 (by norm_num)
  norm_num at this
  exact this

theorem paceLoader_constructed : StimTextEventLoader paceFile = Except.ok paceLoader := by
  have h : ldAdd 5 kReadPeriod = 1005 := windowEnd_pace
  unfold paceFile paceStream paceLoader
  rw [StimTextEventLoader_opened, h]
  rfl

theorem passRecords_pace : paceLoader.passRecords = paceStream := by
  unfold StimLoader.passRecords
  rw [windowEnd_pace]
  have hr : paceLoader.stim_file.readable = paceStream := rfl
  have hc : paceLoader.stim_event_time = 5 := rfl
  rw [hr, hc]
  unfold paceStream
  norm_num [passReads]

theorem paceStream_times (fk : FloorKind) :
    ∀ r ∈ paceStream,
      -(2 : ℚ) ^ 64 ≤ r.time ∧ ∃ t, SimTime.ofUserTime fk r.time = Except.ok t := by
  intro r hr
  unfold paceStream at hr
  simp only [List.mem_cons, List.mem_singleton, List.not_mem_nil, or_false] at hr
  rcases hr with h | h | h | h | h <;> subst h
  · refine ⟨by norm_num, ⟨500⟩, ?_⟩
    have := ofUserTime_natCast fk 5 (by norm_num)
    norm_num at this
    exact this
  · refine ⟨by norm_num, ⟨5000⟩, ?_⟩
    have := ofUserTime_natCast fk 50 (by norm_num)
    norm_num at this
    exact this
  · refine ⟨by norm_num, ⟨99900⟩, ?_⟩
    have := ofUserTime_natCast fk 999 (by norm_num)
    norm_num at this
    exact this
  · refine ⟨by norm_num, ⟨100000⟩, ?_⟩
    have := ofUserTime_natCast fk 1000 (by norm_num)
    norm_num at this
    exact this
  · refine ⟨by norm_num, ⟨150000⟩, ?_⟩
    have := ofUserTime_natCast fk 1500 (by norm_num)
    norm_num at this
    exact this

theorem paceLoader_sound (fk : FloorKind) : paceLoader.Sound fk :=
  ⟨rfl, rfl, paceStream_times fk ⟨5, 1⟩ (by simp [paceStream]), paceStream_times fk⟩

/-- The first pass over the example stream. -/
theorem pace_first_pass (fk : FloorKind) (p1 : LoadPass)
    (h : paceLoader.LoadQueue fk = Except.ok p1) :
    p1.read = paceStream
      ∧ p1.posted = [⟨5, 1⟩, ⟨50, 2⟩, ⟨999, 3⟩, ⟨1000, 4⟩]
      ∧ p1.success = true ∧ p1.timerScheduled = true
      ∧ p1.loader.look_ahead = true ∧ p1.loader.cached = ⟨1500, 5⟩
      ∧ p1.loader.read_until = 2500 ∧ p1.loader.stim_file.readable = []
      ∧ p1.loader.ready = true ∧ p1.loader.stim_file.header = false := by
  have htimer := timerScheduled_iff fk _ p1 h
  obtain ⟨s1, s2, s3, s4, _, s6, s7, s8, s9, s10, s11, s12, s13⟩ := LoadQueue_spec fk _ p1 h
  rw [passRecords_pace] at s2 s3 s4 s8 s9 s11
  rw [windowEnd_pace] at s3 s6 s8
  have hsucc : p1.success = true := by rw [s4]; rfl
  obtain ⟨hcached, hheader⟩ := s11 rfl
  have hcached' : p1.loader.cached = ⟨1500, 5⟩ := by rw [hcached]; rfl
  have htime : p1.loader.stim_event_time = 1500 := by
    have : p1.loader.stim_event_time = p1.loader.cached.time := rfl
    rw [this, hcached']
  have h2500 : ldAdd 1500 kReadPeriod = 2500 := by
    have := ldAdd_natCast 1500 1000 (by norm_num)
    norm_num at this
    exact this
  refine ⟨s2, ?_, hsucc, ?_, ?_, hcached', ?_, ?_, s7, hheader⟩
  · rw [s3]
    have hla : paceLoader.look_ahead = false := rfl
    rw [hla]
    unfold paceStream
    norm_num
  · rw [htimer, hsucc]; rfl
  · rw [s8]
    unfold paceStream
    norm_num
  · rw [s6, hsucc, htime, h2500]
    simp
  · rw [s9]
    have hr : paceLoader.stim_file.readable = paceStream := rfl
    rw [hr]
    simp [paceStream]

/-- The second pass over the example stream. -/
theorem pace_second_pass (fk : FloorKind) (p1 p2 : LoadPass)
    (h1 : paceLoader.LoadQueue fk = Except.ok p1)
    (h2 : p1.loader.LoadQueue fk = Except.ok p2) :
    p2.read = [] ∧ p2.posted = [⟨1500, 5⟩] ∧ p2.success = false
      ∧ p2.timerScheduled = false := by
  obtain ⟨_, _, _, _, hla, hcached, _, hread, _, _⟩ := pace_first_pass fk p1 h1
  have htimer := timerScheduled_iff fk _ p2 h2
  obtain ⟨s1, s2, s3, s4, _, s6, s7, s8, s9, s10, s11, s12, s13⟩ := LoadQueue_spec fk _ p2 h2
  have hX : p1.loader.passRecords = [] := by
    unfold StimLoader.passRecords
    rw [hread]
    rfl
  have htime : p1.loader.stim_event_time = 1500 := by
    have : p1.loader.stim_event_time = p1.loader.cached.time := rfl
    rw [this, hcached]
  have hw : p1.loader.windowEnd = 2500 := by
    unfold StimLoader.windowEnd
    rw [htime]
    have := ldAdd_natCast 1500 1000 (by norm_num)
    norm_num at this
    exact this
  rw [hX] at s2 s3 s4 s13
  have hsucc : p2.success = false := by rw [s4]; rfl
  have hok : p2.loader.StimFileOK = false := by
    apply s13
    · rw [htime, hw]; norm_num
    · intro r hr; cases hr
  refine ⟨s2, ?_, hsucc, ?_⟩
  · rw [s3, hla, hcached]
    rfl
  · rw [htimer, hsucc, hok]
    rfl

theorem pace_passes (fk : FloorKind) :
    ∃ p1 p2, paceLoader.LoadQueue fk = Except.ok p1 ∧ p1.loader.LoadQueue fk = Except.ok p2
      ∧ loadPasses fk 2 paceLoader = some (Except.ok [p1, p2]) := by
  obtain ⟨p1, h1, hS1, _⟩ := pass_step fk paceLoader (paceLoader_sound fk)
  obtain ⟨p2, h2, _⟩ := pass_step fk p1.loader hS1
  refine ⟨p1, p2, h1, h2, ?_⟩
  have t1 := (pace_first_pass fk p1 h1).2.2.2.1
  have t2 := (pace_second_pass fk p1 p2 h1 h2).2.2.2
  rw [loadPasses, h1]
  dsimp only
  rw [if_pos t1, loadPasses, h2]
  dsimp only
  rw [if_neg (by simp [t2])]

theorem lateLoader_constructed : StimTextEventLoader lateFile = Except.ok lateLoader := by
  have h : ldAdd (2 ^ 58) kReadPeriod = 2 ^ 58 + 1000 := by
    have := ldAdd_natCast (2 ^ 58) 1000 (by norm_num)
    unfold kReadPeriod
    norm_num at this ⊢
    exact this
  unfold lateFile lateLoader
  rw [StimTextEventLoader_opened, h]
  rfl

theorem lateLoader_fatal (fk : FloorKind) :
    lateLoader.LoadQueue fk = Except.error Abort.fatal := by
  have hw : lateLoader.windowEnd = 2 ^ 58 + 1000 := by
    have := ldAdd_natCast (2 ^ 58) 1000 (by norm_num)
    unfold StimLoader.windowEnd kReadPeriod
    have hc : lateLoader.stim_event_time = 2 ^ 58 := rfl
    rw [hc]
    norm_num at this ⊢
    exact this
  apply LoadQueue_first_post_error fk lateLoader ⟨2 ^ 58, 1⟩ [] Abort.fatal rfl rfl rfl
  · rw [hw]
    show (2 : ℚ) ^ 58 < 2 ^ 58 + 1000
    norm_num
  · rw [hw]
    show (2 : ℚ) ^ 58 < 2 ^ 58 + 1000
    norm_num
  · unfold StimRecord.event
    rw [ofUserTime_fatal_above_max fk _ (by rw [kMaxUserTimeUnits_eq]; norm_num)]
    rfl

/-! ## The stimulus loader: passes, windows, timers -/

theorem readable_header (f : StimFile) (r : StimRecord) (h : r ∈ f.readable) :
    f.header = false := by
  unfold StimFile.readable at h
  split at h
  · rename_i hc
    simp only [Bool.and_eq_true, Bool.not_eq_true'] at hc
    exact hc.2
  · cases h

theorem getLast?_filter_of_pos (p : StimRecord → Bool) :
    ∀ (l : List StimRecord) (r : StimRecord), l.getLast? = some r → p r = true →
      (l.filter p).getLast? = some r := by
  intro l
  induction l with
  | nil => intro r h; cases h
  | cons x rest ih =>
    intro r h hp
    cases rest with
    | nil =>
      simp only [List.getLast?_singleton, Option.some.injEq] at h
      subst h
      simp [hp]
    | cons y ys =>
      rw [List.getLast?_cons_cons] at h
      have := ih r h hp
      by_cases hx : p x = true
      · rw [List.filter_cons_of_pos hx]
        cases hf : (y :: ys).filter p with
        | nil => rw [hf] at this; cases this
        | cons z zs =>
          rw [hf] at this
          rw [List.getLast?_cons_cons]
          exact this
      · rw [List.filter_cons_of_neg hx]
        exact this

theorem getLast?_append_of_some (a b : List StimRecord) (r : StimRecord)
    (h : b.getLast? = some r) : (a ++ b).getLast? = some r := by
  induction a with
  | nil => exact h
  | cons x rest ih =>
    cases hab : rest ++ b with
    | nil =>
      rw [hab] at ih
      cases ih
    | cons y ys =>
      rw [List.cons_append, hab, List.getLast?_cons_cons, ← hab]
      exact ih

/-- C14 fails for a stream with a record beyond the maximum simulation time.  For the
file whose only record has the time `2 ^ 58` (`GetMaxUserTime()` is below `2 ^ 58`),
`OpenStimFile` succeeds and the loader is constructed; the first `LoadQueue` pass
reads the record and, in `PostEvent`, constructs the `SimTime` of the event, which is
fatal.  The record is never posted. -/
theorem loader_dies_on_record_beyond_max_time :
    StimTextEventLoader lateFile = Except.ok lateLoader
      ∧ SimTime.GetMaxUserTime < 2 ^ 58
      ∧ lateLoader.LoadQueue FloorKind.longDouble = Except.error Abort.fatal
      ∧ lateLoader.LoadQueue FloorKind.double = Except.error Abort.fatal
      ∧ loadPasses FloorKind.longDouble 1 lateLoader = some (Except.error Abort.fatal)
      ∧ loadPasses FloorKind.double 1 lateLoader = some (Except.error Abort.fatal) := by
  refine ⟨lateLoader_constructed, ?_, lateLoader_fatal _, lateLoader_fatal _, ?_, ?_⟩
  · unfold SimTime.GetMaxUserTime
    rw [kMaxUserTimeUnits_eq]
    norm_num
  · rw [loadPasses, lateLoader_fatal]
  · rw [loadPasses, lateLoader_fatal]

/-- C14, amended: for every finite, non-empty stimulus record stream whose record
times are at least `-2 ^ 64` and convert to a `SimTime` (so none exceeds
`GetMaxUserTime()`), in a file with or without a header line: the loader is
constructed, and the first `LoadQueue` pass followed by one pass for each
continuation timer a pass schedules ends (one pass more than there are records is
enough), no pass is fatal, and the passes together post every record of the stream
exactly once and in stream order. -/
theorem loader_posts_every_record_once_in_order (fk : FloorKind)
    (header ends_with_record : Bool) (records : List StimRecord) (hne : records ≠ [])
    (htimes : ∀ r ∈ records,
      -(2 : ℚ) ^ 64 ≤ r.time ∧ ∃ t, SimTime.ofUserTime fk r.time = Except.ok t) :
    ∃ L0, StimTextEventLoader (StimFile.opened header records ends_with_record)
        = Except.ok L0
      ∧ ∀ fuel, records.length < fuel →
          ∃ passes, loadPasses fk fuel L0 = some (Except.ok passes)
            ∧ (passes.map LoadPass.posted).flatten = records := by
  cases records with
  | nil => exact absurd rfl hne
  | cons r rest =>
    refine ⟨_, StimTextEventLoader_opened header ends_with_record r rest, ?_⟩
    intro fuel hfuel
    have hS : StimLoader.Sound fk
        ⟨ldAdd r.time kReadPeriod, StimFile.opened false (r :: rest) ends_with_record,
          r.time, true, r.payload, false⟩ :=
      ⟨rfl, rfl, htimes r (List.mem_cons_self _ _), htimes⟩
    exact loadPasses_posts_pending fk fuel _ hS hfuel

/-- The amended statement of C14 for the example stream (times 5, 50, 999, 1000,
1500). -/
theorem loader_posts_every_record_once_in_order_witness :
    ∃ L0, StimTextEventLoader (StimFile.opened false paceStream false) = Except.ok L0
      ∧ ∃ passes, loadPasses FloorKind.double 6 L0 = some (Except.ok passes)
          ∧ (passes.map LoadPass.posted).flatten = paceStream := by
  obtain ⟨L0, h0, h⟩ := loader_posts_every_record_once_in_order FloorKind.double false
    false paceStream (by simp [paceStream]) (paceStream_times FloorKind.double)
  exact ⟨L0, h0, h 6 (by simp [paceStream])⟩

theorem pace_first_pass_found (fk : FloorKind) :
    ∃ p1, paceLoader.LoadQueue fk = Except.ok p1
      ∧ p1.posted = [⟨5, 1⟩, ⟨50, 2⟩, ⟨999, 3⟩, ⟨1000, 4⟩]
      ∧ p1.loader.look_ahead = true ∧ p1.loader.cached = ⟨1500, 5⟩
      ∧ p1.timerScheduled = true ∧ p1.loader.read_until = 2500 := by
  obtain ⟨p1, _, h1, _, _⟩ := pace_passes fk
  obtain ⟨_, t2, _, t4, t5, t6, t7, _⟩ := pace_first_pass fk p1 h1
  exact ⟨p1, h1, t2, t5, t6, t4, t7⟩

/-- C15 fails: the loader constructed from the example stream has the window end
`read_until = 5 + 1000 = 1005` (the base time is the time of the first record, 5), so
the first pass enqueues the records at 5, 50, 999 and also the record at 1000, and the
record it buffers as look-ahead is the one at 1500. -/
theorem first_pass_enqueues_1000_and_buffers_1500 :
    StimTextEventLoader paceFile = Except.ok paceLoader
      ∧ paceLoader.read_until = 1005
      ∧ (∃ p1, paceLoader.LoadQueue FloorKind.longDouble = Except.ok p1
          ∧ p1.posted = [⟨5, 1⟩, ⟨50, 2⟩, ⟨999, 3⟩, ⟨1000, 4⟩]
          ∧ p1.loader.look_ahead = true ∧ p1.loader.cached = ⟨1500, 5⟩)
      ∧ (∃ p1, paceLoader.LoadQueue FloorKind.double = Except.ok p1
          ∧ p1.posted = [⟨5, 1⟩, ⟨50, 2⟩, ⟨999, 3⟩, ⟨1000, 4⟩]
          ∧ p1.loader.look_ahead = true ∧ p1.loader.cached = ⟨1500, 5⟩) := by
  refine ⟨paceLoader_constructed, rfl, ?_, ?_⟩
  · obtain ⟨p1, h1, h2, h3, h4, _⟩ := pace_first_pass_found FloorKind.longDouble
    exact ⟨p1, h1, h2, h3, h4⟩
  · obtain ⟨p1, h1, h2, h3, h4, _⟩ := pace_first_pass_found FloorKind.double
    exact ⟨p1, h1, h2, h3, h4⟩

/-- C15, amended: for the record stream with the times 5, 50, 999, 1000, 1500 and the
1000-unit window, the window of the first pass ends at `5 + 1000 = 1005`; the first
`LoadQueue` pass enqueues exactly the records at 5, 50, 999 and 1000, buffers the
record at 1500 as look-ahead and schedules a continuation; the continuation pass
enqueues 1500, reads nothing more and schedules no timer; over the two passes every
record is enqueued once, in stream order. -/
theorem pace_stream_is_loaded_in_two_passes (fk : FloorKind) :
    ∃ p1 p2, StimTextEventLoader paceFile = Except.ok paceLoader
      ∧ paceLoader.windowEnd = 1005
      ∧ paceLoader.LoadQueue fk = Except.ok p1
      ∧ p1.posted = [⟨5, 1⟩, ⟨50, 2⟩, ⟨999, 3⟩, ⟨1000, 4⟩]
      ∧ p1.loader.look_ahead = true ∧ p1.loader.cached = ⟨1500, 5⟩
      ∧ p1.timerScheduled = true
      ∧ p1.loader.LoadQueue fk = Except.ok p2
      ∧ p2.posted = [⟨1500, 5⟩] ∧ p2.read = [] ∧ p2.timerScheduled = false
      ∧ loadPasses fk 2 paceLoader = some (Except.ok [p1, p2])
      ∧ p1.posted ++ p2.posted = paceStream := by
  obtain ⟨p1, p2, h1, h2, h3⟩ := pace_passes fk
  obtain ⟨_, t2, _, t4, t5, t6, _⟩ := pace_first_pass fk p1 h1
  obtain ⟨u1, u2, _, u4⟩ := pace_second_pass fk p1 p2 h1 h2
  refine ⟨p1, p2, paceLoader_constructed, windowEnd_pace, h1, t2, t5, t6, t4, h2, u2, u1, u4,
    h3, ?_⟩
  rw [t2, u2]
  rfl

/-- C16: in every `LoadQueue` pass that returns, with `read_until` set on entry to the
cached (last-read) time plus the read period (`windowEnd`): the records read are
taken from the stream in order; what the pass posts is the buffered look-ahead
record, if there is one, followed by the records read whose time is below
`read_until`, in the order read; a record read whose time is not below `read_until`
is the last one read, is not among the records read that are posted, and is left in
the cache with `look_ahead` set; the next pass posts that cached record before the
records it reads itself; and every record posted has a time below `read_until`, or
is the look-ahead record, whose time is the cached time itself. -/
theorem LoadQueue_posts_records_below_read_until (fk : FloorKind) (L : StimLoader)
    (res : LoadPass) (h : L.LoadQueue fk = Except.ok res) :
    L.windowEnd = ldAdd L.stim_event_time kReadPeriod
      ∧ res.read <+: L.stim_file.readable
      ∧ res.posted = (if L.look_ahead then [L.cached] else [])
          ++ res.read.filter (fun r => decide (r.time < L.windowEnd))
      ∧ (∀ r ∈ res.read, ¬ r.time < L.windowEnd →
          res.read.getLast? = some r ∧ res.loader.look_ahead = true
            ∧ res.loader.cached = r)
      ∧ (∀ res2, res.loader.LoadQueue fk = Except.ok res2 →
          res.loader.look_ahead = true →
          res2.posted = res.loader.cached
            :: res2.read.filter (fun r => decide (r.time < res.loader.windowEnd)))
      ∧ (∀ r ∈ res.posted,
          r.time < L.windowEnd ∨ (L.look_ahead = true ∧ r = L.cached)) := by
  obtain ⟨s1, s2, s3, s4, _, s6, s7, s8, s9, s10, s11, s12, s13⟩ := LoadQueue_spec fk L res h
  refine ⟨rfl, ?_, ?_, ?_, ?_, ?_⟩
  · rw [s2]
    exact passReads_initial _ _ _
  · rw [s3, s2]
  · intro r hr hge
    rw [s2] at hr ⊢
    have hlast := passReads_last _ _ _ r hr hge
    have hmem : r ∈ L.stim_file.readable :=
      List.IsPrefix.subset ( passReads_initial _ _ _) hr
    have hcached := (s11 (readable_header _ r hmem)).1
    refine ⟨hlast, ?_, ?_⟩
    · rw [s8, List.any_eq_true]
      exact ⟨r, hr, by simpa using hge⟩
    · have hlast' : L.passRecords.getLast? = some r := hlast
      rw [hcached, hlast']
      rfl
  · intro res2 h2 hla
    obtain ⟨_, u2, u3, _⟩ := LoadQueue_spec fk res.loader res2 h2
    rw [u3, u2, hla]
    rfl
  · intro r hr
    rw [s3] at hr
    rcases List.mem_append.1 hr with h1 | h1
    · right
      by_cases hla : L.look_ahead = true
      · rw [if_pos hla] at h1
        exact ⟨hla, List.mem_singleton.1 h1⟩
      · rw [if_neg hla] at h1
        cases h1
    · left
      have := (List.mem_filter.1 h1).2
      simpa using this

/-- The two passes over the example stream: the first posts the records below 1005
and leaves the record at 1500 in the cache, the second posts it first. -/
theorem LoadQueue_posts_records_below_read_until_witness :
    ∃ p1, paceLoader.LoadQueue FloorKind.double = Except.ok p1
      ∧ p1.read <+: paceLoader.stim_file.readable
      ∧ p1.posted = (if paceLoader.look_ahead then [paceLoader.cached] else [])
          ++ p1.read.filter (fun r => decide (r.time < paceLoader.windowEnd))
      ∧ (∀ r ∈ p1.read, ¬ r.time < paceLoader.windowEnd →
          p1.read.getLast? = some r ∧ p1.loader.look_ahead = true ∧ p1.loader.cached = r)
      ∧ (∀ r ∈ p1.posted,
          r.time < paceLoader.windowEnd
            ∨ (paceLoader.look_ahead = true ∧ r = paceLoader.cached)) := by
  obtain ⟨p1, _, h1, _, _⟩ := pace_passes FloorKind.double
  obtain ⟨_, a2, a3, a4, _, a6⟩ :=
    LoadQueue_posts_records_below_read_until FloorKind.double paceLoader p1 h1
  exact ⟨p1, h1, a2, a3, a4, a6⟩

/-- C17: a `LoadQueue` pass that returns has read at least one record exactly when
`success` is set; if `success` is set or `StimFileOK()` holds after the reading, the
pass hands exactly one `LoadStimTimerEvent` to `ScheduleEvent`, as its last
`ScheduleEvent` call, at the `SimTime` of the cached time, which is the time of the
last record read in the pass, or the cached time on entry when none was read; if the
pass has read nothing and `StimFileOK()` does not hold, it schedules no timer; this is
so in particular when the stream has no record left on entry (and the cached time is
below `read_until`, so that the pass tries to read). -/
theorem LoadQueue_schedules_one_timer_at_last_seen_time (fk : FloorKind) (L : StimLoader)
    (res : LoadPass) (h : L.LoadQueue fk = Except.ok res) :
    (res.success = true ↔ res.read ≠ [])
      ∧ ((res.success || res.loader.StimFileOK) = true →
          ∃ t, SimTime.ofUserTime fk res.loader.stim_event_time = Except.ok t
            ∧ res.scheduled.filter (fun e => decide (e.tag = timerTag)) = [⟨t, timerTag⟩]
            ∧ res.scheduled.getLast? = some ⟨t, timerTag⟩
            ∧ res.loader.stim_event_time
                = ((res.read.getLast?).map StimRecord.time).getD L.stim_event_time)
      ∧ ((res.success || res.loader.StimFileOK) = false →
          res.scheduled.filter (fun e => decide (e.tag = timerTag)) = [])
      ∧ (L.stim_file.readable = [] → L.stim_event_time < L.windowEnd →
          res.scheduled.filter (fun e => decide (e.tag = timerTag)) = []) := by
  obtain ⟨s1, s2, s3, s4, ⟨evs, hev, ht, hf⟩, s6, s7, s8, s9, s10, s11, s12, s13⟩ :=
    LoadQueue_spec fk L res h
  have hno := timerScheduled_append fk _ _ hev
  have hfilter : evs.filter (fun e => decide (e.tag = timerTag)) = [] := by
    rw [List.filter_eq_nil_iff]
    intro e he
    have := List.any_eq_false.1 hno e he
    simpa using this
  refine ⟨?_, ?_, ?_, ?_⟩
  · rw [s4, s2]
    cases L.passRecords with
    | nil => simp
    | cons x xs => simp
  · intro hb
    obtain ⟨t, htc, hs⟩ := ht hb
    refine ⟨t, htc, ?_, ?_, ?_⟩
    · rw [hs, List.filter_append, hfilter]
      simp
    · rw [hs]
      simp
    · rw [s2]
      cases hX : L.passRecords.getLast? with
      | none =>
        have hnil : L.passRecords = [] := List.getLast?_eq_none_iff.1 hX
        simp only [Option.map_none', Option.getD_none]
        by_cases hc : L.stim_event_time < L.windowEnd
        · have hok := s13 hc (by rw [hnil]; intro r hr; cases hr)
          rw [s4, hnil, hok] at hb
          cases hb
        · exact s12 hc
      | some r =>
        have hmem : r ∈ L.stim_file.readable :=
          List.IsPrefix.subset ( passReads_initial _ _ _) (List.mem_of_getLast?_eq_some hX)
        have hcached := (s11 (readable_header _ r hmem)).1
        have : res.loader.stim_event_time = res.loader.cached.time := rfl
        rw [this, hcached, hX]
        rfl
  · intro hb
    rw [hf hb, hfilter]
  · intro hnil hc
    have hX : L.passRecords = [] := by
      unfold StimLoader.passRecords
      rw [hnil]
      rfl
    have hok := s13 hc (by rw [hX]; intro r hr; cases hr)
    have hb : (res.success || res.loader.StimFileOK) = false := by
      rw [s4, hX, hok]
      rfl
    rw [hf hb, hfilter]

/-- The first pass over the example stream: it reads records, and schedules one timer,
at the time of the record at 1500. -/
theorem LoadQueue_schedules_one_timer_at_last_seen_time_witness :
    ∃ p1, paceLoader.LoadQueue FloorKind.double = Except.ok p1
      ∧ (p1.success = true ↔ p1.read ≠ [])
      ∧ ((p1.success || p1.loader.StimFileOK) = true →
          ∃ t, SimTime.ofUserTime FloorKind.double p1.loader.stim_event_time = Except.ok t
            ∧ p1.scheduled.filter (fun e => decide (e.tag = timerTag)) = [⟨t, timerTag⟩]
            ∧ p1.scheduled.getLast? = some ⟨t, timerTag⟩
            ∧ p1.loader.stim_event_time
                = ((p1.read.getLast?).map StimRecord.time).getD paceLoader.stim_event_time) := by
  obtain ⟨p1, _, h1, _, _⟩ := pace_passes FloorKind.double
  obtain ⟨a1, a2, _⟩ :=
    LoadQueue_schedules_one_timer_at_last_seen_time FloorKind.double paceLoader p1 h1
  exact ⟨p1, h1, a1, a2⟩

/-- C18 fails on the example stream: the first pass enqueues the records at 5, 50, 999
and 1000, and schedules a continuation; the last record enqueued is the one at 1000,
but `read_until` afterwards is `1500 + 1000 = 2500`, not `1000 + 1000`: it is
computed from the last record read, which is the buffered record at 1500. -/
theorem read_until_follows_the_buffered_record :
    ldAdd 1000 kReadPeriod = 2000
      ∧ (∃ p1, paceLoader.LoadQueue FloorKind.longDouble = Except.ok p1
          ∧ p1.timerScheduled = true ∧ p1.posted.getLast? = some ⟨1000, 4⟩
          ∧ p1.loader.read_until = 2500)
      ∧ (∃ p1, paceLoader.LoadQueue FloorKind.double = Except.ok p1
          ∧ p1.timerScheduled = true ∧ p1.posted.getLast? = some ⟨1000, 4⟩
          ∧ p1.loader.read_until = 2500) := by
  refine ⟨?_, ?_, ?_⟩
  · have := ldAdd_natCast 1000 1000 (by norm_num)
    unfold kReadPeriod
    norm_num at this ⊢
    exact this
  · obtain ⟨p1, h1, h2, _, _, h5, h6⟩ := pace_first_pass_found FloorKind.longDouble
    exact ⟨p1, h1, h5, by rw [h2]; rfl, h6⟩
  · obtain ⟨p1, h1, h2, _, _, h5, h6⟩ := pace_first_pass_found FloorKind.double
    exact ⟨p1, h1, h5, by rw [h2]; rfl, h6⟩

/-- C18, amended: after every `LoadQueue` pass that schedules a continuation: if the
pass has read at least one record, `read_until` is the time of the last record read
plus the read period (that record is the last one enqueued only if its time was below
the window end; otherwise it is the buffered look-ahead record); if the pass has read
no record, `read_until` is the cached time plus two read periods, which is the value
it had before the pass plus one read period whenever that value was the cached time
plus one read period. -/
theorem LoadQueue_read_until_after_pass (fk : FloorKind) (L : StimLoader) (res : LoadPass)
    (h : L.LoadQueue fk = Except.ok res) (ht : res.timerScheduled = true) :
    (∀ r, res.read.getLast? = some r →
        res.loader.read_until = ldAdd r.time kReadPeriod
          ∧ (r.time < L.windowEnd → res.posted.getLast? = some r)
          ∧ (¬ r.time < L.windowEnd → res.loader.look_ahead = true ∧ r ∉ res.read.filter
              (fun x => decide (x.time < L.windowEnd))))
      ∧ (res.read = [] →
          res.loader.read_until = ldAdd (ldAdd L.stim_event_time kReadPeriod) kReadPeriod
            ∧ (L.read_until = ldAdd L.stim_event_time kReadPeriod →
                res.loader.read_until = ldAdd L.read_until kReadPeriod)) := by
  have htimer := timerScheduled_iff fk L res h
  rw [ht] at htimer
  obtain ⟨s1, s2, s3, s4, _, s6, s7, s8, s9, s10, s11, s12, s13⟩ := LoadQueue_spec fk L res h
  rw [if_pos htimer.symm] at s6
  constructor
  · intro r hr
    have hne : L.passRecords ≠ [] := by
      intro hnil
      rw [s2, hnil] at hr
      cases hr
    have hsucc : res.success = true := by
      rw [s4]
      cases hX : L.passRecords with
      | nil => exact absurd hX hne
      | cons x xs => rfl
    rw [s2] at hr
    have hmemX : r ∈ L.passRecords := List.mem_of_getLast?_eq_some hr
    have hmem : r ∈ L.stim_file.readable :=
      List.IsPrefix.subset ( passReads_initial _ _ _) hmemX
    have hcached := (s11 (readable_header _ r hmem)).1
    have htime : res.loader.stim_event_time = r.time := by
      have : res.loader.stim_event_time = res.loader.cached.time := rfl
      rw [this, hcached, hr]
      rfl
    refine ⟨?_, ?_, ?_⟩
    · rw [s6, hsucc, htime]
      rfl
    · intro hlt
      rw [s3]
      apply getLast?_append_of_some
      exact getLast?_filter_of_pos _ _ r hr (by simpa using hlt)
    · intro hge
      refine ⟨?_, ?_⟩
      · rw [s8, List.any_eq_true]
        exact ⟨r, hmemX, by simpa using hge⟩
      · intro hin
        have := (List.mem_filter.1 hin).2
        exact hge (by simpa using this)
  · intro hnil
    have hsucc : res.success = false := by
      rw [s4, ← s2, hnil]
      rfl
    rw [hsucc] at s6
    have hru : res.loader.read_until
        = ldAdd (ldAdd L.stim_event_time kReadPeriod) kReadPeriod := by
      rw [s6]
      rfl
    refine ⟨hru, ?_⟩
    intro hprev
    rw [hru, hprev]

/-- The amended statement of C18 on the first pass over the example stream: the last
record read, at 1500, gives `read_until = ldAdd 1500 kReadPeriod`. -/
theorem LoadQueue_read_until_after_pass_witness :
    ∃ p1, paceLoader.LoadQueue FloorKind.double = Except.ok p1
      ∧ p1.timerScheduled = true
      ∧ (∀ r, p1.read.getLast? = some r →
          p1.loader.read_until = ldAdd r.time kReadPeriod
            ∧ (r.time < paceLoader.windowEnd → p1.posted.getLast? = some r)
            ∧ (¬ r.time < paceLoader.windowEnd → p1.loader.look_ahead = true
                ∧ r ∉ p1.read.filter (fun x => decide (x.time < paceLoader.windowEnd)))) := by
  obtain ⟨p1, _, h1, _, _⟩ := pace_passes FloorKind.double
  have ht := (pace_first_pass FloorKind.double p1 h1).2.2.2.1
  exact ⟨p1, h1, ht, (LoadQueue_read_until_after_pass FloorKind.double paceLoader p1 h1 ht).1⟩

/-- C19: `LoadQueue` on a loader whose `ready_` flag is not set is fatal; a `LoadQueue`
pass that returns was made on a ready loader, and it returns `true` if and only if it
has read at least one record from the stream; and a ready loader whose cached time
and record times convert to a `SimTime` (a sound state) does return. -/
theorem LoadQueue_returns_whether_a_record_was_read (fk : FloorKind) (L : StimLoader) :
    (L.ready = false → L.LoadQueue fk = Except.error Abort.fatal)
      ∧ (∀ res, L.LoadQueue fk = Except.ok res →
          L.ready = true ∧ (res.success = true ↔ res.read ≠ []))
      ∧ (L.Sound fk → ∃ res, L.LoadQueue fk = Except.ok res) := by
  refine ⟨?_, ?_, ?_⟩
  · intro hr
    unfold StimLoader.LoadQueue
    rw [if_pos (by simp [hr])]
  · intro res h
    obtain ⟨s1, s2, _, s4, _⟩ := LoadQueue_spec fk L res h
    refine ⟨s1, ?_⟩
    rw [s4, s2]
    cases L.passRecords with
    | nil => simp
    | cons x xs => simp
  · intro hS
    obtain ⟨res, hres, _⟩ := pass_step fk L hS
    exact ⟨res, hres⟩

/-- A loader that has not opened a file is not ready, and `LoadQueue` is fatal; the
loader of the example stream is ready, its first pass returns `true` and has read
records. -/
theorem LoadQueue_returns_whether_a_record_was_read_witness :
    StimLoader.fresh.LoadQueue FloorKind.double = Except.error Abort.fatal
      ∧ ∃ p1, paceLoader.LoadQueue FloorKind.double = Except.ok p1
          ∧ paceLoader.ready = true ∧ (p1.success = true ↔ p1.read ≠ []) := by
  refine ⟨(LoadQueue_returns_whether_a_record_was_read FloorKind.double StimLoader.fresh).1 rfl,
    ?_⟩
  obtain ⟨p1, h1⟩ :=
    (LoadQueue_returns_whether_a_record_was_read FloorKind.double paceLoader).2.2
      (paceLoader_sound FloorKind.double)
  obtain ⟨a1, a2⟩ :=
    (LoadQueue_returns_whether_a_record_was_read FloorKind.double paceLoader).2.1 p1 h1
  exact ⟨p1, h1, a1, a2⟩

/-! ## Initialising the executive -/

theorem Init_some (fk : FloorKind) (s : SimExec) (run_until_tm : SimTime) (L : StimLoader) :
    SimExec.Init fk s run_until_tm (some L)
      = ((L.LoadQueue fk).bind
          (fun p => if p.success then Except.ok p else Except.error Abort.fatal)).map
          (fun p => (SimExec.scheduleAll { s with run_until_time := run_until_tm } p.scheduled,
            p.loader)) := rfl

/-- C20 fails for a loader whose first pass is itself fatal.  The loader constructed
from the file whose only record has the time `2 ^ 58` is supplied (not null), and its
first `LoadQueue` pass does not return `false`: it does not return, because the time
of the record does not convert to a `SimTime`.  `Init` terminates fatally. -/
theorem Init_fatal_when_first_pass_is_fatal :
    StimTextEventLoader lateFile = Except.ok lateLoader
      ∧ lateLoader.LoadQueue FloorKind.longDouble = Except.error Abort.fatal
      ∧ lateLoader.LoadQueue FloorKind.double = Except.error Abort.fatal
      ∧ SimExec.Init FloorKind.longDouble SimExec.fresh ⟨10000⟩ (some lateLoader)
          = Except.error Abort.fatal
      ∧ SimExec.Init FloorKind.double SimExec.fresh ⟨10000⟩ (some lateLoader)
          = Except.error Abort.fatal := by
  refine ⟨lateLoader_constructed, lateLoader_fatal _, lateLoader_fatal _, ?_, ?_⟩
  · rw [Init_some, lateLoader_fatal]
    rfl
  · rw [Init_some, lateLoader_fatal]
    rfl

/-- C20, amended: `SimExec::Init` ends with a fatal error if and only if no stimulus
loader is supplied, or the loader's first `LoadQueue` pass is itself fatal, or that
pass returns `false` (and `Init` has undefined behaviour exactly when the pass has);
when the pass returns `true`, `Init` returns with `run_until_time` equal to the given
horizon and with the events of the pass scheduled, in call order, on the queue: on an
executive at time zero with a sorted queue all of them are queued, and the queue is
sorted. -/
theorem Init_fatal_iff_no_loader_or_first_pass_fails (fk : FloorKind) (s : SimExec)
    (run_until_tm : SimTime) (stim_loader : Option StimLoader) :
    (∀ a, SimExec.Init fk s run_until_tm stim_loader = Except.error a ↔
        (a = Abort.fatal ∧ stim_loader = none)
          ∨ ∃ L, stim_loader = some L
              ∧ (L.LoadQueue fk = Except.error a
                  ∨ (a = Abort.fatal
                      ∧ ∃ res, L.LoadQueue fk = Except.ok res ∧ res.success = false)))
      ∧ (∀ L res, stim_loader = some L → L.LoadQueue fk = Except.ok res →
          res.success = true →
          SimExec.Init fk s run_until_tm stim_loader
              = Except.ok (SimExec.scheduleAll { s with run_until_time := run_until_tm }
                  res.scheduled, res.loader)
            ∧ (SimExec.scheduleAll { s with run_until_time := run_until_tm }
                  res.scheduled).run_until_time = run_until_tm
            ∧ (s.curr_time = ⟨0⟩ → QueueSorted s.event_queue →
                QueueSorted (SimExec.scheduleAll { s with run_until_time := run_until_tm }
                    res.scheduled).event_queue
                  ∧ (SimExec.scheduleAll { s with run_until_time := run_until_tm }
                      res.scheduled).event_queue.Perm (s.event_queue ++ res.scheduled))) := by
  constructor
  · intro a
    cases stim_loader with
    | none =>
      constructor
      · intro h
        left
        have : SimExec.Init fk s run_until_tm none = Except.error Abort.fatal := rfl
        rw [this] at h
        injection h with h'
        exact ⟨h'.symm, rfl⟩
      · rintro (⟨ha, _⟩ | ⟨L, hL, _⟩)
        · rw [ha]; rfl
        · cases hL
    | some L =>
      rw [Init_some]
      cases hq : L.LoadQueue fk with
      | error e =>
        constructor
        · intro h
          right
          refine ⟨L, rfl, Or.inl ?_⟩
          have : e = a := by
            simp only [Except.bind, Except.map] at h
            injection h
          rw [← this]
          exact hq
        · rintro (⟨_, hn⟩ | ⟨L', hL, hcase⟩)
          · cases hn
          · injection hL with hL'
            subst hL'
            rcases hcase with he | ⟨_, res, hres, _⟩
            · rw [hq] at he
              injection he with he'
              rw [he']
              rfl
            · rw [hq] at hres
              cases hres
      | ok res =>
        cases hs : res.success with
        | true =>
          constructor
          · intro h
            simp only [Except.bind, hs, if_true, Except.map] at h
            cases h
          · rintro (⟨_, hn⟩ | ⟨L', hL, hcase⟩)
            · cases hn
            · injection hL with hL'
              subst hL'
              rcases hcase with he | ⟨_, res', hres, hfalse⟩
              · rw [hq] at he
                cases he
              · rw [hq] at hres
                injection hres with hres'
                subst hres'
                rw [hs] at hfalse
                cases hfalse
        | false =>
          constructor
          · intro h
            simp only [Except.bind, hs, Bool.false_eq_true, if_false, Except.map] at h
            injection h with h'
            right
            exact ⟨L, rfl, Or.inr ⟨h'.symm, res, hq, hs⟩⟩
          · rintro (⟨_, hn⟩ | ⟨L', hL, hcase⟩)
            · cases hn
            · injection hL with hL'
              subst hL'
              rcases hcase with he | ⟨ha, _⟩
              · rw [hq] at he
                cases he
              · rw [ha]
                simp only [Except.bind, hs, Bool.false_eq_true, if_false, Except.map]
  · intro L res hL hq hs
    subst hL
    refine ⟨?_, ?_, ?_⟩
    · rw [Init_some, hq]
      simp only [Except.bind, hs, if_true, Except.map]
    · exact (scheduleAll_clock res.scheduled _).2
    · intro h0 hsorted
      obtain ⟨_, _, a3, a4, _⟩ := scheduleAll_at_zero res.scheduled
        { s with run_until_time := run_until_tm } h0 hsorted
      exact ⟨a3, a4⟩

/-- The amended statement of C20 without a loader, and with the loader of the example
stream on a fresh executive. -/
theorem Init_fatal_iff_no_loader_or_first_pass_fails_witness :
    SimExec.Init FloorKind.double SimExec.fresh ⟨10000⟩ none = Except.error Abort.fatal
      ∧ ∃ p1, paceLoader.LoadQueue FloorKind.double = Except.ok p1 ∧ p1.success = true
          ∧ SimExec.Init FloorKind.double SimExec.fresh ⟨10000⟩ (some paceLoader)
              = Except.ok (SimExec.scheduleAll
                  { SimExec.fresh with run_until_time := ⟨10000⟩ } p1.scheduled, p1.loader)
          ∧ (SimExec.scheduleAll { SimExec.fresh with run_until_time := ⟨10000⟩ }
                p1.scheduled).run_until_time = ⟨10000⟩
          ∧ QueueSorted (SimExec.scheduleAll
                { SimExec.fresh with run_until_time := ⟨10000⟩ } p1.scheduled).event_queue
          ∧ (SimExec.scheduleAll { SimExec.fresh with run_until_time := ⟨10000⟩ }
                p1.scheduled).event_queue.Perm (SimExec.fresh.event_queue ++ p1.scheduled) := by
  refine ⟨((Init_fatal_iff_no_loader_or_first_pass_fails FloorKind.double SimExec.fresh
      ⟨10000⟩ none).1 Abort.fatal).2 (Or.inl ⟨rfl, rfl⟩), ?_⟩
  obtain ⟨p1, _, h1, _, _⟩ := pace_passes FloorKind.double
  have hs := (pace_first_pass FloorKind.double p1 h1).2.2.1
  obtain ⟨a1, a2, a3⟩ := (Init_fatal_iff_no_loader_or_first_pass_fails FloorKind.double
    SimExec.fresh ⟨10000⟩ (some paceLoader)).2 paceLoader p1 rfl h1 hs
  obtain ⟨a4, a5⟩ := a3 rfl (by unfold QueueSorted SimExec.fresh; exact List.Pairwise.nil)
  exact ⟨p1, h1, hs, a1, a2, a4, a5⟩

/-! ## The search-direction hint, and the clock after `Run` -/

/-- C24: for every executive state and every event `e`, `ScheduleEvent(e, kInsertFarFuture)`,
`ScheduleEvent(e, kInsertFromNow)` and `ScheduleEvent(e)` leave the executive in the same
state: the same queue, and the same decision to accept or to discard the event. -/
theorem ScheduleEvent_hint_is_immaterial (s : SimExec) (e : SimBaseEvent) :
    s.ScheduleEventFrom e EventInsert.kInsertFarFuture = s.ScheduleEvent e
      ∧ s.ScheduleEventFrom e EventInsert.kInsertFromNow = s.ScheduleEvent e
      ∧ s.EnqueueEventFromLatest e = s.EnqueueEventFromEarliest e
      ∧ (s.ScheduleEventFrom e EventInsert.kInsertFarFuture).event_queue
          = (s.ScheduleEventFrom e EventInsert.kInsertFromNow).event_queue := by
  refine ⟨?_, ?_, rfl, ?_⟩
  · unfold SimExec.ScheduleEventFrom SimExec.EnqueueEventFromLatest SimExec.ScheduleEvent
    rw [if_neg (by decide)]
  · unfold SimExec.ScheduleEventFrom SimExec.ScheduleEvent
    rw [if_pos rfl]
  · unfold SimExec.ScheduleEventFrom SimExec.EnqueueEventFromLatest
    rw [if_neg (by decide), if_pos rfl]

/-- C21 (code contradicts its documentation): with an event at 10.00 (1000 ticks) and an
event at 200.00 (20000 ticks) queued and the horizon at 100.00, `Run` dispatches the
first event only, and leaves `curr_time_` at 200.00, the time of the event that is still
queued, not at 10.00, the time of the event most recently dispatched. -/
theorem Run_leaves_clock_at_the_next_event :
    ∃ N, ∀ fuel, N ≤ fuel →
      ∃ r, SimExec.Run FloorKind.longDouble noSchedule fuel
            ⟨⟨0⟩, ⟨10000⟩, [⟨⟨1000⟩, 1⟩, ⟨⟨20000⟩, 2⟩]⟩ () = some r
        ∧ r.dispatched = [(⟨⟨1000⟩, 1⟩, ⟨1000⟩)]
        ∧ r.exec.event_queue = [⟨⟨20000⟩, 2⟩]
        ∧ r.exec.curr_time = ⟨20000⟩ := by
  obtain ⟨N, hN⟩ := Run_noSchedule FloorKind.longDouble
    ⟨⟨0⟩, ⟨10000⟩, [⟨⟨1000⟩, 1⟩, ⟨⟨20000⟩, 2⟩]⟩ (by decide)
  refine ⟨N, fun fuel hf => ?_⟩
  obtain ⟨r, hr, hexec, hdisp, _⟩ := hN fuel hf
  refine ⟨r, hr, ?_, ?_, ?_⟩
  · rw [hdisp]; decide
  · rw [hexec]; decide
  · rw [hexec]; decide

/-! ## Invariants of the executive -/

theorem insertFromEarliest_perm (e : SimBaseEvent) :
    ∀ q : List SimBaseEvent, (SimExec.insertFromEarliest e q).Perm (e :: q)
  | [] => List.Perm.refl _
  | x :: rest => by
    unfold SimExec.insertFromEarliest
    split_ifs
    · exact ((insertFromEarliest_perm e rest).cons x).trans (List.Perm.swap e x rest)
    · exact List.Perm.refl _

theorem ScheduleEvent_subperm (s : SimExec) (e : SimBaseEvent) :
    List.Subperm (s.ScheduleEvent e).event_queue (e :: s.event_queue) := by
  unfold SimExec.ScheduleEvent SimExec.EnqueueEventFromEarliest
  split_ifs
  · exact (List.sublist_cons_self e s.event_queue).subperm
  · exact (insertFromEarliest_perm e s.event_queue).subperm

theorem scheduleAll_subperm :
    ∀ (evs : List SimBaseEvent) (s : SimExec),
      List.Subperm (SimExec.scheduleAll s evs).event_queue (s.event_queue ++ evs)
  | [], s => by simpa [SimExec.scheduleAll] using List.Subperm.refl s.event_queue
  | y :: evs, s => by
    rw [scheduleAll_cons]
    refine (scheduleAll_subperm evs (s.ScheduleEvent y)).trans ?_
    have h1 := ScheduleEvent_subperm s y
    have h2 : List.Subperm ((s.ScheduleEvent y).event_queue ++ evs) ((y :: s.event_queue) ++ evs) :=
      (List.subperm_append_right evs).2 h1
    refine h2.trans (List.Perm.subperm ?_)
    simpa using (@List.perm_middle _ y s.event_queue evs).symm

theorem ScheduleEvent_inOrder (s : SimExec) (e : SimBaseEvent) (h : QueueInOrder s) :
    QueueInOrder (s.ScheduleEvent e) := by
  obtain ⟨hs, hge⟩ := h
  unfold SimExec.ScheduleEvent SimExec.EnqueueEventFromEarliest
  by_cases he : e.EarlierThan s.curr_time = true
  · rw [if_pos he]; exact ⟨hs, hge⟩
  · rw [if_neg he]
    have he' : s.curr_time.ticks ≤ e.event_time.ticks := by
      simpa [SimBaseEvent.EarlierThan, SimTime.EarlierThan] using he
    refine ⟨?_, ?_⟩
    · show QueueSorted (SimExec.insertFromEarliest e s.event_queue)
      rw [insertFromEarliest_sorted e _ hs]
      exact sorted_insert e _ hs
    · intro x hx
      rcases (mem_insertFromEarliest e x s.event_queue).1 hx with h1 | h1
      · rw [h1]; exact he'
      · exact hge x h1

theorem scheduleAll_inOrder :
    ∀ (evs : List SimBaseEvent) (s : SimExec), QueueInOrder s →
      QueueInOrder (SimExec.scheduleAll s evs)
  | [], _, h => h
  | y :: evs, s, h => by
    rw [scheduleAll_cons]
    exact scheduleAll_inOrder evs _ (ScheduleEvent_inOrder s y h)

theorem runEnter_inOrder {σ : Type} (s : SimExec) (out : σ) (h : QueueInOrder s) :
    QueueInOrder (SimExec.runEnter s out).exec
      ∧ (SimExec.runEnter s out).head_event = (SimExec.runEnter s out).exec.event_queue.head?
      ∧ s.curr_time.ticks ≤ (SimExec.runEnter s out).exec.curr_time.ticks := by
  obtain ⟨hs, hge⟩ := h
  cases hq : s.event_queue with
  | nil =>
    have hE : (SimExec.runEnter s out) = ⟨s, out, none, RunPoint.outerTest, []⟩ := by
      unfold SimExec.runEnter; rw [hq]
    rw [hE]
    exact ⟨⟨hs, hge⟩, by simp [hq], le_refl _⟩
  | cons x rest =>
    have hE : (SimExec.runEnter s out)
        = ⟨{ s with curr_time := s.curr_time.SetTimeFrom x.event_time }, out, some x,
            RunPoint.outerTest, []⟩ := by
      unfold SimExec.runEnter; rw [hq]
    rw [hE]
    refine ⟨⟨hs, ?_⟩, by simp [hq], hge x (by rw [hq]; exact List.mem_cons_self _ _)⟩
    rw [hq] at hs
    intro e he
    have he' : e ∈ x :: rest := by rw [← hq]; exact he
    rcases List.mem_cons.1 he' with h1 | h1
    · rw [h1]; exact le_refl _
    · exact (List.pairwise_cons.1 hs).1 e h1

theorem runStep_inOrder {σ : Type} (act : DispatchAction σ) (m : RunState σ)
    (h : QueueInOrder m.exec) (hh : m.head_event = m.exec.event_queue.head?) :
    QueueInOrder (SimExec.runStep act m).exec
      ∧ (SimExec.runStep act m).head_event = (SimExec.runStep act m).exec.event_queue.head?
      ∧ m.exec.curr_time.ticks ≤ (SimExec.runStep act m).exec.curr_time.ticks := by
  unfold SimExec.runStep
  cases hp : m.point with
  | finished => exact ⟨h, hh, le_refl _⟩
  | outerTest =>
    cases hhe : m.head_event with
    | none => exact ⟨h, by simpa [hhe] using hh, le_refl _⟩
    | some head =>
      dsimp only
      split_ifs
      · exact ⟨h, by simpa [hhe] using hh, le_refl _⟩
      · exact ⟨h, by simpa [hhe] using hh, le_refl _⟩
  | innerTest =>
    cases hhe : m.head_event with
    | none => exact ⟨h, by simpa [hhe] using hh, le_refl _⟩
    | some head =>
      dsimp only
      by_cases hst : head.SameTimeAs m.exec.curr_time = true
      · rw [if_pos hst]
        have ha := scheduleAll_inOrder (act m.outside m.exec.curr_time head).2 m.exec h
        have hc := (scheduleAll_clock (act m.outside m.exec.curr_time head).2 m.exec).1
        refine ⟨⟨?_, ?_⟩, rfl, ?_⟩
        · exact List.Pairwise.sublist (List.tail_sublist _) ha.1
        · intro e he
          exact ha.2 e (List.mem_of_mem_tail he)
        · exact le_of_eq (congrArg SimTime.ticks hc.symm)
      · rw [if_neg hst]
        obtain ⟨hs, hge⟩ := h
        rw [hhe] at hh
        have hmem : head ∈ m.exec.event_queue := List.mem_of_mem_head? hh.symm
        obtain ⟨rest, hq⟩ : ∃ rest, m.exec.event_queue = head :: rest := by
          cases hq : m.exec.event_queue with
          | nil => rw [hq] at hh; cases hh
          | cons x rest => rw [hq] at hh; simp at hh; exact ⟨rest, by rw [hh]⟩
        refine ⟨⟨hs, ?_⟩, hh, hge head hmem⟩
        intro e he
        have he' : e ∈ head :: rest := by rw [← hq]; exact he
        rw [hq] at hs
        rcases List.mem_cons.1 he' with h1 | h1
        · rw [h1]; exact le_refl _
        · exact (List.pairwise_cons.1 hs).1 e h1

theorem runSteps_inOrder {σ : Type} (act : DispatchAction σ) :
    ∀ (n : ℕ) (m : RunState σ), QueueInOrder m.exec →
      m.head_event = m.exec.event_queue.head? →
      QueueInOrder (SimExec.runSteps act n m).exec
        ∧ (SimExec.runSteps act n m).head_event
            = (SimExec.runSteps act n m).exec.event_queue.head?
        ∧ m.exec.curr_time.ticks ≤ (SimExec.runSteps act n m).exec.curr_time.ticks
  | 0, _, h, hh => ⟨h, hh, le_refl _⟩
  | n + 1, m, h, hh => by
    rw [runSteps_succ]
    obtain ⟨h1, h2, h3⟩ := runStep_inOrder act m h hh
    obtain ⟨h4, h5, h6⟩ := runSteps_inOrder act n _ h1 h2
    exact ⟨h4, h5, le_trans h3 h6⟩

theorem ExecStep_inOrder (s s' : SimExec) (h : QueueInOrder s) (hstep : ExecStep s s') :
    QueueInOrder s' ∧ s.curr_time.ticks ≤ s'.curr_time.ticks := by
  cases hstep with
  | schedule _ e =>
    exact ⟨ScheduleEvent_inOrder s e h,
      le_of_eq (congrArg SimTime.ticks (ScheduleEvent_clock s e).1.symm)⟩
  | horizon _ H => exact ⟨h, le_refl _⟩
  | run act _ out n =>
    obtain ⟨h1, h2, h3⟩ := runEnter_inOrder s out h
    obtain ⟨h4, _, h6⟩ := runSteps_inOrder act n _ h1 h2
    exact ⟨h4, le_trans h3 h6⟩

theorem steps_inOrder (s s' : SimExec) (h : QueueInOrder s)
    (hsteps : Relation.ReflTransGen ExecStep s s') :
    QueueInOrder s' ∧ s.curr_time.ticks ≤ s'.curr_time.ticks := by
  induction hsteps with
  | refl => exact ⟨h, le_refl _⟩
  | tail _ hstep ih =>
    obtain ⟨h1, h2⟩ := ExecStep_inOrder _ _ ih.1 hstep
    exact ⟨h1, le_trans ih.2 h2⟩

theorem fresh_inOrder : QueueInOrder SimExec.fresh :=
  ⟨List.Pairwise.nil, fun _ he => absurd he (List.not_mem_nil _)⟩

/-- C22: from a state that is reachable from a freshly constructed executive, no
sequence of `ScheduleEvent` calls and of `Run` executions (whatever the dispatched
events do, scheduling included, and at whatever point of `Run` the clock is read)
moves `curr_time_` backwards. -/
theorem curr_time_never_decreases (s s' : SimExec) (hs : Reachable s)
    (hsteps : Relation.ReflTransGen ExecStep s s') :
    s.curr_time.ticks ≤ s'.curr_time.ticks :=
  (steps_inOrder s s' (steps_inOrder _ s fresh_inOrder hs).1 hsteps).2

/-- C27: in every executive state reachable from a freshly constructed executive by
`ScheduleEvent` calls and `Run` executions (with dispatched events that may schedule
events) the queue is sorted ascending by scheduled time and holds no event that is
earlier than `curr_time_`. -/
theorem reachable_queue_sorted_and_not_in_past (s : SimExec) (hs : Reachable s) :
    QueueSorted s.event_queue
      ∧ ∀ e ∈ s.event_queue, e.EarlierThan s.curr_time = false := by
  obtain ⟨h1, h2⟩ := (steps_inOrder _ s fresh_inOrder hs).1
  refine ⟨h1, fun e he => ?_⟩
  simpa [SimBaseEvent.EarlierThan, SimTime.EarlierThan] using h2 e he

/-- Witness for C22: scheduling an event at 5.00 on a fresh executive and running four
loop steps of `Run`. -/
theorem curr_time_never_decreases_witness :
    Reachable (SimExec.fresh.ScheduleEvent ⟨⟨500⟩, 1⟩)
      ∧ Relation.ReflTransGen ExecStep (SimExec.fresh.ScheduleEvent ⟨⟨500⟩, 1⟩)
          (SimExec.runSteps noSchedule 4
            (SimExec.runEnter (SimExec.fresh.ScheduleEvent ⟨⟨500⟩, 1⟩) ())).exec
      ∧ (SimExec.fresh.ScheduleEvent ⟨⟨500⟩, 1⟩).curr_time.ticks
          ≤ (SimExec.runSteps noSchedule 4
              (SimExec.runEnter (SimExec.fresh.ScheduleEvent ⟨⟨500⟩, 1⟩) ())).exec.curr_time.ticks :=
  ⟨Relation.ReflTransGen.single (ExecStep.schedule _ _),
    Relation.ReflTransGen.single (ExecStep.run noSchedule _ () 4),
    curr_time_never_decreases _ _ (Relation.ReflTransGen.single (ExecStep.schedule _ _))
      (Relation.ReflTransGen.single (ExecStep.run noSchedule _ () 4))⟩

/-- Witness for C27: the state after scheduling events at 5.00 and at 2.00 on a fresh
executive. -/
theorem reachable_queue_sorted_and_not_in_past_witness :
    Reachable ((SimExec.fresh.ScheduleEvent ⟨⟨500⟩, 1⟩).ScheduleEvent ⟨⟨200⟩, 2⟩)
      ∧ QueueSorted ((SimExec.fresh.ScheduleEvent ⟨⟨500⟩, 1⟩).ScheduleEvent ⟨⟨200⟩, 2⟩).event_queue
      ∧ ∀ e ∈ ((SimExec.fresh.ScheduleEvent ⟨⟨500⟩, 1⟩).ScheduleEvent ⟨⟨200⟩, 2⟩).event_queue,
          e.EarlierThan
            ((SimExec.fresh.ScheduleEvent ⟨⟨500⟩, 1⟩).ScheduleEvent ⟨⟨200⟩, 2⟩).curr_time = false :=
  ⟨(Relation.ReflTransGen.single (ExecStep.schedule _ _)).tail (ExecStep.schedule _ _),
    reachable_queue_sorted_and_not_in_past _
      ((Relation.ReflTransGen.single (ExecStep.schedule _ _)).tail (ExecStep.schedule _ _))⟩

/-! ## The dispatch step -/

theorem runEnter_head {σ : Type} (s : SimExec) (out : σ) :
    (SimExec.runEnter s out).head_event = (SimExec.runEnter s out).exec.event_queue.head?
      ∧ (SimExec.runEnter s out).exec.event_queue = s.event_queue
      ∧ (SimExec.runEnter s out).dispatched = []
      ∧ (SimExec.runEnter s out).point = RunPoint.outerTest
      ∧ ∀ head, (SimExec.runEnter s out).head_event = some head →
          head.event_time = (SimExec.runEnter s out).exec.curr_time := by
  cases hq : s.event_queue with
  | nil =>
    have hE : (SimExec.runEnter s out) = ⟨s, out, none, RunPoint.outerTest, []⟩ := by
      unfold SimExec.runEnter; rw [hq]
    rw [hE]
    exact ⟨by simp [hq], hq, rfl, rfl, fun _ h => by cases h⟩
  | cons x rest =>
    have hE : (SimExec.runEnter s out)
        = ⟨{ s with curr_time := s.curr_time.SetTimeFrom x.event_time }, out, some x,
            RunPoint.outerTest, []⟩ := by
      unfold SimExec.runEnter; rw [hq]
    rw [hE]
    refine ⟨by simp [hq], hq, rfl, rfl, fun head h => ?_⟩
    simp only [Option.some.injEq] at h
    rw [← h]
    rfl

/-- What one loop step of `Run` does to the queue and to the record of dispatches, when
`head_event` is the front of the queue: either nothing, or the front event is
dispatched, it is still the front of the queue after the `ScheduleEvent` calls of its
`Dispatch()`, and it is what `pop_front` removes. -/
theorem runStep_front {σ : Type} (act : DispatchAction σ) (m : RunState σ)
    (hh : m.head_event = m.exec.event_queue.head?) :
    (SimExec.runStep act m).head_event = (SimExec.runStep act m).exec.event_queue.head?
      ∧ (((SimExec.runStep act m).dispatched = m.dispatched
            ∧ (SimExec.runStep act m).exec.event_queue = m.exec.event_queue
            ∧ SimExec.handedOver act 1 m = [])
          ∨ ∃ head, m.head_event = some head ∧ m.point = RunPoint.innerTest
              ∧ head.event_time = m.exec.curr_time
              ∧ SimExec.handedOver act 1 m = (act m.outside m.exec.curr_time head).2
              ∧ (SimExec.runStep act m).dispatched = m.dispatched ++ [(head, m.exec.curr_time)]
              ∧ (SimExec.scheduleAll m.exec (act m.outside m.exec.curr_time head).2).event_queue
                  = head :: (SimExec.runStep act m).exec.event_queue) := by
  unfold SimExec.runStep SimExec.handedOver SimExec.handedOver
  cases hp : m.point with
  | finished => exact ⟨hh, Or.inl ⟨rfl, rfl, by simp⟩⟩
  | outerTest =>
    cases hhe : m.head_event with
    | none => exact ⟨by simpa [hhe] using hh, Or.inl ⟨rfl, rfl, by simp⟩⟩
    | some head =>
      dsimp only
      split_ifs
      · exact ⟨by simpa [hhe] using hh, Or.inl ⟨rfl, rfl, by simp⟩⟩
      · exact ⟨by simpa [hhe] using hh, Or.inl ⟨rfl, rfl, by simp⟩⟩
  | innerTest =>
    cases hhe : m.head_event with
    | none => exact ⟨by simpa [hhe] using hh, Or.inl ⟨rfl, rfl, by simp⟩⟩
    | some head =>
      dsimp only
      by_cases hst : head.SameTimeAs m.exec.curr_time = true
      · rw [if_pos hst, if_pos hst]
        refine ⟨rfl, Or.inr ⟨head, rfl, rfl, ?_, by simp, rfl, ?_⟩⟩
        · have : head.event_time.ticks = m.exec.curr_time.ticks := by
            simpa [SimBaseEvent.SameTimeAs, SimTime.SameAs] using hst
          cases hx : head.event_time; cases hy : m.exec.curr_time
          rw [hx, hy] at this
          simp only at this
          rw [this]
        · rw [hhe] at hh
          obtain ⟨rest, hq⟩ : ∃ rest, m.exec.event_queue = head :: rest := by
            cases hq : m.exec.event_queue with
            | nil => rw [hq] at hh; cases hh
            | cons x rest => rw [hq] at hh; simp at hh; exact ⟨rest, by rw [hh]⟩
          obtain ⟨B, hB⟩ := scheduleAll_keeps_front m.exec.curr_time [head]
            (fun a ha => by
              rw [List.mem_singleton.1 ha]
              simpa [SimBaseEvent.SameTimeAs, SimTime.SameAs] using hst)
            (act m.outside m.exec.curr_time head).2 m.exec rest rfl (by simpa using hq)
          rw [hB]
          rfl
      · rw [if_neg hst, if_neg hst]
        exact ⟨by simpa [hhe] using hh, Or.inl ⟨rfl, rfl, by simp⟩⟩

theorem runSteps_front {σ : Type} (act : DispatchAction σ) :
    ∀ (n : ℕ) (m : RunState σ), m.head_event = m.exec.event_queue.head? →
      (SimExec.runSteps act n m).head_event = (SimExec.runSteps act n m).exec.event_queue.head?
        ∧ List.Subperm
            ((SimExec.runSteps act n m).dispatched.map Prod.fst
              ++ (SimExec.runSteps act n m).exec.event_queue)
            ((m.dispatched.map Prod.fst ++ m.exec.event_queue) ++ SimExec.handedOver act n m)
  | 0, m, hh => ⟨hh, by simpa [SimExec.handedOver, SimExec.runSteps] using List.Subperm.refl _⟩
  | n + 1, m, hh => by
    rw [runSteps_succ]
    obtain ⟨h1, h2⟩ := runStep_front act m hh
    obtain ⟨h3, h4⟩ := runSteps_front act n _ h1
    refine ⟨h3, h4.trans ?_⟩
    have hho : SimExec.handedOver act (n + 1) m
        = SimExec.handedOver act 1 m ++ SimExec.handedOver act n (SimExec.runStep act m) := by
      simp [SimExec.handedOver]
    rw [hho, ← List.append_assoc]
    refine (List.subperm_append_right _).2 ?_
    rcases h2 with ⟨hd, hq, hnone⟩ | ⟨head, _, _, _, hho1, hd, hq⟩
    · rw [hd, hq, hnone, List.append_nil]
    · rw [hd, hho1, List.map_append, List.append_assoc (m.dispatched.map Prod.fst),
        List.append_assoc (m.dispatched.map Prod.fst)]
      refine (List.subperm_append_left _).2 ?_
      have := scheduleAll_subperm (act m.outside m.exec.curr_time head).2 m.exec
      rw [hq] at this
      simpa using this

/-- C23: at every point of every execution of `Run` (any dispatch behaviour, any
starting state) `head_event` is the front of the queue, and one more loop step either
leaves the queue and the record of dispatches alone, or dispatches that front event:
after the `ScheduleEvent` calls made by its `Dispatch()` the dispatched event is still
the front of the queue (nothing was inserted ahead of it), and `pop_front` removes
exactly it.  So an event is dispatched no more often than it was queued: the events
dispatched so far together with the events still queued are, counted with multiplicity,
among the events queued at the start and the events handed to `ScheduleEvent`. -/
theorem Run_dispatches_each_front_event_once {σ : Type} (act : DispatchAction σ)
    (s : SimExec) (out : σ) (n : ℕ) :
    (SimExec.runSteps act n (SimExec.runEnter s out)).head_event
        = (SimExec.runSteps act n (SimExec.runEnter s out)).exec.event_queue.head?
      ∧ (((SimExec.runSteps act (n + 1) (SimExec.runEnter s out)).dispatched
              = (SimExec.runSteps act n (SimExec.runEnter s out)).dispatched
            ∧ (SimExec.runSteps act (n + 1) (SimExec.runEnter s out)).exec.event_queue
              = (SimExec.runSteps act n (SimExec.runEnter s out)).exec.event_queue)
          ∨ ∃ head,
              (SimExec.runSteps act n (SimExec.runEnter s out)).head_event = some head
              ∧ (SimExec.runSteps act (n + 1) (SimExec.runEnter s out)).dispatched
                  = (SimExec.runSteps act n (SimExec.runEnter s out)).dispatched
                      ++ [(head, (SimExec.runSteps act n (SimExec.runEnter s out)).exec.curr_time)]
              ∧ (SimExec.scheduleAll (SimExec.runSteps act n (SimExec.runEnter s out)).exec
                    (act (SimExec.runSteps act n (SimExec.runEnter s out)).outside
                      (SimExec.runSteps act n (SimExec.runEnter s out)).exec.curr_time
                      head).2).event_queue
                  = head :: (SimExec.runSteps act (n + 1) (SimExec.runEnter s out)).exec.event_queue)
      ∧ List.Subperm
          ((SimExec.runSteps act n (SimExec.runEnter s out)).dispatched.map Prod.fst
            ++ (SimExec.runSteps act n (SimExec.runEnter s out)).exec.event_queue)
          (s.event_queue ++ SimExec.handedOver act n (SimExec.runEnter s out)) := by
  obtain ⟨e1, e2, e3, _, _⟩ := runEnter_head s out
  obtain ⟨h1, h2⟩ := runSteps_front act n (SimExec.runEnter s out) e1
  refine ⟨h1, ?_, ?_⟩
  · rw [runSteps_succ_last]
    rcases (runStep_front act _ h1).2 with ⟨hd, hq, _⟩ | ⟨head, hh, _, _, _, hd, hq⟩
    · exact Or.inl ⟨hd, hq⟩
    · exact Or.inr ⟨head, hh, hd, hq⟩
  · rw [e2, e3] at h2
    simpa using h2

/-! ## Iterations of the outer loop -/

theorem sameTime_iff (h : SimBaseEvent) (t : SimTime) :
    h.SameTimeAs t = true ↔ h.event_time = t := by
  cases hx : h.event_time; cases t
  simp [SimBaseEvent.SameTimeAs, SimTime.SameAs, hx]

/-- After a loop step that arrives at the test of the outer loop, `curr_time_` is the
time of `head_event`. -/
theorem runStep_outer_head {σ : Type} (act : DispatchAction σ) (m : RunState σ) :
    (SimExec.runStep act m).point = RunPoint.outerTest →
      ∀ head, (SimExec.runStep act m).head_event = some head →
        head.event_time = (SimExec.runStep act m).exec.curr_time := by
  unfold SimExec.runStep
  cases hp : m.point with
  | finished => intro h; rw [hp] at h; cases h
  | outerTest =>
    cases hhe : m.head_event with
    | none => intro h; cases h
    | some head =>
      dsimp only
      split_ifs
      · intro h; cases h
      · intro h; cases h
  | innerTest =>
    cases hhe : m.head_event with
    | none => intro _ head h; cases h
    | some head =>
      dsimp only
      split_ifs
      · intro h; cases h
      · intro _ head' h
        simp only [Option.some.injEq] at h
        rw [← h]
        rfl

theorem runSteps_outer_head {σ : Type} (act : DispatchAction σ) (s : SimExec) (out : σ) :
    ∀ n : ℕ, (SimExec.runSteps act n (SimExec.runEnter s out)).point = RunPoint.outerTest →
      ∀ head, (SimExec.runSteps act n (SimExec.runEnter s out)).head_event = some head →
        head.event_time = (SimExec.runSteps act n (SimExec.runEnter s out)).exec.curr_time
  | 0 => fun _ head h => (runEnter_head s out).2.2.2.2 head h
  | n + 1 => by
    rw [runSteps_succ_last]
    exact runStep_outer_head act _

theorem runStep_outer_pass {σ : Type} (act : DispatchAction σ) (m : RunState σ)
    (head : SimBaseEvent) (hp : m.point = RunPoint.outerTest) (hh : m.head_event = some head)
    (ht : m.exec.curr_time.AsEarlyAs m.exec.run_until_time = true) :
    SimExec.runStep act m = { m with point := RunPoint.innerTest } := by
  unfold SimExec.runStep
  rw [hp]
  simp only [hh, ht, if_true]

theorem runStep_outer_stop {σ : Type} (act : DispatchAction σ) (m : RunState σ)
    (hp : m.point = RunPoint.outerTest)
    (ht : m.head_event = none ∨ m.exec.curr_time.AsEarlyAs m.exec.run_until_time = false) :
    SimExec.runStep act m = { m with point := RunPoint.finished } := by
  unfold SimExec.runStep
  rw [hp]
  cases hh : m.head_event with
  | none => rfl
  | some head =>
    rcases ht with h | h
    · rw [hh] at h; cases h
    · simp only [h]
      rfl

/-- The inner loop of `Run`, entered with events that schedule nothing, ends the
execution after dispatching at most the queued events. -/
theorem inner_terminates {σ : Type} (act : DispatchAction σ)
    (hact : ∀ o t e, (act o t e).2 = []) :
    ∀ (q : List SimBaseEvent) (m : RunState σ), m.point = RunPoint.innerTest →
      m.exec.event_queue = q → m.head_event = q.head? →
      ∃ k, (SimExec.runSteps act k m).point = RunPoint.finished
        ∧ (SimExec.runSteps act k m).dispatched.length ≤ m.dispatched.length + q.length
  | [], m, hp, _, hh => by
    refine ⟨2, ?_⟩
    have h1 : SimExec.runStep act m = { m with point := RunPoint.outerTest } := by
      unfold SimExec.runStep
      rw [hp]
      simp only [hh, List.head?_nil]
    have h2 : SimExec.runStep act { m with point := RunPoint.outerTest }
        = { m with point := RunPoint.finished } :=
      runStep_outer_stop act _ rfl (Or.inl (by simpa using hh))
    rw [runSteps_succ, runSteps_succ, h1, h2]
    exact ⟨rfl, by simp [SimExec.runSteps]⟩
  | x :: rest, m, hp, hq, hh => by
    have hh' : m.head_event = some x := by simpa using hh
    -- the body of the inner loop, run on a state whose time is that of `x`
    have body : ∀ m' : RunState σ, m'.point = RunPoint.innerTest →
        m'.exec.event_queue = x :: rest → m'.head_event = some x →
        x.event_time = m'.exec.curr_time → m'.dispatched = m.dispatched →
        ∃ k, (SimExec.runSteps act k m').point = RunPoint.finished
          ∧ (SimExec.runSteps act k m').dispatched.length
              ≤ m.dispatched.length + (x :: rest).length := by
      intro m' hp' hq' hhd' ht' hd'
      obtain ⟨d1, _, d3, d4, d5⟩ := runStep_dispatch act m' x hp' hhd' ht'
      rw [hact, show SimExec.scheduleAll m'.exec [] = m'.exec from rfl, hq'] at d3 d4
      obtain ⟨k, k1, k2⟩ := inner_terminates act hact rest (SimExec.runStep act m') d1 d3 d4
      refine ⟨k + 1, ?_⟩
      rw [runSteps_succ]
      refine ⟨k1, le_trans k2 ?_⟩
      rw [d5, hd']
      simp
      omega
    by_cases hst : x.SameTimeAs m.exec.curr_time = true
    · exact body m hp hq hh' ((sameTime_iff _ _).1 hst) rfl
    · have h1 : SimExec.runStep act m
          = { m with
              exec := { m.exec with curr_time := m.exec.curr_time.SetTimeFrom x.event_time }
              point := RunPoint.outerTest } := by
        unfold SimExec.runStep
        rw [hp]
        simp only [hh', hst]
        rfl
      by_cases hto : x.event_time.AsEarlyAs m.exec.run_until_time = true
      · have h2 := runStep_outer_pass act (SimExec.runStep act m) x (by rw [h1])
          (by rw [h1]; exact hh') (by rw [h1]; exact hto)
        obtain ⟨k, k1, k2⟩ := body (SimExec.runStep act (SimExec.runStep act m))
          (by rw [h2]) (by rw [h2, h1]; exact hq) (by rw [h2, h1]; exact hh')
          (by rw [h2, h1]; rfl) (by rw [h2, h1])
        refine ⟨k + 2, ?_⟩
        rw [runSteps_succ, runSteps_succ]
        exact ⟨k1, k2⟩
      · have h2 := runStep_outer_stop act (SimExec.runStep act m) (by rw [h1])
          (Or.inr (by rw [h1]; simpa using hto))
        refine ⟨2, ?_⟩
        rw [runSteps_succ, runSteps_succ, h2]
        refine ⟨rfl, ?_⟩
        show (SimExec.runStep act m).dispatched.length ≤ _
        rw [h1]
        simp

/-- C30: at the test of the outer loop of `Run`, `curr_time_` is the time of
`head_event`, so an iteration of the outer loop that is entered dispatches that event
in the next step (every iteration dispatches at least one event); and when the
dispatched events schedule nothing, `Run` ends, having dispatched at most as many
events as were queued on entry (for every queue, sorted or not). -/
theorem outer_iteration_dispatches_and_Run_ends {σ : Type} (fk : FloorKind)
    (act : DispatchAction σ) (s : SimExec) (out : σ) :
    (∀ (n : ℕ) (head : SimBaseEvent),
        (SimExec.runSteps act n (SimExec.runEnter s out)).point = RunPoint.outerTest →
        (SimExec.runSteps act n (SimExec.runEnter s out)).head_event = some head →
        (SimExec.runSteps act n (SimExec.runEnter s out)).exec.curr_time.AsEarlyAs
          (SimExec.runSteps act n (SimExec.runEnter s out)).exec.run_until_time = true →
        head.event_time = (SimExec.runSteps act n (SimExec.runEnter s out)).exec.curr_time
          ∧ (SimExec.runSteps act (n + 1) (SimExec.runEnter s out)).point = RunPoint.innerTest
          ∧ (SimExec.runSteps act (n + 2) (SimExec.runEnter s out)).dispatched
              = (SimExec.runSteps act n (SimExec.runEnter s out)).dispatched
                  ++ [(head, (SimExec.runSteps act n (SimExec.runEnter s out)).exec.curr_time)])
      ∧ ((∀ o t e, (act o t e).2 = []) →
          ∃ N, ∀ fuel, N ≤ fuel →
            ∃ r, SimExec.Run fk act fuel s out = some r
              ∧ r.dispatched.length ≤ s.event_queue.length) := by
  refine ⟨?_, ?_⟩
  · intro n head hp hh ht
    have h0 := runSteps_outer_head act s out n hp head hh
    have h1 := runStep_outer_pass act _ head hp hh ht
    refine ⟨h0, ?_, ?_⟩
    · rw [runSteps_succ_last, h1]
    · rw [runSteps_succ_last, runSteps_succ_last, h1]
      exact (runStep_dispatch act
        { SimExec.runSteps act n (SimExec.runEnter s out) with point := RunPoint.innerTest }
        head rfl hh h0).2.2.2.2
  · intro hact
    obtain ⟨e1, e2, e3, e4, e5⟩ := runEnter_head s out
    have key : ∃ k, (SimExec.runSteps act k (SimExec.runEnter s out)).point = RunPoint.finished
        ∧ (SimExec.runSteps act k (SimExec.runEnter s out)).dispatched.length
            ≤ s.event_queue.length := by
      by_cases hgo : (∃ head, (SimExec.runEnter s out).head_event = some head)
          ∧ (SimExec.runEnter s out).exec.curr_time.AsEarlyAs
              (SimExec.runEnter s out).exec.run_until_time = true
      · obtain ⟨⟨head, hh⟩, ht⟩ := hgo
        have h1 := runStep_outer_pass act _ head e4 hh ht
        obtain ⟨k, k1, k2⟩ := inner_terminates act hact s.event_queue
          (SimExec.runStep act (SimExec.runEnter s out)) (by rw [h1]) (by rw [h1]; exact e2)
          (by rw [h1]; show (SimExec.runEnter s out).head_event = _; rw [e1, e2])
        refine ⟨k + 1, ?_⟩
        rw [runSteps_succ]
        refine ⟨k1, le_trans k2 ?_⟩
        rw [h1]
        show (SimExec.runEnter s out).dispatched.length + _ ≤ _
        rw [e3]
        simp
      · have h1 := runStep_outer_stop act (SimExec.runEnter s out) e4 (by
          by_cases hn : (SimExec.runEnter s out).head_event = none
          · exact Or.inl hn
          · obtain ⟨head, hh⟩ := Option.ne_none_iff_exists'.1 hn
            refine Or.inr ?_
            by_contra hc
            exact hgo ⟨⟨head, hh⟩, by simpa using hc⟩)
        refine ⟨1, ?_⟩
        rw [runSteps_succ, h1]
        refine ⟨rfl, ?_⟩
        show (SimExec.runEnter s out).dispatched.length ≤ _
        rw [e3]
        simp
    obtain ⟨k, k1, k2⟩ := key
    refine ⟨k, fun fuel hf => ?_⟩
    obtain ⟨d, rfl⟩ := Nat.exists_eq_add_of_le hf
    have hrun : SimExec.runSteps act (k + d) (SimExec.runEnter s out)
        = SimExec.runSteps act k (SimExec.runEnter s out) := by
      rw [runSteps_add, runSteps_finished act d _ k1]
    unfold SimExec.Run
    simp only [hrun, k1, if_true]
    exact ⟨_, rfl, k2⟩

/-- Witness for C30: one event at 5.00 queued, the horizon at 10.00, the event
scheduling nothing. -/
theorem outer_iteration_dispatches_and_Run_ends_witness :
    ((SimExec.runSteps noSchedule 0
          (SimExec.runEnter ⟨⟨0⟩, ⟨1000⟩, [⟨⟨500⟩, 1⟩]⟩ ())).point = RunPoint.outerTest
      ∧ (SimExec.runSteps noSchedule 2
          (SimExec.runEnter ⟨⟨0⟩, ⟨1000⟩, [⟨⟨500⟩, 1⟩]⟩ ())).dispatched
            = (SimExec.runSteps noSchedule 0
                (SimExec.runEnter ⟨⟨0⟩, ⟨1000⟩, [⟨⟨500⟩, 1⟩]⟩ ())).dispatched
              ++ [(⟨⟨500⟩, 1⟩, (SimExec.runSteps noSchedule 0
                (SimExec.runEnter ⟨⟨0⟩, ⟨1000⟩, [⟨⟨500⟩, 1⟩]⟩ ())).exec.curr_time)])
      ∧ ∃ N, ∀ fuel, N ≤ fuel →
          ∃ r, SimExec.Run FloorKind.longDouble noSchedule fuel
                ⟨⟨0⟩, ⟨1000⟩, [⟨⟨500⟩, 1⟩]⟩ () = some r
            ∧ r.dispatched.length ≤ 1 :=
  ⟨⟨rfl, ((outer_iteration_dispatches_and_Run_ends FloorKind.longDouble noSchedule
        ⟨⟨0⟩, ⟨1000⟩, [⟨⟨500⟩, 1⟩]⟩ ()).1 0 ⟨⟨500⟩, 1⟩ rfl rfl (by decide)).2.2⟩,
    (outer_iteration_dispatches_and_Run_ends FloorKind.longDouble noSchedule
      ⟨⟨0⟩, ⟨1000⟩, [⟨⟨500⟩, 1⟩]⟩ ()).2 (fun _ _ _ => rfl)⟩

/-! ## Monotonicity of rounding and of the conversion to ticks -/

theorem roundEven_mono (x y : ℚ) (h : x ≤ y) : roundEven x ≤ roundEven y := by
  by_contra hc
  have hc' : roundEven y + 1 ≤ roundEven x := by omega
  have hq : ((roundEven y : ℚ)) + 1 ≤ (roundEven x : ℚ) := by exact_mod_cast hc'
  have hx := abs_le.1 (roundEven_abs_sub_le x)
  have hy := abs_le.1 (roundEven_abs_sub_le y)
  have hxy : x = y := by linarith [hx.1, hx.2, hy.1, hy.2]
  rw [hxy] at hc
  exact hc (le_refl _)

theorem rnd_nonneg (p : ℕ) (q : ℚ) (h : 0 ≤ q) : 0 ≤ rnd p q := by
  unfold rnd
  have h1 : (0 : ℚ) < 2 ^ ulpExp p q := zpow_pos (by norm_num) _
  have h2 : roundEven 0 ≤ roundEven (q / 2 ^ ulpExp p q) :=
    roundEven_mono _ _ (div_nonneg h (le_of_lt h1))
  have h3 : roundEven (0 : ℚ) = 0 := by simpa using roundEven_intCast 0
  rw [h3] at h2
  have h4 : (0 : ℚ) ≤ (roundEven (q / 2 ^ ulpExp p q) : ℚ) := by exact_mod_cast h2
  exact mul_nonneg h4 (le_of_lt h1)

/-- A positive value rounds to a value of its own binade, the upper end included. -/
theorem rnd_binade_bounds (p : ℕ) (hp : 1 ≤ p) (q : ℚ) (e : ℤ) (h1 : (2 : ℚ) ^ e ≤ q)
    (h2 : q < (2 : ℚ) ^ (e + 1)) : (2 : ℚ) ^ e ≤ rnd p q ∧ rnd p q ≤ (2 : ℚ) ^ (e + 1) := by
  have hq0 : (0 : ℚ) < q := lt_of_lt_of_le (zpow_pos (by norm_num) _) h1
  have habs : |q| = q := abs_of_pos hq0
  rw [rnd_of_binade p q e (by rw [habs]; exact h1) (by rw [habs]; exact h2)]
  have hu : (0 : ℚ) < 2 ^ (e - ((p : ℤ) - 1)) := zpow_pos (by norm_num) _
  have hlo : (2 : ℚ) ^ e = ((2 ^ (p - 1) : ℤ) : ℚ) * 2 ^ (e - ((p : ℤ) - 1)) := by
    push_cast
    rw [← zpow_natCast, ← zpow_add₀ (by norm_num : (2 : ℚ) ≠ 0)]
    congr 1
    have : ((p - 1 : ℕ) : ℤ) = (p : ℤ) - 1 := by omega
    rw [this]; ring
  have hhi : (2 : ℚ) ^ (e + 1) = ((2 ^ p : ℤ) : ℚ) * 2 ^ (e - ((p : ℤ) - 1)) := by
    push_cast
    rw [← zpow_natCast, ← zpow_add₀ (by norm_num : (2 : ℚ) ≠ 0)]
    congr 1
    ring
  constructor
  · rw [hlo]
    refine mul_le_mul_of_nonneg_right ?_ (le_of_lt hu)
    have : roundEven (((2 ^ (p - 1) : ℤ) : ℚ)) ≤ roundEven (q / 2 ^ (e - ((p : ℤ) - 1))) := by
      refine roundEven_mono _ _ ?_
      rw [le_div_iff₀ hu, ← hlo]
      exact h1
    rw [roundEven_intCast] at this
    exact_mod_cast this
  · rw [hhi]
    refine mul_le_mul_of_nonneg_right ?_ (le_of_lt hu)
    have : roundEven (q / 2 ^ (e - ((p : ℤ) - 1))) ≤ roundEven (((2 ^ p : ℤ) : ℚ)) := by
      refine roundEven_mono _ _ ?_
      rw [div_le_iff₀ hu, ← hhi]
      exact le_of_lt h2
    rw [roundEven_intCast] at this
    exact_mod_cast this

theorem binade_of_pos (q : ℚ) (h : 0 < q) :
    (2 : ℚ) ^ Int.log 2 q ≤ q ∧ q < (2 : ℚ) ^ (Int.log 2 q + 1) := by
  refine ⟨?_, ?_⟩
  · have := Int.zpow_log_le_self (b := 2) (by norm_num) h
    simpa using this
  · have := Int.lt_zpow_succ_log_self (b := 2) (by norm_num) q
    simpa using this

/-- Rounding to nearest is monotone on the non-negative values. -/
theorem rnd_mono (p : ℕ) (hp : 1 ≤ p) (q1 q2 : ℚ) (h0 : 0 ≤ q1) (h : q1 ≤ q2) :
    rnd p q1 ≤ rnd p q2 := by
  rcases eq_or_lt_of_le h0 with h1 | h1
  · rw [← h1, rnd_zero]
    exact rnd_nonneg p q2 (le_trans h0 h)
  · have h2 : 0 < q2 := lt_of_lt_of_le h1 h
    obtain ⟨a1, a2⟩ := binade_of_pos q1 h1
    obtain ⟨b1, b2⟩ := binade_of_pos q2 h2
    have hlog : Int.log 2 q1 ≤ Int.log 2 q2 := Int.log_mono_right h1 h
    rcases eq_or_lt_of_le hlog with he | he
    · rw [rnd_of_binade p q1 _ (by rw [abs_of_pos h1]; exact a1) (by rw [abs_of_pos h1]; exact a2),
        rnd_of_binade p q2 _ (by rw [abs_of_pos h2]; exact b1) (by rw [abs_of_pos h2]; exact b2),
        he]
      have hu : (0 : ℚ) < 2 ^ (Int.log 2 q2 - ((p : ℤ) - 1)) := zpow_pos (by norm_num) _
      refine mul_le_mul_of_nonneg_right ?_ (le_of_lt hu)
      have := roundEven_mono (q1 / 2 ^ (Int.log 2 q2 - ((p : ℤ) - 1)))
        (q2 / 2 ^ (Int.log 2 q2 - ((p : ℤ) - 1))) (div_le_div_of_nonneg_right h (le_of_lt hu))
      exact_mod_cast this
    · have c1 := (rnd_binade_bounds p hp q1 _ a1 a2).2
      have c2 := (rnd_binade_bounds p hp q2 _ b1 b2).1
      have c3 : (2 : ℚ) ^ (Int.log 2 q1 + 1) ≤ 2 ^ Int.log 2 q2 :=
        zpow_le_zpow_right₀ (by norm_num) (by omega)
      exact le_trans c1 (le_trans c3 c2)

theorem castSimTick_eq_ok (v : ℤ) (n : ℕ) (h : castSimTick v = Except.ok n) :
    0 ≤ v ∧ v < 2 ^ 64 ∧ n = v.toNat := by
  unfold castSimTick at h
  by_cases hv : 0 ≤ v ∧ v < 2 ^ 64
  · rw [if_pos hv] at h
    injection h with h
    exact ⟨hv.1, hv.2, h.symm⟩
  · rw [if_neg hv] at h
    cases h

theorem floorArg_mono (fk : FloorKind) (x y : ℚ) (h0 : 0 ≤ x) (h : x ≤ y) :
    floorArg fk x ≤ floorArg fk y := by
  cases fk with
  | longDouble => exact h
  | double => exact rnd_mono 53 (by norm_num) x y h0 h

/-- The function `RealTicks2Ticks` is monotone on the non-negative values at which it is
defined. -/
theorem RealTicks2Ticks_mono (fk : FloorKind) (x y : ℚ) (m n : ℕ) (h0 : 0 ≤ x) (h : x ≤ y)
    (hx : SimTime.RealTicks2Ticks fk x = Except.ok m)
    (hy : SimTime.RealTicks2Ticks fk y = Except.ok n) : m ≤ n := by
  have hs : ldAdd x (1 / 2) ≤ ldAdd y (1 / 2) :=
    rnd_mono 64 (by norm_num) _ _ (by linarith) (by linarith)
  have hs0 : 0 ≤ ldAdd x (1 / 2) := rnd_nonneg 64 _ (by linarith)
  unfold SimTime.RealTicks2Ticks at hx hy
  by_cases gy : ldAdd y (1 / 2) > kMaxRealNumTicks
  · rw [if_neg (not_not.2 gy), if_neg (not_lt.2 (le_trans h0 h))] at hy
    injection hy with hy
    rw [← hy]
    by_cases gx : ldAdd x (1 / 2) > kMaxRealNumTicks
    · rw [if_neg (not_not.2 gx), if_neg (not_lt.2 h0)] at hx
      injection hx with hx
      rw [← hx]
    · rw [if_pos gx] at hx
      obtain ⟨_, c2, c3⟩ := castSimTick_eq_ok _ _ hx
      unfold kMaxTicks
      omega
  · have gx : ¬ ldAdd x (1 / 2) > kMaxRealNumTicks := fun hc => gy (lt_of_lt_of_le hc hs)
    rw [if_pos gx] at hx
    rw [if_pos gy] at hy
    obtain ⟨_, _, c3⟩ := castSimTick_eq_ok _ _ hx
    obtain ⟨_, _, d3⟩ := castSimTick_eq_ok _ _ hy
    rw [c3, d3]
    exact Int.toNat_le_toNat (Int.floor_mono (floorArg_mono fk _ _ hs0 hs))

/-- The conversion of a user time to an instant is monotone wherever it is defined. -/
theorem ofUserTime_mono (fk : FloorKind) (a b : UserTime) (A B : SimTime) (h : a ≤ b)
    (ha : SimTime.ofUserTime fk a = Except.ok A) (hb : SimTime.ofUserTime fk b = Except.ok B) :
    A.ticks ≤ B.ticks := by
  unfold SimTime.ofUserTime SimTime.SetTime at ha hb
  by_cases a0 : 0 ≤ a
  · have b0 : 0 ≤ b := le_trans a0 h
    by_cases bm : b > kMaxUserTimeUnits
    · rw [if_neg (fun hc => hc.2 bm), if_neg (not_lt.2 b0)] at hb
      cases hb
    · have am : ¬ a > kMaxUserTimeUnits := fun hc => bm (lt_of_lt_of_le hc h)
      rw [if_pos ⟨a0, am⟩] at ha
      rw [if_pos ⟨b0, bm⟩] at hb
      obtain ⟨m, hm, hA⟩ := except_map_eq_ok _ _ _ ha
      obtain ⟨n, hn, hB⟩ := except_map_eq_ok _ _ _ hb
      rw [← hA, ← hB]
      refine RealTicks2Ticks_mono fk _ _ m n ?_ ?_ hm hn
      · exact rnd_nonneg 64 _ (mul_nonneg a0 (by norm_num [kTicksPerUserTimeUnit]))
      · exact rnd_mono 64 (by norm_num) _ _ (mul_nonneg a0 (by norm_num [kTicksPerUserTimeUnit]))
          (mul_le_mul_of_nonneg_right h (by norm_num [kTicksPerUserTimeUnit]))
  · rw [if_neg (fun hc => a0 hc.1), if_pos (not_le.1 a0)] at ha
    injection ha with ha
    rw [← ha]
    exact Nat.zero_le _

/-- With the `long double` overload of `floor`, the conversion is defined on the whole
range `[0, GetMaxUserTime()]`. -/
theorem ofUserTime_longDouble_defined (t : UserTime) (h0 : 0 ≤ t)
    (h1 : t ≤ SimTime.GetMaxUserTime) :
    ∃ T, SimTime.ofUserTime FloorKind.longDouble t = Except.ok T := by
  unfold SimTime.ofUserTime SimTime.SetTime
  rw [if_pos ⟨h0, not_lt.2 h1⟩]
  have hx0 : 0 ≤ ldMul t kTicksPerUserTimeUnit :=
    rnd_nonneg 64 _ (mul_nonneg h0 (by norm_num [kTicksPerUserTimeUnit]))
  have hs0 : 0 ≤ ldAdd (ldMul t kTicksPerUserTimeUnit) (1 / 2) :=
    rnd_nonneg 64 _ (by linarith)
  unfold SimTime.RealTicks2Ticks
  by_cases g : ldAdd (ldMul t kTicksPerUserTimeUnit) (1 / 2) > kMaxRealNumTicks
  · rw [if_neg (not_not.2 g), if_neg (not_lt.2 hx0)]
    exact ⟨_, rfl⟩
  · rw [if_pos g]
    have g' : ldAdd (ldMul t kTicksPerUserTimeUnit) (1 / 2) ≤ 2 ^ 64 - 1 := by
      rw [← kMaxRealNumTicks_eq]; exact not_lt.1 g
    have f0 : 0 ≤ ⌊floorArg FloorKind.longDouble (ldAdd (ldMul t kTicksPerUserTimeUnit) (1 / 2))⌋ :=
      Int.floor_nonneg.2 hs0
    have f1 : ⌊floorArg FloorKind.longDouble (ldAdd (ldMul t kTicksPerUserTimeUnit) (1 / 2))⌋
        < 2 ^ 64 := by
      rw [Int.floor_lt]
      show ldAdd (ldMul t kTicksPerUserTimeUnit) (1 / 2) < _
      push_cast
      linarith
    unfold castSimTick
    rw [if_pos ⟨f0, f1⟩]
    exact ⟨_, rfl⟩

/-- With the `long double` overload of `floor`, the conversion is monotone on the whole
range `[0, GetMaxUserTime()]`. -/
theorem ofUserTime_longDouble_mono (t1 t2 : UserTime) (h0 : 0 ≤ t1) (h : t1 ≤ t2)
    (h2 : t2 ≤ SimTime.GetMaxUserTime) :
    ∃ T1 T2, SimTime.ofUserTime FloorKind.longDouble t1 = Except.ok T1
      ∧ SimTime.ofUserTime FloorKind.longDouble t2 = Except.ok T2
      ∧ T1.AsEarlyAs T2 = true := by
  obtain ⟨T1, e1⟩ := ofUserTime_longDouble_defined t1 h0 (le_trans h h2)
  obtain ⟨T2, e2⟩ := ofUserTime_longDouble_defined t2 (le_trans h0 h) h2
  refine ⟨T1, T2, e1, e2, ?_⟩
  have := ofUserTime_mono FloorKind.longDouble t1 t2 T1 T2 h e1 e2
  simpa [SimTime.AsEarlyAs] using this

theorem ofUserTime_double_near_max :
    SimTime.ofUserTime FloorKind.double 184467440737095506 = Except.error Abort.undefined
      ∧ SimTime.ofUserTime FloorKind.longDouble 184467440737095506
          = Except.ok ⟨18446744073709550600⟩ := by
  have hmul : ldMul 184467440737095506 kTicksPerUserTimeUnit = 18446744073709550600 := by
    unfold ldMul kTicksPerUserTimeUnit
    rw [rnd_eval 64 _ 63 18446744073709550600 (by norm_num [abs_of_nonneg])
      (by norm_num [abs_of_nonneg]) (by norm_num [abs_lt])]
    norm_num
  have hadd : ldAdd 18446744073709550600 (1 / 2) = 18446744073709550600 := by
    unfold ldAdd
    rw [rnd_eval_tie 64 _ 63 18446744073709550600 (by norm_num [abs_of_nonneg])
      (by norm_num [abs_of_nonneg]) (by norm_num)]
    norm_num
  have hguard : ¬ ((18446744073709550600 : ℚ) > kMaxRealNumTicks) := by
    rw [kMaxRealNumTicks_eq]; norm_num
  have hdbl : rnd 53 (18446744073709550600 : ℚ) = 2 ^ 64 := by
    rw [rnd_eval 53 _ 63 (2 ^ 53) (by norm_num [abs_of_nonneg])
      (by norm_num [abs_of_nonneg]) (by norm_num [abs_lt])]
    norm_num
  have hmax : ¬ ((184467440737095506 : ℚ) > kMaxUserTimeUnits) := by
    rw [kMaxUserTimeUnits_eq]; norm_num
  constructor
  · unfold SimTime.ofUserTime SimTime.SetTime
    rw [if_pos ⟨by norm_num, hmax⟩, hmul]
    unfold SimTime.RealTicks2Ticks
    rw [hadd, if_pos hguard]
    simp only [floorArg]
    rw [hdbl, show ⌊(2 : ℚ) ^ 64⌋ = 2 ^ 64 from by
      rw [Int.floor_eq_iff]; constructor <;> norm_num]
    rfl
  · unfold SimTime.ofUserTime SimTime.SetTime
    rw [if_pos ⟨by norm_num, hmax⟩, hmul]
    unfold SimTime.RealTicks2Ticks
    rw [hadd, if_pos hguard]
    simp only [floorArg]
    rw [show ⌊(18446744073709550600 : ℚ)⌋ = 18446744073709550600 from by
      rw [Int.floor_eq_iff]; constructor <;> norm_num]
    rfl

/-- C29 (defect in the code): `1.0` and `184467440737095506.0` both lie in
`[0, GetMaxUserTime()]`, and `SimTime(1.0)` is 100 ticks; but when the unqualified
`floor` of `RealTicks2Ticks` is `floor(double)`, the conversion of
`184467440737095506.0` hands `2 ^ 64` to the cast to `SimTick`, which is undefined (the
tick count should be `18446744073709550600`, as it is with the `long double` overload),
so `SimTime(1.0).AsEarlyAs(SimTime(184467440737095506.0))` is not guaranteed. -/
theorem conversion_undefined_just_below_max :
    (0 : UserTime) ≤ 1 ∧ (1 : UserTime) ≤ 184467440737095506
      ∧ (184467440737095506 : UserTime) ≤ SimTime.GetMaxUserTime
      ∧ SimTime.ofUserTime FloorKind.double 1 = Except.ok ⟨100⟩
      ∧ SimTime.ofUserTime FloorKind.double 184467440737095506 = Except.error Abort.undefined
      ∧ SimTime.ofUserTime FloorKind.longDouble 184467440737095506
          = Except.ok ⟨18446744073709550600⟩ := by
  refine ⟨by norm_num, by norm_num, ?_, ?_, ofUserTime_double_near_max.1,
    ofUserTime_double_near_max.2⟩
  · unfold SimTime.GetMaxUserTime
    rw [kMaxUserTimeUnits_eq]; norm_num
  · simpa using ofUserTime_natCast FloorKind.double 1 (by norm_num)

/-! ## The staging protocol of the text log -/

theorem SetTime_zero (fk : FloorKind) (s : SimTime) : s.SetTime fk 0 = Except.ok ⟨0⟩ := by
  have h := ofUserTime_natCast fk 0 (by norm_num)
  have e : s.SetTime fk 0 = SimTime.ofUserTime fk ((0 : ℕ) : ℚ) := by
    rw [Nat.cast_zero]
    unfold SimTime.ofUserTime SimTime.SetTime
    rfl
  rw [e, h]

theorem Reset_eq (fk : FloorKind) (L : LogTextEvent) :
    L.Reset fk = Except.ok ⟨false, L.log_stream, 0, ⟨0⟩, false, false⟩ := by
  unfold LogTextEvent.Reset
  rw [SetTime_zero]
  rfl

theorem dieWith_ok {α : Type} (stream : LogStream) (x : α) :
    LogTextEvent.dieWith stream (Except.ok x) = Except.ok x := rfl

theorem callsSinceReset_snoc (pre : List LogOp) (op : LogOp) :
    callsSinceReset (pre ++ [op])
      = if op.startsOver then [] else callsSinceReset pre ++ [op] := by
  simp [callsSinceReset, List.foldl_append]

/-- What `WriteARecordOrDie` does, by cases. -/
theorem WriteARecordOrDie_eq (fk : FloorKind) (L : LogTextEvent) :
    L.WriteARecordOrDie fk
      = if L.text_staged && L.time_staged then
          if L.log_stream.usable then
            if 0 < L.log_stream.room then
              Except.ok ⟨false,
                { L.log_stream with
                  lines := L.log_stream.lines
                    ++ [LogLine.record L.event_time.GetUserTime L.event_text]
                  room := L.log_stream.room - 1 },
                0, ⟨0⟩, false, false⟩
            else Except.error (Abort.fatal, { L.log_stream with good := false })
          else Except.error (Abort.fatal, L.log_stream)
        else Except.error (Abort.fatal, L.log_stream) := by
  unfold LogTextEvent.WriteARecordOrDie LogTextEvent.VerifyStagedReady
  cases hx : L.text_staged <;> cases ht : L.time_staged <;> simp
  cases hu : L.log_stream.usable
  · simp
  · have hg : L.log_stream.good = true := by
      unfold LogStream.usable at hu
      simp at hu
      exact hu.2
    by_cases hr : L.log_stream.room = 0
    · simp [LogStream.put, hr]
    · have hr' : 0 < L.log_stream.room := Nat.pos_of_ne_zero hr
      simp [LogStream.put, hr, hr', hg, Reset_eq, dieWith_ok]

theorem apply_staged (fk : FloorKind) (pre : List LogOp) (op : LogOp) (L L1 : LogTextEvent)
    (ht : L.time_staged = (callsSinceReset pre).any LogOp.isStageTime)
    (hx : L.text_staged = (callsSinceReset pre).any LogOp.isStageText)
    (h : L.apply fk op = Except.ok L1) :
    L1.time_staged = (callsSinceReset (pre ++ [op])).any LogOp.isStageTime
      ∧ L1.text_staged = (callsSinceReset (pre ++ [op])).any LogOp.isStageText := by
  rw [callsSinceReset_snoc]
  cases op with
  | stageTime t =>
    simp only [LogTextEvent.apply, Except.ok.injEq] at h
    rw [← h]
    simp [LogOp.startsOver, LogOp.isStageTime, LogOp.isStageText, LogTextEvent.StageEventTime, hx]
  | stageText x =>
    simp only [LogTextEvent.apply, Except.ok.injEq] at h
    rw [← h]
    simp [LogOp.startsOver, LogOp.isStageTime, LogOp.isStageText, LogTextEvent.StageEventText, ht]
  | reset =>
    simp only [LogTextEvent.apply, Reset_eq, dieWith_ok, Except.ok.injEq] at h
    rw [← h]
    simp [LogOp.startsOver]
  | verify =>
    simp only [LogTextEvent.apply, Except.ok.injEq] at h
    rw [← h]
    simp [LogOp.startsOver, LogOp.isStageTime, LogOp.isStageText, LogTextEvent.VerifyStagedReady,
      ht, hx]
  | writeRecord =>
    simp only [LogTextEvent.apply, WriteARecordOrDie_eq] at h
    split_ifs at h
    simp only [Except.ok.injEq] at h
    rw [← h]
    simp [LogOp.startsOver]
  | writeHeader =>
    simp only [LogTextEvent.apply, LogTextEvent.WriteHeaderOrDie] at h
    split_ifs at h
    simp only [Except.ok.injEq] at h
    rw [← h]
    simp [LogOp.startsOver, LogOp.isStageTime, LogOp.isStageText, ht, hx]
  | setDataReady b =>
    simp only [LogTextEvent.apply, Except.ok.injEq] at h
    rw [← h]
    simp [LogOp.startsOver, LogOp.isStageTime, LogOp.isStageText, ht, hx]
  | closeStream =>
    simp only [LogTextEvent.apply, Except.ok.injEq] at h
    rw [← h]
    simp [LogOp.startsOver, LogOp.isStageTime, LogOp.isStageText, ht, hx]

theorem applyAll_staged (fk : FloorKind) :
    ∀ (ops pre : List LogOp) (L L1 : LogTextEvent),
      L.time_staged = (callsSinceReset pre).any LogOp.isStageTime →
      L.text_staged = (callsSinceReset pre).any LogOp.isStageText →
      L.applyAll fk ops = Except.ok L1 →
      L1.time_staged = (callsSinceReset (pre ++ ops)).any LogOp.isStageTime
        ∧ L1.text_staged = (callsSinceReset (pre ++ ops)).any LogOp.isStageText
  | [], pre, L, L1, ht, hx, h => by
    simp only [LogTextEvent.applyAll, Except.ok.injEq] at h
    rw [← h, List.append_nil]
    exact ⟨ht, hx⟩
  | op :: ops, pre, L, L1, ht, hx, h => by
    unfold LogTextEvent.applyAll at h
    cases hop : L.apply fk op with
    | error d => rw [hop] at h; cases h
    | ok L2 =>
      rw [hop] at h
      change LogTextEvent.applyAll fk ops L2 = Except.ok L1 at h
      obtain ⟨a1, a2⟩ := apply_staged fk pre op L L2 ht hx hop
      have := applyAll_staged fk ops (pre ++ [op]) L2 L1 a1 a2 h
      simpa using this

theorem create_staged (fk : FloorKind) (stream : LogStream) (L0 : LogTextEvent)
    (h : LogTextEvent.create fk stream = Except.ok L0) :
    L0 = ⟨false, stream, 0, ⟨0⟩, false, false⟩ ∧ stream.usable = true := by
  unfold LogTextEvent.create at h
  split_ifs at h with hu
  rw [Reset_eq, dieWith_ok] at h
  simp only [Except.ok.injEq] at h
  exact ⟨h.symm, hu⟩

/-- C26: after construction and any sequence of calls that all return (staging calls,
`Reset`, `VerifyStagedReady`, `WriteARecordOrDie`, `WriteHeaderOrDie`, `set_data_ready`,
closing the stream), `VerifyStagedReady()` returns true, and sets `data_ready` to true,
exactly when `StageEventTime` and `StageEventText` have both been called since
construction, the last `Reset` or the last (successful) `WriteARecordOrDie`; otherwise
it returns false and sets `data_ready` to false, and `WriteARecordOrDie` is fatal and
leaves the log stream as it was.  A `WriteARecordOrDie` that returns has found both
fields staged and has added exactly the staged record to the log; and with both fields
staged, a usable stream and room on the device it does return. -/
theorem VerifyStagedReady_iff_both_staged (fk : FloorKind) (stream : LogStream)
    (ops : List LogOp) (L0 L : LogTextEvent)
    (h0 : LogTextEvent.create fk stream = Except.ok L0)
    (h : L0.applyAll fk ops = Except.ok L) :
    L.VerifyStagedReady.1 = bothStagedSince ops
      ∧ L.VerifyStagedReady.2.data_ready = bothStagedSince ops
      ∧ (bothStagedSince ops = false →
          L.WriteARecordOrDie fk = Except.error (Abort.fatal, L.log_stream))
      ∧ (∀ L1, L.WriteARecordOrDie fk = Except.ok L1 →
          bothStagedSince ops = true
            ∧ L1.log_stream.lines
                = L.log_stream.lines ++ [LogLine.record L.event_time.GetUserTime L.event_text])
      ∧ (bothStagedSince ops = true → L.log_stream.usable = true → 0 < L.log_stream.room →
          ∃ L1, L.WriteARecordOrDie fk = Except.ok L1) := by
  obtain ⟨hL0, _⟩ := create_staged fk stream L0 h0
  have hinit : L0.time_staged = (callsSinceReset []).any LogOp.isStageTime
      ∧ L0.text_staged = (callsSinceReset []).any LogOp.isStageText := by
    rw [hL0]; exact ⟨rfl, rfl⟩
  obtain ⟨ht, hx⟩ := applyAll_staged fk ops [] L0 L hinit.1 hinit.2 h
  rw [List.nil_append] at ht hx
  have hboth : bothStagedSince ops = (L.text_staged && L.time_staged) := by
    unfold bothStagedSince
    rw [← ht, ← hx, Bool.and_comm]
  have hver : L.VerifyStagedReady.1 = (L.text_staged && L.time_staged) := by
    unfold LogTextEvent.VerifyStagedReady
    cases L.text_staged <;> cases L.time_staged <;> rfl
  refine ⟨by rw [hver, hboth], ?_, ?_, ?_, ?_⟩
  · show L.VerifyStagedReady.1 = _
    rw [hver, hboth]
  · intro hb
    rw [hboth] at hb
    rw [WriteARecordOrDie_eq, hb]
    rfl
  · intro L1 hw
    rw [WriteARecordOrDie_eq] at hw
    split_ifs at hw with c1 c2 c3
    simp only [Except.ok.injEq] at hw
    rw [hboth, ← hw]
    exact ⟨c1, rfl⟩
  · intro hb hu hr
    rw [hboth] at hb
    rw [WriteARecordOrDie_eq, hb, hu, if_pos rfl, if_pos rfl, if_pos hr]
    exact ⟨_, rfl⟩

/-- Witness for C26: after construction on an empty, usable stream the time `17.30` and
the text `7` are staged. -/
theorem VerifyStagedReady_iff_both_staged_witness :
    LogTextEvent.create FloorKind.longDouble ⟨true, true, [], 5⟩
        = Except.ok ⟨false, ⟨true, true, [], 5⟩, 0, ⟨0⟩, false, false⟩
      ∧ (⟨false, ⟨true, true, [], 5⟩, 0, ⟨0⟩, false, false⟩ : LogTextEvent).applyAll
            FloorKind.longDouble [LogOp.stageTime ⟨1730⟩, LogOp.stageText 7]
          = Except.ok ⟨false, ⟨true, true, [], 5⟩, 7, ⟨1730⟩, true, true⟩
      ∧ (⟨false, ⟨true, true, [], 5⟩, 7, ⟨1730⟩, true, true⟩ : LogTextEvent).VerifyStagedReady.1
          = bothStagedSince [LogOp.stageTime ⟨1730⟩, LogOp.stageText 7]
      ∧ bothStagedSince [LogOp.stageTime ⟨1730⟩, LogOp.stageText 7] = true :=
  have h0 : LogTextEvent.create FloorKind.longDouble ⟨true, true, [], 5⟩
      = Except.ok ⟨false, ⟨true, true, [], 5⟩, 0, ⟨0⟩, false, false⟩ := by
    unfold LogTextEvent.create
    rw [if_pos (by decide), Reset_eq, dieWith_ok]
  have h1 : (⟨false, ⟨true, true, [], 5⟩, 0, ⟨0⟩, false, false⟩ : LogTextEvent).applyAll
        FloorKind.longDouble [LogOp.stageTime ⟨1730⟩, LogOp.stageText 7]
      = Except.ok ⟨false, ⟨true, true, [], 5⟩, 7, ⟨1730⟩, true, true⟩ := rfl
  ⟨h0, h1,
    (VerifyStagedReady_iff_both_staged FloorKind.longDouble ⟨true, true, [], 5⟩
      [LogOp.stageTime ⟨1730⟩, LogOp.stageText 7] _ _ h0 h1).1, by decide⟩

/-! ## A run of the text-event example on a single record -/

/-- The execution of `Run` on a queue of two events with the same time, not beyond the
horizon, that schedule nothing. -/
theorem run_two_events {σ : Type} (act : DispatchAction σ) (e1 e2 : SimBaseEvent)
    (c H : SimTime) (o0 o1 o2 : σ) (n : ℕ) (he1 : e1.event_time = ⟨n⟩)
    (he2 : e2.event_time = ⟨n⟩) (hH : n ≤ H.ticks) (h1 : act o0 ⟨n⟩ e1 = (o1, []))
    (h2 : act o1 ⟨n⟩ e2 = (o2, [])) :
    SimExec.runSteps act 5 (SimExec.runEnter ⟨c, H, [e1, e2]⟩ o0)
      = ⟨⟨⟨n⟩, H, []⟩, o2, none, RunPoint.finished, [(e1, ⟨n⟩), (e2, ⟨n⟩)]⟩ := by
  have hs1 : e1.SameTimeAs ⟨n⟩ = true := (sameTime_iff _ _).2 he1
  have hs2 : e2.SameTimeAs ⟨n⟩ = true := (sameTime_iff _ _).2 he2
  have hle : (⟨n⟩ : SimTime).AsEarlyAs H = true := by simpa [SimTime.AsEarlyAs] using hH
  simp [SimExec.runSteps, SimExec.runStep, SimExec.runEnter, SimTime.SetTimeFrom, he1,
    hs1, hs2, hle, h1, h2, SimExec.scheduleAll]

/-- The loader `StimTextEventLoader` constructs from a file that holds one record. -/
theorem single_record_first_pass (fk : FloorKind) (ends_with_record : Bool) (t : UserTime)
    (p : ℕ) (T : SimTime) (hlo : -(2 : ℚ) ^ 64 ≤ t) (hT : SimTime.ofUserTime fk t = Except.ok T) :
    ∃ p1, StimLoader.LoadQueue fk
          ⟨ldAdd t kReadPeriod, StimFile.opened false [⟨t, p⟩] ends_with_record, t, true, p, false⟩
        = Except.ok p1
      ∧ p1.success = true ∧ p1.posted = [⟨t, p⟩]
      ∧ p1.scheduled = [⟨T, textTag p⟩, ⟨T, timerTag⟩]
      ∧ p1.loader.ready = true ∧ p1.loader.look_ahead = false
      ∧ p1.loader.stim_file.readable = [] ∧ p1.loader.stim_file.header = false
      ∧ p1.loader.cached = ⟨t, p⟩ := by
  have hhi : t ≤ 2 ^ 64 := le_of_ofUserTime_ok fk t T hT
  have hw : t < ldAdd t kReadPeriod := lt_windowEnd t hlo hhi
  obtain ⟨p1, h1⟩ := LoadQueue_total fk
    ⟨ldAdd t kReadPeriod, StimFile.opened false [⟨t, p⟩] ends_with_record, t, true, p, false⟩
    rfl rfl ⟨T, hT⟩ (by
      intro r hr
      have hr' : r ∈ [(⟨t, p⟩ : StimRecord)] := hr
      rw [List.mem_singleton.1 hr']
      exact ⟨T, hT⟩)
  obtain ⟨s1, s2, s3, s4, ⟨evs, s5a, s5b, s5c⟩, s6, s7, s8, s9, s10, s11, s12, s13⟩ :=
    LoadQueue_spec fk _ p1 h1
  have hX : StimLoader.passRecords
      ⟨ldAdd t kReadPeriod, StimFile.opened false [⟨t, p⟩] ends_with_record, t, true, p, false⟩
      = [⟨t, p⟩] := by
    unfold StimLoader.passRecords StimLoader.windowEnd
    show passReads (ldAdd t kReadPeriod) t [⟨t, p⟩] = _
    unfold passReads
    rw [if_pos hw]
    rfl
  have hWE : StimLoader.windowEnd
      ⟨ldAdd t kReadPeriod, StimFile.opened false [⟨t, p⟩] ends_with_record, t, true, p, false⟩
      = ldAdd t kReadPeriod := rfl
  rw [hX] at s2 s3 s4 s8 s9 s11
  rw [hWE] at s3 s8
  have hsucc : p1.success = true := by rw [s4]; rfl
  have hposted : p1.posted = [⟨t, p⟩] := by
    rw [s3]
    simp [hw]
  have hcached : p1.loader.cached = ⟨t, p⟩ := (s11 rfl).1
  have htime : p1.loader.stim_event_time = t := by
    have : p1.loader.stim_event_time = p1.loader.cached.time := rfl
    rw [this, hcached]
  refine ⟨p1, h1, hsucc, hposted, ?_, s7, ?_, ?_, (s11 rfl).2, hcached⟩
  · obtain ⟨T1, hT1, hsch⟩ := s5b (by rw [hsucc]; rfl)
    rw [htime, hT] at hT1
    injection hT1 with hT1
    rw [hposted] at s5a
    obtain ⟨e, hev⟩ : ∃ e, evs = [e] ∧ StimRecord.event fk ⟨t, p⟩ = Except.ok e := by
      cases s5a with
      | cons h htl =>
        cases htl
        exact ⟨_, rfl, h⟩
    rw [event_eq_ok_of_time fk ⟨t, p⟩ T hT] at hev
    obtain ⟨hevs, he⟩ := hev
    injection he with he
    rw [hsch, hevs, ← he, ← hT1]
    rfl
  · rw [s8]
    simp [hw]
  · rw [s9]
    rfl

/-- A `LoadQueue` pass of a loader that has nothing buffered and nothing left to read:
it posts nothing and schedules nothing. -/
theorem idle_pass (fk : FloorKind) (L : StimLoader) (T : SimTime) (hready : L.ready = true)
    (hh : L.stim_file.header = false) (hla : L.look_ahead = false)
    (hr : L.stim_file.readable = []) (hlo : -(2 : ℚ) ^ 64 ≤ L.stim_event_time)
    (hT : SimTime.ofUserTime fk L.stim_event_time = Except.ok T) :
    ∃ p2, L.LoadQueue fk = Except.ok p2 ∧ p2.posted = [] ∧ p2.scheduled = []
      ∧ p2.success = false := by
  have hhi := le_of_ofUserTime_ok fk _ T hT
  have hw : L.stim_event_time < L.windowEnd := lt_windowEnd _ hlo hhi
  obtain ⟨p2, h2⟩ := LoadQueue_total fk L hready hh ⟨T, hT⟩ (by
    intro r hr'
    rw [hr] at hr'
    cases hr')
  obtain ⟨s1, s2, s3, s4, ⟨evs, s5a, s5b, s5c⟩, s6, s7, s8, s9, s10, s11, s12, s13⟩ :=
    LoadQueue_spec fk _ p2 h2
  have hX : L.passRecords = [] := by
    unfold StimLoader.passRecords
    rw [hr]
    rfl
  rw [hX] at s3 s4 s13
  have hsucc : p2.success = false := by rw [s4]; rfl
  have hok : p2.loader.StimFileOK = false := s13 hw (fun r hr' => by cases hr')
  have hposted : p2.posted = [] := by rw [s3, hla]; rfl
  refine ⟨p2, h2, hposted, ?_, hsucc⟩
  rw [s5c (by rw [hsucc, hok]; rfl)]
  rw [hposted] at s5a
  cases s5a
  rfl

theorem textDispatch_text (fk : FloorKind) (w : TextWorld) (now : SimTime) (ev : SimBaseEvent)
    (htag : ev.tag ≠ timerTag) (hu : w.log_manager.log_stream.usable = true)
    (hroom : 0 < w.log_manager.log_stream.room) :
    textDispatch fk (Except.ok w) now ev
      = (Except.ok
          { w with
            log_manager :=
              ⟨false,
                { w.log_manager.log_stream with
                  lines := w.log_manager.log_stream.lines
                    ++ [LogLine.record ev.event_time.GetUserTime (ev.tag - 1)]
                  room := w.log_manager.log_stream.room - 1 },
                0, ⟨0⟩, false, false⟩ }, []) := by
  have hw : SimTextEvent.Dispatch fk ev.event_time (ev.tag - 1) w.log_manager
      = Except.ok ⟨false,
          { w.log_manager.log_stream with
            lines := w.log_manager.log_stream.lines
              ++ [LogLine.record ev.event_time.GetUserTime (ev.tag - 1)]
            room := w.log_manager.log_stream.room - 1 },
          0, ⟨0⟩, false, false⟩ := by
    unfold SimTextEvent.Dispatch
    rw [WriteARecordOrDie_eq]
    have e1 : ((w.log_manager.StageEventTime ev.event_time).StageEventText
        (ev.tag - 1)).log_stream = w.log_manager.log_stream := rfl
    rw [e1, hu, if_pos rfl, if_pos hroom]
    rfl
  have hs : textStep fk w ev
      = Except.ok ({ w with
            log_manager :=
              ⟨false,
                { w.log_manager.log_stream with
                  lines := w.log_manager.log_stream.lines
                    ++ [LogLine.record ev.event_time.GetUserTime (ev.tag - 1)]
                  room := w.log_manager.log_stream.room - 1 },
                0, ⟨0⟩, false, false⟩ }, []) := by
    unfold textStep
    rw [if_neg htag, hw]
    rfl
  unfold textDispatch
  show ((textStep fk w ev).map Prod.fst, ((textStep fk w ev).map Prod.snd).toOption.getD []) = _
  rw [hs]
  rfl

theorem textDispatch_timer (fk : FloorKind) (w : TextWorld) (now : SimTime) (ev : SimBaseEvent)
    (p : LoadPass) (htag : ev.tag = timerTag) (h : w.stim_loader.LoadQueue fk = Except.ok p) :
    textDispatch fk (Except.ok w) now ev
      = (Except.ok { w with stim_loader := p.loader }, p.scheduled) := by
  have hs : textStep fk w ev = Except.ok ({ w with stim_loader := p.loader }, p.scheduled) := by
    unfold textStep LoadStimTimerEvent.Dispatch
    rw [if_pos htag, h]
    rfl
  unfold textDispatch
  show ((textStep fk w ev).map Prod.fst, ((textStep fk w ev).map Prod.snd).toOption.getD []) = _
  rw [hs]
  rfl

theorem textDispatch_dead (fk : FloorKind) (a : Abort) (now : SimTime) (ev : SimBaseEvent) :
    textDispatch fk (Except.error a) now ev = (Except.error a, []) := rfl

/-- The calls `Init` and `Run` of the text-event example on a file that holds the single
record `(t, p)`, when `t` converts to the instant `T`, below `2 ^ 50` ticks and not
beyond the horizon. -/
theorem single_record_core (fk : FloorKind) (header ends_with_record : Bool) (t : UserTime)
    (p : ℕ) (T H : SimTime) (log : LogTextEvent) (hlo : -(2 : ℚ) ^ 64 ≤ t)
    (hT : SimTime.ofUserTime fk t = Except.ok T) (h50 : T.ticks < 2 ^ 50)
    (hH : T.ticks ≤ H.ticks) (hu : log.log_stream.usable = true)
    (hroom : 0 < log.log_stream.room) :
    ∃ L0 s0 L1,
      StimTextEventLoader (StimFile.opened header [⟨t, p⟩] ends_with_record) = Except.ok L0
        ∧ SimExec.Init fk SimExec.fresh H (some L0) = Except.ok (s0, L1)
        ∧ s0.event_queue = [⟨T, textTag p⟩, ⟨T, timerTag⟩]
        ∧ ∃ N, ∀ fuel, N ≤ fuel →
            ∃ r w, SimExec.Run fk (textDispatch fk) fuel s0 (Except.ok ⟨L1, log⟩) = some r
              ∧ r.dispatched = [(⟨T, textTag p⟩, T), (⟨T, timerTag⟩, T)]
              ∧ r.outside = Except.ok w
              ∧ w.log_manager.log_stream.lines
                  = log.log_stream.lines ++ [LogLine.record T.GetUserTime p]
              ∧ r.exec.event_queue = []
              ∧ r.exec.curr_time = T
              ∧ r.return_time = Except.ok T := by
  obtain ⟨p1, h1, hsucc, _, hsch, hready, hla, hread, hhead, hcached⟩ :=
    single_record_first_pass fk ends_with_record t p T hlo hT
  have htime : p1.loader.stim_event_time = t := by
    have : p1.loader.stim_event_time = p1.loader.cached.time := rfl
    rw [this, hcached]
  obtain ⟨p2, h2, _, hsch2, _⟩ := idle_pass fk p1.loader T hready hhead hla hread
    (by rw [htime]; exact hlo) (by rw [htime]; exact hT)
  have hq : (SimExec.scheduleAll { SimExec.fresh with run_until_time := H }
      [⟨T, textTag p⟩, ⟨T, timerTag⟩])
      = ⟨⟨0⟩, H, [⟨T, textTag p⟩, ⟨T, timerTag⟩]⟩ := by
    simp [SimExec.scheduleAll, SimExec.ScheduleEvent, SimExec.EnqueueEventFromEarliest,
      SimExec.insertFromEarliest, SimExec.fresh, SimBaseEvent.EarlierThan, SimTime.EarlierThan,
      SimBaseEvent.AsEarlyAsEvent, SimTime.AsEarlyAs]
  refine ⟨_, ⟨⟨0⟩, H, [⟨T, textTag p⟩, ⟨T, timerTag⟩]⟩, p1.loader,
    StimTextEventLoader_opened header ends_with_record ⟨t, p⟩ [], ?_, rfl, 5, ?_⟩
  · rw [Init_some, h1]
    show Except.map _ (if p1.success = true then Except.ok p1 else Except.error Abort.fatal) = _
    rw [if_pos hsucc]
    show Except.ok (_, _) = _
    rw [hsch, hq]
  · intro fuel hf
    obtain ⟨d, rfl⟩ := Nat.exists_eq_add_of_le hf
    have hT' : T = ⟨T.ticks⟩ := rfl
    have a1 := textDispatch_text fk ⟨p1.loader, log⟩ ⟨T.ticks⟩ ⟨T, textTag p⟩
      (by unfold textTag timerTag; exact Nat.succ_ne_zero p) hu hroom
    have a2 := textDispatch_timer fk
      ⟨p1.loader, ⟨false,
        { log.log_stream with
          lines := log.log_stream.lines ++ [LogLine.record T.GetUserTime (textTag p - 1)]
          room := log.log_stream.room - 1 }, 0, ⟨0⟩, false, false⟩⟩
      ⟨T.ticks⟩ ⟨T, timerTag⟩ p2 rfl h2
    rw [hsch2] at a2
    have h5 := run_two_events (textDispatch fk) ⟨T, textTag p⟩ ⟨T, timerTag⟩ ⟨0⟩ H _ _ _
      T.ticks rfl rfl hH a1 a2
    have hrun : SimExec.runSteps (textDispatch fk) (5 + d)
        (SimExec.runEnter ⟨⟨0⟩, H, [⟨T, textTag p⟩, ⟨T, timerTag⟩]⟩
          (Except.ok ⟨p1.loader, log⟩))
        = SimExec.runSteps (textDispatch fk) 5
            (SimExec.runEnter ⟨⟨0⟩, H, [⟨T, textTag p⟩, ⟨T, timerTag⟩]⟩
              (Except.ok ⟨p1.loader, log⟩)) := by
      rw [runSteps_add, runSteps_finished _ d _ (by rw [h5])]
    unfold SimExec.Run
    simp only [hrun, h5, if_true]
    refine ⟨_, _, rfl, rfl, rfl, ?_, rfl, rfl, ?_⟩
    · show log.log_stream.lines ++ [LogLine.record T.GetUserTime (textTag p - 1)] = _
      rfl
    · show SimExec.returnTime fk ⟨⟨T.ticks⟩, H, []⟩ = _
      unfold SimExec.returnTime
      have hle : (⟨T.ticks⟩ : SimTime).AsEarlyAs H = true := by
        simpa [SimTime.AsEarlyAs] using hH
      simp only [hle, if_true]
      exact ofUserTime_GetUserTime fk T.ticks h50

theorem ofUserTime_neg (fk : FloorKind) (t : UserTime) (h : t < 0) :
    SimTime.ofUserTime fk t = Except.ok ⟨0⟩ := by
  simp [SimTime.ofUserTime, SimTime.SetTime, h, not_le.2 h]

theorem GetUserTime_zero : SimTime.GetUserTime ⟨0⟩ = 0 := by
  unfold SimTime.GetUserTime ldDiv
  rw [ofTick_eq 0 (by norm_num)]
  simp [rnd_zero]

/-- The calls `Init` and `Run` on the single record `(-5, 7)` with the horizon `100.0`. -/
theorem single_record_negative (fk : FloorKind) :
    ∃ L0 s0 L1,
      StimTextEventLoader (StimFile.opened false [⟨-5, 7⟩] false) = Except.ok L0
        ∧ SimExec.Init fk SimExec.fresh ⟨10000⟩ (some L0) = Except.ok (s0, L1)
        ∧ ∃ N, ∀ fuel, N ≤ fuel →
            ∃ r w, SimExec.Run fk (textDispatch fk) fuel s0
                  (Except.ok ⟨L1, ⟨false, ⟨true, true, [], 5⟩, 0, ⟨0⟩, false, false⟩⟩) = some r
              ∧ r.dispatched = [(⟨⟨0⟩, textTag 7⟩, ⟨0⟩), (⟨⟨0⟩, timerTag⟩, ⟨0⟩)]
              ∧ r.outside = Except.ok w
              ∧ w.log_manager.log_stream.lines = [LogLine.record 0 7]
              ∧ r.return_time = Except.ok ⟨0⟩ := by
  obtain ⟨L0, s0, L1, c1, c2, _, N, hN⟩ := single_record_core fk false false (-5) 7 ⟨0⟩ ⟨10000⟩
    ⟨false, ⟨true, true, [], 5⟩, 0, ⟨0⟩, false, false⟩ (by norm_num)
    (ofUserTime_neg fk (-5) (by norm_num)) (by norm_num) (by norm_num) rfl (by norm_num)
  refine ⟨L0, s0, L1, c1, c2, N, fun fuel hf => ?_⟩
  obtain ⟨r, w, r1, r2, r3, r4, _, _, r7⟩ := hN fuel hf
  refine ⟨r, w, r1, r2, r3, ?_, r7⟩
  rw [r4, GetUserTime_zero]
  rfl

/-- C25 fails for a record with a negative time.  With the single record `(-5, 7)` and
the horizon `100.0` (not earlier than `-5`), `Init` and `Run` go through, but the event
is dispatched at the instant zero, the record that is logged has the time `0`, not
`-5`, and `Run` returns the instant zero: `SetTime` replaces a negative time by zero. -/
theorem single_record_at_negative_time_runs_at_zero :
    (-5 : UserTime) ≤ 100 ∧ (0 : UserTime) ≠ -5
      ∧ (∃ L0 s0 L1,
          StimTextEventLoader (StimFile.opened false [⟨-5, 7⟩] false) = Except.ok L0
            ∧ SimExec.Init FloorKind.longDouble SimExec.fresh ⟨10000⟩ (some L0)
                = Except.ok (s0, L1)
            ∧ ∃ N, ∀ fuel, N ≤ fuel →
                ∃ r w, SimExec.Run FloorKind.longDouble (textDispatch FloorKind.longDouble) fuel s0
                      (Except.ok ⟨L1, ⟨false, ⟨true, true, [], 5⟩, 0, ⟨0⟩, false, false⟩⟩)
                    = some r
                  ∧ r.dispatched = [(⟨⟨0⟩, textTag 7⟩, ⟨0⟩), (⟨⟨0⟩, timerTag⟩, ⟨0⟩)]
                  ∧ r.outside = Except.ok w
                  ∧ w.log_manager.log_stream.lines = [LogLine.record 0 7]
                  ∧ r.return_time = Except.ok ⟨0⟩)
      ∧ (∃ L0 s0 L1,
          StimTextEventLoader (StimFile.opened false [⟨-5, 7⟩] false) = Except.ok L0
            ∧ SimExec.Init FloorKind.double SimExec.fresh ⟨10000⟩ (some L0)
                = Except.ok (s0, L1)
            ∧ ∃ N, ∀ fuel, N ≤ fuel →
                ∃ r w, SimExec.Run FloorKind.double (textDispatch FloorKind.double) fuel s0
                      (Except.ok ⟨L1, ⟨false, ⟨true, true, [], 5⟩, 0, ⟨0⟩, false, false⟩⟩)
                    = some r
                  ∧ r.dispatched = [(⟨⟨0⟩, textTag 7⟩, ⟨0⟩), (⟨⟨0⟩, timerTag⟩, ⟨0⟩)]
                  ∧ r.outside = Except.ok w
                  ∧ w.log_manager.log_stream.lines = [LogLine.record 0 7]
                  ∧ r.return_time = Except.ok ⟨0⟩) :=
  ⟨by norm_num, by norm_num, single_record_negative FloorKind.longDouble,
    single_record_negative FloorKind.double⟩

/-- C25, amended: let the stimulus file hold the single record `(t, p)` with
`0 ≤ t ≤ 2 ^ 43` (with or without a header line, with or without a final line end), and
let the log be usable with room for a record.  Then `t` converts to an instant of `n`
ticks within `0.9` of `100 t`, and when the horizon is not earlier than that instant:
the loader is constructed, `Init` succeeds and queues the text event and a stimulus
timer, both at `n` ticks; `Run` returns after dispatching exactly these two events, the
text event first, both at `n` ticks; exactly one record, `(GetUserTime() of n ticks, p)`,
has been added to the log; the queue is empty, `curr_time_` is `n` ticks, and `Run`
returns the instant of `n` ticks. -/
theorem single_record_is_dispatched_and_logged_once (fk : FloorKind)
    (header ends_with_record : Bool) (t : UserTime) (p : ℕ) (H : SimTime) (log : LogTextEvent)
    (h0 : 0 ≤ t) (h1 : t ≤ 2 ^ 43) (hu : log.log_stream.usable = true)
    (hroom : 0 < log.log_stream.room) :
    ∃ n : ℕ, SimTime.ofUserTime fk t = Except.ok ⟨n⟩ ∧ |(n : ℚ) - 100 * t| ≤ 9 / 10
      ∧ (n ≤ H.ticks →
          ∃ L0 s0 L1,
            StimTextEventLoader (StimFile.opened header [⟨t, p⟩] ends_with_record) = Except.ok L0
              ∧ SimExec.Init fk SimExec.fresh H (some L0) = Except.ok (s0, L1)
              ∧ s0.event_queue = [⟨⟨n⟩, textTag p⟩, ⟨⟨n⟩, timerTag⟩]
              ∧ ∃ N, ∀ fuel, N ≤ fuel →
                  ∃ r w, SimExec.Run fk (textDispatch fk) fuel s0 (Except.ok ⟨L1, log⟩) = some r
                    ∧ r.dispatched = [(⟨⟨n⟩, textTag p⟩, ⟨n⟩), (⟨⟨n⟩, timerTag⟩, ⟨n⟩)]
                    ∧ r.outside = Except.ok w
                    ∧ w.log_manager.log_stream.lines
                        = log.log_stream.lines ++ [LogLine.record (SimTime.GetUserTime ⟨n⟩) p]
                    ∧ r.exec.event_queue = []
                    ∧ r.exec.curr_time = ⟨n⟩
                    ∧ r.return_time = Except.ok ⟨n⟩) := by
  obtain ⟨n, hn1, _, hn3⟩ := SetTime_near fk ⟨0⟩ t h0
    (le_trans h1 (by norm_num))
  have hn50 : n < 2 ^ 50 := by
    have hle := (abs_le.1 hn3).2
    have : (n : ℚ) < ((2 ^ 50 : ℕ) : ℚ) := by
      have h1' : t ≤ 8796093022208 := le_trans h1 (by norm_num)
      push_cast
      have : (n : ℚ) ≤ 100 * 8796093022208 + 9 / 10 := by linarith
      exact lt_of_le_of_lt this (by norm_num)
    exact_mod_cast this
  refine ⟨n, hn1, hn3, fun hH => ?_⟩
  exact single_record_core fk header ends_with_record t p ⟨n⟩ H log
    (le_trans (by norm_num) h0) hn1 hn50 hH hu hroom

/-- Witness for C25: the record `(17.3, 1)`, the horizon `100.0`, an empty usable log. -/
theorem single_record_is_dispatched_and_logged_once_witness :
    (0 : UserTime) ≤ 173 / 10 ∧ (173 / 10 : UserTime) ≤ 2 ^ 43
      ∧ ∃ n : ℕ, SimTime.ofUserTime FloorKind.longDouble (173 / 10) = Except.ok ⟨n⟩
          ∧ |(n : ℚ) - 100 * (173 / 10)| ≤ 9 / 10
          ∧ ∃ L0 s0 L1,
              StimTextEventLoader (StimFile.opened true [⟨173 / 10, 1⟩] false) = Except.ok L0
                ∧ SimExec.Init FloorKind.longDouble SimExec.fresh ⟨10000⟩ (some L0)
                    = Except.ok (s0, L1)
                ∧ s0.event_queue = [⟨⟨n⟩, textTag 1⟩, ⟨⟨n⟩, timerTag⟩] := by
  obtain ⟨n, a1, a2, a3⟩ := single_record_is_dispatched_and_logged_once FloorKind.longDouble
    true false (173 / 10) 1 ⟨10000⟩ ⟨false, ⟨true, true, [], 5⟩, 0, ⟨0⟩, false, false⟩
    (by norm_num) (by norm_num) rfl (by norm_num)
  have hn : n ≤ 10000 := by
    have hle := (abs_le.1 a2).2
    have : (n : ℚ) ≤ ((10000 : ℕ) : ℚ) := by
      push_cast
      linarith
    exact_mod_cast this
  obtain ⟨L0, s0, L1, b1, b2, b3, _⟩ := a3 hn
  exact ⟨by norm_num, by norm_num, n, a1, a2, L0, s0, L1, b1, b2, b3⟩

/-! ## Stimulus in time order is never scheduled in the past -/

theorem forall₂_mem_right {α β : Type} (R : α → β → Prop) :
    ∀ (l1 : List α) (l2 : List β), List.Forall₂ R l1 l2 → ∀ b ∈ l2, ∃ a ∈ l1, R a b
  | _, _, List.Forall₂.nil, b, hb => by cases hb
  | _, _, List.Forall₂.cons h htl, b, hb => by
    rcases List.mem_cons.1 hb with h1 | h1
    · exact ⟨_, List.mem_cons_self _ _, by rw [h1]; exact h⟩
    · obtain ⟨a, ha, hab⟩ := forall₂_mem_right R _ _ htl b h1
      exact ⟨a, List.mem_cons_of_mem _ ha, hab⟩

/-- What a `LoadQueue` pass of a loader in time order hands to `ScheduleEvent`: text
events and at most one timer, the timer at the instant of the record the pass leaves in
the cache; and the loader is in time order afterwards. -/
theorem pass_ordered (fk : FloorKind) (L : StimLoader) (p : LoadPass) (hO : L.Ordered)
    (h : L.LoadQueue fk = Except.ok p) :
    p.loader.Ordered
      ∧ L.stim_event_time ≤ p.loader.stim_event_time
      ∧ (∀ r ∈ p.read, L.stim_event_time ≤ r.time)
      ∧ (∀ e ∈ p.scheduled, e.tag = timerTag →
          SimTime.ofUserTime fk p.loader.stim_event_time = Except.ok e.event_time)
      ∧ (p.scheduled.filter isTimer).length ≤ 1
      ∧ (∀ e ∈ p.scheduled, ∃ u, L.stim_event_time ≤ u
          ∧ SimTime.ofUserTime fk u = Except.ok e.event_time) := by
  obtain ⟨hready, hhead, hsorted, hge⟩ := hO
  obtain ⟨s1, s2, s3, s4, ⟨evs, s5a, s5b, s5c⟩, s6, s7, s8, s9, s10, s11, s12, s13⟩ :=
    LoadQueue_spec fk L p h
  obtain ⟨hcached, hhead'⟩ := s11 hhead
  have hpre : L.passRecords <+: L.stim_file.readable := passReads_initial _ _ _
  have hsub : ∀ r ∈ L.passRecords, r ∈ L.stim_file.readable :=
    fun r hr => List.IsPrefix.subset hpre hr
  have hsplit : L.passRecords ++ L.stim_file.readable.drop L.passRecords.length
      = L.stim_file.readable := passReads_append_drop _ _ _
  -- the time left in the cache
  have hc' : p.loader.stim_event_time = ((L.passRecords.getLast?).getD L.cached).time := by
    have : p.loader.stim_event_time = p.loader.cached.time := rfl
    rw [this, hcached]
  have hc_ge : L.stim_event_time ≤ p.loader.stim_event_time := by
    rw [hc']
    cases hl : L.passRecords.getLast? with
    | none => exact le_refl _
    | some x => exact hge x (hsub x (List.mem_of_mem_getLast? (by rw [hl]; exact rfl)))
  have hposted : ∀ r ∈ p.posted, L.stim_event_time ≤ r.time := by
    intro r hr
    rw [s3] at hr
    rcases List.mem_append.1 hr with h1 | h1
    · by_cases hla : L.look_ahead = true
      · rw [if_pos hla] at h1
        rw [List.mem_singleton.1 h1]
        exact le_refl _
      · rw [if_neg hla] at h1
        cases h1
    · exact hge r (hsub r (List.mem_of_mem_filter h1))
  have hevs : ∀ e ∈ evs, e.tag ≠ timerTag ∧ ∃ u, L.stim_event_time ≤ u
      ∧ SimTime.ofUserTime fk u = Except.ok e.event_time := by
    intro e he
    obtain ⟨r, hr, hre⟩ := forall₂_mem_right _ _ _ s5a e he
    obtain ⟨h1, h2⟩ := time_ok_of_event fk r e hre
    refine ⟨?_, r.time, hposted r hr, h1⟩
    rw [h2]
    unfold textTag timerTag
    exact Nat.succ_ne_zero _
  have hevs_filter : evs.filter isTimer = [] := by
    rw [List.filter_eq_nil_iff]
    intro e he
    have := (hevs e he).1
    simpa [isTimer] using this
  refine ⟨⟨s7, hhead', ?_, ?_⟩, hc_ge, ?_, ?_, ?_, ?_⟩
  · rw [s9]
    exact List.Pairwise.sublist (List.drop_sublist _ _) hsorted
  · intro r hr
    rw [s9] at hr
    rw [hc']
    cases hl : L.passRecords.getLast? with
    | none => exact hge r (List.mem_of_mem_drop hr)
    | some x =>
      have hx : x ∈ L.passRecords := List.mem_of_mem_getLast? (by rw [hl]; exact rfl)
      rw [← hsplit] at hsorted
      exact (List.pairwise_append.1 hsorted).2.2 x hx r hr
  · intro r hr
    rw [s2] at hr
    exact hge r (hsub r hr)
  · intro e he htag
    by_cases hb : (p.success || p.loader.StimFileOK) = true
    · obtain ⟨t, ht, hsch⟩ := s5b hb
      rw [hsch] at he
      rcases List.mem_append.1 he with h1 | h1
      · exact absurd htag (hevs e h1).1
      · rw [List.mem_singleton.1 h1]
        exact ht
    · rw [s5c (by simpa using hb)] at he
      exact absurd htag (hevs e he).1
  · by_cases hb : (p.success || p.loader.StimFileOK) = true
    · obtain ⟨t, _, hsch⟩ := s5b hb
      rw [hsch, List.filter_append, hevs_filter]
      simp [List.filter_cons]
      split_ifs <;> simp
    · rw [s5c (by simpa using hb), hevs_filter]
      simp
  · intro e he
    by_cases hb : (p.success || p.loader.StimFileOK) = true
    · obtain ⟨t, ht, hsch⟩ := s5b hb
      rw [hsch] at he
      rcases List.mem_append.1 he with h1 | h1
      · exact (hevs e h1).2
      · rw [List.mem_singleton.1 h1]
        exact ⟨_, hc_ge, ht⟩
    · rw [s5c (by simpa using hb)] at he
      exact (hevs e he).2

/-- One loop step of `Run`: either the queue, the outside state and `head_event` stay
as they are, or the body of the inner loop runs once. -/
theorem runStep_cases {σ : Type} (act : DispatchAction σ) (m : RunState σ) :
    ((SimExec.runStep act m).exec.event_queue = m.exec.event_queue
        ∧ (SimExec.runStep act m).outside = m.outside
        ∧ (SimExec.runStep act m).head_event = m.head_event)
      ∨ ∃ head, m.point = RunPoint.innerTest ∧ m.head_event = some head
          ∧ head.event_time = m.exec.curr_time
          ∧ (SimExec.runStep act m).outside = (act m.outside m.exec.curr_time head).1
          ∧ (SimExec.runStep act m).exec.event_queue
              = (SimExec.scheduleAll m.exec
                  (act m.outside m.exec.curr_time head).2).event_queue.tail
          ∧ (SimExec.runStep act m).head_event
              = (SimExec.scheduleAll m.exec
                  (act m.outside m.exec.curr_time head).2).event_queue.tail.head? := by
  unfold SimExec.runStep
  cases hp : m.point with
  | finished => exact Or.inl ⟨rfl, rfl, rfl⟩
  | outerTest =>
    cases hhe : m.head_event with
    | none => exact Or.inl ⟨rfl, rfl, rfl⟩
    | some head =>
      dsimp only
      split_ifs
      · exact Or.inl ⟨rfl, rfl, rfl⟩
      · exact Or.inl ⟨rfl, rfl, rfl⟩
  | innerTest =>
    cases hhe : m.head_event with
    | none => exact Or.inl ⟨rfl, rfl, rfl⟩
    | some head =>
      dsimp only
      by_cases hst : head.SameTimeAs m.exec.curr_time = true
      · rw [if_pos hst]
        exact Or.inr ⟨head, rfl, rfl, (sameTime_iff _ _).1 hst, rfl, rfl, rfl⟩
      · rw [if_neg hst]
        exact Or.inl ⟨rfl, rfl, rfl⟩

theorem textDispatch_text_any (fk : FloorKind) (w : TextWorld) (now : SimTime)
    (ev : SimBaseEvent) (htag : ev.tag ≠ timerTag) :
    (textDispatch fk (Except.ok w) now ev).2 = []
      ∧ ∀ w1, (textDispatch fk (Except.ok w) now ev).1 = Except.ok w1 →
          w1.stim_loader = w.stim_loader := by
  have hs : textStep fk w ev
      = ((SimTextEvent.Dispatch fk ev.event_time (ev.tag - 1) w.log_manager).mapError
          Prod.fst).map (fun l => ({ w with log_manager := l }, [])) := by
    unfold textStep
    rw [if_neg htag]
  have hd : textDispatch fk (Except.ok w) now ev
      = ((textStep fk w ev).map Prod.fst,
          ((textStep fk w ev).map Prod.snd).toOption.getD []) := rfl
  rw [hd, hs]
  cases SimTextEvent.Dispatch fk ev.event_time (ev.tag - 1) w.log_manager with
  | error d =>
    refine ⟨rfl, fun w1 h1 => ?_⟩
    cases h1
  | ok l =>
    refine ⟨rfl, fun w1 h1 => ?_⟩
    have h2 : (Except.ok { w with log_manager := l } : Except Abort TextWorld) = Except.ok w1 := h1
    injection h2 with h2
    rw [← h2]

theorem textDispatch_timer_dead (fk : FloorKind) (w : TextWorld) (now : SimTime)
    (ev : SimBaseEvent) (a : Abort) (htag : ev.tag = timerTag)
    (h : w.stim_loader.LoadQueue fk = Except.error a) :
    textDispatch fk (Except.ok w) now ev = (Except.error a, []) := by
  have hs : textStep fk w ev = Except.error a := by
    unfold textStep LoadStimTimerEvent.Dispatch
    rw [if_pos htag, h]
    rfl
  have hd : textDispatch fk (Except.ok w) now ev
      = ((textStep fk w ev).map Prod.fst,
          ((textStep fk w ev).map Prod.snd).toOption.getD []) := rfl
  rw [hd, hs]
  rfl

theorem timerPending_of_subperm (fk : FloorKind) (q evs : List SimBaseEvent) (L : StimLoader)
    (hsub : List.Subperm (q.filter isTimer) (evs.filter isTimer))
    (h1 : ∀ e ∈ evs, e.tag = timerTag →
      SimTime.ofUserTime fk L.stim_event_time = Except.ok e.event_time)
    (h2 : (evs.filter isTimer).length ≤ 1) : TimerPending fk q L := by
  refine ⟨fun e he htag => ?_, le_trans hsub.length_le h2⟩
  have he' : e ∈ q.filter isTimer := List.mem_filter.2 ⟨he, by simpa [isTimer] using htag⟩
  have := List.mem_filter.1 (hsub.subset he')
  exact h1 e this.1 htag

theorem queue_of_head (q : List SimBaseEvent) (head : SimBaseEvent)
    (h : some head = q.head?) : ∃ rest, q = head :: rest := by
  cases q with
  | nil => cases h
  | cons x rest =>
    simp only [List.head?_cons, Option.some.injEq] at h
    exact ⟨rest, by rw [h]⟩

theorem runStep_inOrder_text (fk : FloorKind) (m : RunState (Except Abort TextWorld))
    (hI : RunInOrder fk m) : RunInOrder fk (SimExec.runStep (textDispatch fk) m) := by
  obtain ⟨hh, hw⟩ := hI
  rcases runStep_cases (textDispatch fk) m with ⟨c1, c2, c3⟩ | ⟨head, hp, hhe, ht, c1, c2, c3⟩
  · refine ⟨by rw [c3, c1]; exact hh, fun w h => ?_⟩
    rw [c2] at h
    rw [c1]
    exact hw w h
  · refine ⟨by rw [c3, c2], fun w1 h1 => ?_⟩
    rw [c1] at h1
    rw [c2]
    rw [hhe] at hh
    obtain ⟨rest, hq⟩ := queue_of_head _ _ hh
    cases hout : m.outside with
    | error a =>
      rw [hout, textDispatch_dead] at h1
      cases h1
    | ok w =>
      obtain ⟨hO, hT1, hT2⟩ := hw w hout
      rw [hout] at h1
      by_cases htag : head.tag = timerTag
      · cases hl : w.stim_loader.LoadQueue fk with
        | error a =>
          rw [textDispatch_timer_dead fk w _ head a htag hl] at h1
          cases h1
        | ok p =>
          have hd := textDispatch_timer fk w m.exec.curr_time head p htag hl
          rw [hd] at h1
          rw [hd]
          have h2 : (Except.ok { w with stim_loader := p.loader } : Except Abort TextWorld)
              = Except.ok w1 := h1
          injection h2 with h2
          rw [← h2]
          obtain ⟨o1, _, _, o4, o5, _⟩ := pass_ordered fk w.stim_loader p hO hl
          refine ⟨o1, ?_⟩
          show TimerPending fk (SimExec.scheduleAll m.exec p.scheduled).event_queue.tail p.loader
          obtain ⟨B, hB⟩ := scheduleAll_keeps_front m.exec.curr_time [head]
            (fun a ha => by rw [List.mem_singleton.1 ha, ht])
            p.scheduled m.exec rest rfl (by simpa using hq)
          have hsp := scheduleAll_subperm p.scheduled m.exec
          rw [hB, hq] at hsp
          have hf := List.Subperm.filter isTimer hsp
          have hhead : isTimer head = true := by simpa [isTimer] using htag
          have hrest : rest.filter isTimer = [] := by
            rw [hq, List.filter_cons_of_pos hhead] at hT2
            have : (rest.filter isTimer).length = 0 := by
              simp only [List.length_cons] at hT2
              omega
            exact List.length_eq_zero.1 this
          simp only [List.singleton_append, List.cons_append, List.filter_cons_of_pos hhead,
            List.filter_append, hrest, List.nil_append] at hf
          rw [hB]
          exact timerPending_of_subperm fk _ p.scheduled p.loader
            ((List.subperm_cons head).1 hf) o4 o5
      · obtain ⟨d1, d2⟩ := textDispatch_text_any fk w m.exec.curr_time head htag
        rw [d1]
        have hl := d2 w1 h1
        rw [hl]
        refine ⟨hO, ?_⟩
        show TimerPending fk m.exec.event_queue.tail w.stim_loader
        rw [hq]
        refine ⟨fun e he htag' => hT1 e (by rw [hq]; exact List.mem_cons_of_mem _ he) htag', ?_⟩
        refine le_trans ?_ hT2
        rw [hq]
        exact (List.Sublist.filter _ (List.sublist_cons_self head rest)).length_le

theorem runSteps_inOrder_text (fk : FloorKind) :
    ∀ (n : ℕ) (m : RunState (Except Abort TextWorld)), RunInOrder fk m →
      RunInOrder fk (SimExec.runSteps (textDispatch fk) n m)
  | 0, _, h => h
  | n + 1, m, h => by
    rw [runSteps_succ]
    exact runSteps_inOrder_text fk n _ (runStep_inOrder_text fk m h)

theorem StimTextEventLoader_empty (header ends_with_record : Bool) :
    StimTextEventLoader (StimFile.opened header [] ends_with_record)
      = Except.error Abort.fatal := by
  cases header <;> cases ends_with_record <;> rfl

theorem runEnter_outside {σ : Type} (s : SimExec) (out : σ) :
    (SimExec.runEnter s out).outside = out := by
  unfold SimExec.runEnter
  cases s.event_queue <;> rfl

/-- The state in which `Run` starts after `Init` with a loader constructed from a stimulus
file in time order. -/
theorem Init_inOrder (fk : FloorKind) (header ends_with_record : Bool)
    (records : List StimRecord) (hsorted : records.Pairwise (fun a b => a.time ≤ b.time))
    (L0 : StimLoader)
    (hL0 : StimTextEventLoader (StimFile.opened header records ends_with_record) = Except.ok L0)
    (H : SimTime) (s0 : SimExec) (L1 : StimLoader)
    (hInit : SimExec.Init fk SimExec.fresh H (some L0) = Except.ok (s0, L1))
    (log : LogTextEvent) :
    RunInOrder fk (SimExec.runEnter s0 (Except.ok ⟨L1, log⟩))
      ∧ ∃ p1, L0.LoadQueue fk = Except.ok p1 ∧ L1 = p1.loader
          ∧ s0 = SimExec.scheduleAll { SimExec.fresh with run_until_time := H } p1.scheduled := by
  cases records with
  | nil => rw [StimTextEventLoader_empty] at hL0; cases hL0
  | cons r rest =>
    rw [StimTextEventLoader_opened] at hL0
    injection hL0 with hL0
    have hO : L0.Ordered := by
      rw [← hL0]
      refine ⟨rfl, rfl, hsorted, ?_⟩
      intro x hx
      have hx' : x ∈ r :: rest := hx
      rcases List.mem_cons.1 hx' with h1 | h1
      · exact le_of_eq (congrArg StimRecord.time h1.symm)
      · exact (List.pairwise_cons.1 hsorted).1 x h1
    rw [Init_some] at hInit
    cases hl : L0.LoadQueue fk with
    | error a => rw [hl] at hInit; cases hInit
    | ok p1 =>
      rw [hl] at hInit
      have hInit' : Except.map
          (fun p : LoadPass =>
            (SimExec.scheduleAll { SimExec.fresh with run_until_time := H } p.scheduled, p.loader))
          (if p1.success = true then Except.ok p1 else Except.error Abort.fatal)
          = Except.ok (s0, L1) := hInit
      by_cases hs : p1.success = true
      · rw [if_pos hs] at hInit'
        have h2 : (Except.ok
            (SimExec.scheduleAll { SimExec.fresh with run_until_time := H } p1.scheduled,
              p1.loader) : Except Abort (SimExec × StimLoader)) = Except.ok (s0, L1) := hInit'
        injection h2 with h2
        have hs0 : s0 = SimExec.scheduleAll { SimExec.fresh with run_until_time := H }
            p1.scheduled := (congrArg Prod.fst h2).symm
        have hL1 : L1 = p1.loader := (congrArg Prod.snd h2).symm
        obtain ⟨o1, _, _, o4, o5, _⟩ := pass_ordered fk L0 p1 hO hl
        refine ⟨⟨?_, ?_⟩, p1, rfl, hL1, hs0⟩
        · rw [(runEnter_head s0 _).1]
        · intro w hw
          rw [runEnter_outside] at hw
          injection hw with hw
          rw [← hw, (runEnter_head s0 _).2.1]
          show L1.Ordered ∧ TimerPending fk s0.event_queue L1
          rw [hL1]
          refine ⟨o1, ?_⟩
          have hsp := scheduleAll_subperm p1.scheduled
            { SimExec.fresh with run_until_time := H }
          rw [← hs0] at hsp
          have hsp' : List.Subperm s0.event_queue p1.scheduled := by
            simpa [SimExec.fresh] using hsp
          exact timerPending_of_subperm fk _ p1.scheduled p1.loader
            (List.Subperm.filter isTimer hsp') o4 o5
      · rw [if_neg hs] at hInit'
        cases hInit'

/-- C28: let the records of a stimulus file have non-decreasing times, let the loader be
constructed from it, and let `Init` (on a fresh executive) and then `Run` of the
text-event example be executed.  No event of the first pass is earlier than
`curr_time_` (which is zero).  Whenever `Run` dispatches a stimulus timer and the
`LoadQueue` pass it starts returns, `curr_time_` is the instant of the record in the
loader's cache (the buffered look-ahead record, when there is one); no record the pass
reads is earlier than that record or converts to an instant earlier than `curr_time_`;
and no event the pass hands to `ScheduleEvent` (the look-ahead event, the events of the
records read, the next timer) is earlier than `curr_time_`, so none is discarded. -/
theorem stimulus_in_time_order_is_never_in_the_past (fk : FloorKind)
    (header ends_with_record : Bool) (records : List StimRecord)
    (hsorted : records.Pairwise (fun a b => a.time ≤ b.time)) (L0 : StimLoader)
    (hL0 : StimTextEventLoader (StimFile.opened header records ends_with_record) = Except.ok L0)
    (H : SimTime) (s0 : SimExec) (L1 : StimLoader)
    (hInit : SimExec.Init fk SimExec.fresh H (some L0) = Except.ok (s0, L1))
    (log : LogTextEvent) :
    (∃ p1, L0.LoadQueue fk = Except.ok p1 ∧ L1 = p1.loader
        ∧ s0 = SimExec.scheduleAll { SimExec.fresh with run_until_time := H } p1.scheduled
        ∧ ∀ e ∈ p1.scheduled, e.EarlierThan SimExec.fresh.curr_time = false)
      ∧ ∀ (n : ℕ) (head : SimBaseEvent) (w : TextWorld) (p : LoadPass),
          (SimExec.runSteps (textDispatch fk) n
            (SimExec.runEnter s0 (Except.ok ⟨L1, log⟩))).point = RunPoint.innerTest →
          (SimExec.runSteps (textDispatch fk) n
            (SimExec.runEnter s0 (Except.ok ⟨L1, log⟩))).head_event = some head →
          head.SameTimeAs (SimExec.runSteps (textDispatch fk) n
            (SimExec.runEnter s0 (Except.ok ⟨L1, log⟩))).exec.curr_time = true →
          head.tag = timerTag →
          (SimExec.runSteps (textDispatch fk) n
            (SimExec.runEnter s0 (Except.ok ⟨L1, log⟩))).outside = Except.ok w →
          w.stim_loader.LoadQueue fk = Except.ok p →
          SimTime.ofUserTime fk w.stim_loader.stim_event_time
              = Except.ok (SimExec.runSteps (textDispatch fk) n
                  (SimExec.runEnter s0 (Except.ok ⟨L1, log⟩))).exec.curr_time
            ∧ (∀ r ∈ p.read, w.stim_loader.stim_event_time ≤ r.time
                ∧ ∀ t, SimTime.ofUserTime fk r.time = Except.ok t →
                    t.EarlierThan (SimExec.runSteps (textDispatch fk) n
                      (SimExec.runEnter s0 (Except.ok ⟨L1, log⟩))).exec.curr_time = false)
            ∧ ∀ e ∈ p.scheduled,
                e.EarlierThan (SimExec.runSteps (textDispatch fk) n
                  (SimExec.runEnter s0 (Except.ok ⟨L1, log⟩))).exec.curr_time = false := by
  obtain ⟨hI0, p1, hp1, hL1, hs0⟩ :=
    Init_inOrder fk header ends_with_record records hsorted L0 hL0 H s0 L1 hInit log
  refine ⟨⟨p1, hp1, hL1, hs0, fun e _ => ?_⟩, ?_⟩
  · simp [SimBaseEvent.EarlierThan, SimTime.EarlierThan, SimExec.fresh]
  · intro n head w p hpoint hhead hsame htag hout hl
    obtain ⟨hh, hw⟩ := runSteps_inOrder_text fk n _ hI0
    obtain ⟨hO, hT1, _⟩ := hw w hout
    rw [hhead] at hh
    have hmem : head ∈ (SimExec.runSteps (textDispatch fk) n
        (SimExec.runEnter s0 (Except.ok ⟨L1, log⟩))).exec.event_queue :=
      List.mem_of_mem_head? hh.symm
    have hcur := hT1 head hmem htag
    rw [(sameTime_iff _ _).1 hsame] at hcur
    obtain ⟨_, _, o3, _, _, o6⟩ := pass_ordered fk w.stim_loader p hO hl
    refine ⟨hcur, fun r hr => ⟨o3 r hr, fun t ht => ?_⟩, fun e he => ?_⟩
    · have := ofUserTime_mono fk _ _ _ t (o3 r hr) hcur ht
      simpa [SimTime.EarlierThan] using this
    · obtain ⟨u, hu1, hu2⟩ := o6 e he
      have := ofUserTime_mono fk _ _ _ e.event_time hu1 hcur hu2
      simpa [SimBaseEvent.EarlierThan, SimTime.EarlierThan] using this

/-- The execution of `Run` on a queue of two events, the first earlier than the second,
the second not beyond the horizon, up to the point where the second is about to be
dispatched. -/
theorem run_to_second_event {σ : Type} (act : DispatchAction σ) (e1 e2 : SimBaseEvent)
    (c H : SimTime) (o0 o1 : σ) (a b : ℕ) (he1 : e1.event_time = ⟨a⟩)
    (he2 : e2.event_time = ⟨b⟩) (hab : a < b) (hH : b ≤ H.ticks)
    (h1 : act o0 ⟨a⟩ e1 = (o1, [])) :
    SimExec.runSteps act 4 (SimExec.runEnter ⟨c, H, [e1, e2]⟩ o0)
      = ⟨⟨⟨b⟩, H, [e2]⟩, o1, some e2, RunPoint.innerTest, [(e1, ⟨a⟩)]⟩ := by
  have hs1 : e1.SameTimeAs ⟨a⟩ = true := (sameTime_iff _ _).2 he1
  have hs2 : e2.SameTimeAs ⟨a⟩ = false := by
    simp [SimBaseEvent.SameTimeAs, SimTime.SameAs, he2]
    omega
  have hle1 : (⟨a⟩ : SimTime).AsEarlyAs H = true := by
    simp [SimTime.AsEarlyAs]; omega
  have hle2 : (⟨b⟩ : SimTime).AsEarlyAs H = true := by
    simpa [SimTime.AsEarlyAs] using hH
  simp [SimExec.runSteps, SimExec.runStep, SimExec.runEnter, SimTime.SetTimeFrom, he1, he2,
    hs1, hs2, hle1, hle2, h1, SimExec.scheduleAll]

/-- The first pass over the stream of the two records `(5, 1)` and `(2000, 2)`: the
first is posted, the second is buffered, and the timer is scheduled at `2000`. -/
theorem two_record_first_pass (fk : FloorKind) :
    ∃ p1, StimLoader.LoadQueue fk
          ⟨ldAdd 5 kReadPeriod, StimFile.opened false [⟨5, 1⟩, ⟨2000, 2⟩] false, 5, true, 1, false⟩
        = Except.ok p1
      ∧ p1.success = true
      ∧ p1.scheduled = [⟨⟨500⟩, textTag 1⟩, ⟨⟨200000⟩, timerTag⟩]
      ∧ p1.loader.ready = true ∧ p1.loader.look_ahead = true
      ∧ p1.loader.stim_file.readable = [] ∧ p1.loader.stim_file.header = false
      ∧ p1.loader.cached = ⟨2000, 2⟩ := by
  have c5 : SimTime.ofUserTime fk 5 = Except.ok ⟨500⟩ := by
    have := ofUserTime_natCast fk 5 (by norm_num)
    norm_num at this
    exact this
  have c2000 : SimTime.ofUserTime fk 2000 = Except.ok ⟨200000⟩ := by
    have := ofUserTime_natCast fk 2000 (by norm_num)
    norm_num at this
    exact this
  have hw : ldAdd 5 kReadPeriod = 1005 := windowEnd_pace
  obtain ⟨p1, h1⟩ := LoadQueue_total fk
    ⟨ldAdd 5 kReadPeriod, StimFile.opened false [⟨5, 1⟩, ⟨2000, 2⟩] false, 5, true, 1, false⟩
    rfl rfl ⟨_, c5⟩ (by
      intro r hr
      have hr' : r ∈ [(⟨5, 1⟩ : StimRecord), ⟨2000, 2⟩] := hr
      simp only [List.mem_cons, List.mem_singleton, List.not_mem_nil, or_false] at hr'
      rcases hr' with h | h <;> subst h
      · exact ⟨_, c5⟩
      · exact ⟨_, c2000⟩)
  obtain ⟨s1, s2, s3, s4, ⟨evs, s5a, s5b, s5c⟩, s6, s7, s8, s9, s10, s11, s12, s13⟩ :=
    LoadQueue_spec fk _ p1 h1
  have hWE : StimLoader.windowEnd
      ⟨ldAdd 5 kReadPeriod, StimFile.opened false [⟨5, 1⟩, ⟨2000, 2⟩] false, 5, true, 1, false⟩
      = 1005 := hw
  have hX : StimLoader.passRecords
      ⟨ldAdd 5 kReadPeriod, StimFile.opened false [⟨5, 1⟩, ⟨2000, 2⟩] false, 5, true, 1, false⟩
      = [⟨5, 1⟩, ⟨2000, 2⟩] := by
    unfold StimLoader.passRecords
    rw [hWE]
    show passReads 1005 5 [⟨5, 1⟩, ⟨2000, 2⟩] = _
    norm_num [passReads]
  rw [hX] at s2 s3 s4 s8 s9 s11
  rw [hWE] at s3 s8
  have hsucc : p1.success = true := by rw [s4]; rfl
  have hposted : p1.posted = [⟨5, 1⟩] := by
    rw [s3]
    norm_num
  have hcached : p1.loader.cached = ⟨2000, 2⟩ := by rw [(s11 rfl).1]; rfl
  have htime : p1.loader.stim_event_time = 2000 := by
    have : p1.loader.stim_event_time = p1.loader.cached.time := rfl
    rw [this, hcached]
  refine ⟨p1, h1, hsucc, ?_, s7, ?_, ?_, (s11 rfl).2, hcached⟩
  · obtain ⟨T1, hT1, hsch⟩ := s5b (by rw [hsucc]; rfl)
    rw [htime, c2000] at hT1
    injection hT1 with hT1
    rw [hposted] at s5a
    obtain ⟨e, hev⟩ : ∃ e, evs = [e] ∧ StimRecord.event fk ⟨5, 1⟩ = Except.ok e := by
      cases s5a with
      | cons h htl =>
        cases htl
        exact ⟨_, rfl, h⟩
    rw [event_eq_ok_of_time fk ⟨5, 1⟩ ⟨500⟩ c5] at hev
    obtain ⟨hevs, he⟩ := hev
    injection he with he
    rw [hsch, hevs, ← he, ← hT1]
    rfl
  · rw [s8]
    norm_num
  · rw [s9]
    rfl

/-- Witness for C28: the stream of the two records `(5, 1)` and `(2000, 2)`, the horizon
`10000.0`.  After four loop steps `Run` is about to dispatch the stimulus timer, at
the instant of the buffered record. -/
theorem stimulus_in_time_order_is_never_in_the_past_witness :
    ∃ L0 s0 L1 w p,
      StimTextEventLoader (StimFile.opened false [⟨5, 1⟩, ⟨2000, 2⟩] false) = Except.ok L0
        ∧ SimExec.Init FloorKind.longDouble SimExec.fresh ⟨1000000⟩ (some L0) = Except.ok (s0, L1)
        ∧ (SimExec.runSteps (textDispatch FloorKind.longDouble) 4
            (SimExec.runEnter s0
              (Except.ok ⟨L1, ⟨false, ⟨true, true, [], 5⟩, 0, ⟨0⟩, false, false⟩⟩))).head_event
            = some ⟨⟨200000⟩, timerTag⟩
        ∧ (SimExec.runSteps (textDispatch FloorKind.longDouble) 4
            (SimExec.runEnter s0
              (Except.ok ⟨L1, ⟨false, ⟨true, true, [], 5⟩, 0, ⟨0⟩, false, false⟩⟩))).outside
            = Except.ok w
        ∧ w.stim_loader.LoadQueue FloorKind.longDouble = Except.ok p
        ∧ SimTime.ofUserTime FloorKind.longDouble w.stim_loader.stim_event_time
            = Except.ok ⟨200000⟩
        ∧ ∀ e ∈ p.scheduled, e.EarlierThan ⟨200000⟩ = false := by
  obtain ⟨p1, h1, hsucc, hsch, hready, hla, hread, hhead, hcached⟩ :=
    two_record_first_pass FloorKind.longDouble
  have hL0 := StimTextEventLoader_opened false false ⟨5, 1⟩ [⟨2000, 2⟩]
  have hq : (SimExec.scheduleAll { SimExec.fresh with run_until_time := ⟨1000000⟩ }
      [⟨⟨500⟩, textTag 1⟩, ⟨⟨200000⟩, timerTag⟩])
      = ⟨⟨0⟩, ⟨1000000⟩, [⟨⟨500⟩, textTag 1⟩, ⟨⟨200000⟩, timerTag⟩]⟩ := by
    simp [SimExec.scheduleAll, SimExec.ScheduleEvent, SimExec.EnqueueEventFromEarliest,
      SimExec.insertFromEarliest, SimExec.fresh, SimBaseEvent.EarlierThan, SimTime.EarlierThan,
      SimBaseEvent.AsEarlyAsEvent, SimTime.AsEarlyAs]
  have hInit : SimExec.Init FloorKind.longDouble SimExec.fresh ⟨1000000⟩
      (some ⟨ldAdd 5 kReadPeriod, StimFile.opened false [⟨5, 1⟩, ⟨2000, 2⟩] false, 5, true, 1,
        false⟩)
      = Except.ok (⟨⟨0⟩, ⟨1000000⟩, [⟨⟨500⟩, textTag 1⟩, ⟨⟨200000⟩, timerTag⟩]⟩, p1.loader) := by
    rw [Init_some, h1]
    show Except.map _ (if p1.success = true then Except.ok p1 else Except.error Abort.fatal) = _
    rw [if_pos hsucc]
    show Except.ok (_, _) = _
    rw [hsch, hq]
  have htime : p1.loader.stim_event_time = 2000 := by
    have : p1.loader.stim_event_time = p1.loader.cached.time := rfl
    rw [this, hcached]
  have c2000 : SimTime.ofUserTime FloorKind.longDouble 2000 = Except.ok ⟨200000⟩ := by
    have := ofUserTime_natCast FloorKind.longDouble 2000 (by norm_num)
    norm_num at this
    exact this
  obtain ⟨p2, h2⟩ := LoadQueue_total FloorKind.longDouble p1.loader hready hhead
    ⟨_, by rw [htime]; exact c2000⟩ (by
      intro r hr
      rw [hread] at hr
      cases hr)
  have a1 := textDispatch_text FloorKind.longDouble
    ⟨p1.loader, ⟨false, ⟨true, true, [], 5⟩, 0, ⟨0⟩, false, false⟩⟩ ⟨500⟩ ⟨⟨500⟩, textTag 1⟩
    (by unfold textTag timerTag; exact Nat.succ_ne_zero 1) rfl (by norm_num)
  have h4 := run_to_second_event (textDispatch FloorKind.longDouble) ⟨⟨500⟩, textTag 1⟩
    ⟨⟨200000⟩, timerTag⟩ ⟨0⟩ ⟨1000000⟩ _ _ 500 200000 rfl rfl (by norm_num) (by norm_num) a1
  have hthm := (stimulus_in_time_order_is_never_in_the_past FloorKind.longDouble false false
    [⟨5, 1⟩, ⟨2000, 2⟩] (by simp; norm_num) _ hL0 ⟨1000000⟩ _ _ hInit
    ⟨false, ⟨true, true, [], 5⟩, 0, ⟨0⟩, false, false⟩).2 4 ⟨⟨200000⟩, timerTag⟩ _ p2
    (by rw [h4]) (by rw [h4]) (by rw [h4]; rfl) rfl (by rw [h4]) h2
  rw [h4] at hthm
  exact ⟨_, _, _, _, p2, hL0, hInit, by rw [h4], by rw [h4], h2, hthm.1, hthm.2.2⟩

end DESim
